import Mathlib

/-! ## ws_tools: directory listing and traversal

A shallow embedding of `dir_open`, `dir_traverse`, `have_seen` and `sub_home`
from `util.cpp` (the non-Windows branch of the file).

The operating system is an explicit parameter `FS`: one function per system
call the code makes (`getenv`, `lstat`, `access`, `opendir`/`readdir`,
`closedir`, `realpath`).  The answers do not change during a call.  Every
system call, every call of the filter and every message written through
`err_warn`/`err_quit` is recorded, in program order, in the `trace` of the
machine state, so that statements such as "the file system is not consulted"
or "the filter is not called" can be read off a run.

The `for` loop over `files_to_process` is a state machine: `loop_iter` performs
one test of the loop condition plus one execution of the loop body, and the
entry points iterate it `fuel` times.  The loop counter is `unsigned i`; its
increment is taken modulo `2^32`.
-/

namespace ws_tools

/-- The constant `directory_separator` of `util.cpp`. -/
def directory_separator : String := "/"

/-- File type held in `st_mode`, as told apart by the `S_IS*` tests. -/
inductive FileType
  | reg | dir | lnk | chr | blk | fifo | sock | unknown
deriving DecidableEq

/-- Answers of the operating system.
* `HOME`: the string `getenv( "HOME" )` yields (the variable is set);
* `lstat p`: `none` when `lstat` returns a negative value, else the file type;
* `access p`: whether `access( p, R_OK )` is non-negative;
* `opendir p`: `none` when `opendir` returns `NULL`, else the `d_name`s that
  successive `readdir` calls yield, in order;
* `closedir p`: whether `closedir` of the handle opened on `p` returns 0;
* `realpath p`: the contents of `path_buf` after `realpath( p, path_buf )`. -/
structure FS where
  HOME : String
  lstat : String → Option FileType
  access : String → Bool
  opendir : String → Option (List String)
  closedir : String → Bool
  realpath : String → String

/-- One observable action of a run. -/
inductive Event
  | getenv
  | lstat (path : String)
  | access (path : String)
  | realpath (path : String)
  | opendir (path : String)
  | closedir (path : String)
  | filter (path : String)
  | err_warn (message : String)
  | err_quit (message : String)
deriving DecidableEq

/-- Where a call stands: still in the loop, returned `file_list`, or left the
process through `err_quit`. -/
inductive Status
  | running
  | returned
  | exited (message : String)
deriving DecidableEq

/-- The local variables of `dir_open` / `dir_traverse` plus the trace. -/
structure State where
  files_to_process : List String
  i : Nat
  file_list : List String
  files_seen : List String
  processed_dir : Bool
  trace : List Event
  status : Status

/-- State at function entry: every container empty, `i = 0`. -/
def State.init : State :=
  { files_to_process := [], i := 0, file_list := [], files_seen := [],
    processed_dir := false, trace := [], status := Status.running }

/-- The element `files_to_process[i]` the loop body works on. -/
def State.entry (s : State) : String := s.files_to_process.getD s.i ""

/-- Record one action. -/
def State.log (s : State) (e : Event) : State :=
  { s with trace := s.trace ++ [e] }

/-- The call `err_warn( message )`: prints and goes on. -/
def State.warn (s : State) (message : String) : State :=
  s.log (Event.err_warn message)

/-- The call `err_quit( message )`: prints and ends the process. -/
def State.quit (s : State) (message : String) : State :=
  { s.log (Event.err_quit message) with status := Status.exited message }

/-- The default filter `all_true` of `util.hpp`. -/
def all_true (_s : String) : Bool := true

/-- The function `sub_home`: the actions performed, and either the message of
`err_quit` or the returned name. -/
def sub_home (fs : FS) (file_name : String) : List Event × Except String String :=
  if file_name.data.head? = some '~' then
    if file_name.length ≥ 2 ∧ file_name.data[1]? ≠ some '/' then
      ([Event.err_quit "Need to substitute user\x27s location\n"],
        Except.error "Need to substitute user\x27s location\n")
    else
      let home := fs.HOME
      if home ≠ "" then
        ([Event.getenv], Except.ok (home ++ String.mk (file_name.data.drop 1)))
      else
        ([Event.getenv], Except.ok file_name)
  else
    ([], Except.ok file_name)

/-- The value `string::npos` (64-bit `size_type`). -/
def npos : Nat := 2 ^ 64 - 1

/-- Scan for `find_last_of`: `k` is the index of the head of the remaining
characters, `found` the last matching index so far. -/
def find_last_of_from (chars : List Char) : List Char → Nat → Nat → Nat
  | [], _, found => found
  | c :: cs, k, found =>
    find_last_of_from chars cs (k + 1) (if c ∈ chars then k else found)

/-- The member `string::find_last_of( chars )`: index of the last character of
`s` that occurs in `chars`, or `npos`. -/
def find_last_of (s chars : String) : Nat :=
  find_last_of_from chars.data s.data 0 npos

/-- The lines "remove slash from end of directory name" of both entry points:
`slash_pos == dir_name.size() - 1 && slash_pos != 0`, then `erase( slash_pos )`.
The subtraction is that of `size_type`.  The name is never empty here (the
empty name has returned before, and `sub_home` keeps a name non-empty), so
`slash_pos` is at most the size whenever `erase` is called. -/
def strip_separator (dir_name : String) : String :=
  let slash_pos := find_last_of dir_name directory_separator
  if slash_pos = (dir_name.length + 2 ^ 64 - 1) % 2 ^ 64 ∧ slash_pos ≠ 0 then
    String.mk (dir_name.data.take slash_pos)
  else
    dir_name

/-- The lines "create relative path to entry". -/
def path_name (file_name entry_name : String) : String :=
  (if file_name ≠ directory_separator then file_name ++ directory_separator
    else file_name) ++ entry_name

/-- The `while( (dep = readdir( dfp )) != NULL )` loop: `entries` are the names
still to come, the result is `files_to_process` after the loop. -/
def readdir_loop (file_name : String) : List String → List String → List String
  | [], files_to_process => files_to_process
  | entry_name :: rest, files_to_process =>
    if entry_name = "." ∨ entry_name = ".." then
      readdir_loop file_name rest files_to_process
    else
      readdir_loop file_name rest (files_to_process ++ [path_name file_name entry_name])

/-- The member `std::set<string>::insert`: the new set and whether the element
was inserted. -/
def set_insert (files_seen : List String) (x : String) : List String × Bool :=
  if x ∈ files_seen then (files_seen, false) else (x :: files_seen, true)

/-- The function `have_seen`: its return value and the state afterwards. -/
def have_seen (fs : FS) (file_name : String) (s : State) : Bool × State :=
  let path_str := fs.realpath file_name
  let s := s.log (Event.realpath file_name)
  if path_str ∈ s.files_seen then
    (true, s)
  else
    let r := set_insert s.files_seen path_str
    let s := { s with files_seen := r.1 }
    if r.2 = false then (false, s.quit "have_seen::Path was not inserted\n")
    else (false, s)

/-- The tail of the `else if` chain: "skip all other file types". -/
def skip_other (st_mode : FileType) (file_name : String) (s : State) : State :=
  match st_mode with
  | FileType.lnk => s
  | FileType.chr =>
    s.warn ("Ignoring character special file: \x27" ++ file_name ++ "\x27\n")
  | FileType.blk =>
    s.warn ("Ignoring block special file: \x27" ++ file_name ++ "\x27\n")
  | FileType.fifo => s.warn ("Ignoring pipe file: \x27" ++ file_name ++ "\x27\n")
  | FileType.sock => s.warn ("Ignoring socket file: \x27" ++ file_name ++ "\x27\n")
  | _ => s

/-- The block "open directory file ... closedir" shared by both loops; `s` is
the state when `opendir` is about to be called. -/
def open_directory (fs : FS) (dir_name : String) (st_mode : FileType)
    (file_name : String) (s : State) : State :=
  let s := s.log (Event.opendir file_name)
  match fs.opendir file_name with
  | none =>
    if st_mode = FileType.lnk then
      { s with file_list := s.file_list ++ [file_name] }
    else
      s.quit ("Unable to open directory " ++ dir_name ++ "\n")
  | some entries =>
    let s := { s with
      files_to_process := readdir_loop file_name entries s.files_to_process }
    let s := s.log (Event.closedir file_name)
    if fs.closedir file_name = false then
      s.quit ("Unable to close directory " ++ dir_name ++ "\n")
    else
      s

/-- The test of `lstat` and `access` at the head of both loop bodies: `none`
when the entry is skipped, else its `st_mode`; with the state afterwards. -/
def read_status (fs : FS) (file_name : String) (s : State) : Option FileType × State :=
  let s := s.log (Event.lstat file_name)
  match fs.lstat file_name with
  | none => (none, s.warn ("Unable to access file \x27" ++ file_name ++ "\x27\n"))
  | some st_mode =>
    let s := s.log (Event.access file_name)
    if fs.access file_name = false then
      (none, s.warn ("Unable to read file \x27" ++ file_name ++ "\x27\n"))
    else
      (some st_mode, s)

/-- The block "if regular file": the filter is applied and the name kept. -/
def regular_file (filter : String → Bool) (file_name : String) (s : State) : State :=
  let s := s.log (Event.filter file_name)
  if filter file_name then { s with file_list := s.file_list ++ [file_name] } else s

/-- One execution of the loop body of `dir_open` on `files_to_process[i]`. -/
def dir_open_body (fs : FS) (filter : String → Bool) (dir_name : String)
    (s : State) : State :=
  let file_name := s.entry
  match read_status fs file_name s with
  | (none, s) => s
  | (some st_mode, s) =>
    if st_mode = FileType.reg then
      regular_file filter file_name s
    else if st_mode = FileType.dir ∨ st_mode = FileType.lnk then
      if s.processed_dir then
        s
      else
        open_directory fs dir_name st_mode file_name { s with processed_dir := true }
    else
      skip_other st_mode file_name s

/-- One execution of the loop body of `dir_traverse` on `files_to_process[i]`. -/
def dir_traverse_body (fs : FS) (filter : String → Bool) (dir_name : String)
    (s : State) : State :=
  let file_name := s.entry
  match read_status fs file_name s with
  | (none, s) => s
  | (some st_mode, s) =>
    if st_mode = FileType.reg then
      regular_file filter file_name s
    else if st_mode = FileType.dir ∨ st_mode = FileType.lnk then
      match have_seen fs file_name s with
      | (false, s) =>
        if s.status ≠ Status.running then s
        else open_directory fs dir_name st_mode file_name s
      | (true, s) => skip_other st_mode file_name s
    else
      skip_other st_mode file_name s

/-- One turn of a `for( unsigned i = 0; i != files_to_process.size(); i++ )`
loop with the given body: test the condition, run the body, increment `i`. -/
def loop_iter (body : State → State) (s : State) : State :=
  if s.status ≠ Status.running then s
  else if s.i = s.files_to_process.length then { s with status := Status.returned }
  else
    let s := body s
    if s.status ≠ Status.running then s else { s with i := (s.i + 1) % 2 ^ 32 }

/-- The code of both entry points before the loop: the empty name returns at
once, otherwise `sub_home`, the separator is stripped and the directory is
the first file to process. -/
def enter (fs : FS) (directory_name : String) : State × String :=
  if directory_name = "" then
    ({ State.init with status := Status.returned }, "")
  else
    match sub_home fs directory_name with
    | (tr, Except.error message) =>
      ({ State.init with trace := tr, status := Status.exited message }, "")
    | (tr, Except.ok home_name) =>
      let dir_name := strip_separator home_name
      ({ State.init with trace := tr, files_to_process := [dir_name] }, dir_name)

/-- The function `dir_open`, run for at most `fuel` turns of its loop.  The
value returned to the caller is `file_list` of a state with status
`returned`. -/
def dir_open (fs : FS) (directory_name : String) (filter : String → Bool)
    (fuel : Nat) : State :=
  let e := enter fs directory_name
  (loop_iter (dir_open_body fs filter e.2))^[fuel] e.1

/-- The function `dir_traverse`, run for at most `fuel` turns of its loop. -/
def dir_traverse (fs : FS) (directory_name : String) (filter : String → Bool)
    (fuel : Nat) : State :=
  let e := enter fs directory_name
  (loop_iter (dir_traverse_body fs filter e.2))^[fuel] e.1

/-! ## Path names and words

The functions `get_dir_name`, `get_file_name`, `get_ext_name`, `split_string`
and `merge_quoted_words` of `util.cpp`.  Positions and counts are values of
`string::size_type` (64 bits): sums and differences are taken modulo `2^64`
and `npos` is `2^64 - 1`.  The members of `std::string` are modelled on the
list of characters: a position past the end finds nothing, a count past the
end stops at the end. -/

/-- The member `string::size`. -/
def size (s : String) : Nat := s.data.length

/-- The member `string::erase( pos, count )`, for `pos` at most the size. -/
def erase (s : String) (pos count : Nat) : String :=
  String.mk (s.data.take pos ++ s.data.drop (pos + count))

/-- The member `string::substr( pos, count )`, for `pos` at most the size. -/
def substr (s : String) (pos count : Nat) : String :=
  String.mk ((s.data.drop pos).take count)

/-- Scan for `find_first_of`: `k` is the index of the head of the remaining
characters. -/
def find_first_of_from (chars : List Char) : List Char → Nat → Nat
  | [], _ => npos
  | c :: cs, k => if c ∈ chars then k else find_first_of_from chars cs (k + 1)

/-- The member `string::find_first_of( chars, pos )`: index of the first
character of `s` at or after `pos` that occurs in `chars`, or `npos`. -/
def find_first_of (s chars : String) (pos : Nat) : Nat :=
  find_first_of_from chars.data (s.data.drop pos) pos

/-- Scan for `find_first_not_of`. -/
def find_first_not_of_from (chars : List Char) : List Char → Nat → Nat
  | [], _ => npos
  | c :: cs, k => if c ∈ chars then find_first_not_of_from chars cs (k + 1) else k

/-- The member `string::find_first_not_of( chars, pos )`: index of the first
character of `s` at or after `pos` that does not occur in `chars`, or
`npos`. -/
def find_first_not_of (s chars : String) (pos : Nat) : Nat :=
  find_first_not_of_from chars.data (s.data.drop pos) pos

/-- The function `get_dir_name`. -/
def get_dir_name (path : String) : String :=
  let copy := path
  let slash_pos := find_last_of copy directory_separator
  if slash_pos = 0 then
    directory_separator
  else if slash_pos ≠ npos then
    erase copy slash_pos ((size path + 2 ^ 64 - slash_pos) % 2 ^ 64)
  else
    ""

/-- The function `get_file_name`. -/
def get_file_name (path : String) : String :=
  let copy := path
  let slash_pos := find_last_of copy directory_separator
  if slash_pos ≠ npos then
    erase copy 0 ((slash_pos + 1) % 2 ^ 64)
  else
    copy

/-- The function `get_ext_name`. -/
def get_ext_name (path : String) : String :=
  let copy := ""
  let dot_pos := find_last_of path "."
  if dot_pos ≠ npos ∧ dot_pos ≠ (size path + 2 ^ 64 - 1) % 2 ^ 64 then
    substr path ((dot_pos + 1) % 2 ^ 64)
      ((size path + 2 ^ 64 - dot_pos + 2 ^ 64 - 1) % 2 ^ 64)
  else
    copy

/-- The function `get_dir`. -/
def get_dir (path : String) : String := get_dir_name path

/-- The function `get_file`. -/
def get_file (path : String) : String := get_file_name path

/-- The default value of the parameter `separators` of `split_string`. -/
def default_separators : String := " \t\n\r"

/-- The `while(1)` loop of `split_string`, run for at most `fuel` turns:
`field_end` and `words` are the variables at the head of the loop; the result
is `words` when the loop is left, `none` when the turns do not suffice. -/
def split_string_loop (str separators : String) :
    Nat → Nat → List String → Option (List String)
  | 0, _, _ => none
  | fuel + 1, field_end, words =>
    let field_start := find_first_not_of str separators field_end
    if field_start = npos then
      some words
    else
      let field_end := find_first_of str separators ((field_start + 1) % 2 ^ 64)
      let field := substr str field_start ((field_end + 2 ^ 64 - field_start) % 2 ^ 64)
      split_string_loop str separators fuel field_end (words ++ [field])

/-- The function `split_string`, its loop run for at most `fuel` turns. -/
def split_string (str separators : String) (fuel : Nat) : Option (List String) :=
  split_string_loop str separators fuel 0 []

/-- The constant `quote_char` of `merge_quoted_words`, as the set of characters
searched for. -/
def quote_char : String := "\x27"

/-- The loop "iterate through words until finding the first quote", run for at
most `fuel` turns: `idx_begin`, `quote_begin` and `new_words` when the loop is
left.  The counter is `unsigned`. -/
def first_quote_loop (words : List String) :
    Nat → Nat → List String → Option (Nat × Nat × List String)
  | 0, _, _ => none
  | fuel + 1, idx_begin, new_words =>
    if idx_begin = words.length then
      some (idx_begin, npos, new_words)
    else
      let quote_begin := find_first_of (words.getD idx_begin "") quote_char 0
      if quote_begin ≠ npos then
        some (idx_begin, quote_begin, new_words)
      else
        first_quote_loop words fuel ((idx_begin + 1) % 2 ^ 32)
          (new_words ++ [words.getD idx_begin ""])

/-- The loop "search the other words if we did not find it in the first", run
for at most `fuel` turns: `idx_end` and `quote_end` when the loop is left. -/
def matching_quote_loop (words : List String) : Nat → Nat → Nat → Option (Nat × Nat)
  | 0, _, _ => none
  | fuel + 1, idx_end, quote_end =>
    if idx_end = words.length then
      some (idx_end, quote_end)
    else
      let quote_end := find_first_of (words.getD idx_end "") quote_char 0
      if quote_end ≠ npos then
        some (idx_end, quote_end)
      else
        matching_quote_loop words fuel ((idx_end + 1) % 2 ^ 32) quote_end

/-- The loop "copy all remaining words", run for at most `fuel` turns. -/
def copy_loop (words : List String) : Nat → Nat → List String → Option (List String)
  | 0, _, _ => none
  | fuel + 1, i, new_words =>
    if i = words.length then
      some new_words
    else
      copy_loop words fuel ((i + 1) % 2 ^ 32) (new_words ++ [words.getD i ""])

/-- The loop "add complete words with spaces in-between", run for at most
`fuel` turns. -/
def join_loop (words : List String) (idx_end : Nat) : Nat → Nat → String → Option String
  | 0, _, _ => none
  | fuel + 1, i, new_word =>
    if i = idx_end then
      some new_word
    else
      join_loop words idx_end fuel ((i + 1) % 2 ^ 32) (new_word ++ (" " ++ words.getD i ""))

/-- The block "search for matching '": `idx_end` and `quote_end` after it. -/
def matching_quote (words : List String) (gas idx_begin quote_begin : Nat) :
    Option (Nat × Nat) :=
  let idx_end := idx_begin
  let quote_end := find_first_of (words.getD idx_end "") quote_char
    ((quote_begin + 1) % 2 ^ 64)
  if quote_end = npos then
    matching_quote_loop words gas ((idx_begin + 1) % 2 ^ 32) quote_end
  else
    some (idx_end, quote_end)

/-- The block "if we have no end quote to match the beginning quote": the
returned list and the message written through `err_warn`. -/
def missing_quote (words : List String) (gas idx_begin quote_begin : Nat)
    (new_words : List String) : Option (List String × List String) :=
  let words := words.set idx_begin (erase (words.getD idx_begin "") quote_begin 1)
  match copy_loop words gas idx_begin new_words with
  | none => none
  | some new_words => some (new_words, ["Missing matching quote: Erasing first quote\n"])

/-- The block "merge words": the value of `new_word` after it. -/
def merged_word (words : List String) (gas idx_begin quote_begin idx_end quote_end : Nat) :
    Option String :=
  if idx_begin = idx_end then
    some (substr (words.getD idx_begin "") ((quote_begin + 1) % 2 ^ 64)
      ((quote_end + 2 ^ 64 - quote_begin + 2 ^ 64 - 1) % 2 ^ 64))
  else
    let new_word := substr (words.getD idx_begin "") ((quote_begin + 1) % 2 ^ 64)
      ((size (words.getD idx_begin "") + 2 ^ 64 - quote_begin + 2 ^ 64 - 1) % 2 ^ 64)
    match join_loop words idx_end gas ((idx_begin + 1) % 2 ^ 32) new_word with
    | none => none
    | some new_word => some (new_word ++ (" " ++ substr (words.getD idx_end "") 0 quote_end))

/-- The lines "add any part that comes before the quote" and "add the new word
to list if non-empty": `new_words` after them. -/
def add_words (words : List String) (idx_begin quote_begin : Nat) (new_word : String)
    (new_words : List String) : List String :=
  let prefix_word := substr (words.getD idx_begin "") 0 quote_begin
  let new_words := if prefix_word ≠ "" then new_words ++ [prefix_word] else new_words
  if new_word ≠ "" then new_words ++ [new_word] else new_words

/-- The line "copy remainder of word into vector": `words` after it. -/
def keep_remainder (words : List String) (idx_end quote_end : Nat) : List String :=
  words.set idx_end
    (substr (words.getD idx_end "") ((quote_end + 1) % 2 ^ 64)
      ((size (words.getD idx_end "") + 2 ^ 64 - quote_end + 2 ^ 64 - 1) % 2 ^ 64))

/-- The lines "start searching again after the current end position":
`idx_begin` after them, `words` being the vector with the remainder stored. -/
def next_begin (words : List String) (idx_end : Nat) : Nat :=
  let idx_begin := idx_end
  if words.getD idx_end "" = "" then (idx_begin + 1) % 2 ^ 32 else idx_begin

/-- The `while(1)` loop of `merge_quoted_words`, run for at most `fuel` turns,
each inner loop for at most `gas` turns: `words`, `idx_begin` and `new_words`
are the variables at the head of the loop; the result is `new_words` when the
loop is left, with the messages written through `err_warn`. -/
def merge_loop (gas : Nat) :
    Nat → List String → Nat → List String → Option (List String × List String)
  | 0, _, _, _ => none
  | fuel + 1, words, idx_begin, new_words =>
    match first_quote_loop words gas idx_begin new_words with
    | none => none
    | some (idx_begin, quote_begin, new_words) =>
      if quote_begin = npos then
        some (new_words, [])
      else
        match matching_quote words gas idx_begin quote_begin with
        | none => none
        | some (idx_end, quote_end) =>
          if quote_end = npos then
            missing_quote words gas idx_begin quote_begin new_words
          else
            match merged_word words gas idx_begin quote_begin idx_end quote_end with
            | none => none
            | some new_word =>
              let new_words := add_words words idx_begin quote_begin new_word new_words
              let words := keep_remainder words idx_end quote_end
              merge_loop gas fuel words (next_begin words idx_end) new_words

/-- The function `merge_quoted_words`, every loop run for at most `fuel`
turns: the returned list and the messages written through `err_warn`. -/
def merge_quoted_words (words : List String) (fuel : Nat) :
    Option (List String × List String) :=
  if words = [] then some ([], []) else merge_loop fuel fuel words 0 []

/-! ## Comments, case, digits and the configuration reader

The functions `remove_comments`, `to_lower` and `count_digits` of `util.cpp`,
`is_power_of_2` of `util.hpp` and `Config_File::read` of `Config_File.cpp`.
Values of type `unsigned` and `int` are 32 bits wide: `unsigned` arithmetic is
taken modulo `2^32`, and `int` values are the integers from `-2^31` to
`2^31 - 1`, a conversion or a result outside that range being reduced modulo
`2^32` into it. -/

/-- The function `remove_comments`: the contents of `s` afterwards.  The call
`s.erase( comment_pos )` erases up to the end (`count = npos`). -/
def remove_comments (s comment_char : String) : String :=
  let comment_pos := find_first_of s comment_char 0
  if comment_pos ≠ npos then erase s comment_pos npos else s

/-- The loop of `to_lower`, run for at most `fuel` turns. -/
def to_lower_loop : Nat → Nat → String → Option String
  | 0, _, _ => none
  | fuel + 1, i, str =>
    if i = size str then
      some str
    else
      let c := str.data.getD i ' '
      let str := if c.isUpper then String.mk (str.data.set i c.toLower) else str
      to_lower_loop fuel ((i + 1) % 2 ^ 32) str

/-- The function `to_lower`: the contents of `str` afterwards. -/
def to_lower (str : String) (fuel : Nat) : Option String :=
  to_lower_loop fuel 0 str

/-- The value of type `int` that a 32-bit pattern stands for: the conversion
`static_cast<int>` of an `unsigned`, and the result of `int` arithmetic. -/
def to_int (z : Int) : Int := (z + 2 ^ 31) % 2 ^ 32 - 2 ^ 31

/-- The loop of `count_digits`, run for at most `fuel` turns: `i` and
`number_of_digits` are the variables at the test of the condition. -/
def count_digits_loop (num : Nat) : Nat → Int → Int → Option Int
  | 0, _, _ => none
  | fuel + 1, i, number_of_digits =>
    if i < to_int num then
      count_digits_loop num fuel (to_int (i * 10 + 9)) (to_int (number_of_digits + 1))
    else
      some number_of_digits

/-- The function `count_digits`, its loop run for at most `fuel` turns. -/
def count_digits (num : Nat) (fuel : Nat) : Option Int :=
  count_digits_loop num fuel 9 1

/-- The function `is_power_of_2`; `val - 1` is `unsigned` arithmetic. -/
def is_power_of_2 (val : Nat) : Bool :=
  decide (val > 0) && (val &&& ((val + 2 ^ 32 - 1) % 2 ^ 32) == 0)

/-- The character that ends a line for `getline`. -/
def newline : Char := Char.ofNat 10

/-- The lines that successive calls `getline( config_file, line )` yield until
one fails: the characters up to each newline, and what follows the last
newline if that is not empty.  `line` holds the characters read so far. -/
def getlines : List Char → List Char → List String
  | [], line => if line = [] then [] else [String.mk line]
  | c :: rest, line =>
    if c = newline then String.mk line :: getlines rest []
    else getlines rest (line ++ [c])

/-- What `Config_File::read` does that can be observed: the calls of the two
virtual functions and the messages. -/
inductive Call
  | set_variables (var : String) (words : List String) (line_num : Nat)
  | verify_parameters
  | err_warn (message : String)
  | err_quit (message : String)
deriving DecidableEq

/-- The loop `while( getline( config_file, line ) )` of `Config_File::read`
over the lines still to come; `line_count` is `unsigned`; `calls` are the
calls made so far.  The loops of `split_string` and `merge_quoted_words` are
run for at most `fuel` turns. -/
def read_loop (fuel : Nat) : List String → Nat → List Call → Option (List Call)
  | [], _, calls => some calls
  | line :: rest, line_count, calls =>
    let line_count := (line_count + 1) % 2 ^ 32
    let line := remove_comments line "#"
    match split_string line default_separators fuel with
    | none => none
    | some words =>
      if words = [] then
        read_loop fuel rest line_count calls
      else
        let var := words.getD 0 ""
        let words := words.drop 1
        match merge_quoted_words words fuel with
        | none => none
        | some (words, warnings) =>
          read_loop fuel rest line_count
            (calls ++ warnings.map Call.err_warn
              ++ [Call.set_variables var words line_count])

/-- The function `Config_File::read`: `ifstream` gives the contents of the
file of a name, `none` when the file does not open. -/
def Config_File.read (fs : FS) (ifstream : String → Option String) (file_name : String)
    (fuel : Nat) : Option (List Call) :=
  match sub_home fs file_name with
  | (_, Except.error message) => some [Call.err_quit message]
  | (_, Except.ok config_name) =>
    match ifstream config_name with
    | none => some [Call.err_quit ("Unable to open file \x27" ++ file_name ++ "\x27\n")]
    | some content =>
      match read_loop fuel (getlines content.data []) 0 [] with
      | none => none
      | some calls => some (calls ++ [Call.verify_parameters])

/-! ## Vocabulary for statements about runs -/

/-- The paths handed to `opendir`, in program order. -/
def opened : List Event → List String
  | [] => []
  | Event.opendir p :: es => p :: opened es
  | _ :: es => opened es

/-- The paths handed to the filter, in program order. -/
def filtered : List Event → List String
  | [] => []
  | Event.filter p :: es => p :: filtered es
  | _ :: es => filtered es

/-- The paths one listing adds to `files_to_process`. -/
def children (file_name : String) (entries : List String) : List String :=
  (entries.filter (fun n => n ≠ "." ∧ n ≠ "..")).map (path_name file_name)

/-- The loop body of `dir_traverse` (`walk = true`) or of `dir_open`. -/
def body (walk : Bool) (fs : FS) (filter : String → Bool) (dir_name : String) :
    State → State :=
  if walk then dir_traverse_body fs filter dir_name else dir_open_body fs filter dir_name

/-- The test that keeps a directory or link from being opened: the canonical
path is in `files_seen` (`dir_traverse`), `processed_dir` is set (`dir_open`). -/
def blocked (walk : Bool) (fs : FS) (s : State) : Prop :=
  if walk then fs.realpath s.entry ∈ s.files_seen else s.processed_dir = true

/-- The bookkeeping done when a directory or link is selected for opening. -/
def mark (walk : Bool) (fs : FS) (s : State) : State :=
  if walk then { s with files_seen := fs.realpath s.entry :: s.files_seen }
  else { s with processed_dir := true }

/-- One turn of the loop, case by case.  `tr` is the trace afterwards. -/
inductive Iter (walk : Bool) (fs : FS) (filter : String → Bool) (s : State) :
    State → Prop
  | frozen (h : s.status ≠ Status.running) : Iter walk fs filter s s
  | ret (h : s.status = Status.running) (hi : s.i = s.files_to_process.length) :
    Iter walk fs filter s { s with status := Status.returned }
  | skip (tr : List Event) (h : s.status = Status.running)
    (hi : s.i ≠ s.files_to_process.length) (ht : opened tr = opened s.trace)
    (hc : fs.lstat s.entry = none ∨ fs.access s.entry = false ∨
      (fs.lstat s.entry ≠ some FileType.reg ∧
        ((fs.lstat s.entry = some FileType.dir ∨ fs.lstat s.entry = some FileType.lnk) →
          blocked walk fs s))) :
    Iter walk fs filter s { s with trace := tr, i := (s.i + 1) % 2 ^ 32 }
  | regular (tr : List Event) (h : s.status = Status.running)
    (hi : s.i ≠ s.files_to_process.length) (ht : opened tr = opened s.trace)
    (h1 : fs.lstat s.entry = some FileType.reg) (h2 : fs.access s.entry = true) :
    Iter walk fs filter s { s with
      trace := tr, i := (s.i + 1) % 2 ^ 32,
      file_list := if filter s.entry then s.file_list ++ [s.entry] else s.file_list }
  | fallback (tr : List Event) (h : s.status = Status.running)
    (hi : s.i ≠ s.files_to_process.length) (ht : opened tr = opened s.trace ++ [s.entry])
    (h1 : fs.lstat s.entry = some FileType.lnk) (h2 : fs.access s.entry = true)
    (h3 : ¬ blocked walk fs s) (h4 : fs.opendir s.entry = none) :
    Iter walk fs filter s { mark walk fs s with
      trace := tr, i := (s.i + 1) % 2 ^ 32, file_list := s.file_list ++ [s.entry] }
  | open_failed (tr : List Event) (m : String) (h : s.status = Status.running)
    (hi : s.i ≠ s.files_to_process.length) (ht : opened tr = opened s.trace ++ [s.entry])
    (h1 : fs.lstat s.entry = some FileType.dir) (h2 : fs.access s.entry = true)
    (h3 : ¬ blocked walk fs s) (h4 : fs.opendir s.entry = none) :
    Iter walk fs filter s { mark walk fs s with trace := tr, status := Status.exited m }
  | expanded (tr : List Event) (l : List String) (h : s.status = Status.running)
    (hi : s.i ≠ s.files_to_process.length) (ht : opened tr = opened s.trace ++ [s.entry])
    (h1 : fs.lstat s.entry = some FileType.dir ∨ fs.lstat s.entry = some FileType.lnk)
    (h2 : fs.access s.entry = true) (h3 : ¬ blocked walk fs s)
    (h4 : fs.opendir s.entry = some l) (h5 : fs.closedir s.entry = true) :
    Iter walk fs filter s { mark walk fs s with
      trace := tr, i := (s.i + 1) % 2 ^ 32,
      files_to_process := s.files_to_process ++ children s.entry l }
  | close_failed (tr : List Event) (m : String) (l : List String)
    (h : s.status = Status.running)
    (hi : s.i ≠ s.files_to_process.length) (ht : opened tr = opened s.trace ++ [s.entry])
    (h1 : fs.lstat s.entry = some FileType.dir ∨ fs.lstat s.entry = some FileType.lnk)
    (h2 : fs.access s.entry = true) (h3 : ¬ blocked walk fs s)
    (h4 : fs.opendir s.entry = some l) (h5 : fs.closedir s.entry = false) :
    Iter walk fs filter s { mark walk fs s with
      trace := tr, files_to_process := s.files_to_process ++ children s.entry l,
      status := Status.exited m }

/-- The run of `dir_traverse` (`walk = true`) or `dir_open`. -/
def run (walk : Bool) (fs : FS) (directory_name : String) (filter : String → Bool)
    (fuel : Nat) : State :=
  (loop_iter (body walk fs filter (enter fs directory_name).2))^[fuel]
    (enter fs directory_name).1

/-- A path the loop may put on `file_list`: it passed the permission check,
and either is a regular file the filter accepts or is a symbolic link on
which `opendir` fails. -/
def Listed (fs : FS) (filter : String → Bool) (p : String) : Prop :=
  fs.access p = true ∧
    ((fs.lstat p = some FileType.reg ∧ filter p = true)
      ∨ (fs.lstat p = some FileType.lnk ∧ fs.opendir p = none))

/-- A symbolic link whose target does not exist: `lstat`, which does not
follow links, reports a link; `access` and `opendir`, which do follow links,
fail on it. -/
def Dangling (fs : FS) (p : String) : Prop :=
  fs.lstat p = some FileType.lnk ∧ fs.access p = false ∧ fs.opendir p = none

/-- A file system whose listings are made of directory entry names: within one
listing the names are pairwise different, and every name is non-empty and
free of the separator. -/
def ProperListings (fs : FS) : Prop :=
  ∀ p l, fs.opendir p = some l → l.Nodup ∧ ∀ n ∈ l, n ≠ "" ∧ '/' ∉ n.data

/-- Whether the regular-file branch puts `p` on `file_list`: `p` passes both
checks, is a regular file, and the filter accepts it. -/
def kept (fs : FS) (filter : String → Bool) (p : String) : Bool :=
  decide (fs.lstat p = some FileType.reg) && fs.access p && filter p

/-- The list obtained by joining every listed name other than `.` and `..` to
`r` with a separator in between, whatever `r` is, and keeping the readable
regular files the filter accepts. -/
def joined_listing (fs : FS) (filter : String → Bool) (r : String) (l : List String) :
    List String :=
  ((l.filter (fun n => n ≠ "." ∧ n ≠ "..")).map
    (fun n => r ++ directory_separator ++ n)).filter (kept fs filter)

/-- The state with `file_list` thinned to the paths `keep` accepts. -/
def State.thin (keep : String → Bool) (s : State) : State :=
  { s with file_list := s.file_list.filter keep }

/-- Whether a path of the unfiltered result stays when the filter is applied:
a regular file stays if the filter accepts it, any other path stays. -/
def survives (fs : FS) (filter : String → Bool) (p : String) : Bool :=
  decide (fs.lstat p ≠ some FileType.reg) || filter p

/-- The entries below `r`: `r` itself and, for every directory among them that
opens, the child paths of the names it lists other than `.` and `..`. -/
inductive Below (fs : FS) (r : String) : String → Prop
  | root : Below fs r r
  | child (q n : String) (l : List String) (hq : Below fs r q)
    (hdir : fs.lstat q = some FileType.dir) (hopen : fs.opendir q = some l)
    (hn : n ∈ l) (h1 : n ≠ ".") (h2 : n ≠ "..") : Below fs r (path_name q n)

/-- A finite tree below the directory `r` without symbolic links: every entry
below `r` answers the status query with a type other than link and passes the
permission check, every directory below `r` opens and closes, listings are
made of pairwise different entry names, different directories have different
canonical paths, and the entries below `r` are among the paths `all`, which
are few enough for the 32-bit loop counter. -/
structure PlainTree (fs : FS) (r : String) (all : List String) : Prop where
  root_dir : fs.lstat r = some FileType.dir
  no_link : ∀ p, Below fs r p → ∃ t, fs.lstat p = some t ∧ t ≠ FileType.lnk
  readable : ∀ p, Below fs r p → fs.access p = true
  opens : ∀ p, Below fs r p → fs.lstat p = some FileType.dir →
    ∃ l, fs.opendir p = some l ∧ fs.closedir p = true
  proper : ProperListings fs
  canonical : ∀ p q, Below fs r p → Below fs r q → fs.lstat p = some FileType.dir →
    fs.lstat q = some FileType.dir → fs.realpath p = fs.realpath q → p = q
  finite : ∀ p, Below fs r p → p ∈ all
  fits : all.length < 2 ^ 32

/-- The path `p` is one the loops hand to `opendir` with success: a directory
or a symbolic link that passes the permission check and opens, with the
listing `l`. -/
def Opens (fs : FS) (p : String) (l : List String) : Prop :=
  (fs.lstat p = some FileType.dir ∨ fs.lstat p = some FileType.lnk)
    ∧ fs.access p = true ∧ fs.opendir p = some l

/-- The paths a traversal from `r` can come to: `r` itself and, for every path
among them that opens, the child paths of the names it lists other than `.`
and `..`. -/
inductive Reach (fs : FS) (r : String) : String → Prop
  | root : Reach fs r r
  | child (q n : String) (l : List String) (hq : Reach fs r q) (hopen : Opens fs q l)
    (hn : n ∈ l) (h1 : n ≠ ".") (h2 : n ≠ "..") : Reach fs r (path_name q n)

/-- A file system that is finite as far as a traversal from `r` can tell: the
paths it can come to that open have their canonical paths among `C`, the
directory of canonical path `c` lists at most `size c` names other than `.`
and `..`, and the root together with all these names, which are all the files
a traversal can have to process, are within the range of the 32-bit loop
counter. -/
structure FiniteWalk (fs : FS) (r : String) (C : List String) (size : String → Nat) :
    Prop where
  canonical : ∀ p l, Reach fs r p → Opens fs p l → fs.realpath p ∈ C
  listing : ∀ p l, Reach fs r p → Opens fs p l →
    (children p l).length ≤ size (fs.realpath p)
  fits : 1 + (C.map size).sum < 2 ^ 32

/-- The paths handed to `realpath`, in program order. -/
def resolved : List Event → List String
  | [] => []
  | Event.realpath p :: es => p :: resolved es
  | _ :: es => resolved es

/-- What the code has found out about a path before it performs an action on
it: `access` follows a successful `lstat`; the filter is called on readable
regular files; `realpath`, `opendir` and `closedir` are called on readable
directories and links, `closedir` after a successful `opendir`. -/
def Checked (fs : FS) : Event → Prop
  | Event.access p => fs.lstat p ≠ none
  | Event.filter p => fs.lstat p = some FileType.reg ∧ fs.access p = true
  | Event.realpath p =>
    (fs.lstat p = some FileType.dir ∨ fs.lstat p = some FileType.lnk) ∧ fs.access p = true
  | Event.opendir p =>
    (fs.lstat p = some FileType.dir ∨ fs.lstat p = some FileType.lnk) ∧ fs.access p = true
  | Event.closedir p =>
    (fs.lstat p = some FileType.dir ∨ fs.lstat p = some FileType.lnk) ∧ fs.access p = true
      ∧ fs.opendir p ≠ none
  | _ => True

/-- The words by which a warning names the kind of a special file. -/
def special_file_text : FileType → String
  | FileType.chr => "character special"
  | FileType.blk => "block special"
  | FileType.fifo => "pipe"
  | FileType.sock => "socket"
  | _ => ""

/-- A path that is `/` or begins with `/` followed by another character. -/
def SingleSlash (x : String) : Prop :=
  x = "/" ∨ ∃ c cs, x.data = '/' :: c :: cs ∧ c ≠ '/'

/-- The loop is about to work on an entry that ends the call: the entry passed
both checks and is selected for opening, and either it is a directory that
does not open, or it is a directory or a link that opens and does not
close. -/
def Fatal (walk : Bool) (fs : FS) (s : State) : Prop :=
  s.status = Status.running ∧ s.i < s.files_to_process.length
    ∧ fs.access s.entry = true ∧ ¬ blocked walk fs s
    ∧ ((fs.lstat s.entry = some FileType.dir ∧ fs.opendir s.entry = none)
      ∨ ((fs.lstat s.entry = some FileType.dir ∨ fs.lstat s.entry = some FileType.lnk)
          ∧ fs.opendir s.entry ≠ none ∧ fs.closedir s.entry = false))

/-- The number of separators in a path; the root directory `/`, which is
joined to a name without a further separator, counts none. -/
def separators (p : String) : Nat :=
  if p = "/" then 0 else p.data.count '/'

/-- The depth of `p` below `r`: the number of separators `p` has more than
`r`, which for a path made by joining separator-free names to `r` is the
number of names joined. -/
def depth (r p : String) : Nat := separators p - separators r

/-- The state with the actions `pre` put in front of the trace. -/
def State.after (pre : List Event) (s : State) : State :=
  { s with trace := pre ++ s.trace }

/-- Whether the characters begin with one outside `seps`. -/
def starts_word (seps : List Char) : List Char → Bool
  | d :: _ => decide (d ∉ seps)
  | [] => false

/-- The words with `c` put in front of the first one. -/
def push_char (c : Char) : List (List Char) → List (List Char)
  | w :: ws => (c :: w) :: ws
  | [] => [[c]]

/-- The maximal non-empty runs of characters outside `seps`, in the order in
which they appear. -/
def maximal_words (seps : List Char) : List Char → List (List Char)
  | [] => []
  | c :: cs =>
    if c ∈ seps then maximal_words seps cs
    else if starts_word seps cs then push_char c (maximal_words seps cs)
    else [c] :: maximal_words seps cs

/-- The string made of the gaps and the words in turn: a gap, a word, a gap,
and so on, ending with the gap that follows the last word. -/
def interleave : List (List Char) → List (List Char) → List Char
  | g :: gs, w :: ws => g ++ w ++ interleave gs ws
  | g :: _, [] => g
  | [], _ => []

/-- The single-quote character. -/
def the_quote : Char := Char.ofNat 39

/-- Words without a single quote. -/
def Unquoted (words : List String) : Prop := ∀ w ∈ words, the_quote ∉ w.data

/-- Words that fit in memory: fewer than `2^32` of them, the range of the
`unsigned` counters, each of a size below `npos`. -/
def Sized (words : List String) : Prop :=
  words.length < 2 ^ 32 ∧ ∀ w ∈ words, w.length + 1 < 2 ^ 64

/-- The number of characters of the words plus the number of words. -/
def weight (words : List String) : Nat := (words.map (fun w => w.length + 1)).sum

/-- The word `new_word` after the loop "add complete words with spaces
in-between" over `mids`. -/
def spaced (new_word : String) (mids : List String) : String :=
  mids.foldl (fun acc w => acc ++ (" " ++ w)) new_word

/-- The number of single quotes in the words. -/
def quotes (words : List String) : Nat :=
  (words.map (fun w => w.data.count the_quote)).sum

/-- The calls one line of a configuration file gives rise to: the words of the
line are the maximal runs of non-separators in what precedes the first `#`; a
line without a word gives no call; otherwise `set_variables` is called with
the first word, `merge_quoted_words` of the remaining words (any warning of it
written before), and the number of the line. -/
def line_calls (fuel : Nat) (line : String) (line_num : Nat) : List Call :=
  match (maximal_words default_separators.data
      (line.data.takeWhile (fun c => c ≠ '#'))).map String.mk with
  | [] => []
  | var :: rest =>
    match merge_quoted_words rest fuel with
    | some (words, warnings) =>
      warnings.map Call.err_warn ++ [Call.set_variables var words line_num]
    | none => []

/-- The calls a configuration file gives rise to: those of its lines in file
order, the lines numbered from 1, and then one call of
`verify_parameters`. -/
def expected_calls (fuel : Nat) (lines : List String) : List Call :=
  ((lines.enumFrom 1).map (fun p => line_calls fuel p.2 p.1)).flatten
    ++ [Call.verify_parameters]

/-! ## Example file systems -/

/-- The filter that rejects every name. -/
def reject_all (_s : String) : Bool := false

/-- A directory `d` that holds the regular file `t` and `l`, a symbolic link
to `t`. -/
def fs_link_to_file : FS :=
  { HOME := "/home/u"
    lstat := fun p =>
      if p = "d" then some FileType.dir
      else if p = "d/l" then some FileType.lnk
      else if p = "d/t" then some FileType.reg
      else none
    access := fun p => decide (p = "d" ∨ p = "d/l" ∨ p = "d/t")
    opendir := fun p => if p = "d" then some [".", "..", "l", "t"] else none
    closedir := fun _ => true
    realpath := fun p => if p = "d/l" then "/cwd/d/t" else "/cwd/" ++ p }

/-- The state of a loop that is about to work on the link `d/l` alone. -/
def at_link : State := { State.init with files_to_process := ["d/l"] }

/-- A directory `d` that holds one entry, `gone`, a symbolic link whose target
does not exist. -/
def fs_dangling : FS :=
  { HOME := "/home/u"
    lstat := fun p =>
      if p = "d" then some FileType.dir
      else if p = "d/gone" then some FileType.lnk
      else none
    access := fun p => decide (p = "d")
    opendir := fun p => if p = "d" then some [".", "..", "gone"] else none
    closedir := fun _ => true
    realpath := fun p => "/cwd/" ++ p }

/-- The state of `dir_traverse` on `d` of `fs_dangling` when the loop reaches
the link. -/
def at_dangling : State :=
  { State.init with files_to_process := ["d", "d/gone"], i := 1, files_seen := ["/cwd/d"] }

/-- The root directory `/` holding one regular file `a`; as on a POSIX system
the name `//a` denotes the same file as `/a`. -/
def fs_root : FS :=
  { HOME := "/home/u"
    lstat := fun p =>
      if p = "/" then some FileType.dir
      else if p = "/a" ∨ p = "//a" then some FileType.reg
      else none
    access := fun p => decide (p = "/" ∨ p = "/a" ∨ p = "//a")
    opendir := fun p => if p = "/" then some [".", "..", "a"] else none
    closedir := fun _ => true
    realpath := fun p => if p = "//a" then "/a" else p }

/-- Whether the characters are a sequence of components `/loop`. -/
def loops : List Char → Bool
  | [] => true
  | '/' :: 'l' :: 'o' :: 'o' :: 'p' :: rest => loops rest
  | _ => false

/-- Whether a path is `d`, `d/loop`, `d/loop/loop`, ... -/
def names_d (cs : List Char) : Bool :=
  match cs with
  | 'd' :: rest => loops rest
  | _ => false

/-- Whether a path is one of those followed by `/a`. -/
def names_a (cs : List Char) : Bool :=
  match cs.reverse with
  | 'a' :: '/' :: rest => names_d rest.reverse
  | _ => false

/-- A directory `d` that holds the regular file `a` and `loop`, a symbolic
link to `d` itself: every path `d/loop/.../loop` names the directory `d`,
whose canonical path is `/cwd/d`. -/
def fs_cycle : FS :=
  { HOME := "/home/u"
    lstat := fun p =>
      if p = "d" then some FileType.dir
      else if names_d p.data then some FileType.lnk
      else if names_a p.data then some FileType.reg
      else none
    access := fun p => names_d p.data || names_a p.data
    opendir := fun p => if names_d p.data then some [".", "..", "a", "loop"] else none
    closedir := fun _ => true
    realpath := fun p =>
      if names_d p.data then "/cwd/d"
      else if names_a p.data then "/cwd/d/a"
      else p }

/-- The directory `t` holding the regular file `a` and the directory `s`, which
holds the regular file `b`; no links. -/
def fs_tree : FS :=
  { HOME := "/home/u"
    lstat := fun p =>
      if p = "t" ∨ p = "t/s" then some FileType.dir
      else if p = "t/a" ∨ p = "t/s/b" then some FileType.reg
      else none
    access := fun p => decide (p = "t" ∨ p = "t/a" ∨ p = "t/s" ∨ p = "t/s/b")
    opendir := fun p =>
      if p = "t" then some [".", "..", "a", "s"]
      else if p = "t/s" then some [".", "..", "b"]
      else none
    closedir := fun _ => true
    realpath := fun p => "/cwd/" ++ p }

/-- The paths of `fs_tree`. -/
def tree_paths : List String := ["t", "t/a", "t/s", "t/s/b"]

/-- A directory `d` that holds a character device `c`, a block device `b`, a
fifo `p` and a socket `s`. -/
def fs_special : FS :=
  { HOME := "/home/u"
    lstat := fun p =>
      if p = "d" then some FileType.dir
      else if p = "d/c" then some FileType.chr
      else if p = "d/b" then some FileType.blk
      else if p = "d/p" then some FileType.fifo
      else if p = "d/s" then some FileType.sock
      else none
    access := fun p => decide (p = "d" ∨ p = "d/c" ∨ p = "d/b" ∨ p = "d/p" ∨ p = "d/s")
    opendir := fun p => if p = "d" then some [".", "..", "c", "b", "p", "s"] else none
    closedir := fun _ => true
    realpath := fun p => "/cwd/" ++ p }

/-- The state of a loop on `d` of `fs_special` when it reaches the character
device. -/
def at_special : State :=
  { State.init with
    files_to_process := ["d", "d/c", "d/b", "d/p", "d/s"], i := 1,
    files_seen := ["/cwd/d"], processed_dir := true }

/-- A directory `d` that holds two symbolic links `l1` and `l2` to the same
regular file, whose canonical path is `/cwd/t`. -/
def fs_two_links : FS :=
  { HOME := "/home/u"
    lstat := fun p =>
      if p = "d" then some FileType.dir
      else if p = "d/l1" ∨ p = "d/l2" then some FileType.lnk
      else none
    access := fun p => decide (p = "d" ∨ p = "d/l1" ∨ p = "d/l2")
    opendir := fun p => if p = "d" then some [".", "..", "l1", "l2"] else none
    closedir := fun _ => true
    realpath := fun p => if p = "d/l1" ∨ p = "d/l2" then "/cwd/t" else "/cwd/" ++ p }

/-- A loop about to work on `d/l2` with nothing in `files_seen`. -/
def second_link_fresh : State := { State.init with files_to_process := ["d/l2"] }

/-- The same state, except that `files_seen` holds the canonical path of the
target. -/
def second_link_seen : State :=
  { State.init with files_to_process := ["d/l2"], files_seen := ["/cwd/t"] }

/-- A directory `d` that holds a directory `x` which passes the checks but
does not open. -/
def fs_locked : FS :=
  { HOME := "/home/u"
    lstat := fun p => if p = "d" ∨ p = "d/x" then some FileType.dir else none
    access := fun p => decide (p = "d" ∨ p = "d/x")
    opendir := fun p => if p = "d" then some [".", "..", "x"] else none
    closedir := fun _ => true
    realpath := fun p => "/cwd/" ++ p }

/-- The directory `t` listing first the directory `s`, which holds the regular
file `b`, and then the regular file `a`. -/
def fs_levels : FS :=
  { HOME := "/home/u"
    lstat := fun p =>
      if p = "t" ∨ p = "t/s" then some FileType.dir
      else if p = "t/a" ∨ p = "t/s/b" then some FileType.reg
      else none
    access := fun p => decide (p = "t" ∨ p = "t/a" ∨ p = "t/s" ∨ p = "t/s/b")
    opendir := fun p =>
      if p = "t" then some [".", "..", "s", "a"]
      else if p = "t/s" then some [".", "..", "b"]
      else none
    closedir := fun _ => true
    realpath := fun p => "/cwd/" ++ p }

/-- The home directory `/home/u` with the directory `sub`, which holds the
regular file `f`. -/
def fs_home : FS :=
  { HOME := "/home/u"
    lstat := fun p =>
      if p = "/home/u/sub" then some FileType.dir
      else if p = "/home/u/sub/f" then some FileType.reg
      else none
    access := fun p => decide (p = "/home/u/sub" ∨ p = "/home/u/sub/f")
    opendir := fun p => if p = "/home/u/sub" then some [".", "..", "f"] else none
    closedir := fun _ => true
    realpath := fun p => p }

/-- The file system `fs_link_to_file` with an empty home directory. -/
def fs_no_home : FS := { fs_link_to_file with HOME := "" }

/-- A configuration file `cfg` with a comment line, an empty line, a quoted
phrase and a comment at the end of a line. -/
def cfg_people : String → Option String :=
  fun p =>
    if p = "cfg" then
      some "# people\nName Wade Spires # x\n\nnote \x27fond of tea\x27\n"
    else none


/-- The names `s0`, `s1`, ... of `n` entries. -/
def wide_names (n : Nat) : List String :=
  (List.range n).map (fun k => "s" ++ toString k)

/-- A directory `w` that holds `n` directories `s0`, `s1`, ..., all of them
without entries. -/
def fs_wide (n : Nat) : FS :=
  { HOME := "/home/u"
    lstat := fun p =>
      if p = "w" ∨ p ∈ (wide_names n).map (path_name "w") then some FileType.dir else none
    access := fun _ => true
    opendir := fun p =>
      if p = "w" then some ("." :: ".." :: wide_names n)
      else if p ∈ (wide_names n).map (path_name "w") then some [".", ".."]
      else none
    closedir := fun _ => true
    realpath := fun p => "/cwd/" ++ p }

/-- The canonical paths of the directories of `fs_wide n`. -/
def wide_canonical (n : Nat) : List String :=
  "/cwd/w" :: (wide_names n).map (fun x => "/cwd/" ++ path_name "w" x)

/-- The number of entries of the directories of `fs_wide n`, by canonical
path. -/
def wide_size (n : Nat) (c : String) : Nat :=
  if c = "/cwd/w" then n else 0
/-! ## General facts about the loop -/

theorem opened_append (a b : List Event) : opened (a ++ b) = opened a ++ opened b := by
  induction a with
  | nil => rfl
  | cons e es ih => cases e <;> simp [opened, ih]

theorem filtered_append (a b : List Event) :
    filtered (a ++ b) = filtered a ++ filtered b := by
  induction a with
  | nil => rfl
  | cons e es ih => cases e <;> simp [filtered, ih]

theorem readdir_loop_eq (file_name : String) (entries files_to_process : List String) :
    readdir_loop file_name entries files_to_process
      = files_to_process ++ children file_name entries := by
  induction entries generalizing files_to_process with
  | nil => simp [readdir_loop, children]
  | cons n rest ih =>
    by_cases h : n = "." ∨ n = ".."
    · have h2 : ¬ (¬ n = "." ∧ ¬ n = "..") := by tauto
      simp only [readdir_loop, if_pos h, ih]
      simp [children, List.filter_cons, h2]
    · have h2 : ¬ n = "." ∧ ¬ n = ".." := by tauto
      simp only [readdir_loop, if_neg h, ih]
      simp [children, List.filter_cons, h2]

theorem loop_iter_of_not_running (body : State → State) (s : State)
    (h : s.status ≠ Status.running) : loop_iter body s = s := by
  simp [loop_iter, h]

theorem iterate_of_not_running (body : State → State) (s : State)
    (h : s.status ≠ Status.running) (fuel : Nat) : (loop_iter body)^[fuel] s = s :=
  Function.iterate_fixed (loop_iter_of_not_running body s h) fuel

theorem enter_empty (fs : FS) :
    enter fs "" = ({ State.init with status := Status.returned }, "") := by
  simp [enter]

theorem iter_traverse (fs : FS) (f : String → Bool) (d : String) (s : State) :
    Iter true fs f s (loop_iter (dir_traverse_body fs f d) s) := by
  by_cases h : s.status = Status.running
  swap
  · rw [loop_iter_of_not_running _ _ h]; exact Iter.frozen h
  by_cases hi : s.i = s.files_to_process.length
  · have e : loop_iter (dir_traverse_body fs f d) s = { s with status := Status.returned } := by
      simp [loop_iter, h, hi]
    rw [e]; exact Iter.ret h hi
  cases h1 : fs.lstat s.entry with
  | none =>
    have e2 : loop_iter (dir_traverse_body fs f d) s = { s with
        trace := s.trace ++ [Event.lstat s.entry,
          Event.err_warn ("Unable to access file \x27" ++ s.entry ++ "\x27\n")],
        i := (s.i + 1) % 2 ^ 32 } := by
      simp [loop_iter, h, hi, dir_traverse_body, read_status, h1, State.log, State.warn]
    rw [e2]
    exact Iter.skip _ h hi (by simp [opened_append, opened]) (Or.inl h1)
  | some t =>
    by_cases h2 : fs.access s.entry = false
    · have e2 : loop_iter (dir_traverse_body fs f d) s = { s with
          trace := s.trace ++ [Event.lstat s.entry, Event.access s.entry,
            Event.err_warn ("Unable to read file \x27" ++ s.entry ++ "\x27\n")],
          i := (s.i + 1) % 2 ^ 32 } := by
        simp [loop_iter, h, hi, dir_traverse_body, read_status, h1, h2, State.log, State.warn]
      rw [e2]
      exact Iter.skip _ h hi (by simp [opened_append, opened]) (Or.inr (Or.inl h2))
    · have h2' : fs.access s.entry = true := by simpa using h2
      by_cases hr : t = FileType.reg
      · subst hr
        have e2 : loop_iter (dir_traverse_body fs f d) s = { s with
            trace := s.trace ++ [Event.lstat s.entry, Event.access s.entry,
              Event.filter s.entry],
            i := (s.i + 1) % 2 ^ 32,
            file_list := if f s.entry then s.file_list ++ [s.entry] else s.file_list } := by
          by_cases hf : f s.entry <;>
          simp [loop_iter, h, hi, dir_traverse_body, read_status, h1, h2', State.log,
            regular_file, hf]
        rw [e2]
        exact Iter.regular _ h hi (by simp [opened_append, opened]) h1 h2'
      · by_cases hd : t = FileType.dir ∨ t = FileType.lnk
        · by_cases hb : fs.realpath s.entry ∈ s.files_seen
          · have e2 : loop_iter (dir_traverse_body fs f d) s = { s with
                trace := s.trace ++ [Event.lstat s.entry, Event.access s.entry,
                  Event.realpath s.entry],
                i := (s.i + 1) % 2 ^ 32 } := by
              rcases hd with hd | hd <;> subst hd <;>
              simp [loop_iter, h, hi, dir_traverse_body, read_status, h1, h2', State.log,
                have_seen, hb, skip_other]
            rw [e2]
            refine Iter.skip _ h hi (by simp [opened_append, opened]) (Or.inr (Or.inr ⟨?_, ?_⟩))
            · rw [h1]; simpa using hr
            · intro _; simpa [blocked] using hb
          · cases h4 : fs.opendir s.entry with
            | none =>
              rcases hd with hd | hd <;> subst hd
              · have e2 : loop_iter (dir_traverse_body fs f d) s = { mark true fs s with
                    trace := s.trace ++ [Event.lstat s.entry, Event.access s.entry,
                      Event.realpath s.entry, Event.opendir s.entry,
                      Event.err_quit ("Unable to open directory " ++ d ++ "\n")],
                    status := Status.exited ("Unable to open directory " ++ d ++ "\n") } := by
                  simp [loop_iter, h, hi, dir_traverse_body, read_status, h1, h2', State.log,
                    have_seen, hb, set_insert, open_directory, h4, State.quit, mark]
                rw [e2]
                exact Iter.open_failed _ _ h hi (by simp [opened_append, opened]) h1 h2'
                  (by simpa [blocked] using hb) h4
              · have e2 : loop_iter (dir_traverse_body fs f d) s = { mark true fs s with
                    trace := s.trace ++ [Event.lstat s.entry, Event.access s.entry,
                      Event.realpath s.entry, Event.opendir s.entry],
                    i := (s.i + 1) % 2 ^ 32,
                    file_list := s.file_list ++ [s.entry] } := by
                  simp [loop_iter, h, hi, dir_traverse_body, read_status, h1, h2', State.log,
                    have_seen, hb, set_insert, open_directory, h4, mark]
                rw [e2]
                exact Iter.fallback _ h hi (by simp [opened_append, opened]) h1 h2'
                  (by simpa [blocked] using hb) h4
            | some l =>
              have hd' : fs.lstat s.entry = some FileType.dir
                  ∨ fs.lstat s.entry = some FileType.lnk := by
                rcases hd with hd | hd <;> subst hd <;> simp [h1]
              by_cases h5 : fs.closedir s.entry = false
              · have e2 : loop_iter (dir_traverse_body fs f d) s = { mark true fs s with
                    trace := s.trace ++ [Event.lstat s.entry, Event.access s.entry,
                      Event.realpath s.entry, Event.opendir s.entry, Event.closedir s.entry,
                      Event.err_quit ("Unable to close directory " ++ d ++ "\n")],
                    files_to_process := s.files_to_process ++ children s.entry l,
                    status := Status.exited ("Unable to close directory " ++ d ++ "\n") } := by
                  rcases hd with hd | hd <;> subst hd <;>
                  simp [loop_iter, h, hi, dir_traverse_body, read_status, h1, h2', State.log,
                    have_seen, hb, set_insert, open_directory, h4, h5, State.quit, mark,
                    readdir_loop_eq]
                rw [e2]
                exact Iter.close_failed _ _ l h hi (by simp [opened_append, opened]) hd' h2'
                  (by simpa [blocked] using hb) h4 h5
              · have h5' : fs.closedir s.entry = true := by simpa using h5
                have e2 : loop_iter (dir_traverse_body fs f d) s = { mark true fs s with
                    trace := s.trace ++ [Event.lstat s.entry, Event.access s.entry,
                      Event.realpath s.entry, Event.opendir s.entry, Event.closedir s.entry],
                    i := (s.i + 1) % 2 ^ 32,
                    files_to_process := s.files_to_process ++ children s.entry l } := by
                  rcases hd with hd | hd <;> subst hd <;>
                  simp [loop_iter, h, hi, dir_traverse_body, read_status, h1, h2', State.log,
                    have_seen, hb, set_insert, open_directory, h4, h5', mark,
                    readdir_loop_eq]
                rw [e2]
                exact Iter.expanded _ l h hi (by simp [opened_append, opened]) hd' h2'
                  (by simpa [blocked] using hb) h4 h5'
        · have e2 : ∃ ev, loop_iter (dir_traverse_body fs f d) s = { s with
                trace := s.trace ++ ([Event.lstat s.entry, Event.access s.entry] ++ ev),
                i := (s.i + 1) % 2 ^ 32 } ∧ opened ev = [] := by
            cases t <;> simp at hr hd
            · exact ⟨[Event.err_warn _], by
                simp [loop_iter, h, hi, dir_traverse_body, read_status, h1, h2', State.log,
                  skip_other, State.warn]; rfl, rfl⟩
            · exact ⟨[Event.err_warn _], by
                simp [loop_iter, h, hi, dir_traverse_body, read_status, h1, h2', State.log,
                  skip_other, State.warn]; rfl, rfl⟩
            · exact ⟨[Event.err_warn _], by
                simp [loop_iter, h, hi, dir_traverse_body, read_status, h1, h2', State.log,
                  skip_other, State.warn]; rfl, rfl⟩
            · exact ⟨[Event.err_warn _], by
                simp [loop_iter, h, hi, dir_traverse_body, read_status, h1, h2', State.log,
                  skip_other, State.warn]; rfl, rfl⟩
            · exact ⟨[], by
                simp [loop_iter, h, hi, dir_traverse_body, read_status, h1, h2', State.log,
                  skip_other], rfl⟩
          obtain ⟨ev, e2, hev⟩ := e2
          rw [e2]
          refine Iter.skip _ h hi (by simp [opened_append, opened, hev])
            (Or.inr (Or.inr ⟨?_, ?_⟩))
          · rw [h1]; simpa using hr
          · rw [h1]; intro hh; simp at hh; exact absurd hh hd

theorem iter_open (fs : FS) (f : String → Bool) (d : String) (s : State) :
    Iter false fs f s (loop_iter (dir_open_body fs f d) s) := by
  by_cases h : s.status = Status.running
  swap
  · rw [loop_iter_of_not_running _ _ h]; exact Iter.frozen h
  by_cases hi : s.i = s.files_to_process.length
  · have e : loop_iter (dir_open_body fs f d) s = { s with status := Status.returned } := by
      simp [loop_iter, h, hi]
    rw [e]; exact Iter.ret h hi
  cases h1 : fs.lstat s.entry with
  | none =>
    have e2 : loop_iter (dir_open_body fs f d) s = { s with
        trace := s.trace ++ [Event.lstat s.entry,
          Event.err_warn ("Unable to access file \x27" ++ s.entry ++ "\x27\n")],
        i := (s.i + 1) % 2 ^ 32 } := by
      simp [loop_iter, h, hi, dir_open_body, read_status, h1, State.log, State.warn]
    rw [e2]
    exact Iter.skip _ h hi (by simp [opened_append, opened]) (Or.inl h1)
  | some t =>
    by_cases h2 : fs.access s.entry = false
    · have e2 : loop_iter (dir_open_body fs f d) s = { s with
          trace := s.trace ++ [Event.lstat s.entry, Event.access s.entry,
            Event.err_warn ("Unable to read file \x27" ++ s.entry ++ "\x27\n")],
          i := (s.i + 1) % 2 ^ 32 } := by
        simp [loop_iter, h, hi, dir_open_body, read_status, h1, h2, State.log, State.warn]
      rw [e2]
      exact Iter.skip _ h hi (by simp [opened_append, opened]) (Or.inr (Or.inl h2))
    · have h2' : fs.access s.entry = true := by simpa using h2
      by_cases hr : t = FileType.reg
      · subst hr
        have e2 : loop_iter (dir_open_body fs f d) s = { s with
            trace := s.trace ++ [Event.lstat s.entry, Event.access s.entry,
              Event.filter s.entry],
            i := (s.i + 1) % 2 ^ 32,
            file_list := if f s.entry then s.file_list ++ [s.entry] else s.file_list } := by
          by_cases hf : f s.entry <;>
          simp [loop_iter, h, hi, dir_open_body, read_status, h1, h2', State.log,
            regular_file, hf]
        rw [e2]
        exact Iter.regular _ h hi (by simp [opened_append, opened]) h1 h2'
      · by_cases hd : t = FileType.dir ∨ t = FileType.lnk
        · by_cases hb : s.processed_dir = true
          · have e2 : loop_iter (dir_open_body fs f d) s = { s with
                trace := s.trace ++ [Event.lstat s.entry, Event.access s.entry],
                i := (s.i + 1) % 2 ^ 32 } := by
              rcases hd with hd | hd <;> subst hd <;>
              simp [loop_iter, h, hi, dir_open_body, read_status, h1, h2', State.log,
                hb, skip_other]
            rw [e2]
            refine Iter.skip _ h hi (by simp [opened_append, opened]) (Or.inr (Or.inr ⟨?_, ?_⟩))
            · rw [h1]; simpa using hr
            · intro _; simpa [blocked] using hb
          · cases h4 : fs.opendir s.entry with
            | none =>
              rcases hd with hd | hd <;> subst hd
              · have e2 : loop_iter (dir_open_body fs f d) s = { mark false fs s with
                    trace := s.trace ++ [Event.lstat s.entry, Event.access s.entry,
                      Event.opendir s.entry,
                      Event.err_quit ("Unable to open directory " ++ d ++ "\n")],
                    status := Status.exited ("Unable to open directory " ++ d ++ "\n") } := by
                  simp [loop_iter, h, hi, dir_open_body, read_status, h1, h2', State.log,
                    hb, open_directory, h4, State.quit, mark]
                rw [e2]
                exact Iter.open_failed _ _ h hi (by simp [opened_append, opened]) h1 h2'
                  (by simpa [blocked] using hb) h4
              · have e2 : loop_iter (dir_open_body fs f d) s = { mark false fs s with
                    trace := s.trace ++ [Event.lstat s.entry, Event.access s.entry,
                      Event.opendir s.entry],
                    i := (s.i + 1) % 2 ^ 32,
                    file_list := s.file_list ++ [s.entry] } := by
                  simp [loop_iter, h, hi, dir_open_body, read_status, h1, h2', State.log,
                    hb, open_directory, h4, mark]
                rw [e2]
                exact Iter.fallback _ h hi (by simp [opened_append, opened]) h1 h2'
                  (by simpa [blocked] using hb) h4
            | some l =>
              have hd' : fs.lstat s.entry = some FileType.dir
                  ∨ fs.lstat s.entry = some FileType.lnk := by
                rcases hd with hd | hd <;> subst hd <;> simp [h1]
              by_cases h5 : fs.closedir s.entry = false
              · have e2 : loop_iter (dir_open_body fs f d) s = { mark false fs s with
                    trace := s.trace ++ [Event.lstat s.entry, Event.access s.entry,
                      Event.opendir s.entry, Event.closedir s.entry,
                      Event.err_quit ("Unable to close directory " ++ d ++ "\n")],
                    files_to_process := s.files_to_process ++ children s.entry l,
                    status := Status.exited ("Unable to close directory " ++ d ++ "\n") } := by
                  rcases hd with hd | hd <;> subst hd <;>
                  simp [loop_iter, h, hi, dir_open_body, read_status, h1, h2', State.log,
                    hb, open_directory, h4, h5, State.quit, mark,
                    readdir_loop_eq]
                rw [e2]
                exact Iter.close_failed _ _ l h hi (by simp [opened_append, opened]) hd' h2'
                  (by simpa [blocked] using hb) h4 h5
              · have h5' : fs.closedir s.entry = true := by simpa using h5
                have e2 : loop_iter (dir_open_body fs f d) s = { mark false fs s with
                    trace := s.trace ++ [Event.lstat s.entry, Event.access s.entry,
                      Event.opendir s.entry, Event.closedir s.entry],
                    i := (s.i + 1) % 2 ^ 32,
                    files_to_process := s.files_to_process ++ children s.entry l } := by
                  rcases hd with hd | hd <;> subst hd <;>
                  simp [loop_iter, h, hi, dir_open_body, read_status, h1, h2', State.log,
                    hb, open_directory, h4, h5', mark,
                    readdir_loop_eq]
                rw [e2]
                exact Iter.expanded _ l h hi (by simp [opened_append, opened]) hd' h2'
                  (by simpa [blocked] using hb) h4 h5'
        · have e2 : ∃ ev, loop_iter (dir_open_body fs f d) s = { s with
                trace := s.trace ++ ([Event.lstat s.entry, Event.access s.entry] ++ ev),
                i := (s.i + 1) % 2 ^ 32 } ∧ opened ev = [] := by
            cases t <;> simp at hr hd
            · exact ⟨[Event.err_warn _], by
                simp [loop_iter, h, hi, dir_open_body, read_status, h1, h2', State.log,
                  skip_other, State.warn]; rfl, rfl⟩
            · exact ⟨[Event.err_warn _], by
                simp [loop_iter, h, hi, dir_open_body, read_status, h1, h2', State.log,
                  skip_other, State.warn]; rfl, rfl⟩
            · exact ⟨[Event.err_warn _], by
                simp [loop_iter, h, hi, dir_open_body, read_status, h1, h2', State.log,
                  skip_other, State.warn]; rfl, rfl⟩
            · exact ⟨[Event.err_warn _], by
                simp [loop_iter, h, hi, dir_open_body, read_status, h1, h2', State.log,
                  skip_other, State.warn]; rfl, rfl⟩
            · exact ⟨[], by
                simp [loop_iter, h, hi, dir_open_body, read_status, h1, h2', State.log,
                  skip_other], rfl⟩
          obtain ⟨ev, e2, hev⟩ := e2
          rw [e2]
          refine Iter.skip _ h hi (by simp [opened_append, opened, hev])
            (Or.inr (Or.inr ⟨?_, ?_⟩))
          · rw [h1]; simpa using hr
          · rw [h1]; intro hh; simp at hh; exact absurd hh hd

theorem iter_body (walk : Bool) (fs : FS) (f : String → Bool) (d : String) (s : State) :
    Iter walk fs f s (loop_iter (body walk fs f d) s) := by
  cases walk
  · exact iter_open fs f d s
  · exact iter_traverse fs f d s

theorem body_true (fs : FS) (f : String → Bool) (d : String) :
    body true fs f d = dir_traverse_body fs f d := rfl

theorem body_false (fs : FS) (f : String → Bool) (d : String) :
    body false fs f d = dir_open_body fs f d := rfl

theorem run_true (fs : FS) (root : String) (f : String → Bool) (fuel : Nat) :
    run true fs root f fuel = dir_traverse fs root f fuel := rfl

theorem run_false (fs : FS) (root : String) (f : String → Bool) (fuel : Nat) :
    run false fs root f fuel = dir_open fs root f fuel := rfl

theorem run_succ (walk : Bool) (fs : FS) (root : String) (f : String → Bool) (fuel : Nat) :
    run walk fs root f (fuel + 1)
      = loop_iter (body walk fs f (enter fs root).2) (run walk fs root f fuel) := by
  simp only [run, Function.iterate_succ_apply']

/-- Induction over the turns of the loop. -/
theorem run_invariant (walk : Bool) (fs : FS) (root : String) (f : String → Bool)
    (P : State → Prop) (h0 : P (enter fs root).1)
    (hstep : ∀ s s', P s → Iter walk fs f s s' → P s') (fuel : Nat) :
    P (run walk fs root f fuel) := by
  induction fuel with
  | zero => exact h0
  | succ n ih =>
    rw [run_succ]
    exact hstep _ _ ih (iter_body walk fs f _ _)

/-- The state before the loop: nothing collected, nothing opened; when the
loop is entered the normalized root is the only file to process. -/
theorem enter_facts (fs : FS) (root : String) :
    (enter fs root).1.file_list = [] ∧ (enter fs root).1.files_seen = []
      ∧ (enter fs root).1.processed_dir = false ∧ (enter fs root).1.i = 0
      ∧ opened (enter fs root).1.trace = [] ∧ filtered (enter fs root).1.trace = []
      ∧ ((enter fs root).1.status = Status.running →
          (enter fs root).1.files_to_process = [(enter fs root).2])
      ∧ ((enter fs root).1.status ≠ Status.running →
          (enter fs root).1.files_to_process = []) := by
  unfold enter sub_home
  by_cases hh : fs.HOME = "" <;> split_ifs <;> simp [State.init, opened, filtered, hh]

@[simp] theorem mark_files_to_process (walk : Bool) (fs : FS) (s : State) :
    (mark walk fs s).files_to_process = s.files_to_process := by
  cases walk <;> rfl

@[simp] theorem mark_i (walk : Bool) (fs : FS) (s : State) : (mark walk fs s).i = s.i := by
  cases walk <;> rfl

@[simp] theorem mark_file_list (walk : Bool) (fs : FS) (s : State) :
    (mark walk fs s).file_list = s.file_list := by
  cases walk <;> rfl

@[simp] theorem mark_trace (walk : Bool) (fs : FS) (s : State) :
    (mark walk fs s).trace = s.trace := by
  cases walk <;> rfl

@[simp] theorem mark_status (walk : Bool) (fs : FS) (s : State) :
    (mark walk fs s).status = s.status := by
  cases walk <;> rfl

/-- Whatever is on `file_list` was put there by the regular-file branch or by
the fallback for links. -/
theorem file_list_listed (walk : Bool) (fs : FS) (root : String) (f : String → Bool)
    (fuel : Nat) : ∀ p ∈ (run walk fs root f fuel).file_list, Listed fs f p := by
  refine run_invariant walk fs root f (fun s => ∀ p ∈ s.file_list, Listed fs f p) ?_ ?_ fuel
  · simp [(enter_facts fs root).1]
  · intro s s' hs hit
    cases hit with
    | frozen h => exact hs
    | ret h hi => exact hs
    | skip tr h hi ht hc => exact hs
    | regular tr h hi ht h1 h2 =>
      intro p hp
      by_cases hf : f s.entry = true
      · simp only [hf, if_true, List.mem_append, List.mem_singleton] at hp
        rcases hp with hp | hp
        · exact hs p hp
        · subst hp; exact ⟨h2, Or.inl ⟨h1, hf⟩⟩
      · simp only [hf] at hp
        exact hs p hp
    | fallback tr h hi ht h1 h2 h3 h4 =>
      intro p hp
      simp only [mark_file_list, List.mem_append, List.mem_singleton] at hp
      rcases hp with hp | hp
      · exact hs p hp
      · subst hp; exact ⟨h2, Or.inr ⟨h1, h4⟩⟩
    | open_failed tr m h hi ht h1 h2 h3 h4 => simpa using hs
    | expanded tr l h hi ht h1 h2 h3 h4 h5 => simpa using hs
    | close_failed tr m l h hi ht h1 h2 h3 h4 h5 => simpa using hs

/-! ## Which entries are opened -/

theorem length_filter_le_one_of_nodup_map {α β : Type} [DecidableEq β] (g : α → β)
    (c : β) (l : List α) (h : (l.map g).Nodup) :
    (l.filter (fun p => decide (g p = c))).length ≤ 1 := by
  have h2 : ((l.filter (fun p => decide (g p = c))).map g).Nodup :=
    h.sublist ((List.filter_sublist l).map g)
  have h3 : ∀ x ∈ l.filter (fun p => decide (g p = c)), g x = c := by
    intro x hx
    simpa using (List.mem_filter.mp hx).2
  match hl : l.filter (fun p => decide (g p = c)) with
  | [] => simp
  | [x] => simp
  | x :: y :: rest =>
    rw [hl] at h2 h3
    have hx := h3 x (by simp)
    have hy := h3 y (by simp)
    simp [hx, hy] at h2

/-- In `dir_traverse` the canonical paths of the opened entries are pairwise
different and all in `files_seen`. -/
theorem traverse_opened_nodup (fs : FS) (root : String) (f : String → Bool) (fuel : Nat) :
    ((opened (run true fs root f fuel).trace).map fs.realpath).Nodup
      ∧ ∀ p ∈ opened (run true fs root f fuel).trace,
          fs.realpath p ∈ (run true fs root f fuel).files_seen := by
  refine run_invariant true fs root f
    (fun s => ((opened s.trace).map fs.realpath).Nodup
      ∧ ∀ p ∈ opened s.trace, fs.realpath p ∈ s.files_seen) ?_ ?_ fuel
  · simp [(enter_facts fs root).2.2.2.2.1]
  · intro s s' hs hit
    have key : ∀ tr : List Event, opened tr = opened s.trace ++ [s.entry] →
        ¬ blocked true fs s →
        ((opened tr).map fs.realpath).Nodup
          ∧ ∀ p ∈ opened tr, fs.realpath p ∈ fs.realpath s.entry :: s.files_seen := by
      intro tr ht h3
      have h3' : fs.realpath s.entry ∉ s.files_seen := by simpa [blocked] using h3
      rw [ht]
      constructor
      · rw [List.map_append, List.nodup_append]
        refine ⟨hs.1, by simp, ?_⟩
        intro x hx1 hx2
        simp only [List.map_cons, List.map_nil, List.mem_singleton] at hx2
        obtain ⟨p, hp, rfl⟩ := List.mem_map.mp hx1
        exact h3' (hx2 ▸ hs.2 p hp)
      · intro p hp
        simp only [List.mem_append, List.mem_singleton] at hp
        rcases hp with hp | hp
        · exact List.mem_cons_of_mem _ (hs.2 p hp)
        · subst hp; exact List.mem_cons_self _ _
    cases hit with
    | frozen h => exact hs
    | ret h hi => exact hs
    | skip tr h hi ht hc => simpa [ht] using hs
    | regular tr h hi ht h1 h2 => simpa [ht] using hs
    | fallback tr h hi ht h1 h2 h3 h4 => simpa [mark] using key tr ht h3
    | open_failed tr m h hi ht h1 h2 h3 h4 => simpa [mark] using key tr ht h3
    | expanded tr l h hi ht h1 h2 h3 h4 h5 => simpa [mark] using key tr ht h3
    | close_failed tr m l h hi ht h1 h2 h3 h4 h5 => simpa [mark] using key tr ht h3

theorem entry_of_singleton (s : State) (d : String) (h : s.files_to_process = [d])
    (hi : s.i ≠ s.files_to_process.length) (hle : s.i ≤ 1) : s.entry = d := by
  have h0 : s.i = 0 := by
    rw [h] at hi; simp at hi; omega
  simp [State.entry, h, h0]

/-- In `dir_open`, as long as `processed_dir` is not set nothing has been
opened and the root is the only file to process; afterwards exactly the root
has been opened. -/
theorem open_opened_root (fs : FS) (root : String) (f : String → Bool) (fuel : Nat) :
    ((run false fs root f fuel).processed_dir = false →
        opened (run false fs root f fuel).trace = []
        ∧ (run false fs root f fuel).i ≤ 1
        ∧ ((run false fs root f fuel).status = Status.running →
            (run false fs root f fuel).files_to_process = [(enter fs root).2]))
    ∧ ((run false fs root f fuel).processed_dir = true →
        opened (run false fs root f fuel).trace = [(enter fs root).2]) := by
  refine run_invariant false fs root f
    (fun s => (s.processed_dir = false → opened s.trace = [] ∧ s.i ≤ 1
        ∧ (s.status = Status.running → s.files_to_process = [(enter fs root).2]))
      ∧ (s.processed_dir = true → opened s.trace = [(enter fs root).2])) ?_ ?_ fuel
  · obtain ⟨-, -, h3, h4, h5, -, h7, -⟩ := enter_facts fs root
    simp [h3, h4, h5]
    exact h7
  · intro s s' hs hit
    have key : ∀ tr : List Event, opened tr = opened s.trace ++ [s.entry] →
        s.status = Status.running → s.i ≠ s.files_to_process.length →
        ¬ blocked false fs s → opened tr = [(enter fs root).2] := by
      intro tr ht h hi h3
      have h3' : s.processed_dir = false := by simpa [blocked] using h3
      obtain ⟨e1, e2, e3⟩ := hs.1 h3'
      rw [ht, e1, entry_of_singleton s _ (e3 h) hi e2]
      rfl
    have hmod : ∀ s : State, s.i ≠ s.files_to_process.length → s.i ≤ 1 →
        s.files_to_process = [(enter fs root).2] → (s.i + 1) % 2 ^ 32 ≤ 1 := by
      intro s hi hle hf
      rw [hf] at hi; simp at hi
      have : s.i = 0 := by omega
      simp [this]
    cases hit with
    | frozen h => exact hs
    | ret h hi =>
      refine ⟨fun hp => ⟨(hs.1 hp).1, (hs.1 hp).2.1, by simp⟩, hs.2⟩
    | skip tr h hi ht hc =>
      refine ⟨fun hp => ?_, fun hp => ?_⟩
      · obtain ⟨e1, e2, e3⟩ := hs.1 hp
        exact ⟨by simpa [ht] using e1, hmod s hi e2 (e3 h), fun _ => e3 h⟩
      · simpa [ht] using hs.2 hp
    | regular tr h hi ht h1 h2 =>
      refine ⟨fun hp => ?_, fun hp => ?_⟩
      · obtain ⟨e1, e2, e3⟩ := hs.1 hp
        exact ⟨by simpa [ht] using e1, hmod s hi e2 (e3 h), fun _ => e3 h⟩
      · simpa [ht] using hs.2 hp
    | fallback tr h hi ht h1 h2 h3 h4 => simpa [mark] using key tr ht h hi h3
    | open_failed tr m h hi ht h1 h2 h3 h4 => simpa [mark] using key tr ht h hi h3
    | expanded tr l h hi ht h1 h2 h3 h4 h5 => simpa [mark] using key tr ht h hi h3
    | close_failed tr m l h hi ht h1 h2 h3 h4 h5 => simpa [mark] using key tr ht h hi h3

/-- Every file to process is the normalized root or was produced by listing
an opened entry; `file_list` holds files to process only. -/
theorem frontier_structure (walk : Bool) (fs : FS) (root : String) (f : String → Bool)
    (fuel : Nat) :
    (∀ x ∈ (run walk fs root f fuel).files_to_process, x = (enter fs root).2
      ∨ ∃ q ∈ opened (run walk fs root f fuel).trace, ∃ l, fs.opendir q = some l
          ∧ x ∈ children q l)
    ∧ (∀ x ∈ (run walk fs root f fuel).file_list,
        x ∈ (run walk fs root f fuel).files_to_process)
    ∧ (run walk fs root f fuel).i ≤ (run walk fs root f fuel).files_to_process.length := by
  refine run_invariant walk fs root f
    (fun s => (∀ x ∈ s.files_to_process, x = (enter fs root).2
        ∨ ∃ q ∈ opened s.trace, ∃ l, fs.opendir q = some l ∧ x ∈ children q l)
      ∧ (∀ x ∈ s.file_list, x ∈ s.files_to_process)
      ∧ s.i ≤ s.files_to_process.length) ?_ ?_ fuel
  · obtain ⟨h1, -, -, h4, -, -, h7, h8⟩ := enter_facts fs root
    refine ⟨?_, by simp [h1], by simp [h4]⟩
    intro x hx
    by_cases hr : (enter fs root).1.status = Status.running
    · rw [h7 hr] at hx; left; simpa using hx
    · rw [h8 hr] at hx; simp at hx
  · intro s s' hs hit
    obtain ⟨a1, a2, a3⟩ := hs
    have hent : s.i ≠ s.files_to_process.length → s.entry ∈ s.files_to_process := by
      intro hi
      have hlt : s.i < s.files_to_process.length := lt_of_le_of_ne a3 hi
      simp only [State.entry, List.getD_eq_getElem?_getD, List.getElem?_eq_getElem hlt,
        Option.getD_some]
      exact List.getElem_mem hlt
    have hmod : s.i ≠ s.files_to_process.length →
        (s.i + 1) % 2 ^ 32 ≤ s.files_to_process.length := by
      intro hi
      have hlt : s.i < s.files_to_process.length := lt_of_le_of_ne a3 hi
      exact le_trans (Nat.mod_le _ _) hlt
    cases hit with
    | frozen h => exact ⟨a1, a2, a3⟩
    | ret h hi => exact ⟨a1, a2, a3⟩
    | skip tr h hi ht hc => exact ⟨by simpa [ht] using a1, a2, hmod hi⟩
    | regular tr h hi ht h1 h2 =>
      refine ⟨by simpa [ht] using a1, ?_, hmod hi⟩
      intro x hx
      by_cases hf : f s.entry = true
      · simp only [hf, if_true, List.mem_append, List.mem_singleton] at hx
        rcases hx with hx | hx
        · exact a2 x hx
        · subst hx; exact hent hi
      · simp only [hf] at hx; exact a2 x hx
    | fallback tr h hi ht h1 h2 h3 h4 =>
      refine ⟨?_, ?_, by simpa using hmod hi⟩
      · intro x hx
        simp only [mark_files_to_process] at hx
        rcases a1 x hx with e | ⟨q, hq, l, hl, hx2⟩
        · exact Or.inl e
        · exact Or.inr ⟨q, by simp [ht, hq], l, hl, hx2⟩
      · intro x hx
        simp only [mark_file_list, List.mem_append, List.mem_singleton] at hx
        simp only [mark_files_to_process]
        rcases hx with hx | hx
        · exact a2 x hx
        · subst hx; exact hent hi
    | open_failed tr m h hi ht h1 h2 h3 h4 =>
      refine ⟨?_, by simpa using a2, by simpa using a3⟩
      intro x hx
      simp only [mark_files_to_process] at hx
      rcases a1 x hx with e | ⟨q, hq, l, hl, hx2⟩
      · exact Or.inl e
      · exact Or.inr ⟨q, by simp [ht, hq], l, hl, hx2⟩
    | expanded tr l h hi ht h1 h2 h3 h4 h5 =>
      refine ⟨?_, ?_, ?_⟩
      · intro x hx
        simp only [List.mem_append] at hx
        rcases hx with hx | hx
        · rcases a1 x (by simpa using hx) with e | ⟨q, hq, l', hl, hx2⟩
          · exact Or.inl e
          · exact Or.inr ⟨q, by simp [ht, hq], l', hl, hx2⟩
        · exact Or.inr ⟨s.entry, by simp [ht], l, h4, hx⟩
      · intro x hx
        simp only [List.mem_append]
        exact Or.inl (by simpa using a2 x (by simpa using hx))
      · simp only [List.length_append]
        exact le_trans (hmod hi) (Nat.le_add_right _ _)
    | close_failed tr m l h hi ht h1 h2 h3 h4 h5 =>
      refine ⟨?_, ?_, ?_⟩
      · intro x hx
        simp only [List.mem_append] at hx
        rcases hx with hx | hx
        · rcases a1 x (by simpa using hx) with e | ⟨q, hq, l', hl, hx2⟩
          · exact Or.inl e
          · exact Or.inr ⟨q, by simp [ht, hq], l', hl, hx2⟩
        · exact Or.inr ⟨s.entry, by simp [ht], l, h4, hx⟩
      · intro x hx
        simp only [List.mem_append]
        exact Or.inl (by simpa using a2 x (by simpa using hx))
      · simp only [List.length_append, mark_i]
        exact le_trans a3 (Nat.le_add_right _ _)

/-! ## Path strings -/

theorem string_append_left_cancel (a b c : String) (h : a ++ b = a ++ c) : b = c := by
  have h2 := congrArg String.data h
  simp only [String.data_append] at h2
  exact String.ext (List.append_cancel_left h2)

theorem string_ne_empty_iff (a : String) : a ≠ "" ↔ a.data ≠ [] := by
  constructor
  · intro h hd
    exact h (String.ext hd)
  · intro h he
    exact h (by rw [he])

/-- The last separator of a string determines both sides of it. -/
theorem split_at_last_separator (A B N M : List Char) (hN : '/' ∉ N) (hM : '/' ∉ M)
    (h : A ++ '/' :: N = B ++ '/' :: M) : A = B ∧ N = M := by
  induction A generalizing B with
  | nil =>
    cases B with
    | nil => simpa using h
    | cons b B' =>
      simp only [List.nil_append, List.cons_append, List.cons.injEq] at h
      exact absurd (h.2 ▸ (by simp : '/' ∈ B' ++ '/' :: M)) hN
  | cons a A' ih =>
    cases B with
    | nil =>
      simp only [List.nil_append, List.cons_append, List.cons.injEq] at h
      exact absurd (h.2 ▸ (by simp : '/' ∈ A' ++ '/' :: N)) hM
    | cons b B' =>
      simp only [List.cons_append, List.cons.injEq] at h
      obtain ⟨e1, e2⟩ := ih B' h.2
      exact ⟨by rw [h.1, e1], e2⟩

/-- The characters of a child path: the parent (nothing for the parent `/`),
one separator, the name. -/
theorem path_name_data (p n : String) :
    (path_name p n).data = (if p = "/" then [] else p.data) ++ '/' :: n.data := by
  unfold path_name directory_separator
  by_cases h : p = "/"
  · subst h; simp
  · simp [h]

theorem path_name_left_cancel (p n m : String) (h : path_name p n = path_name p m) :
    n = m := by
  unfold path_name at h
  exact string_append_left_cancel _ _ _ h

/-- Child paths of non-empty parents with separator-free names determine
parent and name. -/
theorem path_name_inj (p q n m : String) (hp : p ≠ "") (hq : q ≠ "")
    (hn : '/' ∉ n.data) (hm : '/' ∉ m.data) (h : path_name p n = path_name q m) :
    p = q ∧ n = m := by
  have h2 := congrArg String.data h
  rw [path_name_data, path_name_data] at h2
  obtain ⟨e1, e2⟩ := split_at_last_separator _ _ _ _ hn hm h2
  refine ⟨?_, String.ext e2⟩
  by_cases h1 : p = "/" <;> by_cases h3 : q = "/"
  · rw [h1, h3]
  · simp only [h1, h3, if_true, if_false] at e1
    exact absurd (String.ext e1.symm) hq
  · simp only [h1, h3, if_true, if_false] at e1
    exact absurd (String.ext e1) hp
  · simp only [h1, h3, if_false] at e1
    exact String.ext e1

theorem path_name_length_ge (p n : String) : p.length ≤ (path_name p n).length := by
  have h := congrArg List.length (path_name_data p n)
  simp only [String.length] at *
  rw [h]
  by_cases h1 : p = "/"
  · subst h1; simp
  · simp [h1]

theorem path_name_length_gt (p n : String) (hn : n ≠ "") :
    p.length < (path_name p n).length := by
  have h := congrArg List.length (path_name_data p n)
  have hn2 : 0 < n.data.length := List.length_pos.mpr ((string_ne_empty_iff n).mp hn)
  simp only [String.length] at *
  rw [h]
  by_cases h1 : p = "/"
  · subst h1; simpa using hn2
  · simp [h1]

theorem children_nodup (p : String) (l : List String) (h : l.Nodup) :
    (children p l).Nodup := by
  unfold children
  exact List.Nodup.map (fun a b hab => path_name_left_cancel p a b hab) (h.filter _)

theorem mem_children (p x : String) (l : List String) (h : x ∈ children p l) :
    ∃ n ∈ l, x = path_name p n := by
  unfold children at h
  obtain ⟨n, hn, rfl⟩ := List.mem_map.mp h
  exact ⟨n, (List.mem_filter.mp hn).1, rfl⟩

/-! ## Files to process are pairwise different -/

theorem strip_separator_ne_empty (x : String) (h : x ≠ "") : strip_separator x ≠ "" := by
  unfold strip_separator
  simp only
  split_ifs with hc
  · rw [string_ne_empty_iff]
    have hx := (string_ne_empty_iff x).mp h
    obtain ⟨-, h0⟩ := hc
    cases hd : x.data with
    | nil => exact absurd hd hx
    | cons c cs =>
      obtain ⟨k, hk⟩ := Nat.exists_eq_succ_of_ne_zero h0
      simp [hk]
  · exact h

theorem enter_root_ne_empty (fs : FS) (root : String)
    (h : (enter fs root).1.status = Status.running) : (enter fs root).2 ≠ "" := by
  unfold enter at h ⊢
  by_cases h0 : root = ""
  · simp [h0] at h
  · simp only [h0, if_false] at h ⊢
    unfold sub_home at h ⊢
    by_cases hh : fs.HOME = "" <;> split_ifs at h ⊢ <;> simp_all
    · exact strip_separator_ne_empty _ h0
    · exact strip_separator_ne_empty _ h0
    · apply strip_separator_ne_empty
      intro he
      have := congrArg String.length he
      simp at this
      exact hh (String.ext (List.eq_nil_of_length_eq_zero this.1))
    · exact strip_separator_ne_empty _ h0

/-- Induction over the turns of the loop, with the run at hand. -/
theorem run_induction (walk : Bool) (fs : FS) (root : String) (f : String → Bool)
    (P : State → Prop) (h0 : P (enter fs root).1)
    (hstep : ∀ n s', P (run walk fs root f n) →
      Iter walk fs f (run walk fs root f n) s' → P s') (fuel : Nat) :
    P (run walk fs root f fuel) := by
  induction fuel with
  | zero => exact h0
  | succ n ih =>
    rw [run_succ]
    exact hstep n _ ih (iter_body walk fs f _ _)

/-- A state with status `returned` has its counter at the end of the files. -/
theorem returned_at_end (walk : Bool) (fs : FS) (root : String) (f : String → Bool)
    (fuel : Nat) (h : (run walk fs root f fuel).status = Status.returned) :
    (run walk fs root f fuel).i = (run walk fs root f fuel).files_to_process.length := by
  revert h
  refine run_invariant walk fs root f
    (fun s => s.status = Status.returned → s.i = s.files_to_process.length) ?_ ?_ fuel
  · intro h
    obtain ⟨-, -, -, h4, -, -, -, h8⟩ := enter_facts fs root
    rw [h4, h8 (by rw [h]; simp)]
    rfl
  · intro s s' hs hit
    cases hit with
    | frozen h => exact hs
    | ret h hi => exact fun _ => hi
    | skip tr h hi ht hc => intro h'; simp [h] at h'
    | regular tr h hi ht h1 h2 => intro h'; simp [h] at h'
    | fallback tr h hi ht h1 h2 h3 h4 => intro h'; simp [h] at h'
    | open_failed tr m h hi ht h1 h2 h3 h4 => intro h'; simp at h'
    | expanded tr l h hi ht h1 h2 h3 h4 h5 => intro h'; simp [h] at h'
    | close_failed tr m l h hi ht h1 h2 h3 h4 h5 => intro h'; simp at h'

/-- An entry selected for opening has not been opened before. -/
theorem entry_not_opened (walk : Bool) (fs : FS) (root : String) (f : String → Bool)
    (n : Nat) (h3 : ¬ blocked walk fs (run walk fs root f n)) :
    (run walk fs root f n).entry ∉ opened (run walk fs root f n).trace := by
  intro hmem
  cases walk with
  | true =>
    exact h3 (by simpa [blocked] using (traverse_opened_nodup fs root f n).2 _ hmem)
  | false =>
    have hp : (run false fs root f n).processed_dir = false := by simpa [blocked] using h3
    rw [((open_opened_root fs root f n).1 hp).1] at hmem
    simp at hmem

theorem entry_eq_getElem (s : State) (h : s.i < s.files_to_process.length) :
    s.entry = s.files_to_process[s.i] := by
  simp [State.entry, List.getD_eq_getElem?_getD, List.getElem?_eq_getElem h]

theorem entry_mem (s : State) (h : s.i < s.files_to_process.length) :
    s.entry ∈ s.files_to_process := by
  rw [entry_eq_getElem s h]
  exact List.getElem_mem h

theorem take_succ_entry (s : State) (h : s.i < s.files_to_process.length)
    (extra : List String) :
    (s.files_to_process ++ extra).take (s.i + 1)
      = s.files_to_process.take s.i ++ [s.entry] := by
  rw [List.take_append_of_le_length (Nat.succ_le_of_lt h), List.take_succ,
    List.getElem?_eq_getElem h, entry_eq_getElem s h]
  rfl

theorem run_of_not_running (walk : Bool) (fs : FS) (root : String) (f : String → Bool)
    (h : (enter fs root).1.status ≠ Status.running) (fuel : Nat) :
    run walk fs root f fuel = (enter fs root).1 :=
  iterate_of_not_running _ _ h fuel

theorem run_lt (walk : Bool) (fs : FS) (root : String) (f : String → Bool) (n : Nat)
    (hi : (run walk fs root f n).i ≠ (run walk fs root f n).files_to_process.length) :
    (run walk fs root f n).i < (run walk fs root f n).files_to_process.length :=
  lt_of_le_of_ne (frontier_structure walk fs root f n).2.2 hi

/-- With proper listings no path is put twice on `files_to_process`. -/
theorem frontier_nodup (walk : Bool) (fs : FS) (root : String) (f : String → Bool)
    (hfs : ProperListings fs) (fuel : Nat) :
    (run walk fs root f fuel).files_to_process.Nodup
    ∧ (∀ y ∈ (run walk fs root f fuel).files_to_process,
        (enter fs root).2.length ≤ y.length)
    ∧ (∀ q ∈ opened (run walk fs root f fuel).trace,
        q ∈ (run walk fs root f fuel).files_to_process) := by
  by_cases hrun : (enter fs root).1.status = Status.running
  swap
  · rw [run_of_not_running walk fs root f hrun]
    obtain ⟨-, -, -, -, h5, -, -, h8⟩ := enter_facts fs root
    simp [h8 hrun, h5]
  have hr : (enter fs root).2 ≠ "" := enter_root_ne_empty fs root hrun
  have hrl : 0 < (enter fs root).2.length :=
    List.length_pos.mpr ((string_ne_empty_iff _).mp hr)
  have hne : ∀ y : String, (enter fs root).2.length ≤ y.length → y ≠ "" := by
    intro y hy he
    rw [he] at hy
    simp at hy
    omega
  refine run_induction walk fs root f
    (fun s => s.files_to_process.Nodup
      ∧ (∀ y ∈ s.files_to_process, (enter fs root).2.length ≤ y.length)
      ∧ (∀ q ∈ opened s.trace, q ∈ s.files_to_process)) ?_ ?_ fuel
  · obtain ⟨-, -, -, -, h5, -, h7, -⟩ := enter_facts fs root
    simp [h7 hrun, h5]
  · intro n s' hs hit
    obtain ⟨a1, a2, a3⟩ := hs
    have hstr := (frontier_structure walk fs root f n).1
    generalize hsdef : run walk fs root f n = s at hit a1 a2 a3 hstr
    have hlt : s.i ≠ s.files_to_process.length → s.i < s.files_to_process.length := by
      intro hi; rw [← hsdef] at hi ⊢; exact run_lt walk fs root f n hi
    have hnew : ¬ blocked walk fs s → s.entry ∉ opened s.trace := by
      intro h3; rw [← hsdef] at h3 ⊢; exact entry_not_opened walk fs root f n h3
    have hop : ∀ tr : List Event, opened tr = opened s.trace ++ [s.entry] →
        s.i ≠ s.files_to_process.length → ∀ extra : List String,
        ∀ q ∈ opened tr, q ∈ s.files_to_process ++ extra := by
      intro tr ht hi extra q hq
      rw [ht] at hq
      simp only [List.mem_append, List.mem_singleton] at hq ⊢
      rcases hq with hq | hq
      · exact Or.inl (a3 q hq)
      · subst hq; exact Or.inl (entry_mem s (hlt hi))
    have hexp : ∀ l, fs.opendir s.entry = some l → s.i ≠ s.files_to_process.length →
        ¬ blocked walk fs s →
        (s.files_to_process ++ children s.entry l).Nodup
        ∧ ∀ y ∈ s.files_to_process ++ children s.entry l,
            (enter fs root).2.length ≤ y.length := by
      intro l h4 hi h3
      obtain ⟨hl1, hl2⟩ := hfs _ _ h4
      have hpm := entry_mem s (hlt hi)
      constructor
      · rw [List.nodup_append]
        refine ⟨a1, children_nodup _ _ hl1, ?_⟩
        intro x hx1 hx2
        obtain ⟨nm, hnm, rfl⟩ := mem_children _ _ _ hx2
        rcases hstr _ hx1 with e | ⟨q, hq, l', hl', hx3⟩
        · have h1 := path_name_length_gt s.entry nm (hl2 nm hnm).1
          have h2 := a2 _ hpm
          rw [e] at h1
          omega
        · obtain ⟨m, hm, e⟩ := mem_children _ _ _ hx3
          obtain ⟨e1, -⟩ := path_name_inj s.entry q nm m (hne _ (a2 _ hpm))
            (hne _ (a2 _ (a3 q hq))) (hl2 nm hnm).2 ((hfs _ _ hl').2 m hm).2 e
          exact hnew h3 (e1 ▸ hq)
      · intro y hy
        simp only [List.mem_append] at hy
        rcases hy with hy | hy
        · exact a2 y hy
        · obtain ⟨nm, -, rfl⟩ := mem_children _ _ _ hy
          exact le_trans (a2 _ hpm) (path_name_length_ge _ _)
    cases hit with
    | frozen h => exact ⟨a1, a2, a3⟩
    | ret h hi => exact ⟨a1, a2, a3⟩
    | skip tr h hi ht hc => exact ⟨a1, a2, by simpa [ht] using a3⟩
    | regular tr h hi ht h1 h2 => exact ⟨a1, a2, by simpa [ht] using a3⟩
    | fallback tr h hi ht h1 h2 h3 h4 =>
      exact ⟨by simpa using a1, by simpa using a2, by simpa using hop tr ht hi []⟩
    | open_failed tr m h hi ht h1 h2 h3 h4 =>
      exact ⟨by simpa using a1, by simpa using a2, by simpa using hop tr ht hi []⟩
    | expanded tr l h hi ht h1 h2 h3 h4 h5 =>
      exact ⟨(hexp l h4 hi h3).1, (hexp l h4 hi h3).2, hop tr ht hi _⟩
    | close_failed tr m l h hi ht h1 h2 h3 h4 h5 =>
      exact ⟨(hexp l h4 hi h3).1, (hexp l h4 hi h3).2, hop tr ht hi _⟩

/-- The counter stays below `2^32`; and unless `files_to_process` has outgrown
the counter, `file_list` is a sublist of the files already worked on. -/
theorem file_list_sublist (walk : Bool) (fs : FS) (root : String) (f : String → Bool)
    (fuel : Nat) :
    (run walk fs root f fuel).i < 2 ^ 32
    ∧ ((run walk fs root f fuel).file_list.Sublist
          ((run walk fs root f fuel).files_to_process.take (run walk fs root f fuel).i)
        ∨ 2 ^ 32 ≤ (run walk fs root f fuel).files_to_process.length) := by
  refine run_induction walk fs root f
    (fun s => s.i < 2 ^ 32
      ∧ (s.file_list.Sublist (s.files_to_process.take s.i)
        ∨ 2 ^ 32 ≤ s.files_to_process.length)) ?_ ?_ fuel
  · obtain ⟨h1, -, -, h4, -⟩ := enter_facts fs root
    simp [h1, h4]
  · intro n s' hs hit
    obtain ⟨a1, a2⟩ := hs
    have hle := (frontier_structure walk fs root f n).2.2
    generalize hsdef : run walk fs root f n = s at hit a1 a2 hle
    have hmod : (s.i + 1) % 2 ^ 32 < 2 ^ 32 := Nat.mod_lt _ (by norm_num)
    have key : ∀ (extra add : List String), s.i ≠ s.files_to_process.length →
        add.Sublist [s.entry] →
        ((s.file_list ++ add).Sublist
            ((s.files_to_process ++ extra).take ((s.i + 1) % 2 ^ 32))
          ∨ 2 ^ 32 ≤ (s.files_to_process ++ extra).length) := by
      intro extra add hi hadd
      have hlt : s.i < s.files_to_process.length := lt_of_le_of_ne hle hi
      by_cases hbig : 2 ^ 32 ≤ (s.files_to_process ++ extra).length
      · exact Or.inr hbig
      · left
        rcases a2 with a2 | a2
        · have hsmall : s.i + 1 < 2 ^ 32 := by
            simp only [List.length_append] at hbig
            omega
          rw [Nat.mod_eq_of_lt hsmall, take_succ_entry s hlt]
          exact a2.append hadd
        · simp only [List.length_append] at hbig
          omega
    cases hit with
    | frozen h => exact ⟨a1, a2⟩
    | ret h hi => exact ⟨a1, a2⟩
    | skip tr h hi ht hc =>
      exact ⟨hmod, by simpa using key [] [] hi (List.nil_sublist _)⟩
    | regular tr h hi ht h1 h2 =>
      refine ⟨hmod, ?_⟩
      by_cases hf : f s.entry = true
      · simpa [hf] using key [] [s.entry] hi (List.Sublist.refl _)
      · simpa [hf] using key [] [] hi (List.nil_sublist _)
    | fallback tr h hi ht h1 h2 h3 h4 =>
      exact ⟨by simpa using hmod, by simpa using key [] [s.entry] hi (List.Sublist.refl _)⟩
    | open_failed tr m h hi ht h1 h2 h3 h4 =>
      exact ⟨by simpa using a1, by simpa using a2⟩
    | expanded tr l h hi ht h1 h2 h3 h4 h5 =>
      exact ⟨by simpa using hmod,
        by simpa using key (children s.entry l) [] hi (List.nil_sublist _)⟩
    | close_failed tr m l h hi ht h1 h2 h3 h4 h5 =>
      refine ⟨by simpa using a1, ?_⟩
      rcases a2 with a2 | a2
      · left
        have hle' : s.i ≤ s.files_to_process.length := hle
        simpa [List.take_append_of_le_length hle'] using a2
      · right
        simp only [List.length_append, mark_files_to_process]
        omega

/-- With proper listings the list a call returns has no path twice. -/
theorem returned_nodup (walk : Bool) (fs : FS) (root : String) (f : String → Bool)
    (hfs : ProperListings fs) (fuel : Nat)
    (hret : (run walk fs root f fuel).status = Status.returned) :
    (run walk fs root f fuel).file_list.Nodup := by
  have hend := returned_at_end walk fs root f fuel hret
  obtain ⟨h1, h2⟩ := file_list_sublist walk fs root f fuel
  rcases h2 with h2 | h2
  · rw [hend, List.take_length] at h2
    exact h2.nodup (frontier_nodup walk fs root f hfs fuel).1
  · omega

/-! ## The run of `dir_open` on a directory -/

theorem run_frozen (walk : Bool) (fs : FS) (root : String) (f : String → Bool)
    (a b : Nat) (h : (run walk fs root f a).status ≠ Status.running) (hab : a ≤ b) :
    run walk fs root f b = run walk fs root f a := by
  obtain ⟨k, rfl⟩ := Nat.exists_eq_add_of_le hab
  have : run walk fs root f (a + k)
      = (loop_iter (body walk fs f (enter fs root).2))^[k] (run walk fs root f a) := by
    simp only [run, Nat.add_comm a k, Function.iterate_add_apply]
  rw [this, iterate_of_not_running _ _ h]

/-- The turn of the loop that finds the counter at the end. -/
theorem iter_at_end (walk : Bool) (fs : FS) (f : String → Bool) (s s' : State)
    (hit : Iter walk fs f s s') (hrun : s.status = Status.running)
    (hi : s.i = s.files_to_process.length) : s' = { s with status := Status.returned } := by
  cases hit with
  | frozen h => exact absurd hrun h
  | ret h hi' => rfl
  | skip tr h hi' ht hc => exact absurd hi hi'
  | regular tr h hi' ht h1 h2 => exact absurd hi hi'
  | fallback tr h hi' ht h1 h2 h3 h4 => exact absurd hi hi'
  | open_failed tr m h hi' ht h1 h2 h3 h4 => exact absurd hi hi'
  | expanded tr l h hi' ht h1 h2 h3 h4 h5 => exact absurd hi hi'
  | close_failed tr m l h hi' ht h1 h2 h3 h4 h5 => exact absurd hi hi'

/-- A turn of the loop on an entry that is not selected for opening. -/
theorem iter_blocked (walk : Bool) (fs : FS) (f : String → Bool) (s s' : State)
    (hit : Iter walk fs f s s') (hrun : s.status = Status.running)
    (hi : s.i ≠ s.files_to_process.length)
    (hb : fs.lstat s.entry = some FileType.dir ∨ fs.lstat s.entry = some FileType.lnk →
      blocked walk fs s) :
    s'.files_to_process = s.files_to_process ∧ s'.i = (s.i + 1) % 2 ^ 32
    ∧ s'.status = Status.running ∧ s'.processed_dir = s.processed_dir
    ∧ s'.files_seen = s.files_seen ∧ opened s'.trace = opened s.trace
    ∧ s'.file_list = s.file_list ++ (if kept fs f s.entry then [s.entry] else []) := by
  cases hit with
  | frozen h => exact absurd hrun h
  | ret h hi' => exact absurd hi' hi
  | skip tr h hi ht hc =>
    refine ⟨rfl, rfl, h, rfl, rfl, ht, ?_⟩
    have : kept fs f s.entry = false := by
      rcases hc with hc | hc | hc
      · simp [kept, hc]
      · simp [kept, hc]
      · simp [kept, hc.1]
    simp [this]
  | regular tr h hi ht h1 h2 =>
    refine ⟨rfl, rfl, h, rfl, rfl, ht, ?_⟩
    by_cases hf : f s.entry = true <;> simp [kept, h1, h2, hf]
  | fallback tr h hi ht h1 h2 h3 h4 => exact absurd (hb (Or.inr h1)) h3
  | open_failed tr m h hi ht h1 h2 h3 h4 => exact absurd (hb (Or.inl h1)) h3
  | expanded tr l h hi ht h1 h2 h3 h4 h5 => exact absurd (hb h1) h3
  | close_failed tr m l h hi ht h1 h2 h3 h4 h5 => exact absurd (hb h1) h3

/-- A turn of the loop on a directory that is opened, listed and closed. -/
theorem iter_expanded (walk : Bool) (fs : FS) (f : String → Bool) (s s' : State)
    (hit : Iter walk fs f s s') (hrun : s.status = Status.running)
    (hi : s.i ≠ s.files_to_process.length)
    (hdir : fs.lstat s.entry = some FileType.dir) (hacc : fs.access s.entry = true)
    (hb : ¬ blocked walk fs s) (l : List String) (hopen : fs.opendir s.entry = some l)
    (hclose : fs.closedir s.entry = true) :
    s'.files_to_process = s.files_to_process ++ children s.entry l
    ∧ s'.i = (s.i + 1) % 2 ^ 32
    ∧ s'.status = Status.running
    ∧ s'.processed_dir = (mark walk fs s).processed_dir
    ∧ s'.files_seen = (mark walk fs s).files_seen
    ∧ opened s'.trace = opened s.trace ++ [s.entry]
    ∧ s'.file_list = s.file_list := by
  cases hit with
  | frozen h => exact absurd hrun h
  | ret h hi' => exact absurd hi' hi
  | skip tr h hi ht hc =>
    rcases hc with hc | hc | hc
    · simp [hdir] at hc
    · simp [hacc] at hc
    · exact absurd (hc.2 (Or.inl hdir)) hb
  | regular tr h hi ht h1 h2 => simp [hdir] at h1
  | fallback tr h hi ht h1 h2 h3 h4 => simp [hdir] at h1
  | open_failed tr m h hi ht h1 h2 h3 h4 => simp [hopen] at h4
  | expanded tr l' h hi ht h1 h2 h3 h4 h5 =>
    have : l' = l := by rw [hopen] at h4; exact (Option.some.inj h4).symm
    subst this
    exact ⟨rfl, rfl, by simpa using h, rfl, rfl, ht, by simp⟩
  | close_failed tr m l' h hi ht h1 h2 h3 h4 h5 => simp [hclose] at h5

/-- The run of `dir_open` on a readable directory: after the turn that lists
the root, `j` further turns have filtered the first `j` children. -/
theorem open_run_prefix (fs : FS) (root : String) (f : String → Bool) (l : List String)
    (hrun : (enter fs root).1.status = Status.running)
    (hdir : fs.lstat (enter fs root).2 = some FileType.dir)
    (hacc : fs.access (enter fs root).2 = true)
    (hopen : fs.opendir (enter fs root).2 = some l)
    (hclose : fs.closedir (enter fs root).2 = true)
    (hfit : (children (enter fs root).2 l).length + 1 < 2 ^ 32)
    (j : Nat) (hj : j ≤ (children (enter fs root).2 l).length) :
    (run false fs root f (1 + j)).files_to_process
        = (enter fs root).2 :: children (enter fs root).2 l
    ∧ (run false fs root f (1 + j)).i = 1 + j
    ∧ (run false fs root f (1 + j)).status = Status.running
    ∧ (run false fs root f (1 + j)).processed_dir = true
    ∧ opened (run false fs root f (1 + j)).trace = [(enter fs root).2]
    ∧ (run false fs root f (1 + j)).file_list
        = ((children (enter fs root).2 l).take j).filter (kept fs f) := by
  induction j with
  | zero =>
    obtain ⟨h1, -, h3, h4, h5, -, h7, -⟩ := enter_facts fs root
    have hit := iter_body false fs f (enter fs root).2 (run false fs root f 0)
    rw [← run_succ] at hit
    have e0 : run false fs root f 0 = (enter fs root).1 := rfl
    rw [e0] at hit
    have hent : (enter fs root).1.entry = (enter fs root).2 := by
      simp [State.entry, h7 hrun, h4]
    obtain ⟨b1, b2, b3, b4, b5, b6, b7⟩ := iter_expanded false fs f _ _ hit hrun
      (by simp [h7 hrun, h4]) (by rw [hent]; exact hdir) (by rw [hent]; exact hacc)
      (by simp [blocked, h3]) l (by rw [hent]; exact hopen) (by rw [hent]; exact hclose)
    rw [hent] at b1 b6
    refine ⟨by simpa [h7 hrun] using b1, by simpa [h4] using b2, b3, by simpa [mark] using b4,
      by simpa [h5] using b6, by simpa [h1] using b7⟩
  | succ j ih =>
    obtain ⟨a1, a2, a3, a4, a5, a6⟩ := ih (Nat.le_of_succ_le hj)
    have hlt : j < (children (enter fs root).2 l).length := hj
    have hit := iter_body false fs f (enter fs root).2 (run false fs root f (1 + j))
    rw [← run_succ] at hit
    have hent : (run false fs root f (1 + j)).entry = (children (enter fs root).2 l)[j] := by
      rw [State.entry, a1, a2, Nat.add_comm 1 j]
      simp [List.getElem?_eq_getElem hlt]
    obtain ⟨b1, b2, b3, b4, b5, b6, b7⟩ := iter_blocked false fs f _ _ hit a3
      (by rw [a1, a2]; simp; omega) (fun _ => by simpa [blocked] using a4)
    have e : 1 + (j + 1) = 1 + j + 1 := by ring
    rw [e]
    refine ⟨by rw [b1, a1], ?_, b3, by rw [b4, a4], by rw [b6, a5], ?_⟩
    · rw [b2, a2]; exact Nat.mod_eq_of_lt (by omega)
    · rw [b7, a6, hent, List.take_succ, List.getElem?_eq_getElem hlt, List.filter_append]
      by_cases hk : kept fs f (children (enter fs root).2 l)[j] = true <;> simp [hk]

/-- The run of `dir_open` on a readable directory returns the kept children of
the root, and has opened the root only. -/
theorem open_run_result (fs : FS) (root : String) (f : String → Bool) (l : List String)
    (hrun : (enter fs root).1.status = Status.running)
    (hdir : fs.lstat (enter fs root).2 = some FileType.dir)
    (hacc : fs.access (enter fs root).2 = true)
    (hopen : fs.opendir (enter fs root).2 = some l)
    (hclose : fs.closedir (enter fs root).2 = true)
    (hfit : (children (enter fs root).2 l).length + 1 < 2 ^ 32)
    (fuel : Nat) (hfuel : (children (enter fs root).2 l).length + 2 ≤ fuel) :
    (run false fs root f fuel).status = Status.returned
    ∧ (run false fs root f fuel).file_list
        = (children (enter fs root).2 l).filter (kept fs f)
    ∧ opened (run false fs root f fuel).trace = [(enter fs root).2]
    ∧ (run false fs root f fuel).files_to_process
        = (enter fs root).2 :: children (enter fs root).2 l := by
  obtain ⟨a1, a2, a3, a4, a5, a6⟩ := open_run_prefix fs root f l hrun hdir hacc hopen hclose
    hfit _ (Nat.le_refl _)
  have hit := iter_body false fs f (enter fs root).2
    (run false fs root f (1 + (children (enter fs root).2 l).length))
  rw [← run_succ] at hit
  have hlen : (run false fs root f (1 + (children (enter fs root).2 l).length)).i
      = (run false fs root f
          (1 + (children (enter fs root).2 l).length)).files_to_process.length := by
    rw [a1, a2]; simp; omega
  have key := iter_at_end false fs f _ _ hit a3 hlen
  have key : (run false fs root f (1 + (children (enter fs root).2 l).length + 1)).status
        = Status.returned
      ∧ (run false fs root f (1 + (children (enter fs root).2 l).length + 1)).file_list
        = (children (enter fs root).2 l).filter (kept fs f)
      ∧ opened (run false fs root f (1 + (children (enter fs root).2 l).length + 1)).trace
        = [(enter fs root).2]
      ∧ (run false fs root f (1 + (children (enter fs root).2 l).length + 1)).files_to_process
        = (enter fs root).2 :: children (enter fs root).2 l := by
    rw [key]
    exact ⟨rfl, by simpa using a6, a5, a1⟩
  rw [run_frozen false fs root f (1 + (children (enter fs root).2 l).length + 1) fuel
    (by rw [key.1]; simp) (by omega)]
  exact key

/-! ## The filter acts on the result list only -/

theorem thin_entry (k : String → Bool) (s : State) : (s.thin k).entry = s.entry := rfl

theorem read_status_thin (fs : FS) (k : String → Bool) (p : String) (s : State) :
    read_status fs p (s.thin k)
      = ((read_status fs p s).1, (read_status fs p s).2.thin k) := by
  unfold read_status
  cases fs.lstat p with
  | none => rfl
  | some t => by_cases h : fs.access p = false <;> simp [h] <;> rfl

theorem read_status_some (fs : FS) (p : String) (s : State) (t : FileType)
    (h : (read_status fs p s).1 = some t) : fs.lstat p = some t ∧ fs.access p = true := by
  unfold read_status at h
  cases h1 : fs.lstat p with
  | none => simp [h1] at h
  | some t' =>
    by_cases h2 : fs.access p = false
    · simp [h1, h2] at h
    · simp [h1, h2] at h
      exact ⟨by rw [h], by simpa using h2⟩

theorem regular_file_thin (fs : FS) (f : String → Bool) (p : String) (s : State)
    (h : fs.lstat p = some FileType.reg) :
    regular_file f p (s.thin (survives fs f))
      = (regular_file all_true p s).thin (survives fs f) := by
  unfold regular_file
  by_cases hf : f p = true
  · simp [hf, all_true, State.thin, State.log, List.filter_append, survives]
  · simp [hf, all_true, State.thin, State.log, List.filter_append, survives, h]

theorem have_seen_thin (fs : FS) (k : String → Bool) (p : String) (s : State) :
    have_seen fs p (s.thin k) = ((have_seen fs p s).1, (have_seen fs p s).2.thin k) := by
  unfold have_seen
  by_cases h : fs.realpath p ∈ s.files_seen
  · simp [h, State.thin, State.log]
  · simp [h, State.thin, State.log, set_insert]

theorem open_directory_thin (fs : FS) (k : String → Bool) (d : String) (t : FileType)
    (p : String) (s : State) (hk : t = FileType.lnk → k p = true) :
    open_directory fs d t p (s.thin k) = (open_directory fs d t p s).thin k := by
  unfold open_directory
  cases fs.opendir p with
  | none =>
    by_cases ht : t = FileType.lnk
    · simp [ht, State.thin, State.log, List.filter_append, hk ht]
    · simp [ht, State.thin, State.log, State.quit]
  | some l =>
    by_cases hc : fs.closedir p = false
    · simp [hc, State.thin, State.log, State.quit]
    · simp [hc, State.thin, State.log]

theorem skip_other_thin (k : String → Bool) (t : FileType) (p : String) (s : State) :
    skip_other t p (s.thin k) = (skip_other t p s).thin k := by
  cases t <;> rfl

theorem survives_of_lnk (fs : FS) (f : String → Bool) (p : String) (t : FileType)
    (h : fs.lstat p = some t) : t = FileType.lnk → survives fs f p = true := by
  intro ht
  subst ht
  simp [survives, h]

/-- The body of `dir_traverse` with filter `f` is the body with `all_true`
followed by thinning. -/
theorem traverse_body_thin (fs : FS) (f : String → Bool) (d : String) (s : State) :
    dir_traverse_body fs f d (s.thin (survives fs f))
      = (dir_traverse_body fs all_true d s).thin (survives fs f) := by
  unfold dir_traverse_body
  simp only [thin_entry, read_status_thin]
  rcases hrs : read_status fs s.entry s with ⟨_ | t, s1⟩
  · rfl
  · have hl := (read_status_some fs s.entry s t (by rw [hrs])).1
    simp only
    by_cases hr : t = FileType.reg
    · simp only [hr, if_true]
      exact regular_file_thin fs f _ _ (hr ▸ hl)
    · simp only [hr, if_false]
      by_cases hd : t = FileType.dir ∨ t = FileType.lnk
      · simp only [hd, if_true, have_seen_thin]
        rcases hhs : have_seen fs s.entry s1 with ⟨_ | _, s2⟩
        · simp only
          by_cases hst : s2.status ≠ Status.running
          · have : (s2.thin (survives fs f)).status ≠ Status.running := hst
            rw [if_pos this, if_pos hst]
          · have : ¬ (s2.thin (survives fs f)).status ≠ Status.running := hst
            rw [if_neg this, if_neg hst]
            exact open_directory_thin fs _ d t _ s2 (survives_of_lnk fs f _ t hl)
        · exact skip_other_thin _ t _ s2
      · simp only [hd, if_false]
        exact skip_other_thin _ t _ s1

/-- The body of `dir_open` with filter `f` is the body with `all_true`
followed by thinning. -/
theorem open_body_thin (fs : FS) (f : String → Bool) (d : String) (s : State) :
    dir_open_body fs f d (s.thin (survives fs f))
      = (dir_open_body fs all_true d s).thin (survives fs f) := by
  unfold dir_open_body
  simp only [thin_entry, read_status_thin]
  rcases hrs : read_status fs s.entry s with ⟨_ | t, s1⟩
  · rfl
  · have hl := (read_status_some fs s.entry s t (by rw [hrs])).1
    simp only
    by_cases hr : t = FileType.reg
    · simp only [hr, if_true]
      exact regular_file_thin fs f _ _ (hr ▸ hl)
    · simp only [hr, if_false]
      by_cases hd : t = FileType.dir ∨ t = FileType.lnk
      · simp only [hd, if_true]
        by_cases hp : s1.processed_dir = true
        · have : (s1.thin (survives fs f)).processed_dir = true := hp
          simp only [hp, this, if_true]
        · have : ¬ (s1.thin (survives fs f)).processed_dir = true := hp
          simp only [hp, this, if_false]
          exact open_directory_thin fs _ d t _ { s1 with processed_dir := true }
            (survives_of_lnk fs f _ t hl)
      · simp only [hd, if_false]
        exact skip_other_thin _ t _ s1

theorem loop_iter_thin (k : String → Bool) (b1 b2 : State → State) (s : State)
    (h : b1 (s.thin k) = (b2 s).thin k) :
    loop_iter b1 (s.thin k) = (loop_iter b2 s).thin k := by
  unfold loop_iter
  have e1 : (s.thin k).status = s.status := rfl
  have e2 : (s.thin k).i = s.i := rfl
  have e3 : (s.thin k).files_to_process = s.files_to_process := rfl
  simp only [e1, e2, e3, h]
  by_cases hs : s.status ≠ Status.running
  · rw [if_pos hs, if_pos hs]
  · rw [if_neg hs, if_neg hs]
    by_cases hi : s.i = s.files_to_process.length
    · rw [if_pos hi, if_pos hi]; rfl
    · rw [if_neg hi, if_neg hi]
      have e4 : ((b2 s).thin k).status = (b2 s).status := rfl
      simp only [e4]
      by_cases hb : (b2 s).status ≠ Status.running
      · rw [if_pos hb, if_pos hb]
      · rw [if_neg hb, if_neg hb]; rfl

/-- The run with filter `f` is the run with `all_true`, thinned: the filter
changes `file_list` and nothing else. -/
theorem run_thin (walk : Bool) (fs : FS) (root : String) (f : String → Bool) (fuel : Nat) :
    run walk fs root f fuel = (run walk fs root all_true fuel).thin (survives fs f) := by
  induction fuel with
  | zero =>
    show (enter fs root).1 = (enter fs root).1.thin (survives fs f)
    have h := (enter_facts fs root).1
    cases hs : (enter fs root).1 with
    | mk a b c d e g st =>
      rw [hs] at h
      simp only at h
      subst h
      rfl
  | succ n ih =>
    rw [run_succ, run_succ, ih]
    cases walk with
    | true => exact loop_iter_thin _ _ _ _ (traverse_body_thin fs f _ _)
    | false => exact loop_iter_thin _ _ _ _ (open_body_thin fs f _ _)

/-- In `dir_open` every path on `file_list` is a regular file, unless it is
the root and the root is a link that passed the checks and did not open. -/
theorem open_file_list_regular (fs : FS) (root : String) (f : String → Bool) (fuel : Nat) :
    ∀ p ∈ (run false fs root f fuel).file_list, fs.lstat p = some FileType.reg
      ∨ (p = (enter fs root).2 ∧ fs.lstat p = some FileType.lnk ∧ fs.access p = true
          ∧ fs.opendir p = none) := by
  refine run_induction false fs root f
    (fun s => ∀ p ∈ s.file_list, fs.lstat p = some FileType.reg
      ∨ (p = (enter fs root).2 ∧ fs.lstat p = some FileType.lnk ∧ fs.access p = true
          ∧ fs.opendir p = none)) ?_ ?_ fuel
  · simp [(enter_facts fs root).1]
  · intro n s' hs hit
    have hroot := (open_opened_root fs root f n).1
    generalize run false fs root f n = s at hit hs hroot
    cases hit with
    | frozen h => exact hs
    | ret h hi => exact hs
    | skip tr h hi ht hc => exact hs
    | regular tr h hi ht h1 h2 =>
      intro p hp
      by_cases hf : f s.entry = true
      · simp only [hf, if_true, List.mem_append, List.mem_singleton] at hp
        rcases hp with hp | hp
        · exact hs p hp
        · subst hp; exact Or.inl h1
      · simp only [hf] at hp
        exact hs p hp
    | fallback tr h hi ht h1 h2 h3 h4 =>
      intro p hp
      simp only [mark_file_list, List.mem_append, List.mem_singleton] at hp
      rcases hp with hp | hp
      · exact hs p hp
      · subst hp
        have h3' : s.processed_dir = false := by simpa [blocked] using h3
        obtain ⟨-, e2, e3⟩ := hroot h3'
        exact Or.inr ⟨entry_of_singleton s _ (e3 h) hi e2, h1, h2, h4⟩
    | open_failed tr m h hi ht h1 h2 h3 h4 => simpa using hs
    | expanded tr l h hi ht h1 h2 h3 h4 h5 => simpa using hs
    | close_failed tr m l h hi ht h1 h2 h3 h4 h5 => simpa using hs

/-! ## Termination of `dir_traverse` -/

/-- Adding a path to `files_seen` does not raise the number of names the
canonical paths not yet seen can still list. -/
theorem unseen_cons_le (C seen : List String) (size : String → Nat) (c : String) :
    ((C.filter (fun x => decide (x ∉ c :: seen))).map size).sum
      ≤ ((C.filter (fun x => decide (x ∉ seen))).map size).sum := by
  induction C with
  | nil => simp
  | cons a C ih =>
    by_cases h2 : a ∉ seen
    · have e2 : decide (a ∉ seen) = true := decide_eq_true h2
      by_cases h1 : a ∉ c :: seen
      · have e1 : decide (a ∉ c :: seen) = true := decide_eq_true h1
        simp only [List.filter_cons, e1, e2, ↓reduceIte, List.map_cons, List.sum_cons]
        omega
      · have e1 : decide (a ∉ c :: seen) = false := decide_eq_false h1
        simp only [List.filter_cons, e1, e2, ↓reduceIte, List.map_cons, List.sum_cons]
        simp only [Bool.false_eq_true, ↓reduceIte]
        omega
    · have e2 : decide (a ∉ seen) = false := decide_eq_false h2
      have h1 : ¬ a ∉ c :: seen := fun h => h2 (fun h' => h (List.mem_cons_of_mem _ h'))
      have e1 : decide (a ∉ c :: seen) = false := decide_eq_false h1
      simp only [List.filter_cons, e1, e2, Bool.false_eq_true, ↓reduceIte]
      exact ih

/-- Adding a canonical path that was not seen lowers that number by the names
its directory can list. -/
theorem unseen_cons_lt (C seen : List String) (size : String → Nat) (c : String)
    (hc : c ∈ C) (hn : c ∉ seen) :
    ((C.filter (fun x => decide (x ∉ c :: seen))).map size).sum + size c
      ≤ ((C.filter (fun x => decide (x ∉ seen))).map size).sum := by
  induction C with
  | nil => simp at hc
  | cons a C ih =>
    by_cases hac : a = c
    · subst hac
      have e2 : decide (a ∉ seen) = true := decide_eq_true hn
      have e1 : decide (a ∉ a :: seen) = false := decide_eq_false (by simp)
      have := unseen_cons_le C seen size a
      simp only [List.filter_cons, e1, e2, Bool.false_eq_true, ↓reduceIte, List.map_cons,
        List.sum_cons]
      omega
    · have hc' : c ∈ C := by
        rcases List.mem_cons.mp hc with h | h
        · exact absurd h.symm hac
        · exact h
      have ih' := ih hc'
      by_cases h2 : a ∉ seen
      · have h1 : a ∉ c :: seen := by
          intro h
          rcases List.mem_cons.mp h with h | h
          · exact hac h
          · exact h2 h
        have e2 : decide (a ∉ seen) = true := decide_eq_true h2
        have e1 : decide (a ∉ c :: seen) = true := decide_eq_true h1
        simp only [List.filter_cons, e1, e2, ↓reduceIte, List.map_cons, List.sum_cons]
        omega
      · have h1 : ¬ a ∉ c :: seen := fun h => h2 (fun h' => h (List.mem_cons_of_mem _ h'))
        have e2 : decide (a ∉ seen) = false := decide_eq_false h2
        have e1 : decide (a ∉ c :: seen) = false := decide_eq_false h1
        simp only [List.filter_cons, e1, e2, Bool.false_eq_true, ↓reduceIte]
        exact ih'

theorem children_length_le (p : String) (l : List String) :
    (children p l).length ≤ l.length := by
  unfold children
  rw [List.length_map]
  exact List.length_filter_le _ _

/-- The child paths of a path that can be come to and opens can be come to. -/
theorem reach_children (fs : FS) (r p : String) (l : List String) (hp : Reach fs r p)
    (ho : Opens fs p l) : ∀ x ∈ children p l, Reach fs r x := by
  intro x hx
  unfold children at hx
  obtain ⟨n, hn, rfl⟩ := List.mem_map.mp hx
  obtain ⟨h1, h2⟩ := List.mem_filter.mp hn
  have h3 : n ≠ "." ∧ n ≠ ".." := by simpa using h2
  exact Reach.child p n l hp ho h1 h3.1 h3.2

/-- In a file system that is finite for the traversal, every file to process
of `dir_traverse` can be come to from the root, and the files to process
together with the names the canonical paths not yet seen can still list never
exceed the root plus all the names. -/
theorem frontier_bounded (fs : FS) (root : String) (f : String → Bool)
    (C : List String) (size : String → Nat)
    (hfin : FiniteWalk fs (enter fs root).2 C size) (fuel : Nat) :
    (∀ x ∈ (run true fs root f fuel).files_to_process, Reach fs (enter fs root).2 x)
    ∧ (run true fs root f fuel).files_to_process.length
        + ((C.filter (fun x =>
            decide (x ∉ (run true fs root f fuel).files_seen))).map size).sum
      ≤ 1 + (C.map size).sum := by
  refine run_induction true fs root f
    (fun s => (∀ x ∈ s.files_to_process, Reach fs (enter fs root).2 x)
      ∧ s.files_to_process.length
          + ((C.filter (fun x => decide (x ∉ s.files_seen))).map size).sum
        ≤ 1 + (C.map size).sum) ?_ ?_ fuel
  · obtain ⟨-, h2, -, -, -, -, h7, h8⟩ := enter_facts fs root
    by_cases hr : (enter fs root).1.status = Status.running
    · rw [h7 hr, h2]
      refine ⟨?_, by simp⟩
      intro x hx
      rw [List.mem_singleton.mp hx]
      exact Reach.root
    · rw [h8 hr, h2]
      exact ⟨by simp, by simp⟩
  · intro n s' hs hit
    have hle := (frontier_structure true fs root f n).2.2
    generalize run true fs root f n = s at hs hit hle
    obtain ⟨hreach, hsum⟩ := hs
    have hmark : (mark true fs s).files_seen = fs.realpath s.entry :: s.files_seen := rfl
    have hcle := unseen_cons_le C s.files_seen size (fs.realpath s.entry)
    have hmono : s.files_to_process.length
        + ((C.filter (fun x => decide
            (x ∉ fs.realpath s.entry :: s.files_seen))).map size).sum
        ≤ 1 + (C.map size).sum := by omega
    have hexp : ∀ l, s.i ≠ s.files_to_process.length →
        (fs.lstat s.entry = some FileType.dir ∨ fs.lstat s.entry = some FileType.lnk) →
        fs.access s.entry = true → fs.opendir s.entry = some l → ¬ blocked true fs s →
        (∀ x ∈ s.files_to_process ++ children s.entry l, Reach fs (enter fs root).2 x)
        ∧ (s.files_to_process ++ children s.entry l).length
          + ((C.filter (fun x => decide
              (x ∉ fs.realpath s.entry :: s.files_seen))).map size).sum
          ≤ 1 + (C.map size).sum := by
      intro l hi h1 h2 h4 h3
      have h3' : fs.realpath s.entry ∉ s.files_seen := by simpa [blocked] using h3
      have he : Reach fs (enter fs root).2 s.entry :=
        hreach _ (entry_mem s (lt_of_le_of_ne hle hi))
      have ho : Opens fs s.entry l := ⟨h1, h2, h4⟩
      have hlt := unseen_cons_lt C s.files_seen size _ (hfin.canonical _ _ he ho) h3'
      have hk := hfin.listing _ _ he ho
      refine ⟨?_, by rw [List.length_append]; omega⟩
      intro x hx
      rcases List.mem_append.mp hx with hx | hx
      · exact hreach x hx
      · exact reach_children fs _ _ l he ho x hx
    cases hit with
    | frozen h => exact ⟨hreach, hsum⟩
    | ret h hi => exact ⟨hreach, hsum⟩
    | skip tr h hi ht hc => exact ⟨hreach, hsum⟩
    | regular tr h hi ht h1 h2 => exact ⟨hreach, hsum⟩
    | fallback tr h hi ht h1 h2 h3 h4 =>
      exact ⟨by simpa using hreach, by simpa [hmark] using hmono⟩
    | open_failed tr m' h hi ht h1 h2 h3 h4 =>
      exact ⟨by simpa using hreach, by simpa [hmark] using hmono⟩
    | expanded tr l h hi ht h1 h2 h3 h4 h5 =>
      exact ⟨(hexp l hi h1 h2 h4 h3).1, by simpa [hmark] using (hexp l hi h1 h2 h4 h3).2⟩
    | close_failed tr m' l h hi ht h1 h2 h3 h4 h5 =>
      exact ⟨(hexp l hi h1 h2 h4 h3).1, by simpa [hmark] using (hexp l hi h1 h2 h4 h3).2⟩

/-- A turn that leaves the loop running has worked on an entry and moved the
counter. -/
theorem iter_running (walk : Bool) (fs : FS) (f : String → Bool) (s s' : State)
    (hit : Iter walk fs f s s') (h' : s'.status = Status.running) :
    s.status = Status.running ∧ s.i ≠ s.files_to_process.length
      ∧ s'.i = (s.i + 1) % 2 ^ 32 := by
  cases hit with
  | frozen h => exact absurd h' h
  | ret h hi => simp at h'
  | skip tr h hi ht hc => exact ⟨h, hi, rfl⟩
  | regular tr h hi ht h1 h2 => exact ⟨h, hi, rfl⟩
  | fallback tr h hi ht h1 h2 h3 h4 => exact ⟨h, hi, rfl⟩
  | open_failed tr m h hi ht h1 h2 h3 h4 => simp at h'
  | expanded tr l h hi ht h1 h2 h3 h4 h5 => exact ⟨h, hi, rfl⟩
  | close_failed tr m l h hi ht h1 h2 h3 h4 h5 => simp at h'

/-- While the loop runs and the files to process fit the counter, the counter
equals the number of turns made. -/
theorem counter_eq_turns (walk : Bool) (fs : FS) (root : String) (f : String → Bool)
    (B : Nat) (hB : B < 2 ^ 32)
    (hlen : ∀ n, (run walk fs root f n).files_to_process.length ≤ B) (n : Nat)
    (hrun : (run walk fs root f n).status = Status.running) :
    (run walk fs root f n).i = n := by
  induction n with
  | zero => exact (enter_facts fs root).2.2.2.1
  | succ n ih =>
    have hit := iter_body walk fs f (enter fs root).2 (run walk fs root f n)
    rw [← run_succ] at hit
    obtain ⟨h1, h2, h3⟩ := iter_running walk fs f _ _ hit hrun
    have hlt := run_lt walk fs root f n h2
    have := hlen n
    rw [h3, ih h1]
    rw [ih h1] at hlt
    exact Nat.mod_eq_of_lt (by omega)

/-- When the files to process never exceed `B < 2^32`, the loop has ended
after `B + 1` turns. -/
theorem run_ends (walk : Bool) (fs : FS) (root : String) (f : String → Bool)
    (B : Nat) (hB : B < 2 ^ 32)
    (hlen : ∀ n, (run walk fs root f n).files_to_process.length ≤ B) :
    (run walk fs root f (B + 1)).status ≠ Status.running := by
  intro hrun
  have h1 := counter_eq_turns walk fs root f B hB hlen (B + 1) hrun
  have h2 := (frontier_structure walk fs root f (B + 1)).2.2
  have h3 := hlen (B + 1)
  omega

/-! ## The traversal of a tree without links -/

theorem mem_children_of_mem (q n : String) (l : List String) (hn : n ∈ l)
    (h1 : n ≠ ".") (h2 : n ≠ "..") : path_name q n ∈ children q l := by
  unfold children
  exact List.mem_map.mpr ⟨n, List.mem_filter.mpr ⟨hn, by simp [h1, h2]⟩, rfl⟩

theorem children_below (fs : FS) (r q : String) (l : List String) (hq : Below fs r q)
    (hdir : fs.lstat q = some FileType.dir) (hopen : fs.opendir q = some l) :
    ∀ x ∈ children q l, Below fs r x := by
  intro x hx
  unfold children at hx
  obtain ⟨n, hn, rfl⟩ := List.mem_map.mp hx
  obtain ⟨hn1, hn2⟩ := List.mem_filter.mp hn
  simp only [decide_eq_true_eq] at hn2
  exact Below.child q n l hq hdir hopen hn1 hn2.1 hn2.2

theorem getElem_not_mem_take (l : List String) (h : l.Nodup) (i : Nat)
    (hi : i < l.length) : l[i] ∉ l.take i := by
  intro hmem
  obtain ⟨j, hj, e⟩ := List.mem_take_iff_getElem.mp hmem
  have hji : j = i := h.getElem_inj_iff.mp e
  omega

/-- On a tree without links every file to process is below the root, the
root stays among them, and the call is never aborted. -/
theorem tree_frontier_below (fs : FS) (root : String) (f : String → Bool)
    (all : List String) (hrun : (enter fs root).1.status = Status.running)
    (ht : PlainTree fs (enter fs root).2 all) (fuel : Nat) :
    (∀ x ∈ (run true fs root f fuel).files_to_process, Below fs (enter fs root).2 x)
    ∧ (enter fs root).2 ∈ (run true fs root f fuel).files_to_process
    ∧ ((run true fs root f fuel).status = Status.running
        ∨ (run true fs root f fuel).status = Status.returned) := by
  refine run_induction true fs root f
    (fun s => (∀ x ∈ s.files_to_process, Below fs (enter fs root).2 x)
      ∧ (enter fs root).2 ∈ s.files_to_process
      ∧ (s.status = Status.running ∨ s.status = Status.returned)) ?_ ?_ fuel
  · have h7 := (enter_facts fs root).2.2.2.2.2.2.1 hrun
    refine ⟨?_, by simp [h7], Or.inl hrun⟩
    intro x hx
    rw [h7] at hx
    simp only [List.mem_singleton] at hx
    subst hx
    exact Below.root
  · intro n s' hs hit
    obtain ⟨a1, a2, a3⟩ := hs
    have hlt := run_lt true fs root f n
    generalize run true fs root f n = s at hit a1 a2 a3 hlt
    have hbel : s.i ≠ s.files_to_process.length → Below fs (enter fs root).2 s.entry :=
      fun hi => a1 _ (entry_mem s (hlt hi))
    have hisdir : s.i ≠ s.files_to_process.length →
        (fs.lstat s.entry = some FileType.dir ∨ fs.lstat s.entry = some FileType.lnk) →
        fs.lstat s.entry = some FileType.dir := by
      intro hi h1
      rcases h1 with h1 | h1
      · exact h1
      · obtain ⟨t, e1, e2⟩ := ht.no_link _ (hbel hi)
        rw [h1] at e1
        exact absurd (Option.some.inj e1).symm e2
    cases hit with
    | frozen h => exact ⟨a1, a2, a3⟩
    | ret h hi => exact ⟨a1, a2, Or.inr rfl⟩
    | skip tr h hi ht hc => exact ⟨a1, a2, Or.inl h⟩
    | regular tr h hi ht h1 h2 => exact ⟨a1, a2, Or.inl h⟩
    | fallback tr h hi ht h1 h2 h3 h4 =>
      exact ⟨by simpa using a1, by simpa using a2, Or.inl (by simpa using h)⟩
    | open_failed tr m h hi ht' h1 h2 h3 h4 =>
      obtain ⟨l, e1, -⟩ := ht.opens _ (hbel hi) h1
      rw [h4] at e1
      exact absurd e1 (by simp)
    | expanded tr l h hi ht' h1 h2 h3 h4 h5 =>
      refine ⟨?_, ?_, Or.inl (by simpa using h)⟩
      · intro x hx
        simp only [List.mem_append] at hx
        rcases hx with hx | hx
        · exact a1 x (by simpa using hx)
        · exact children_below fs _ _ l (hbel hi) (hisdir hi h1) h4 x hx
      · simp only [List.mem_append]
        exact Or.inl (by simpa using a2)
    | close_failed tr m l h hi ht' h1 h2 h3 h4 h5 =>
      obtain ⟨l', -, e2⟩ := ht.opens _ (hbel hi) (hisdir hi h1)
      rw [h5] at e2
      exact absurd e2 (by simp)

/-- On a tree without links the files to process fit the loop counter. -/
theorem tree_frontier_length (fs : FS) (root : String) (f : String → Bool)
    (all : List String) (hrun : (enter fs root).1.status = Status.running)
    (ht : PlainTree fs (enter fs root).2 all) (fuel : Nat) :
    (run true fs root f fuel).files_to_process.length ≤ all.length := by
  have h1 := (frontier_nodup true fs root f ht.proper fuel).1
  have h2 := (tree_frontier_below fs root f all hrun ht fuel).1
  exact (List.subperm_of_subset h1 (fun x hx => ht.finite x (h2 x hx))).length_le

/-- On a tree without links, for the files already worked on: every canonical
path in `files_seen` is that of one of them, every directory among them has
all its children among the files to process, and every regular file among
them that the filter accepts is on `file_list`. -/
theorem tree_processed (fs : FS) (root : String) (f : String → Bool)
    (all : List String) (hrun : (enter fs root).1.status = Status.running)
    (ht : PlainTree fs (enter fs root).2 all) (fuel : Nat) :
    (∀ c ∈ (run true fs root f fuel).files_seen,
      ∃ q ∈ (run true fs root f fuel).files_to_process.take (run true fs root f fuel).i,
        fs.lstat q = some FileType.dir ∧ fs.realpath q = c)
    ∧ (∀ q ∈ (run true fs root f fuel).files_to_process.take (run true fs root f fuel).i,
        fs.lstat q = some FileType.dir → ∀ l, fs.opendir q = some l →
          ∀ x ∈ children q l, x ∈ (run true fs root f fuel).files_to_process)
    ∧ (∀ q ∈ (run true fs root f fuel).files_to_process.take (run true fs root f fuel).i,
        fs.lstat q = some FileType.reg → f q = true →
          q ∈ (run true fs root f fuel).file_list) := by
  refine run_induction true fs root f
    (fun s => (∀ c ∈ s.files_seen, ∃ q ∈ s.files_to_process.take s.i,
        fs.lstat q = some FileType.dir ∧ fs.realpath q = c)
      ∧ (∀ q ∈ s.files_to_process.take s.i, fs.lstat q = some FileType.dir →
          ∀ l, fs.opendir q = some l → ∀ x ∈ children q l, x ∈ s.files_to_process)
      ∧ (∀ q ∈ s.files_to_process.take s.i, fs.lstat q = some FileType.reg →
          f q = true → q ∈ s.file_list)) ?_ ?_ fuel
  · obtain ⟨-, h2, -, h4, -⟩ := enter_facts fs root
    simp [h2, h4]
  · intro n s' hs hit
    obtain ⟨a1, a2, a3⟩ := hs
    have hlt := run_lt true fs root f n
    have hnd := (frontier_nodup true fs root f ht.proper n).1
    have hbel := (tree_frontier_below fs root f all hrun ht n).1
    have hlen := tree_frontier_length fs root f all hrun ht n
    have hfits := ht.fits
    generalize run true fs root f n = s at hit a1 a2 a3 hlt hnd hbel hlen
    -- the counter does not wrap
    have hmod : s.i ≠ s.files_to_process.length → (s.i + 1) % 2 ^ 32 = s.i + 1 := by
      intro hi
      have := hlt hi
      exact Nat.mod_eq_of_lt (by omega)
    have htake : s.i ≠ s.files_to_process.length → ∀ extra : List String,
        (s.files_to_process ++ extra).take ((s.i + 1) % 2 ^ 32)
          = s.files_to_process.take s.i ++ [s.entry] := by
      intro hi extra
      rw [hmod hi, take_succ_entry s (hlt hi)]
    -- a directory at the counter has not been seen
    have hfresh : s.i ≠ s.files_to_process.length →
        fs.lstat s.entry = some FileType.dir → fs.realpath s.entry ∉ s.files_seen := by
      intro hi hdir hseen
      obtain ⟨q, hq, hqd, hqr⟩ := a1 _ hseen
      have hqb := hbel q (List.mem_of_mem_take hq)
      have hpb := hbel _ (entry_mem s (hlt hi))
      have e := ht.canonical q s.entry hqb hpb hqd hdir hqr
      rw [e, entry_eq_getElem s (hlt hi)] at hq
      exact getElem_not_mem_take _ hnd _ (hlt hi) hq
    have hnolnk : s.i ≠ s.files_to_process.length →
        fs.lstat s.entry ≠ some FileType.lnk := by
      intro hi h1
      obtain ⟨t, e1, e2⟩ := ht.no_link _ (hbel _ (entry_mem s (hlt hi)))
      rw [h1] at e1
      exact e2 (Option.some.inj e1).symm
    -- a turn that changes neither the files to process nor `files_seen`
    have hquiet : s.i ≠ s.files_to_process.length →
        fs.lstat s.entry ≠ some FileType.dir →
        ∀ fl : List String, (∀ x ∈ s.file_list, x ∈ fl) →
        (fs.lstat s.entry = some FileType.reg → f s.entry = true → s.entry ∈ fl) →
        (∀ c ∈ s.files_seen, ∃ q ∈ s.files_to_process.take s.i ++ [s.entry],
          fs.lstat q = some FileType.dir ∧ fs.realpath q = c)
        ∧ (∀ q ∈ s.files_to_process.take s.i ++ [s.entry],
            fs.lstat q = some FileType.dir → ∀ l, fs.opendir q = some l →
            ∀ x ∈ children q l, x ∈ s.files_to_process)
        ∧ (∀ q ∈ s.files_to_process.take s.i ++ [s.entry],
            fs.lstat q = some FileType.reg → f q = true → q ∈ fl) := by
      intro hi hnd' fl hfl hreg
      refine ⟨?_, ?_, ?_⟩
      · intro c hc
        obtain ⟨q, hq, h⟩ := a1 c hc
        exact ⟨q, List.mem_append_left _ hq, h⟩
      · intro q hq hqd l hl x hx
        simp only [List.mem_append, List.mem_singleton] at hq
        rcases hq with hq | hq
        · exact a2 q hq hqd l hl x hx
        · subst hq; exact absurd hqd hnd'
      · intro q hq hqr hqf
        simp only [List.mem_append, List.mem_singleton] at hq
        rcases hq with hq | hq
        · exact hfl _ (a3 q hq hqr hqf)
        · subst hq; exact hreg hqr hqf
    cases hit with
    | frozen h => exact ⟨a1, a2, a3⟩
    | ret h hi => exact ⟨a1, a2, a3⟩
    | skip tr h hi ht' hc =>
      have hnd' : fs.lstat s.entry ≠ some FileType.dir := by
        intro hdir
        rcases hc with hc | hc | hc
        · rw [hdir] at hc; simp at hc
        · rw [ht.readable _ (hbel _ (entry_mem s (hlt hi)))] at hc; simp at hc
        · exact hfresh hi hdir (by simpa [blocked] using hc.2 (Or.inl hdir))
      have hreg : fs.lstat s.entry = some FileType.reg → f s.entry = true →
          s.entry ∈ s.file_list := by
        intro hr
        rcases hc with hc | hc | hc
        · rw [hr] at hc; simp at hc
        · rw [ht.readable _ (hbel _ (entry_mem s (hlt hi)))] at hc; simp at hc
        · exact absurd hr hc.1
      have := hquiet hi hnd' s.file_list (fun x hx => hx) hreg
      have e := htake hi []
      simp only [List.append_nil] at e
      simpa only [e] using this
    | regular tr h hi ht' h1 h2 =>
      have hnd' : fs.lstat s.entry ≠ some FileType.dir := by rw [h1]; simp
      have e := htake hi []
      simp only [List.append_nil] at e
      by_cases hf : f s.entry = true
      · have := hquiet hi hnd' (s.file_list ++ [s.entry])
          (fun x hx => List.mem_append_left _ hx) (fun _ _ => by simp)
        simpa only [e, hf, if_true] using this
      · have := hquiet hi hnd' s.file_list (fun x hx => hx) (fun _ h' => absurd h' hf)
        simpa only [e, hf] using this
    | fallback tr h hi ht' h1 h2 h3 h4 => exact absurd h1 (hnolnk hi)
    | open_failed tr m h hi ht' h1 h2 h3 h4 =>
      obtain ⟨l, e1, -⟩ := ht.opens _ (hbel _ (entry_mem s (hlt hi))) h1
      rw [h4] at e1
      exact absurd e1 (by simp)
    | expanded tr l h hi ht' h1 h2 h3 h4 h5 =>
      have hdir : fs.lstat s.entry = some FileType.dir := by
        rcases h1 with h1 | h1
        · exact h1
        · exact absurd h1 (hnolnk hi)
      have e := htake hi (children s.entry l)
      have hseen : (mark true fs s).files_seen = fs.realpath s.entry :: s.files_seen := rfl
      refine ⟨?_, ?_, ?_⟩
      · intro c hc
        simp only [hseen, List.mem_cons] at hc
        simp only [e]
        rcases hc with hc | hc
        · exact ⟨s.entry, by simp, hdir, hc.symm⟩
        · obtain ⟨q, hq, h'⟩ := a1 c hc
          exact ⟨q, List.mem_append_left _ hq, h'⟩
      · intro q hq hqd l' hl' x hx
        simp only [e, List.mem_append, List.mem_singleton] at hq
        simp only [List.mem_append]
        rcases hq with hq | hq
        · exact Or.inl (a2 q hq hqd l' hl' x hx)
        · subst hq
          rw [h4] at hl'
          cases hl'
          exact Or.inr hx
      · intro q hq hqr hqf
        simp only [e, List.mem_append, List.mem_singleton] at hq
        simp only [mark_file_list]
        rcases hq with hq | hq
        · exact a3 q hq hqr hqf
        · subst hq
          rw [hdir] at hqr
          simp at hqr
    | close_failed tr m l h hi ht' h1 h2 h3 h4 h5 =>
      have hdir : fs.lstat s.entry = some FileType.dir := by
        rcases h1 with h1 | h1
        · exact h1
        · exact absurd h1 (hnolnk hi)
      obtain ⟨l', -, e2⟩ := ht.opens _ (hbel _ (entry_mem s (hlt hi))) hdir
      rw [h5] at e2
      exact absurd e2 (by simp)

/-! ## Every action follows the checks -/

theorem resolved_append (a b : List Event) :
    resolved (a ++ b) = resolved a ++ resolved b := by
  induction a with
  | nil => rfl
  | cons e es ih => cases e <;> simp [resolved, ih]

theorem mem_opened (tr : List Event) (p : String) (h : p ∈ opened tr) :
    Event.opendir p ∈ tr := by
  induction tr with
  | nil => simp [opened] at h
  | cons e es ih =>
    cases e <;> simp only [opened, List.mem_cons] at h ⊢
    all_goals first
      | (rcases h with h | h
         · left; rw [h]
         · right; exact ih h)
      | (right; exact ih h)

theorem mem_filtered (tr : List Event) (p : String) (h : p ∈ filtered tr) :
    Event.filter p ∈ tr := by
  induction tr with
  | nil => simp [filtered] at h
  | cons e es ih =>
    cases e <;> simp only [filtered, List.mem_cons] at h ⊢
    all_goals first
      | (rcases h with h | h
         · left; rw [h]
         · right; exact ih h)
      | (right; exact ih h)

theorem mem_resolved (tr : List Event) (p : String) (h : p ∈ resolved tr) :
    Event.realpath p ∈ tr := by
  induction tr with
  | nil => simp [resolved] at h
  | cons e es ih =>
    cases e <;> simp only [resolved, List.mem_cons] at h ⊢
    all_goals first
      | (rcases h with h | h
         · left; rw [h]
         · right; exact ih h)
      | (right; exact ih h)

theorem log_checked (fs : FS) (s : State) (e : Event)
    (hs : ∀ x ∈ s.trace, Checked fs x) (he : Checked fs e) :
    ∀ x ∈ (s.log e).trace, Checked fs x := by
  intro x hx
  simp only [State.log, List.mem_append, List.mem_singleton] at hx
  rcases hx with hx | hx
  · exact hs x hx
  · rw [hx]; exact he

theorem read_status_checked (fs : FS) (p : String) (s : State)
    (hs : ∀ x ∈ s.trace, Checked fs x) :
    ∀ x ∈ (read_status fs p s).2.trace, Checked fs x := by
  unfold read_status
  cases h1 : fs.lstat p with
  | none =>
    exact log_checked fs _ _ (log_checked fs _ _ hs trivial) trivial
  | some t =>
    have ha : ∀ x ∈ ((s.log (Event.lstat p)).log (Event.access p)).trace, Checked fs x :=
      log_checked fs _ _ (log_checked fs _ _ hs trivial) (by simp [Checked, h1])
    by_cases h2 : fs.access p = false
    · simp only [h2, if_true]
      exact log_checked fs _ _ ha trivial
    · simp only [h2, if_false]
      exact ha

theorem regular_file_checked (fs : FS) (f : String → Bool) (p : String) (s : State)
    (hs : ∀ x ∈ s.trace, Checked fs x)
    (hp : fs.lstat p = some FileType.reg ∧ fs.access p = true) :
    ∀ x ∈ (regular_file f p s).trace, Checked fs x := by
  unfold regular_file
  have h := log_checked fs s (Event.filter p) hs hp
  by_cases hf : f p = true
  · simp only [hf, if_true]; exact h
  · simp only [hf]; exact h

theorem have_seen_checked (fs : FS) (p : String) (s : State)
    (hs : ∀ x ∈ s.trace, Checked fs x)
    (hp : (fs.lstat p = some FileType.dir ∨ fs.lstat p = some FileType.lnk)
      ∧ fs.access p = true) :
    ∀ x ∈ (have_seen fs p s).2.trace, Checked fs x := by
  unfold have_seen
  have h := log_checked fs s (Event.realpath p) hs hp
  by_cases hm : fs.realpath p ∈ s.files_seen
  · have hm' : fs.realpath p ∈ (s.log (Event.realpath p)).files_seen := hm
    simp only [hm', if_true]; exact h
  · have hm' : ¬ fs.realpath p ∈ (s.log (Event.realpath p)).files_seen := hm
    simp only [hm', if_false, set_insert]
    exact h

theorem open_directory_checked (fs : FS) (d : String) (t : FileType) (p : String)
    (s : State) (hs : ∀ x ∈ s.trace, Checked fs x)
    (hp : (fs.lstat p = some FileType.dir ∨ fs.lstat p = some FileType.lnk)
      ∧ fs.access p = true) :
    ∀ x ∈ (open_directory fs d t p s).trace, Checked fs x := by
  unfold open_directory
  have h := log_checked fs s (Event.opendir p) hs hp
  cases ho : fs.opendir p with
  | none =>
    by_cases ht : t = FileType.lnk
    · simp only [ht, if_true]; exact h
    · simp only [ht, if_false]
      exact log_checked fs _ _ h trivial
  | some l =>
    have hc : ∀ x ∈ ({ s.log (Event.opendir p) with
        files_to_process := readdir_loop p l (s.log (Event.opendir p)).files_to_process
        }.log (Event.closedir p)).trace, Checked fs x :=
      log_checked fs _ _ h ⟨hp.1, hp.2, by simp [ho]⟩
    by_cases h5 : fs.closedir p = false
    · simp only [h5, if_true]
      exact log_checked fs _ _ hc trivial
    · simp only [h5, if_false]
      exact hc

theorem skip_other_checked (fs : FS) (t : FileType) (p : String) (s : State)
    (hs : ∀ x ∈ s.trace, Checked fs x) :
    ∀ x ∈ (skip_other t p s).trace, Checked fs x := by
  cases t <;> first | exact hs | exact log_checked fs _ _ hs trivial

theorem body_checked (walk : Bool) (fs : FS) (f : String → Bool) (d : String) (s : State)
    (hs : ∀ x ∈ s.trace, Checked fs x) :
    ∀ x ∈ (body walk fs f d s).trace, Checked fs x := by
  have h0 := read_status_checked fs s.entry s hs
  cases walk with
  | true =>
    rw [body_true]
    unfold dir_traverse_body
    dsimp only
    rcases hrs : read_status fs s.entry s with ⟨_ | t, s1⟩
    · rw [hrs] at h0; exact h0
    · rw [hrs] at h0
      obtain ⟨hl, ha⟩ := read_status_some fs s.entry s t (by rw [hrs])
      by_cases hr : t = FileType.reg
      · simp only [hr, if_true]
        exact regular_file_checked fs f _ _ h0 ⟨hr ▸ hl, ha⟩
      · simp only [hr, if_false]
        by_cases hd : t = FileType.dir ∨ t = FileType.lnk
        · simp only [hd, if_true]
          have hp : (fs.lstat s.entry = some FileType.dir
              ∨ fs.lstat s.entry = some FileType.lnk) ∧ fs.access s.entry = true := by
            rcases hd with hd | hd
            · exact ⟨Or.inl (hd ▸ hl), ha⟩
            · exact ⟨Or.inr (hd ▸ hl), ha⟩
          have h1 := have_seen_checked fs s.entry s1 h0 hp
          rcases hhs : have_seen fs s.entry s1 with ⟨_ | _, s2⟩
          · rw [hhs] at h1
            simp only
            by_cases hst : s2.status ≠ Status.running
            · rw [if_pos hst]; exact h1
            · rw [if_neg hst]
              exact open_directory_checked fs d t _ s2 h1 hp
          · rw [hhs] at h1
            exact skip_other_checked fs t _ s2 h1
        · simp only [hd, if_false]
          exact skip_other_checked fs t _ s1 h0
  | false =>
    rw [body_false]
    unfold dir_open_body
    dsimp only
    rcases hrs : read_status fs s.entry s with ⟨_ | t, s1⟩
    · rw [hrs] at h0; exact h0
    · rw [hrs] at h0
      obtain ⟨hl, ha⟩ := read_status_some fs s.entry s t (by rw [hrs])
      by_cases hr : t = FileType.reg
      · simp only [hr, if_true]
        exact regular_file_checked fs f _ _ h0 ⟨hr ▸ hl, ha⟩
      · simp only [hr, if_false]
        by_cases hd : t = FileType.dir ∨ t = FileType.lnk
        · simp only [hd, if_true]
          have hp : (fs.lstat s.entry = some FileType.dir
              ∨ fs.lstat s.entry = some FileType.lnk) ∧ fs.access s.entry = true := by
            rcases hd with hd | hd
            · exact ⟨Or.inl (hd ▸ hl), ha⟩
            · exact ⟨Or.inr (hd ▸ hl), ha⟩
          by_cases hpd : s1.processed_dir = true
          · simp only [hpd, if_true]; exact h0
          · simp only [hpd]
            exact open_directory_checked fs d t _ _ h0 hp
        · simp only [hd, if_false]
          exact skip_other_checked fs t _ s1 h0

theorem loop_iter_trace (b : State → State) (s : State) :
    (loop_iter b s).trace = s.trace ∨ (loop_iter b s).trace = (b s).trace := by
  unfold loop_iter
  by_cases h : s.status ≠ Status.running
  · rw [if_pos h]; exact Or.inl rfl
  · rw [if_neg h]
    by_cases hi : s.i = s.files_to_process.length
    · rw [if_pos hi]; exact Or.inl rfl
    · rw [if_neg hi]
      by_cases hb : (b s).status ≠ Status.running
      · right; dsimp only; rw [if_pos hb]
      · right; dsimp only; rw [if_neg hb]

theorem enter_trace_checked (fs : FS) (root : String) :
    ∀ x ∈ (enter fs root).1.trace, Checked fs x := by
  unfold enter sub_home
  by_cases hh : fs.HOME = "" <;> split_ifs <;> simp [State.init, hh, Checked]

/-- Every action in the trace of a run was preceded by the checks the code
makes before it. -/
theorem trace_checked (walk : Bool) (fs : FS) (root : String) (f : String → Bool)
    (fuel : Nat) : ∀ x ∈ (run walk fs root f fuel).trace, Checked fs x := by
  induction fuel with
  | zero => exact enter_trace_checked fs root
  | succ n ih =>
    rw [run_succ]
    rcases loop_iter_trace (body walk fs f (enter fs root).2) (run walk fs root f n)
      with h | h
    · rw [h]; exact ih
    · rw [h]; exact body_checked walk fs f _ _ ih

/-! ## Depth along the files to process -/

/-- Joining a non-empty separator-free name adds one separator. -/
theorem separators_path_name (q n : String) (hn : n ≠ "") (hs : '/' ∉ n.data) :
    separators (path_name q n) = separators q + 1 := by
  have hnd : n.data ≠ [] := (string_ne_empty_iff n).mp hn
  have hlen : 0 < n.data.length := List.length_pos.mpr hnd
  have hc : n.data.count '/' = 0 := List.count_eq_zero.mpr hs
  have hne : path_name q n ≠ "/" := by
    intro h
    have hd := congrArg (fun t => t.data.length) h
    simp only [path_name_data, List.length_append, List.length_cons, List.length_nil] at hd
    have h1 : ("/" : String).data.length = 1 := rfl
    omega
  unfold separators
  rw [if_neg hne, path_name_data]
  by_cases hq : q = "/"
  · simp [hq, hc]
  · simp [hq, hc]

/-- Appending entries one level below the entry at `i` keeps a list sorted by
level, and keeps every entry at most one level below the entries from `i`
on. -/
theorem sorted_step (g : String → Nat) (L ch : List String) (i : Nat) (hi : i < L.length)
    (hs : L.Pairwise (fun a b => g a ≤ g b)) (hb : ∀ x ∈ L, g x ≤ g (L.getD i "") + 1)
    (hch : ∀ x ∈ ch, g x = g (L.getD i "") + 1) :
    (L ++ ch).Pairwise (fun a b => g a ≤ g b)
    ∧ ∀ j, i ≤ j → j < (L ++ ch).length →
        ∀ x ∈ L ++ ch, g x ≤ g ((L ++ ch).getD j "") + 1 := by
  have hsorted : (L ++ ch).Pairwise (fun a b => g a ≤ g b) := by
    refine List.pairwise_append.mpr ⟨hs, ?_, ?_⟩
    · exact List.pairwise_of_forall_mem_list (fun a ha b hb' => by
        rw [hch a ha, hch b hb'])
    · intro a ha b hb'
      rw [hch b hb']
      exact hb a ha
  refine ⟨hsorted, ?_⟩
  intro j hij hj x hx
  have hiL : i < (L ++ ch).length := by rw [List.length_append]; omega
  have e1 : (L ++ ch).getD i "" = L.getD i "" := by
    simp [List.getD_eq_getElem?_getD, List.getElem?_append_left hi]
  have hle : g (L.getD i "") ≤ g ((L ++ ch).getD j "") := by
    rcases Nat.eq_or_lt_of_le hij with h | h
    · rw [← h, e1]
    · rw [← e1]
      have e2 : (L ++ ch).getD i "" = (L ++ ch)[i] := by
        simp [List.getD_eq_getElem?_getD, List.getElem?_eq_getElem hiL]
      have e3 : (L ++ ch).getD j "" = (L ++ ch)[j] := by
        simp [List.getD_eq_getElem?_getD, List.getElem?_eq_getElem hj]
      rw [e2, e3]
      exact List.pairwise_iff_getElem.mp hsorted i j hiL hj h
  rcases List.mem_append.mp hx with h | h
  · exact le_trans (hb x h) (Nat.succ_le_succ hle)
  · rw [hch x h]
    exact Nat.succ_le_succ hle

/-- With proper listings, while the files to process fit the counter they are
sorted by their number of separators, and none has more than one separator
more than the entry the loop works on. -/
theorem frontier_sorted (walk : Bool) (fs : FS) (root : String) (f : String → Bool)
    (hfs : ProperListings fs) (fuel : Nat) :
    (run walk fs root f fuel).files_to_process.length < 2 ^ 32 →
      (run walk fs root f fuel).files_to_process.Pairwise
          (fun a b => separators a ≤ separators b)
      ∧ ((run walk fs root f fuel).i < (run walk fs root f fuel).files_to_process.length →
          ∀ x ∈ (run walk fs root f fuel).files_to_process,
            separators x ≤ separators (run walk fs root f fuel).entry + 1) := by
  refine run_induction walk fs root f
    (fun s => s.files_to_process.length < 2 ^ 32 →
      s.files_to_process.Pairwise (fun a b => separators a ≤ separators b)
      ∧ (s.i < s.files_to_process.length →
          ∀ x ∈ s.files_to_process, separators x ≤ separators s.entry + 1)) ?_ ?_ fuel
  · intro _
    obtain ⟨-, -, -, h4, -, -, h7, h8⟩ := enter_facts fs root
    by_cases hr : (enter fs root).1.status = Status.running
    · refine ⟨by rw [h7 hr]; simp, fun hi x hx => ?_⟩
      have he := entry_mem _ hi
      rw [h7 hr] at hx he
      simp only [List.mem_singleton] at hx he
      rw [hx, he]
      exact Nat.le_succ _
    · refine ⟨by rw [h8 hr]; simp, fun hi => ?_⟩
      rw [h8 hr] at hi
      simp at hi
  · intro n s' hs hit
    have hle := (frontier_structure walk fs root f n).2.2
    generalize run walk fs root f n = s at hs hit hle
    have key : ∀ ch : List String, s.i ≠ s.files_to_process.length →
        (s.files_to_process ++ ch).length < 2 ^ 32 →
        (∀ x ∈ ch, separators x = separators s.entry + 1) →
        (s.files_to_process ++ ch).Pairwise (fun a b => separators a ≤ separators b)
        ∧ ∀ j, s.i ≤ j → j < (s.files_to_process ++ ch).length →
            ∀ x ∈ s.files_to_process ++ ch,
              separators x ≤ separators ((s.files_to_process ++ ch).getD j "") + 1 := by
      intro ch hi hlen hch
      have hlt : s.i < s.files_to_process.length := lt_of_le_of_ne hle hi
      have hl : s.files_to_process.length < 2 ^ 32 := by
        rw [List.length_append] at hlen; omega
      obtain ⟨a1, a2⟩ := hs hl
      exact sorted_step separators s.files_to_process ch s.i hlt a1 (a2 hlt) hch
    have hmod : s.i ≠ s.files_to_process.length → s.files_to_process.length < 2 ^ 32 →
        s.i ≤ (s.i + 1) % 2 ^ 32 := by
      intro hi hl
      have hlt : s.i < s.files_to_process.length := lt_of_le_of_ne hle hi
      rw [Nat.mod_eq_of_lt (by omega)]
      exact Nat.le_succ _
    have hchild : ∀ l, fs.opendir s.entry = some l →
        ∀ x ∈ children s.entry l, separators x = separators s.entry + 1 := by
      intro l hl x hx
      obtain ⟨n, hn, rfl⟩ := mem_children _ _ _ hx
      obtain ⟨h1, h2⟩ := (hfs _ _ hl).2 n hn
      exact separators_path_name _ _ h1 h2
    cases hit with
    | frozen h => exact hs
    | ret h hi => exact hs
    | skip tr h hi ht hc =>
      intro hl
      have k := key [] hi (by simpa using hl) (by simp)
      simp only [List.append_nil] at k
      exact ⟨k.1, fun hj => k.2 _ (hmod hi hl) hj⟩
    | regular tr h hi ht h1 h2 =>
      intro hl
      have k := key [] hi (by simpa using hl) (by simp)
      simp only [List.append_nil] at k
      exact ⟨k.1, fun hj => k.2 _ (hmod hi hl) hj⟩
    | fallback tr h hi ht h1 h2 h3 h4 =>
      intro hl
      have hl' : s.files_to_process.length < 2 ^ 32 := by simpa using hl
      have k := key [] hi (by simpa using hl') (by simp)
      simp only [List.append_nil] at k
      exact ⟨by simpa using k.1, fun hj => by
        have := k.2 _ (hmod hi hl') (by simpa using hj)
        simpa [State.entry] using this⟩
    | open_failed tr m h hi ht h1 h2 h3 h4 =>
      intro hl
      have hl' : s.files_to_process.length < 2 ^ 32 := by simpa using hl
      have k := key [] hi (by simpa using hl') (by simp)
      simp only [List.append_nil] at k
      exact ⟨by simpa using k.1, fun hj => by
        have := k.2 _ (le_refl _) (by simpa using hj)
        simpa [State.entry] using this⟩
    | expanded tr l h hi ht h1 h2 h3 h4 h5 =>
      intro hl
      have hl' : (s.files_to_process ++ children s.entry l).length < 2 ^ 32 := hl
      have hl'' : s.files_to_process.length < 2 ^ 32 := by
        rw [List.length_append] at hl'; omega
      have k := key _ hi hl' (hchild l h4)
      exact ⟨k.1, fun hj => k.2 _ (hmod hi hl'') hj⟩
    | close_failed tr m l h hi ht h1 h2 h3 h4 h5 =>
      intro hl
      have hl' : (s.files_to_process ++ children s.entry l).length < 2 ^ 32 := hl
      have k := key _ hi hl' (hchild l h4)
      exact ⟨k.1, fun hj => k.2 _ (by simp) hj⟩

/-- For a non-empty name the state before the loop is running or has ended
with an error. -/
theorem enter_not_returned (fs : FS) (root : String) (h : root ≠ "") :
    (enter fs root).1.status ≠ Status.returned := by
  unfold enter sub_home
  by_cases hh : fs.HOME = "" <;> split_ifs <;> simp_all [State.init, State.quit]

/-- A run on a non-empty name that has returned was entered with the loop
running. -/
theorem returned_entered (walk : Bool) (fs : FS) (root : String) (f : String → Bool)
    (fuel : Nat) (hne : root ≠ "")
    (h : (run walk fs root f fuel).status = Status.returned) :
    (enter fs root).1.status = Status.running := by
  by_contra hr
  rw [run_of_not_running walk fs root f hr fuel] at h
  exact enter_not_returned fs root hne h

/-- The run on the empty name has nothing to process and collects nothing. -/
theorem run_empty (walk : Bool) (fs : FS) (f : String → Bool) (fuel : Nat) :
    (run walk fs "" f fuel).files_to_process = []
    ∧ (run walk fs "" f fuel).file_list = [] := by
  have h : (enter fs "").1.status ≠ Status.running := by
    unfold enter
    simp
  rw [run_of_not_running walk fs "" f h fuel]
  obtain ⟨h1, -, -, -, -, -, -, h8⟩ := enter_facts fs ""
  exact ⟨h8 h, h1⟩

/-! ## When a call is aborted -/

/-- A turn that ends the call with an error worked on a fatal entry. -/
theorem iter_exited (walk : Bool) (fs : FS) (f : String → Bool) (s s' : State)
    (hit : Iter walk fs f s s') (hrun : s.status = Status.running)
    (hle : s.i ≤ s.files_to_process.length) (hex : ∃ msg, s'.status = Status.exited msg) :
    Fatal walk fs s := by
  obtain ⟨msg, hex⟩ := hex
  cases hit with
  | frozen h => exact absurd hrun h
  | ret h hi => simp at hex
  | skip tr h hi ht hc => simp [h] at hex
  | regular tr h hi ht h1 h2 => simp [h] at hex
  | fallback tr h hi ht h1 h2 h3 h4 => simp [h] at hex
  | open_failed tr m h hi ht h1 h2 h3 h4 =>
    exact ⟨h, lt_of_le_of_ne hle hi, h2, h3, Or.inl ⟨h1, h4⟩⟩
  | expanded tr l h hi ht h1 h2 h3 h4 h5 => simp [h] at hex
  | close_failed tr m l h hi ht h1 h2 h3 h4 h5 =>
    exact ⟨h, lt_of_le_of_ne hle hi, h2, h3, Or.inr ⟨h1, by simp [h4], h5⟩⟩

/-- A turn on a fatal entry ends the call with an error. -/
theorem iter_fatal (walk : Bool) (fs : FS) (f : String → Bool) (s s' : State)
    (hit : Iter walk fs f s s') (hf : Fatal walk fs s) :
    ∃ msg, s'.status = Status.exited msg := by
  obtain ⟨hrun, hi, hacc, hb, hcase⟩ := hf
  cases hit with
  | frozen h => exact absurd hrun h
  | ret h hi' => omega
  | skip tr h hi' ht hc =>
    exfalso
    rcases hc with hc | hc | hc
    · rcases hcase with hcase | hcase
      · rw [hc] at hcase; simp at hcase
      · rw [hc] at hcase; simp at hcase
    · rw [hc] at hacc; simp at hacc
    · rcases hcase with hcase | hcase
      · exact hb (hc.2 (Or.inl hcase.1))
      · exact hb (hc.2 hcase.1)
  | regular tr h hi' ht h1 h2 =>
    exfalso
    rcases hcase with hcase | hcase <;> rw [h1] at hcase <;> simp at hcase
  | fallback tr h hi' ht h1 h2 h3 h4 =>
    exfalso
    rcases hcase with hcase | hcase
    · rw [h1] at hcase; simp at hcase
    · exact hcase.2.1 h4
  | open_failed tr m h hi' ht h1 h2 h3 h4 => exact ⟨m, rfl⟩
  | expanded tr l h hi' ht h1 h2 h3 h4 h5 =>
    exfalso
    rcases hcase with hcase | hcase
    · rw [h4] at hcase; simp at hcase
    · rw [h5] at hcase; simp at hcase
  | close_failed tr m l h hi' ht h1 h2 h3 h4 h5 => exact ⟨m, rfl⟩

/-- Once the loop is entered, a run has ended with an error exactly when one
of its earlier turns worked on a fatal entry. -/
theorem exited_iff_fatal (walk : Bool) (fs : FS) (root : String) (f : String → Bool)
    (hrun : (enter fs root).1.status = Status.running) (fuel : Nat) :
    (∃ msg, (run walk fs root f fuel).status = Status.exited msg)
      ↔ ∃ n, n < fuel ∧ Fatal walk fs (run walk fs root f n) := by
  constructor
  · intro hex
    induction fuel with
    | zero =>
      obtain ⟨msg, hex⟩ := hex
      have : run walk fs root f 0 = (enter fs root).1 := rfl
      rw [this, hrun] at hex
      simp at hex
    | succ k ih =>
      have hit := iter_body walk fs f (enter fs root).2 (run walk fs root f k)
      rw [← run_succ] at hit
      by_cases hk : (run walk fs root f k).status = Status.running
      · exact ⟨k, Nat.lt_succ_self k,
          iter_exited walk fs f _ _ hit hk (frontier_structure walk fs root f k).2.2 hex⟩
      · have hfr := run_frozen walk fs root f k (k + 1) hk (Nat.le_succ k)
        rw [hfr] at hex
        obtain ⟨n, hn, hf⟩ := ih hex
        exact ⟨n, Nat.lt_succ_of_lt hn, hf⟩
  · rintro ⟨n, hn, hf⟩
    have hit := iter_body walk fs f (enter fs root).2 (run walk fs root f n)
    rw [← run_succ] at hit
    obtain ⟨msg, hm⟩ := iter_fatal walk fs f _ _ hit hf
    have hfr := run_frozen walk fs root f (n + 1) fuel (by rw [hm]; simp) hn
    exact ⟨msg, by rw [hfr, hm]⟩

/-- The files to process of `dir_open` are the root and the child paths of the
root, so they stay within one more than a bound on the names the root lists. -/
theorem open_frontier_bounded (fs : FS) (root : String) (f : String → Bool) (B : Nat)
    (hB : ∀ l, Opens fs (enter fs root).2 l → (children (enter fs root).2 l).length ≤ B)
    (fuel : Nat) :
    (run false fs root f fuel).files_to_process.length ≤ 1 + B
    ∧ ((run false fs root f fuel).processed_dir = false →
        (run false fs root f fuel).files_to_process.length ≤ 1
        ∧ ∀ x ∈ (run false fs root f fuel).files_to_process, x = (enter fs root).2) := by
  refine run_induction false fs root f
    (fun s => s.files_to_process.length ≤ 1 + B
      ∧ (s.processed_dir = false → s.files_to_process.length ≤ 1
          ∧ ∀ x ∈ s.files_to_process, x = (enter fs root).2)) ?_ ?_ fuel
  · obtain ⟨-, -, -, -, -, -, h7, h8⟩ := enter_facts fs root
    by_cases hr : (enter fs root).1.status = Status.running
    · simp [h7 hr]
    · simp [h8 hr]
  · intro n s' hs hit
    have hle := (frontier_structure false fs root f n).2.2
    generalize run false fs root f n = s at hs hit hle
    obtain ⟨a1, a2⟩ := hs
    have hmark : (mark false fs s).processed_dir = true := rfl
    have hexp : ∀ l, s.i ≠ s.files_to_process.length →
        (fs.lstat s.entry = some FileType.dir ∨ fs.lstat s.entry = some FileType.lnk) →
        fs.access s.entry = true → fs.opendir s.entry = some l → ¬ blocked false fs s →
        (s.files_to_process ++ children s.entry l).length ≤ 1 + B := by
      intro l hi h1 h2 h4 h3
      have h3' : s.processed_dir = false := by simpa [blocked] using h3
      have he : s.entry = (enter fs root).2 :=
        (a2 h3').2 _ (entry_mem s (lt_of_le_of_ne hle hi))
      have hk := hB l (by rw [← he]; exact ⟨h1, h2, h4⟩)
      rw [← he] at hk
      have := (a2 h3').1
      rw [List.length_append]
      omega
    cases hit with
    | frozen h => exact ⟨a1, a2⟩
    | ret h hi => exact ⟨a1, a2⟩
    | skip tr h hi ht hc => exact ⟨a1, a2⟩
    | regular tr h hi ht h1 h2 => exact ⟨a1, a2⟩
    | fallback tr h hi ht h1 h2 h3 h4 =>
      exact ⟨by simpa using a1, fun hp => by simp [hmark] at hp⟩
    | open_failed tr m' h hi ht h1 h2 h3 h4 =>
      exact ⟨by simpa using a1, fun hp => by simp [hmark] at hp⟩
    | expanded tr l h hi ht h1 h2 h3 h4 h5 =>
      exact ⟨hexp l hi h1 h2 h4 h3, fun hp => by simp [hmark] at hp⟩
    | close_failed tr m' l h hi ht h1 h2 h3 h4 h5 =>
      exact ⟨hexp l hi h1 h2 h4 h3, fun hp => by simp [hmark] at hp⟩

/-- In a file system that is finite for the traversal, `dir_traverse` has ended
after two turns more than the names the directories list. -/
theorem traverse_run_ends (fs : FS) (root : String) (f : String → Bool)
    (C : List String) (size : String → Nat)
    (hfin : FiniteWalk fs (enter fs root).2 C size) (fuel : Nat)
    (hfuel : 2 + (C.map size).sum ≤ fuel) :
    (run true fs root f fuel).status ≠ Status.running := by
  have hlen : ∀ n, (run true fs root f n).files_to_process.length
      ≤ 1 + (C.map size).sum := fun n =>
    le_trans (Nat.le_add_right _ _) (frontier_bounded fs root f C size hfin n).2
  have hend := run_ends true fs root f (1 + (C.map size).sum) hfin.fits hlen
  rw [run_frozen true fs root f (1 + (C.map size).sum + 1) fuel hend (by omega)]
  exact hend

/-- When the root and the names it lists are within the range of the 32-bit
loop counter, `dir_open` has ended after two turns more than these names. -/
theorem open_run_ends (fs : FS) (root : String) (f : String → Bool) (B : Nat)
    (hB : ∀ l, Opens fs (enter fs root).2 l → (children (enter fs root).2 l).length ≤ B)
    (hfits : 1 + B < 2 ^ 32) (fuel : Nat) (hfuel : 2 + B ≤ fuel) :
    (run false fs root f fuel).status ≠ Status.running := by
  have hlen : ∀ n, (run false fs root f n).files_to_process.length ≤ 1 + B := fun n =>
    (open_frontier_bounded fs root f B hB n).1
  have hend := run_ends false fs root f (1 + B) hfits hlen
  rw [run_frozen false fs root f (1 + B + 1) fuel hend (by omega)]
  exact hend

/-- The file system `fs_cycle` is finite for a traversal from `d`: every path
that opens names the one directory `/cwd/d`, which lists two names other than
`.` and `..`. -/
theorem fs_cycle_finite :
    FiniteWalk fs_cycle (enter fs_cycle "d").2 ["/cwd/d"] (fun _ => 2) where
  canonical := by
    intro p l _ h
    have h := h.2.2
    by_cases hp : names_d p.data = true
    · simp [fs_cycle, hp]
    · simp [fs_cycle, hp] at h
  listing := by
    intro p l _ h
    have h := h.2.2
    by_cases hp : names_d p.data = true
    · simp only [fs_cycle, hp, if_true] at h
      cases h
      simp [children]
    · simp [fs_cycle, hp] at h
  fits := by simp

/-! ### A directory with many subdirectories -/

theorem wide_root (n : Nat) : (enter (fs_wide n) "w").2 = "w" := rfl

theorem wide_entered (n : Nat) : (enter (fs_wide n) "w").1.status = Status.running := rfl

theorem wide_child_ne (n : Nat) (x : String) (hx : x ∈ wide_names n) :
    "/cwd/" ++ path_name "w" x ≠ "/cwd/w" := by
  intro h
  have h1 := string_append_left_cancel _ _ _ h
  obtain ⟨k, -, rfl⟩ := List.mem_map.mp hx
  have h2 := path_name_length_gt "w" ("s" ++ toString k) (by
    intro e
    have := congrArg String.length e
    simp only [String.length_append] at this
    have h0 : "s".length = 1 := rfl
    have h00 : "".length = 0 := rfl
    omega)
  rw [h1] at h2
  exact absurd h2 (lt_irrefl _)

/-- The directories of `fs_wide n` list `n` names in all. -/
theorem wide_sum (n : Nat) : ((wide_canonical n).map (wide_size n)).sum = n := by
  have h : ∀ l : List String, (∀ x ∈ l, x ∈ wide_names n) →
      ((l.map (fun x => "/cwd/" ++ path_name "w" x)).map (wide_size n)).sum = 0 := by
    intro l
    induction l with
    | nil => intro _; rfl
    | cons a l ih =>
      intro hl
      have ha : wide_size n ("/cwd/" ++ path_name "w" a) = 0 := by
        unfold wide_size
        rw [if_neg (wide_child_ne n a (hl a (List.mem_cons_self _ _)))]
      rw [List.map_cons, List.map_cons, List.sum_cons, ha,
        ih (fun x hx => hl x (List.mem_cons_of_mem _ hx))]
  unfold wide_canonical
  rw [List.map_cons, List.sum_cons, h _ (fun x hx => hx)]
  simp [wide_size]

/-- A directory of `fs_wide n` lists no more names than `wide_size` tells. -/
theorem wide_listing (n : Nat) (p : String) (l : List String)
    (h : (fs_wide n).opendir p = some l) :
    (children p l).length ≤ wide_size n ((fs_wide n).realpath p) := by
  by_cases hp : p = "w"
  · subst hp
    simp only [fs_wide, if_true] at h
    cases h
    have e : wide_size n ((fs_wide n).realpath "w") = n := by
      simp [fs_wide, wide_size]
    rw [e]
    have e2 : children "w" ("." :: ".." :: wide_names n)
        = children "w" (wide_names n) := by
      simp [children]
    rw [e2]
    refine le_trans (children_length_le _ _) ?_
    simp [wide_names]
  · by_cases hq : p ∈ (wide_names n).map (path_name "w")
    · simp only [fs_wide, hp, hq, if_false, if_true] at h
      cases h
      simp [children]
    · simp only [fs_wide, hp, hq, if_false] at h
      cases h

/-- The root of `fs_wide n` lists at most `n` names other than `.` and
`..`. -/
theorem wide_root_listing (n : Nat) (l : List String)
    (h : Opens (fs_wide n) (enter (fs_wide n) "w").2 l) :
    (children (enter (fs_wide n) "w").2 l).length ≤ n := by
  have h1 := wide_listing n _ l h.2.2
  have e : wide_size n ((fs_wide n).realpath (enter (fs_wide n) "w").2) = n := by
    rw [wide_root]
    simp [fs_wide, wide_size]
  rw [e] at h1
  exact h1

/-- The file system `fs_wide n` is finite for a traversal from `w` as soon as
the root and its `n` entries are within the range of the loop counter, however
many directories these entries are. -/
theorem fs_wide_finite (n : Nat) (hn : 1 + n < 2 ^ 32) :
    FiniteWalk (fs_wide n) (enter (fs_wide n) "w").2 (wide_canonical n) (wide_size n) where
  canonical := by
    intro p l _ h
    have h := h.2.2
    by_cases hp : p = "w"
    · subst hp
      exact List.mem_cons_self _ _
    · by_cases hq : p ∈ (wide_names n).map (path_name "w")
      · obtain ⟨x, hx, rfl⟩ := List.mem_map.mp hq
        exact List.mem_cons_of_mem _ (List.mem_map.mpr ⟨x, hx, rfl⟩)
      · simp only [fs_wide, hp, hq, if_false] at h
        cases h
  listing := fun p l _ h => wide_listing n p l h.2.2
  fits := by rw [wide_sum]; exact hn

/-- No entry of `fs_wide n` is fatal: every directory opens and closes. -/
theorem fs_wide_no_fatal (walk : Bool) (n : Nat) (s : State) : ¬ Fatal walk (fs_wide n) s := by
  intro ⟨_, _, _, _, h⟩
  rcases h with ⟨h1, h2⟩ | ⟨_, _, h3⟩
  · by_cases hp : s.entry = "w"
    · simp [fs_wide, hp] at h2
    · by_cases hq : s.entry ∈ (wide_names n).map (path_name "w")
      · simp only [fs_wide, hp, hq, if_false, if_true] at h2
        cases h2
      · simp only [fs_wide, hp, hq, or_self, if_false] at h1
        cases h1
  · simp [fs_wide] at h3
/-! ## The form of the files to process -/

/-- When the loop is entered, the files to process are the normalized root
followed by child paths of opened entries, and every opened entry is one of
the files to process. -/
theorem frontier_children (walk : Bool) (fs : FS) (root : String) (f : String → Bool)
    (hrun : (enter fs root).1.status = Status.running) (fuel : Nat) :
    ∃ rest, (run walk fs root f fuel).files_to_process = (enter fs root).2 :: rest
      ∧ (∀ x ∈ rest, ∃ q n l, q ∈ (run walk fs root f fuel).files_to_process
          ∧ q ∈ opened (run walk fs root f fuel).trace ∧ fs.opendir q = some l ∧ n ∈ l
          ∧ n ≠ "." ∧ n ≠ ".." ∧ x = path_name q n)
      ∧ (∀ q ∈ opened (run walk fs root f fuel).trace,
          q ∈ (run walk fs root f fuel).files_to_process) := by
  refine run_induction walk fs root f
    (fun s => ∃ rest, s.files_to_process = (enter fs root).2 :: rest
      ∧ (∀ x ∈ rest, ∃ q n l, q ∈ s.files_to_process ∧ q ∈ opened s.trace
          ∧ fs.opendir q = some l ∧ n ∈ l ∧ n ≠ "." ∧ n ≠ ".." ∧ x = path_name q n)
      ∧ (∀ q ∈ opened s.trace, q ∈ s.files_to_process)) ?_ ?_ fuel
  · obtain ⟨-, -, -, -, h5, -, h7, -⟩ := enter_facts fs root
    exact ⟨[], h7 hrun, by simp, by simp [h5]⟩
  · intro n s' hs hit
    obtain ⟨rest, a1, a2, a3⟩ := hs
    have hlt := run_lt walk fs root f n
    generalize run walk fs root f n = s at hit a1 a2 a3 hlt
    have hquiet : ∀ tr : List Event, opened tr = opened s.trace →
        ∃ rest, s.files_to_process = (enter fs root).2 :: rest
          ∧ (∀ x ∈ rest, ∃ q n l, q ∈ s.files_to_process ∧ q ∈ opened tr
              ∧ fs.opendir q = some l ∧ n ∈ l ∧ n ≠ "." ∧ n ≠ ".." ∧ x = path_name q n)
          ∧ (∀ q ∈ opened tr, q ∈ s.files_to_process) := by
      intro tr ht
      rw [ht]
      exact ⟨rest, a1, a2, a3⟩
    have hgrow : ∀ (tr : List Event) (extra : List String),
        opened tr = opened s.trace ++ [s.entry] → s.i ≠ s.files_to_process.length →
        (∀ x ∈ extra, ∃ n l, fs.opendir s.entry = some l ∧ n ∈ l ∧ n ≠ "." ∧ n ≠ ".."
          ∧ x = path_name s.entry n) →
        ∃ rest', s.files_to_process ++ extra = (enter fs root).2 :: rest'
          ∧ (∀ x ∈ rest', ∃ q n l, q ∈ s.files_to_process ++ extra ∧ q ∈ opened tr
              ∧ fs.opendir q = some l ∧ n ∈ l ∧ n ≠ "." ∧ n ≠ ".." ∧ x = path_name q n)
          ∧ (∀ q ∈ opened tr, q ∈ s.files_to_process ++ extra) := by
      intro tr extra ht hi hex
      have hpm := entry_mem s (hlt hi)
      refine ⟨rest ++ extra, by rw [a1]; rfl, ?_, ?_⟩
      · intro x hx
        rcases List.mem_append.mp hx with hx | hx
        · obtain ⟨q, n, l, b1, b2, b3⟩ := a2 x hx
          exact ⟨q, n, l, List.mem_append_left _ b1, by rw [ht]; simp [b2], b3⟩
        · obtain ⟨n, l, b⟩ := hex x hx
          exact ⟨s.entry, n, l, List.mem_append_left _ hpm, by rw [ht]; simp, b⟩
      · intro q hq
        rw [ht] at hq
        rcases List.mem_append.mp hq with hq | hq
        · exact List.mem_append_left _ (a3 q hq)
        · simp only [List.mem_singleton] at hq
          rw [hq]; exact List.mem_append_left _ hpm
    have hkids : ∀ l, fs.opendir s.entry = some l → ∀ x ∈ children s.entry l,
        ∃ n l', fs.opendir s.entry = some l' ∧ n ∈ l' ∧ n ≠ "." ∧ n ≠ ".."
          ∧ x = path_name s.entry n := by
      intro l h4 x hx
      unfold children at hx
      obtain ⟨n, hn, rfl⟩ := List.mem_map.mp hx
      obtain ⟨hn1, hn2⟩ := List.mem_filter.mp hn
      simp only [decide_eq_true_eq] at hn2
      exact ⟨n, l, h4, hn1, hn2.1, hn2.2, rfl⟩
    cases hit with
    | frozen h => exact ⟨rest, a1, a2, a3⟩
    | ret h hi => exact ⟨rest, a1, a2, a3⟩
    | skip tr h hi ht hc => exact hquiet tr ht
    | regular tr h hi ht h1 h2 => exact hquiet tr ht
    | fallback tr h hi ht h1 h2 h3 h4 =>
      simpa using hgrow tr [] ht hi (by simp)
    | open_failed tr m h hi ht h1 h2 h3 h4 =>
      simpa using hgrow tr [] ht hi (by simp)
    | expanded tr l h hi ht h1 h2 h3 h4 h5 =>
      simpa using hgrow tr (children s.entry l) ht hi (hkids l h4)
    | close_failed tr m l h hi ht h1 h2 h3 h4 h5 =>
      simpa using hgrow tr (children s.entry l) ht hi (hkids l h4)

theorem path_name_cases (q n : String) :
    (q ≠ "/" ∧ path_name q n = q ++ "/" ++ n) ∨ (q = "/" ∧ path_name q n = "/" ++ n) := by
  unfold path_name directory_separator
  by_cases h : q = "/"
  · right; subst h; exact ⟨rfl, by simp⟩
  · left; exact ⟨h, by simp [h]⟩

theorem enter_slash (fs : FS) :
    enter fs "/" = ({ State.init with files_to_process := ["/"] }, "/") := by
  have h1 : ("/" : String) ≠ "" := by decide
  have h2 : ¬ ("/" : String).data.head? = some '~' := by decide
  have h3 : strip_separator "/" = "/" := by decide
  unfold enter sub_home
  rw [if_neg h1, if_neg h2]
  simp only [h3]
  rfl

theorem single_slash_child (q n : String) (hq : SingleSlash q) (hn : n ≠ "")
    (hs : '/' ∉ n.data) : SingleSlash (path_name q n) := by
  right
  rw [path_name_data]
  rcases hq with hq | ⟨c, cs, e, hc⟩
  · subst hq
    cases hd : n.data with
    | nil => exact absurd hd ((string_ne_empty_iff n).mp hn)
    | cons c cs =>
      refine ⟨c, cs, by simp, ?_⟩
      intro hc
      rw [hd] at hs
      exact hs (by simp [hc])
  · have hne : q ≠ "/" := by
      intro h; rw [h] at e; simp at e
    refine ⟨c, cs ++ '/' :: n.data, by simp [hne, e], hc⟩

theorem single_slash_no_double (x : String) (h : SingleSlash x) :
    ¬ "//".data <+: x.data := by
  intro hp
  obtain ⟨t, ht⟩ := hp
  rcases h with h | ⟨c, cs, e, hc⟩
  · subst h
    have := congrArg List.length ht
    simp at this
  · rw [e] at ht
    have h2 : ("//" : String).data = ['/', '/'] := rfl
    rw [h2] at ht
    simp only [List.cons_append, List.cons.injEq] at ht
    exact hc ht.2.1.symm

/-- With proper listings, every file to process of a run on the root `/` is
`/` or begins with exactly one separator. -/
theorem slash_frontier (walk : Bool) (fs : FS) (f : String → Bool)
    (hfs : ProperListings fs) (fuel : Nat) :
    ∀ x ∈ (run walk fs "/" f fuel).files_to_process, SingleSlash x := by
  refine run_induction walk fs "/" f
    (fun s => ∀ x ∈ s.files_to_process, SingleSlash x) ?_ ?_ fuel
  · rw [enter_slash]
    intro x hx
    simp only [List.mem_singleton] at hx
    exact Or.inl hx
  · intro n s' hs hit
    have hlt := run_lt walk fs "/" f n
    generalize run walk fs "/" f n = s at hit hs hlt
    have hexp : ∀ l, fs.opendir s.entry = some l → s.i ≠ s.files_to_process.length →
        ∀ x ∈ s.files_to_process ++ children s.entry l, SingleSlash x := by
      intro l h4 hi x hx
      rcases List.mem_append.mp hx with hx | hx
      · exact hs x hx
      · obtain ⟨nm, hnm, rfl⟩ := mem_children _ _ _ hx
        obtain ⟨-, hv⟩ := hfs _ _ h4
        exact single_slash_child _ _ (hs _ (entry_mem s (hlt hi))) (hv nm hnm).1
          (hv nm hnm).2
    cases hit with
    | frozen h => exact hs
    | ret h hi => exact hs
    | skip tr h hi ht hc => exact hs
    | regular tr h hi ht h1 h2 => exact hs
    | fallback tr h hi ht h1 h2 h3 h4 => simpa using hs
    | open_failed tr m h hi ht h1 h2 h3 h4 => simpa using hs
    | expanded tr l h hi ht h1 h2 h3 h4 h5 => simpa using hexp l h4 hi
    | close_failed tr m l h hi ht h1 h2 h3 h4 h5 => simpa using hexp l h4 hi

/-! ## Actions before the loop do not affect it -/

theorem after_entry (pre : List Event) (s : State) : (s.after pre).entry = s.entry := rfl

theorem log_after (pre : List Event) (s : State) (e : Event) :
    (s.after pre).log e = (s.log e).after pre := by
  simp [State.after, State.log]

theorem warn_after (pre : List Event) (s : State) (m : String) :
    (s.after pre).warn m = (s.warn m).after pre := log_after pre s _

theorem quit_after (pre : List Event) (s : State) (m : String) :
    (s.after pre).quit m = (s.quit m).after pre := by
  simp [State.after, State.log, State.quit]

theorem read_status_after (fs : FS) (pre : List Event) (p : String) (s : State) :
    read_status fs p (s.after pre)
      = ((read_status fs p s).1, (read_status fs p s).2.after pre) := by
  unfold read_status
  cases fs.lstat p with
  | none => simp [log_after, warn_after]
  | some t => by_cases h : fs.access p = false <;> simp [h, log_after, warn_after]

theorem regular_file_after (f : String → Bool) (pre : List Event) (p : String) (s : State) :
    regular_file f p (s.after pre) = (regular_file f p s).after pre := by
  unfold regular_file
  by_cases hf : f p = true <;> simp [hf, State.after, State.log]

theorem have_seen_after (fs : FS) (pre : List Event) (p : String) (s : State) :
    have_seen fs p (s.after pre) = ((have_seen fs p s).1, (have_seen fs p s).2.after pre) := by
  unfold have_seen
  by_cases h : fs.realpath p ∈ s.files_seen
  · simp [h, State.after, State.log]
  · simp [h, State.after, State.log, set_insert]

theorem open_directory_after (fs : FS) (pre : List Event) (d : String) (t : FileType)
    (p : String) (s : State) :
    open_directory fs d t p (s.after pre) = (open_directory fs d t p s).after pre := by
  unfold open_directory
  cases fs.opendir p with
  | none =>
    by_cases ht : t = FileType.lnk
    · simp [ht, State.after, State.log]
    · simp [ht, State.after, State.log, State.quit]
  | some l =>
    by_cases hc : fs.closedir p = false
    · simp [hc, State.after, State.log, State.quit]
    · simp [hc, State.after, State.log]

theorem skip_other_after (pre : List Event) (t : FileType) (p : String) (s : State) :
    skip_other t p (s.after pre) = (skip_other t p s).after pre := by
  cases t <;> simp [skip_other, warn_after]

theorem body_after (walk : Bool) (fs : FS) (f : String → Bool) (d : String)
    (pre : List Event) (s : State) :
    body walk fs f d (s.after pre) = (body walk fs f d s).after pre := by
  cases walk with
  | true =>
    show dir_traverse_body fs f d (s.after pre) = (dir_traverse_body fs f d s).after pre
    unfold dir_traverse_body
    simp only [after_entry, read_status_after]
    rcases hrs : read_status fs s.entry s with ⟨_ | t, s1⟩
    · rfl
    · simp only
      by_cases hr : t = FileType.reg
      · simp only [hr, if_true]
        exact regular_file_after f pre _ _
      · simp only [hr, if_false]
        by_cases hd : t = FileType.dir ∨ t = FileType.lnk
        · simp only [hd, if_true, have_seen_after]
          rcases hhs : have_seen fs s.entry s1 with ⟨_ | _, s2⟩
          · simp only
            by_cases hst : s2.status ≠ Status.running
            · have : (s2.after pre).status ≠ Status.running := hst
              rw [if_pos this, if_pos hst]
            · have : ¬ (s2.after pre).status ≠ Status.running := hst
              rw [if_neg this, if_neg hst]
              exact open_directory_after fs pre d t _ s2
          · exact skip_other_after pre t _ s2
        · simp only [hd, if_false]
          exact skip_other_after pre t _ s1
  | false =>
    show dir_open_body fs f d (s.after pre) = (dir_open_body fs f d s).after pre
    unfold dir_open_body
    simp only [after_entry, read_status_after]
    rcases hrs : read_status fs s.entry s with ⟨_ | t, s1⟩
    · rfl
    · simp only
      by_cases hr : t = FileType.reg
      · simp only [hr, if_true]
        exact regular_file_after f pre _ _
      · simp only [hr, if_false]
        by_cases hd : t = FileType.dir ∨ t = FileType.lnk
        · simp only [hd, if_true]
          by_cases hp : s1.processed_dir = true
          · have : (s1.after pre).processed_dir = true := hp
            simp only [hp, this, if_true]
          · have : ¬ (s1.after pre).processed_dir = true := hp
            simp only [hp, this, if_false]
            exact open_directory_after fs pre d t _ { s1 with processed_dir := true }
        · simp only [hd, if_false]
          exact skip_other_after pre t _ s1

theorem loop_iter_after (pre : List Event) (b : State → State) (s : State)
    (h : b (s.after pre) = (b s).after pre) :
    loop_iter b (s.after pre) = (loop_iter b s).after pre := by
  unfold loop_iter
  have e1 : (s.after pre).status = s.status := rfl
  have e2 : (s.after pre).i = s.i := rfl
  have e3 : (s.after pre).files_to_process = s.files_to_process := rfl
  simp only [e1, e2, e3, h]
  by_cases hs : s.status ≠ Status.running
  · rw [if_pos hs, if_pos hs]
  · rw [if_neg hs, if_neg hs]
    by_cases hi : s.i = s.files_to_process.length
    · rw [if_pos hi, if_pos hi]; rfl
    · rw [if_neg hi, if_neg hi]
      have e4 : ((b s).after pre).status = (b s).status := rfl
      simp only [e4]
      by_cases hb : (b s).status ≠ Status.running
      · rw [if_pos hb, if_pos hb]
      · rw [if_neg hb, if_neg hb]; rfl

/-- Iterating the loop from a state with more actions in front of its trace
gives the same state with those actions in front. -/
theorem iterate_after (walk : Bool) (fs : FS) (f : String → Bool) (d : String)
    (pre : List Event) (s : State) (fuel : Nat) :
    (loop_iter (body walk fs f d))^[fuel] (s.after pre)
      = ((loop_iter (body walk fs f d))^[fuel] s).after pre := by
  induction fuel with
  | zero => rfl
  | succ n ih =>
    rw [Function.iterate_succ_apply', Function.iterate_succ_apply', ih]
    exact loop_iter_after pre _ _ (body_after walk fs f d pre _)

/-- With a home directory that begins with the separator, the code before the
loop leaves `~` followed by `r` and the home directory followed by `r` in the
same state, but for the recorded `getenv`. -/
theorem enter_home (fs : FS) (r : String) (hh : fs.HOME.data.head? = some '/')
    (hr : r = "" ∨ r.data.head? = some '/') :
    enter fs ("~" ++ r)
      = ((enter fs (fs.HOME ++ r)).1.after [Event.getenv], (enter fs (fs.HOME ++ r)).2) := by
  have hne : fs.HOME ≠ "" := by
    intro h
    rw [h] at hh
    simp at hh
  have hd : (fs.HOME ++ r).data.head? = some '/' := by
    rw [String.data_append]
    cases hc : fs.HOME.data with
    | nil => rw [hc] at hh; simp at hh
    | cons c cs => rw [hc] at hh; simpa using hh
  have h1 : "~" ++ r ≠ "" := by
    intro h
    have := congrArg String.data h
    simp at this
  have h2 : fs.HOME ++ r ≠ "" := by
    intro h
    rw [h] at hd
    simp at hd
  have h3 : ("~" ++ r).data.head? = some '~' := by simp
  have htd : ("~" ++ r).data = '~' :: r.data := by simp
  have h4 : ¬ (("~" ++ r).length ≥ 2 ∧ ("~" ++ r).data[1]? ≠ some '/') := by
    rcases hr with hr | hr
    · subst hr; decide
    · intro h
      apply h.2
      rw [htd]
      cases hd : r.data with
      | nil => rw [hd] at hr; simp at hr
      | cons c cs => rw [hd] at hr; simpa using hr
  have h5 : String.mk (("~" ++ r).data.drop 1) = r := by
    rw [htd]; rfl
  have h6 : ¬ (fs.HOME ++ r).data.head? = some '~' := by
    rw [hd]; decide
  have e1 : sub_home fs ("~" ++ r) = ([Event.getenv], Except.ok (fs.HOME ++ r)) := by
    unfold sub_home
    rw [if_pos h3, if_neg h4]
    simp only [hne, ne_eq, not_false_eq_true, if_true, h5]
  have e2 : sub_home fs (fs.HOME ++ r) = ([], Except.ok (fs.HOME ++ r)) := by
    unfold sub_home
    rw [if_neg h6]
  unfold enter
  rw [if_neg h1, if_neg h2, e1, e2]
  rfl

/-! ## Searching a string -/

theorem find_last_of_from_append (chars a b : List Char) (k found : Nat) :
    find_last_of_from chars (a ++ b) k found
      = find_last_of_from chars b (k + a.length) (find_last_of_from chars a k found) := by
  induction a generalizing k found with
  | nil => rfl
  | cons c a ih =>
    show find_last_of_from chars (c :: (a ++ b)) k found = _
    rw [find_last_of_from, ih, List.length_cons, find_last_of_from]
    have : k + 1 + a.length = k + (a.length + 1) := by omega
    rw [this]

theorem find_last_of_from_none (chars cs : List Char) (k found : Nat)
    (h : ∀ c ∈ cs, c ∉ chars) : find_last_of_from chars cs k found = found := by
  induction cs generalizing k found with
  | nil => rfl
  | cons c cs ih =>
    rw [find_last_of_from, ih _ _ (fun x hx => h x (List.mem_cons_of_mem _ hx)),
      if_neg (h c (List.mem_cons_self _ _))]

/-- The search from the back finds the last occurrence. -/
theorem find_last_of_split (s chars : String) (a b : List Char) (c : Char)
    (hs : s.data = a ++ c :: b) (hc : c ∈ chars.data) (hb : ∀ x ∈ b, x ∉ chars.data) :
    find_last_of s chars = a.length := by
  unfold find_last_of
  rw [hs, find_last_of_from_append, find_last_of_from, if_pos hc,
    find_last_of_from_none _ _ _ _ hb]
  omega

/-- Without an occurrence the search from the back gives `npos`. -/
theorem find_last_of_none (s chars : String) (h : ∀ x ∈ s.data, x ∉ chars.data) :
    find_last_of s chars = npos := by
  unfold find_last_of
  exact find_last_of_from_none _ _ _ _ h

/-- A list has no element with the property or splits at the last one. -/
theorem last_split (P : Char → Prop) (l : List Char) :
    (∀ x ∈ l, ¬ P x) ∨ ∃ a c b, l = a ++ c :: b ∧ P c ∧ ∀ x ∈ b, ¬ P x := by
  induction l with
  | nil => left; simp
  | cons d l ih =>
    rcases ih with h | ⟨a, c, b, h1, h2, h3⟩
    · by_cases hd : P d
      · right
        exact ⟨[], d, l, rfl, hd, h⟩
      · left
        intro x hx
        rcases List.mem_cons.mp hx with hx | hx
        · rw [hx]; exact hd
        · exact h x hx
    · right
      exact ⟨d :: a, c, b, by rw [h1]; rfl, h2, h3⟩

theorem mem_separator (x : Char) : x ∈ directory_separator.data ↔ x = '/' := by
  show x ∈ ['/'] ↔ _
  simp

/-! ## Splitting a string into words -/

theorem find_first_of_from_none (chars l : List Char) (k : Nat)
    (h : ∀ c ∈ l, c ∉ chars) : find_first_of_from chars l k = npos := by
  induction l generalizing k with
  | nil => rfl
  | cons c l ih =>
    rw [find_first_of_from, if_neg (h c (List.mem_cons_self _ _)),
      ih _ (fun x hx => h x (List.mem_cons_of_mem _ hx))]

theorem find_first_of_from_some (chars a b : List Char) (c : Char) (k : Nat)
    (ha : ∀ x ∈ a, x ∉ chars) (hc : c ∈ chars) :
    find_first_of_from chars (a ++ c :: b) k = k + a.length := by
  induction a generalizing k with
  | nil => simp [find_first_of_from, hc]
  | cons x a ih =>
    show find_first_of_from chars (x :: (a ++ c :: b)) k = _
    rw [find_first_of_from, if_neg (ha x (List.mem_cons_self _ _)),
      ih _ (fun y hy => ha y (List.mem_cons_of_mem _ hy)), List.length_cons]
    omega

theorem find_first_not_of_from_none (chars l : List Char) (k : Nat)
    (h : ∀ c ∈ l, c ∈ chars) : find_first_not_of_from chars l k = npos := by
  induction l generalizing k with
  | nil => rfl
  | cons c l ih =>
    rw [find_first_not_of_from, if_pos (h c (List.mem_cons_self _ _)),
      ih _ (fun x hx => h x (List.mem_cons_of_mem _ hx))]

theorem find_first_not_of_from_some (chars a b : List Char) (c : Char) (k : Nat)
    (ha : ∀ x ∈ a, x ∈ chars) (hc : c ∉ chars) :
    find_first_not_of_from chars (a ++ c :: b) k = k + a.length := by
  induction a generalizing k with
  | nil => simp [find_first_not_of_from, hc]
  | cons x a ih =>
    show find_first_not_of_from chars (x :: (a ++ c :: b)) k = _
    rw [find_first_not_of_from, if_pos (ha x (List.mem_cons_self _ _)),
      ih _ (fun y hy => ha y (List.mem_cons_of_mem _ hy)), List.length_cons]
    omega

/-- A list has no element with the property or splits at the first one. -/
theorem first_split (P : Char → Prop) (l : List Char) :
    (∀ x ∈ l, ¬ P x) ∨ ∃ a c b, l = a ++ c :: b ∧ (∀ x ∈ a, ¬ P x) ∧ P c := by
  induction l with
  | nil => left; simp
  | cons d l ih =>
    by_cases hd : P d
    · right
      exact ⟨[], d, l, rfl, by simp, hd⟩
    · rcases ih with h | ⟨a, c, b, h1, h2, h3⟩
      · left
        intro x hx
        rcases List.mem_cons.mp hx with hx | hx
        · rw [hx]; exact hd
        · exact h x hx
      · right
        refine ⟨d :: a, c, b, by rw [h1]; rfl, ?_, h3⟩
        intro x hx
        rcases List.mem_cons.mp hx with hx | hx
        · rw [hx]; exact hd
        · exact h2 x hx

theorem maximal_words_skip (seps a l : List Char) (ha : ∀ x ∈ a, x ∈ seps) :
    maximal_words seps (a ++ l) = maximal_words seps l := by
  induction a with
  | nil => rfl
  | cons x a ih =>
    show maximal_words seps (x :: (a ++ l)) = _
    rw [maximal_words, if_pos (ha x (List.mem_cons_self _ _)),
      ih (fun y hy => ha y (List.mem_cons_of_mem _ hy))]

theorem maximal_words_separators (seps l : List Char) (h : ∀ x ∈ l, x ∈ seps) :
    maximal_words seps l = [] := by
  have := maximal_words_skip seps l [] h
  rwa [List.append_nil] at this

theorem maximal_words_cons_sep (seps b : List Char) (c : Char) (hc : c ∈ seps) :
    maximal_words seps (c :: b) = maximal_words seps b := by
  rw [maximal_words, if_pos hc]

/-- A run of characters outside `seps` that ends at a separator is the first
word. -/
theorem maximal_words_word (seps w b : List Char) (c : Char) (hw : w ≠ [])
    (hf : ∀ x ∈ w, x ∉ seps) (hc : c ∈ seps) :
    maximal_words seps (w ++ c :: b) = w :: maximal_words seps b := by
  induction w with
  | nil => exact absurd rfl hw
  | cons x w ih =>
    have hx : x ∉ seps := hf x (List.mem_cons_self _ _)
    cases w with
    | nil =>
      show maximal_words seps (x :: c :: b) = _
      rw [maximal_words, if_neg hx, maximal_words_cons_sep seps b c hc]
      simp [starts_word, hc]
    | cons y w =>
      have hy : y ∉ seps := hf y (List.mem_cons_of_mem _ (List.mem_cons_self _ _))
      have e := ih (by simp) (fun z hz => hf z (List.mem_cons_of_mem _ hz))
      show maximal_words seps (x :: (y :: w ++ c :: b)) = _
      rw [maximal_words, if_neg hx, e]
      simp [starts_word, hy, push_char]

/-- A run of characters outside `seps` that ends the string is the only
word. -/
theorem maximal_words_last (seps w : List Char) (hw : w ≠ [])
    (hf : ∀ x ∈ w, x ∉ seps) : maximal_words seps w = [w] := by
  induction w with
  | nil => exact absurd rfl hw
  | cons x w ih =>
    have hx : x ∉ seps := hf x (List.mem_cons_self _ _)
    cases w with
    | nil => simp [maximal_words, hx, starts_word]
    | cons y w =>
      have hy : y ∉ seps := hf y (List.mem_cons_of_mem _ (List.mem_cons_self _ _))
      have e := ih (by simp) (fun z hz => hf z (List.mem_cons_of_mem _ hz))
      rw [maximal_words, if_neg hx, e]
      simp [starts_word, hy, push_char]

/-- A string is made of separators only, or is a run of separators, the first
word, and a rest that is empty or begins with a separator. -/
theorem maximal_words_cases (seps l : List Char) :
    ((∀ c ∈ l, c ∈ seps) ∧ maximal_words seps l = [])
    ∨ ∃ a w r, l = a ++ w ++ r ∧ (∀ x ∈ a, x ∈ seps) ∧ w ≠ [] ∧ (∀ x ∈ w, x ∉ seps)
        ∧ (r = [] ∨ ∃ d r', r = d :: r' ∧ d ∈ seps)
        ∧ maximal_words seps l = w :: maximal_words seps r := by
  rcases first_split (fun x => x ∉ seps) l with h | ⟨a, c, b, h1, h2, h3⟩
  · left
    have h' : ∀ c ∈ l, c ∈ seps := fun c hc => not_not.mp (h c hc)
    exact ⟨h', maximal_words_separators seps l h'⟩
  · right
    have ha : ∀ x ∈ a, x ∈ seps := fun x hx => not_not.mp (h2 x hx)
    rcases first_split (fun x => x ∈ seps) b with h | ⟨w, d, r', h4, h5, h6⟩
    · refine ⟨a, c :: b, [], by rw [h1]; simp, ha, by simp, ?_, Or.inl rfl, ?_⟩
      · intro x hx
        rcases List.mem_cons.mp hx with hx | hx
        · rw [hx]; exact h3
        · exact h x hx
      · rw [h1, maximal_words_skip seps a _ ha, maximal_words_last seps (c :: b) (by simp)]
        · rfl
        · intro x hx
          rcases List.mem_cons.mp hx with hx | hx
          · rw [hx]; exact h3
          · exact h x hx
    · have hw : ∀ x ∈ c :: w, x ∉ seps := by
        intro x hx
        rcases List.mem_cons.mp hx with hx | hx
        · rw [hx]; exact h3
        · exact h5 x hx
      refine ⟨a, c :: w, d :: r', by rw [h1, h4]; simp, ha, by simp, hw,
        Or.inr ⟨d, r', rfl, h6⟩, ?_⟩
      rw [h1, h4, maximal_words_skip seps a _ ha]
      have : c :: (w ++ d :: r') = (c :: w) ++ d :: r' := rfl
      rw [this, maximal_words_word seps (c :: w) r' d (by simp) hw h6,
        maximal_words_cons_sep seps r' d h6]


theorem drop_add_of_drop (l rest : List Char) (e k : Nat) (h : l.drop e = rest) :
    l.drop (e + k) = rest.drop k := by
  rw [← h, List.drop_drop, Nat.add_comm]

theorem find_first_not_of_eq (str seps : String) (e : Nat) (rest : List Char)
    (h : str.data.drop e = rest) :
    find_first_not_of str seps e = find_first_not_of_from seps.data rest e := by
  unfold find_first_not_of
  rw [h]

theorem find_first_of_eq (str seps : String) (e : Nat) (rest : List Char)
    (h : str.data.drop e = rest) :
    find_first_of str seps e = find_first_of_from seps.data rest e := by
  unfold find_first_of
  rw [h]

theorem substr_eq (str : String) (pos count : Nat) (rest : List Char)
    (h : str.data.drop pos = rest) : substr str pos count = String.mk (rest.take count) := by
  unfold substr
  rw [h]

/-- The loop of `split_string`, entered at position `field_end` with enough
turns left, appends the maximal words of the rest of the string. -/
theorem split_string_loop_spec (str seps : String) (hsize : str.length + 1 < 2 ^ 64) :
    ∀ (fuel e : Nat) (words : List String) (rest : List Char),
      str.data.drop e = rest → rest.length < fuel →
      split_string_loop str seps fuel e words
        = some (words ++ (maximal_words seps.data rest).map String.mk) := by
  have hnpos : npos = 2 ^ 64 - 1 := rfl
  intro fuel
  induction fuel with
  | zero => intro e words rest _ h; omega
  | succ fuel ih =>
    intro e words rest hrest hfuel
    rw [split_string_loop]
    dsimp only
    rw [find_first_not_of_eq str seps e rest hrest]
    rcases maximal_words_cases seps.data rest with ⟨h1, h2⟩ | ⟨a, w, r, h1, h2, h3, h4, h5, h6⟩
    · rw [find_first_not_of_from_none _ _ _ h1, if_pos rfl, h2]
      simp
    · obtain ⟨c, w', rfl⟩ := List.exists_cons_of_ne_nil h3
      have hc : c ∉ seps.data := h4 c (List.mem_cons_self _ _)
      have hw' : ∀ x ∈ w', x ∉ seps.data := fun x hx => h4 x (List.mem_cons_of_mem _ hx)
      have e1 : rest = a ++ c :: (w' ++ r) := by rw [h1]; simp
      have hlen : rest.length = a.length + (w'.length + 1 + r.length) := by
        rw [e1]; simp; omega
      have hle : e + rest.length = str.length := by
        have := congrArg List.length hrest
        rw [List.length_drop] at this
        have h0 : str.data.length = str.length := rfl
        omega
      have hfs : find_first_not_of_from seps.data rest e = e + a.length := by
        rw [e1]; exact find_first_not_of_from_some _ _ _ _ _ h2 hc
      rw [hfs, if_neg (by omega), Nat.mod_eq_of_lt (by omega)]
      have hd1 : str.data.drop (e + a.length + 1) = w' ++ r := by
        have := drop_add_of_drop str.data rest e (a.length + 1) hrest
        rw [e1] at this
        rw [Nat.add_assoc, this]
        have : a ++ c :: (w' ++ r) = (a ++ [c]) ++ (w' ++ r) := by simp
        rw [this]
        exact List.drop_left' (by simp)
      have hd0 : str.data.drop (e + a.length) = c :: w' ++ r := by
        have := drop_add_of_drop str.data rest e a.length hrest
        rw [e1] at this
        rw [this]
        exact List.drop_left' rfl
      rw [find_first_of_eq str seps _ _ hd1]
      rcases h5 with h5 | ⟨d, r', h5, hd⟩
      · subst h5
        rw [List.append_nil] at hd1 hd0 ⊢
        rw [find_first_of_from_none _ _ _ hw']
        have hcount : (npos + 2 ^ 64 - (e + a.length)) % 2 ^ 64 = npos - (e + a.length) := by
          have : npos + 2 ^ 64 - (e + a.length) = (npos - (e + a.length)) + 2 ^ 64 := by
            omega
          rw [this, Nat.add_mod_right]
          exact Nat.mod_eq_of_lt (by omega)
        rw [hcount, substr_eq str _ _ _ hd0, List.take_of_length_le (by simp at hlen ⊢; omega)]
        have hdn : str.data.drop npos = [] :=
          List.drop_eq_nil_of_le (by show str.length ≤ npos; omega)
        rw [ih npos _ [] hdn (by simp; omega), h6]
        simp [maximal_words]
      · subst h5
        rw [find_first_of_from_some _ _ _ _ _ hw' hd]
        have hcount : (e + a.length + 1 + w'.length + 2 ^ 64 - (e + a.length)) % 2 ^ 64
            = w'.length + 1 := by
          have : e + a.length + 1 + w'.length + 2 ^ 64 - (e + a.length)
              = (w'.length + 1) + 2 ^ 64 := by omega
          rw [this, Nat.add_mod_right]
          simp at hlen
          exact Nat.mod_eq_of_lt (by omega)
        have htake : (c :: w' ++ d :: r').take (w'.length + 1) = c :: w' :=
          List.take_left' (by simp)
        rw [hcount, substr_eq str _ _ _ hd0, htake]
        have hdr : str.data.drop (e + a.length + 1 + w'.length) = d :: r' := by
          have := drop_add_of_drop str.data _ (e + a.length + 1) w'.length hd1
          rw [this]
          exact List.drop_left' rfl
        rw [ih _ _ _ hdr (by simp at hlen ⊢; omega), h6]
        simp

/-- The function `split_string` returns the maximal words of the string. -/
theorem split_string_eq (str seps : String) (fuel : Nat) (hsize : str.length + 1 < 2 ^ 64)
    (hfuel : str.length < fuel) :
    split_string str seps fuel = some ((maximal_words seps.data str.data).map String.mk) := by
  unfold split_string
  rw [split_string_loop_spec str seps hsize fuel 0 [] str.data rfl hfuel]
  rfl


theorem length_lt_of_word (a w r : List Char) (hw : w ≠ []) :
    r.length < (a ++ w ++ r).length := by
  have := List.length_pos.mpr hw
  simp
  omega

/-- No maximal word is empty or holds a separator. -/
theorem maximal_words_clean (seps : List Char) :
    ∀ (n : Nat) (l : List Char), l.length ≤ n →
      ∀ w ∈ maximal_words seps l, w ≠ [] ∧ ∀ c ∈ w, c ∉ seps := by
  intro n
  induction n with
  | zero =>
    intro l hl w hw
    rw [List.length_eq_zero.mp (Nat.le_zero.mp hl)] at hw
    simp [maximal_words] at hw
  | succ n ih =>
    intro l hl w hw
    rcases maximal_words_cases seps l with ⟨h1, h2⟩ | ⟨a, v, r, h1, h2, h3, h4, h5, h6⟩
    · rw [h2] at hw; simp at hw
    · rw [h6] at hw
      rcases List.mem_cons.mp hw with hw | hw
      · rw [hw]; exact ⟨h3, h4⟩
      · have := length_lt_of_word a v r h3
        rw [← h1] at this
        exact ih r (by omega) w hw

/-- The maximal words, concatenated, are the string without its separators. -/
theorem maximal_words_join (seps : List Char) :
    ∀ (n : Nat) (l : List Char), l.length ≤ n →
      (maximal_words seps l).flatten = l.filter (fun c => decide (c ∉ seps)) := by
  intro n
  induction n with
  | zero =>
    intro l hl
    rw [List.length_eq_zero.mp (Nat.le_zero.mp hl)]
    rfl
  | succ n ih =>
    intro l hl
    rcases maximal_words_cases seps l with ⟨h1, h2⟩ | ⟨a, v, r, h1, h2, h3, h4, h5, h6⟩
    · rw [h2]
      symm
      simpa using h1
    · have hlt := length_lt_of_word a v r h3
      rw [← h1] at hlt
      have e1 : a.filter (fun c => decide (c ∉ seps)) = [] := by simpa using h2
      have e2 : v.filter (fun c => decide (c ∉ seps)) = v := by simpa using h4
      rw [h6, List.flatten_cons, ih r (by omega), h1, List.filter_append, List.filter_append,
        e1, e2, List.nil_append]

/-- There are no maximal words exactly when the string is made of separators. -/
theorem maximal_words_eq_nil (seps l : List Char) :
    maximal_words seps l = [] ↔ ∀ c ∈ l, c ∈ seps := by
  constructor
  · intro h
    rcases maximal_words_cases seps l with ⟨h1, -⟩ | ⟨a, v, r, -, -, -, -, -, h6⟩
    · exact h1
    · rw [h6] at h; simp at h
  · exact maximal_words_separators seps l

/-- The string is its maximal words with runs of separators in between, before
and after; the runs in between are not empty. -/
theorem maximal_words_gaps (seps : List Char) :
    ∀ (n : Nat) (l : List Char), l.length ≤ n →
      ∃ gaps : List (List Char), gaps.length = (maximal_words seps l).length + 1
        ∧ (∀ g ∈ gaps, ∀ c ∈ g, c ∈ seps)
        ∧ (∀ g ∈ gaps.tail.dropLast, g ≠ [])
        ∧ interleave gaps (maximal_words seps l) = l
        ∧ (gaps.head? = some [] → l = [] ∨ ∃ c l', l = c :: l' ∧ c ∉ seps) := by
  intro n
  induction n with
  | zero =>
    intro l hl
    rw [List.length_eq_zero.mp (Nat.le_zero.mp hl)]
    exact ⟨[[]], by simp [maximal_words], by simp, by simp, rfl, fun _ => Or.inl rfl⟩
  | succ n ih =>
    intro l hl
    rcases maximal_words_cases seps l with ⟨h1, h2⟩ | ⟨a, v, r, h1, h2, h3, h4, h5, h6⟩
    · refine ⟨[l], by rw [h2]; rfl, by simpa using h1, by simp, by rw [h2]; rfl, ?_⟩
      intro h
      left
      simpa using h.symm
    · have hlt := length_lt_of_word a v r h3
      rw [← h1] at hlt
      obtain ⟨gaps, g1, g2, g3, g4, g5⟩ := ih r (by omega)
      cases gaps with
      | nil => simp at g1
      | cons g0 gs =>
        refine ⟨a :: g0 :: gs, ?_, ?_, ?_, ?_, ?_⟩
        · rw [h6]; simp at g1 ⊢; omega
        · intro g hg
          rcases List.mem_cons.mp hg with hg | hg
          · rw [hg]; exact h2
          · exact g2 g hg
        · show ∀ g ∈ (g0 :: gs).dropLast, g ≠ []
          cases gs with
          | nil => simp
          | cons g1' gs' =>
            intro g hg
            rw [List.dropLast_cons₂] at hg
            rcases List.mem_cons.mp hg with hg | hg
            · rw [hg]
              intro h0
              have hne : maximal_words seps r ≠ [] := by
                intro hm
                rw [hm] at g1
                simp at g1
              rcases h5 with h5 | ⟨d, r', h5, hd⟩
              · rw [h5] at hne; exact hne rfl
              · rcases g5 (by rw [h0]; rfl) with h7 | ⟨c, l', h7, hc⟩
                · rw [h5] at h7; simp at h7
                · rw [h5] at h7
                  injection h7 with h8 h9
                  rw [← h8] at hc
                  exact hc hd
            · exact g3 g hg
        · rw [h6]
          show a ++ v ++ interleave (g0 :: gs) (maximal_words seps r) = l
          rw [g4, h1]
        · intro h
          right
          have ha : a = [] := by simpa using h.symm
          obtain ⟨c, v', rfl⟩ := List.exists_cons_of_ne_nil h3
          exact ⟨c, v' ++ r, by rw [h1, ha]; rfl, h4 c (List.mem_cons_self _ _)⟩

/-! ## The inner loops of `merge_quoted_words` -/

theorem quote_char_data : quote_char.data = [the_quote] := rfl

theorem mem_quote_char (c : Char) : c ∈ quote_char.data ↔ c = the_quote := by
  rw [quote_char_data]
  simp

/-- A search from `pos` on finds nothing when no character from there on is in
`chars`. -/
theorem find_first_of_none (s chars : String) (pos : Nat)
    (h : ∀ c ∈ s.data.drop pos, c ∉ chars.data) : find_first_of s chars pos = npos := by
  unfold find_first_of
  exact find_first_of_from_none _ _ _ h

/-- A search from `pos` on finds the first character from there on that is in
`chars`. -/
theorem find_first_of_some (s chars : String) (pos : Nat) (a b : List Char) (c : Char)
    (hs : s.data.drop pos = a ++ c :: b) (ha : ∀ x ∈ a, x ∉ chars.data)
    (hc : c ∈ chars.data) : find_first_of s chars pos = pos + a.length := by
  unfold find_first_of
  rw [hs]
  exact find_first_of_from_some _ _ _ _ _ ha hc

theorem find_quote_none (w : String) (h : the_quote ∉ w.data) :
    find_first_of w quote_char 0 = npos :=
  find_first_of_none w quote_char 0
    (fun c hc hm => h ((mem_quote_char c).mp hm ▸ (by simpa using hc)))

theorem find_quote_some (w : String) (x y : List Char) (hw : w.data = x ++ the_quote :: y)
    (hx : the_quote ∉ x) : find_first_of w quote_char 0 = x.length := by
  have := find_first_of_some w quote_char 0 x y the_quote (by simpa using hw)
    (fun c hc hm => hx ((mem_quote_char c).mp hm ▸ hc)) ((mem_quote_char _).mpr rfl)
  rw [this, Nat.zero_add]

/-- A list has no element with the property or splits at the first one. -/
theorem list_first_split {α : Type} (P : α → Prop) (l : List α) :
    (∀ x ∈ l, ¬ P x) ∨ ∃ a c b, l = a ++ c :: b ∧ (∀ x ∈ a, ¬ P x) ∧ P c := by
  induction l with
  | nil => left; simp
  | cons d l ih =>
    by_cases hd : P d
    · right
      exact ⟨[], d, l, rfl, by simp, hd⟩
    · rcases ih with h | ⟨a, c, b, h1, h2, h3⟩
      · left
        intro x hx
        rcases List.mem_cons.mp hx with hx | hx
        · rw [hx]; exact hd
        · exact h x hx
      · right
        refine ⟨d :: a, c, b, by rw [h1]; rfl, ?_, h3⟩
        intro x hx
        rcases List.mem_cons.mp hx with hx | hx
        · rw [hx]; exact hd
        · exact h2 x hx

/-- What `drop` tells about the element at the position. -/
theorem drop_cons_facts (words : List String) (idx : Nat) (x : String) (rest : List String)
    (h : words.drop idx = x :: rest) :
    idx < words.length ∧ words.getD idx "" = x ∧ words.drop (idx + 1) = rest := by
  have hlt : idx < words.length := by
    by_contra hc
    rw [List.drop_eq_nil_of_le (by omega)] at h
    cases h
  have h1 : words.drop idx = words[idx] :: words.drop (idx + 1) := List.drop_eq_getElem_cons hlt
  rw [h1] at h
  injection h with h2 h3
  refine ⟨hlt, ?_, h3⟩
  rw [List.getD_eq_getElem?_getD, List.getElem?_eq_getElem hlt]
  exact h2

theorem counter_succ (words : List String) (idx : Nat) (hlen : words.length < 2 ^ 32)
    (h : idx < words.length) : (idx + 1) % 2 ^ 32 = idx + 1 :=
  Nat.mod_eq_of_lt (by omega)

/-- The first loop over words without a quote copies them and ends. -/
theorem first_quote_loop_end (words : List String) (hlen : words.length < 2 ^ 32) :
    ∀ (a : List String) (gas idx : Nat) (nw : List String),
      words.drop idx = a → idx ≤ words.length → Unquoted a → a.length < gas →
      first_quote_loop words gas idx nw = some (words.length, npos, nw ++ a) := by
  intro a
  induction a with
  | nil =>
    intro gas idx nw h hle _ hgas
    have : idx = words.length := by
      have := List.drop_eq_nil_iff.mp h
      omega
    obtain ⟨g, rfl⟩ : ∃ g, gas = g + 1 := ⟨gas - 1, by simp at hgas; omega⟩
    rw [first_quote_loop, if_pos this, this]
    simp
  | cons x a ih =>
    intro gas idx nw h hle hu hgas
    obtain ⟨g, rfl⟩ : ∃ g, gas = g + 1 := ⟨gas - 1, by simp at hgas; omega⟩
    obtain ⟨h1, h2, h3⟩ := drop_cons_facts words idx x a h
    have hx : find_first_of x quote_char 0 = npos :=
      find_quote_none x (hu x (List.mem_cons_self _ _))
    rw [first_quote_loop, if_neg (by omega)]
    dsimp only
    rw [h2, hx, if_neg (by simp), counter_succ words idx hlen h1,
      ih g (idx + 1) _ h3 (by omega) (fun w hw => hu w (List.mem_cons_of_mem _ hw))
        (by simp at hgas; omega)]
    simp

/-- The first loop copies the words without a quote and stops at the first
word with one. -/
theorem first_quote_loop_hit (words : List String) (hlen : words.length < 2 ^ 32)
    (w : String) (b : List String) (hw : find_first_of w quote_char 0 ≠ npos) :
    ∀ (a : List String) (gas idx : Nat) (nw : List String),
      words.drop idx = a ++ w :: b → Unquoted a → a.length < gas →
      first_quote_loop words gas idx nw
        = some (idx + a.length, find_first_of w quote_char 0, nw ++ a) := by
  intro a
  induction a with
  | nil =>
    intro gas idx nw h _ hgas
    obtain ⟨g, rfl⟩ : ∃ g, gas = g + 1 := ⟨gas - 1, by simp at hgas; omega⟩
    obtain ⟨h1, h2, -⟩ := drop_cons_facts words idx w b h
    rw [first_quote_loop, if_neg (by omega)]
    dsimp only
    rw [h2, if_pos hw]
    simp
  | cons x a ih =>
    intro gas idx nw h hu hgas
    obtain ⟨g, rfl⟩ : ∃ g, gas = g + 1 := ⟨gas - 1, by simp at hgas; omega⟩
    obtain ⟨h1, h2, h3⟩ := drop_cons_facts words idx x (a ++ w :: b) h
    have hx : find_first_of x quote_char 0 = npos :=
      find_quote_none x (hu x (List.mem_cons_self _ _))
    rw [first_quote_loop, if_neg (by omega)]
    dsimp only
    rw [h2, hx, if_neg (by simp), counter_succ words idx hlen h1,
      ih g (idx + 1) _ h3 (fun w hw => hu w (List.mem_cons_of_mem _ hw))
        (by simp at hgas; omega)]
    simp
    omega

/-- The second loop over words without a quote ends without a match. -/
theorem matching_quote_loop_end (words : List String) (hlen : words.length < 2 ^ 32) :
    ∀ (a : List String) (gas idx : Nat),
      words.drop idx = a → idx ≤ words.length → Unquoted a → a.length < gas →
      matching_quote_loop words gas idx npos = some (words.length, npos) := by
  intro a
  induction a with
  | nil =>
    intro gas idx h hle _ hgas
    have : idx = words.length := by
      have := List.drop_eq_nil_iff.mp h
      omega
    obtain ⟨g, rfl⟩ : ∃ g, gas = g + 1 := ⟨gas - 1, by simp at hgas; omega⟩
    rw [matching_quote_loop, if_pos this, this]
  | cons x a ih =>
    intro gas idx h hle hu hgas
    obtain ⟨g, rfl⟩ : ∃ g, gas = g + 1 := ⟨gas - 1, by simp at hgas; omega⟩
    obtain ⟨h1, h2, h3⟩ := drop_cons_facts words idx x a h
    have hx : find_first_of x quote_char 0 = npos :=
      find_quote_none x (hu x (List.mem_cons_self _ _))
    rw [matching_quote_loop, if_neg (by omega)]
    dsimp only
    rw [h2, hx, if_neg (by simp), counter_succ words idx hlen h1,
      ih g (idx + 1) h3 (by omega) (fun w hw => hu w (List.mem_cons_of_mem _ hw))
        (by simp at hgas; omega)]

/-- The second loop stops at the first word with a quote. -/
theorem matching_quote_loop_hit (words : List String) (hlen : words.length < 2 ^ 32)
    (w : String) (b : List String) (hw : find_first_of w quote_char 0 ≠ npos) :
    ∀ (a : List String) (gas idx : Nat),
      words.drop idx = a ++ w :: b → Unquoted a → a.length < gas →
      matching_quote_loop words gas idx npos
        = some (idx + a.length, find_first_of w quote_char 0) := by
  intro a
  induction a with
  | nil =>
    intro gas idx h _ hgas
    obtain ⟨g, rfl⟩ : ∃ g, gas = g + 1 := ⟨gas - 1, by simp at hgas; omega⟩
    obtain ⟨h1, h2, -⟩ := drop_cons_facts words idx w b h
    rw [matching_quote_loop, if_neg (by omega)]
    dsimp only
    rw [h2, if_pos hw]
    simp
  | cons x a ih =>
    intro gas idx h hu hgas
    obtain ⟨g, rfl⟩ : ∃ g, gas = g + 1 := ⟨gas - 1, by simp at hgas; omega⟩
    obtain ⟨h1, h2, h3⟩ := drop_cons_facts words idx x (a ++ w :: b) h
    have hx : find_first_of x quote_char 0 = npos :=
      find_quote_none x (hu x (List.mem_cons_self _ _))
    rw [matching_quote_loop, if_neg (by omega)]
    dsimp only
    rw [h2, hx, if_neg (by simp), counter_succ words idx hlen h1,
      ih g (idx + 1) h3 (fun w hw => hu w (List.mem_cons_of_mem _ hw))
        (by simp at hgas; omega)]
    simp
    omega

/-- The copy loop appends the remaining words. -/
theorem copy_loop_spec (words : List String) (hlen : words.length < 2 ^ 32) :
    ∀ (a : List String) (gas idx : Nat) (nw : List String),
      words.drop idx = a → idx ≤ words.length → a.length < gas →
      copy_loop words gas idx nw = some (nw ++ a) := by
  intro a
  induction a with
  | nil =>
    intro gas idx nw h hle hgas
    have : idx = words.length := by
      have := List.drop_eq_nil_iff.mp h
      omega
    obtain ⟨g, rfl⟩ : ∃ g, gas = g + 1 := ⟨gas - 1, by simp at hgas; omega⟩
    rw [copy_loop, if_pos this]
    simp
  | cons x a ih =>
    intro gas idx nw h hle hgas
    obtain ⟨g, rfl⟩ : ∃ g, gas = g + 1 := ⟨gas - 1, by simp at hgas; omega⟩
    obtain ⟨h1, h2, h3⟩ := drop_cons_facts words idx x a h
    rw [copy_loop, if_neg (by omega), h2, counter_succ words idx hlen h1,
      ih g (idx + 1) _ h3 (by omega) (by simp at hgas; omega)]
    simp

/-- The join loop appends the words up to `idx_end`, a space before each. -/
theorem join_loop_spec (words : List String) (hlen : words.length < 2 ^ 32)
    (rest : List String) :
    ∀ (a : List String) (gas idx : Nat) (new_word : String),
      words.drop idx = a ++ rest → a.length < gas → (a ≠ [] ∨ idx ≤ words.length) →
      join_loop words (idx + a.length) gas idx new_word = some (spaced new_word a) := by
  intro a
  induction a with
  | nil =>
    intro gas idx new_word h hgas _
    obtain ⟨g, rfl⟩ : ∃ g, gas = g + 1 := ⟨gas - 1, by simp at hgas; omega⟩
    rw [join_loop, if_pos (by simp)]
    rfl
  | cons x a ih =>
    intro gas idx new_word h hgas _
    obtain ⟨g, rfl⟩ : ∃ g, gas = g + 1 := ⟨gas - 1, by simp at hgas; omega⟩
    obtain ⟨h1, h2, h3⟩ := drop_cons_facts words idx x (a ++ rest) h
    have e : idx + (x :: a).length = idx + 1 + a.length := by simp; omega
    rw [join_loop, if_neg (by simp), h2, counter_succ words idx hlen h1, e,
      ih g (idx + 1) _ h3 (by simp at hgas; omega) (Or.inr (by omega))]
    rfl

/-! ## The blocks of `merge_quoted_words` -/

theorem npos_eq : npos = 2 ^ 64 - 1 := rfl

theorem drop_of_split (x y : List Char) (c : Char) :
    (x ++ c :: y).drop (x.length + 1) = y := by
  have : x ++ c :: y = (x ++ [c]) ++ y := by simp
  rw [this]
  exact List.drop_left' (by simp)

theorem drop_add_of_drop_words (l : List String) (rest : List String) (e k : Nat)
    (h : l.drop e = rest) : l.drop (e + k) = rest.drop k := by
  rw [← h, List.drop_drop, Nat.add_comm]

/-- The matching quote is found in the word of the first quote. -/
theorem matching_quote_same (words : List String) (gas i : Nat) (w : String)
    (x y1 y2 : List Char) (hw : words.getD i "" = w)
    (hd : w.data = x ++ the_quote :: (y1 ++ the_quote :: y2)) (hy : the_quote ∉ y1)
    (hsize : w.length + 1 < 2 ^ 64) :
    matching_quote words gas i x.length = some (i, x.length + 1 + y1.length) := by
  have hl : w.length = x.length + (y1.length + (y2.length + 1) + 1) := by
    show w.data.length = _
    rw [hd]
    simp
  have hdrop : w.data.drop (x.length + 1) = y1 ++ the_quote :: y2 := by
    rw [hd]
    exact drop_of_split _ _ _
  have hf := find_first_of_some w quote_char (x.length + 1) y1 y2 the_quote hdrop
    (fun c hc hm => hy ((mem_quote_char c).mp hm ▸ hc)) ((mem_quote_char _).mpr rfl)
  unfold matching_quote
  dsimp only
  rw [hw, Nat.mod_eq_of_lt (by omega), hf, if_neg (by rw [npos_eq]; omega)]

/-- No matching quote: the word of the first quote and all later words are
without a further quote. -/
theorem matching_quote_none (words : List String) (hlen : words.length < 2 ^ 32)
    (gas i : Nat) (w : String) (b : List String) (x y : List Char)
    (hdrop : words.drop i = w :: b) (hd : w.data = x ++ the_quote :: y)
    (hy : the_quote ∉ y) (hb : Unquoted b) (hgas : words.length < gas)
    (hsize : w.length + 1 < 2 ^ 64) :
    matching_quote words gas i x.length = some (words.length, npos) := by
  obtain ⟨h1, h2, h3⟩ := drop_cons_facts words i w b hdrop
  have hl : w.length = x.length + (y.length + 1) := by
    show w.data.length = _
    rw [hd]
    simp
  have hdr : w.data.drop (x.length + 1) = y := by
    rw [hd]
    exact drop_of_split _ _ _
  have hf := find_first_of_none w quote_char (x.length + 1)
    (by rw [hdr]; exact fun c hc hm => hy ((mem_quote_char c).mp hm ▸ hc))
  have hbl : b.length ≤ words.length := by
    have := congrArg List.length h3
    rw [List.length_drop] at this
    omega
  unfold matching_quote
  dsimp only
  rw [h2, Nat.mod_eq_of_lt (by omega), hf, if_pos rfl, counter_succ words i hlen h1]
  exact matching_quote_loop_end words hlen b gas (i + 1) h3 (by omega) hb (by omega)

/-- The matching quote is found in a later word. -/
theorem matching_quote_other (words : List String) (hlen : words.length < 2 ^ 32)
    (gas i : Nat) (w w2 : String) (m b : List String) (x y u v : List Char)
    (hdrop : words.drop i = w :: (m ++ w2 :: b)) (hd : w.data = x ++ the_quote :: y)
    (hy : the_quote ∉ y) (hm : Unquoted m) (hd2 : w2.data = u ++ the_quote :: v)
    (hu : the_quote ∉ u) (hgas : words.length < gas)
    (hsize : w.length + 1 < 2 ^ 64) (hsize2 : w2.length + 1 < 2 ^ 64) :
    matching_quote words gas i x.length = some (i + 1 + m.length, u.length) := by
  obtain ⟨h1, h2, h3⟩ := drop_cons_facts words i w _ hdrop
  have hl : w.length = x.length + (y.length + 1) := by
    show w.data.length = _
    rw [hd]
    simp
  have hl2 : w2.length = u.length + (v.length + 1) := by
    show w2.data.length = _
    rw [hd2]
    simp
  have hdr : w.data.drop (x.length + 1) = y := by
    rw [hd]
    exact drop_of_split _ _ _
  have hf := find_first_of_none w quote_char (x.length + 1)
    (by rw [hdr]; exact fun c hc hm => hy ((mem_quote_char c).mp hm ▸ hc))
  have hf2 := find_quote_some w2 u v hd2 hu
  have hml : m.length < words.length := by
    have := congrArg List.length h3
    rw [List.length_drop] at this
    simp at this
    omega
  unfold matching_quote
  dsimp only
  rw [h2, Nat.mod_eq_of_lt (by omega), hf, if_pos rfl, counter_succ words i hlen h1,
    matching_quote_loop_hit words hlen w2 b (by rw [hf2, npos_eq]; omega) m gas (i + 1) h3 hm
      (by omega), hf2]

/-- What `set` does to the words from the position on. -/
theorem drop_set_facts (words : List String) (i : Nat) (w v : String) (b : List String)
    (h : words.drop i = w :: b) :
    (words.set i v).drop i = v :: b ∧ (words.set i v).drop (i + 1) = b
    ∧ (words.set i v).getD i "" = v ∧ (words.set i v).length = words.length := by
  obtain ⟨h1, h2, h3⟩ := drop_cons_facts words i w b h
  have hlt : i < (words.set i v).length := by rw [List.length_set]; exact h1
  have e1 : (words.set i v).drop (i + 1) = b := by
    rw [List.drop_set_of_lt _ _ (Nat.lt_succ_self i)]
    exact h3
  have e2 : (words.set i v).getD i "" = v := by
    rw [List.getD_eq_getElem?_getD, List.getElem?_eq_getElem hlt, List.getElem_set_self]
    rfl
  refine ⟨?_, e1, e2, List.length_set _ _ _⟩
  rw [List.drop_eq_getElem_cons hlt, e1, List.getElem_set_self]


theorem mod_sub_sub (a b : Nat) (h1 : b + 1 ≤ a) (h2 : a < 2 ^ 64) :
    (a + 2 ^ 64 - b + 2 ^ 64 - 1) % 2 ^ 64 = a - b - 1 := by
  have : a + 2 ^ 64 - b + 2 ^ 64 - 1 = (a - b - 1) + 2 ^ 64 + 2 ^ 64 := by omega
  rw [this, Nat.add_mod_right, Nat.add_mod_right]
  exact Nat.mod_eq_of_lt (by omega)

theorem mk_ne_empty (x : List Char) : String.mk x ≠ "" ↔ x ≠ [] := by
  constructor
  · intro h hx
    exact h (by rw [hx])
  · intro h hx
    exact h (congrArg String.data hx)

/-- Without a matching quote the first quote is erased and the remaining words
are copied. -/
theorem missing_quote_spec (words : List String) (hlen : words.length < 2 ^ 32)
    (gas i : Nat) (w : String) (b : List String) (x y : List Char) (nw : List String)
    (hdrop : words.drop i = w :: b) (hd : w.data = x ++ the_quote :: y)
    (hgas : words.length < gas) :
    missing_quote words gas i x.length nw
      = some (nw ++ String.mk (x ++ y) :: b,
          ["Missing matching quote: Erasing first quote\n"]) := by
  obtain ⟨h1, h2, h3⟩ := drop_cons_facts words i w b hdrop
  have he : erase w x.length 1 = String.mk (x ++ y) := by
    unfold erase
    rw [hd, List.take_left' rfl, drop_of_split]
  obtain ⟨d1, -, -, d4⟩ := drop_set_facts words i w (String.mk (x ++ y)) b hdrop
  have hbl : b.length < words.length := by
    have := congrArg List.length h3
    rw [List.length_drop] at this
    omega
  unfold missing_quote
  dsimp only
  rw [h2, he, copy_loop_spec _ (by rw [d4]; exact hlen) _ gas i nw d1 (by rw [d4]; omega)
    (by simp; omega)]

/-- Both quotes in one word: the new word is what stands between them. -/
theorem merged_word_same (words : List String) (gas i : Nat) (w : String)
    (x y1 y2 : List Char) (hw : words.getD i "" = w)
    (hd : w.data = x ++ the_quote :: (y1 ++ the_quote :: y2))
    (hsize : w.length + 1 < 2 ^ 64) :
    merged_word words gas i x.length i (x.length + 1 + y1.length) = some (String.mk y1) := by
  have hl : w.length = x.length + (y1.length + (y2.length + 1) + 1) := by
    show w.data.length = _
    rw [hd]
    simp
  have hdrop : w.data.drop (x.length + 1) = y1 ++ the_quote :: y2 := by
    rw [hd]
    exact drop_of_split _ _ _
  unfold merged_word
  rw [if_pos rfl, hw, Nat.mod_eq_of_lt (by omega), mod_sub_sub _ _ (by omega) (by omega),
    substr_eq w _ _ _ hdrop]
  have : x.length + 1 + y1.length - x.length - 1 = y1.length := by omega
  rw [this, List.take_left' rfl]

/-- The quotes in different words: the new word is the rest of the first word,
the words in between and the beginning of the last word, a space before
each. -/
theorem merged_word_other (words : List String) (hlen : words.length < 2 ^ 32)
    (gas i : Nat) (w w2 : String) (m b : List String) (x y u v : List Char)
    (hdrop : words.drop i = w :: (m ++ w2 :: b)) (hd : w.data = x ++ the_quote :: y)
    (hd2 : w2.data = u ++ the_quote :: v) (hgas : words.length < gas)
    (hsize : w.length + 1 < 2 ^ 64) :
    merged_word words gas i x.length (i + 1 + m.length) u.length
      = some (spaced (String.mk y) m ++ (" " ++ String.mk u)) := by
  obtain ⟨h1, h2, h3⟩ := drop_cons_facts words i w _ hdrop
  have hl : w.length = x.length + (y.length + 1) := by
    show w.data.length = _
    rw [hd]
    simp
  have hdr : w.data.drop (x.length + 1) = y := by
    rw [hd]
    exact drop_of_split _ _ _
  have hml : m.length < words.length := by
    have := congrArg List.length h3
    rw [List.length_drop] at this
    simp at this
    omega
  have h4 : words.drop (i + 1 + m.length) = w2 :: b := by
    rw [drop_add_of_drop_words words _ (i + 1) m.length h3]
    exact List.drop_left' rfl
  obtain ⟨-, h5, -⟩ := drop_cons_facts words _ w2 b h4
  have hs : substr w2 0 u.length = String.mk u := by
    unfold substr
    rw [List.drop_zero, hd2, List.take_left' rfl]
  have hsz : size w = w.length := rfl
  unfold merged_word
  rw [if_neg (by omega)]
  dsimp only
  rw [h2, h5, hs, Nat.mod_eq_of_lt (show x.length + 1 < 2 ^ 64 by omega), hsz,
    mod_sub_sub _ _ (by omega) (by omega),
    substr_eq w _ _ _ hdr, List.take_of_length_le (by omega),
    counter_succ words i hlen h1,
    join_loop_spec words hlen (w2 :: b) m gas (i + 1) _ h3 (by omega) (Or.inr (by omega))]

/-- The words put on `new_words` by one merge. -/
theorem add_words_eq (words : List String) (i : Nat) (w : String) (x r : List Char)
    (new_word : String) (nw : List String) (hw : words.getD i "" = w)
    (hd : w.data = x ++ r) :
    add_words words i x.length new_word nw
      = (if x ≠ [] then nw ++ [String.mk x] else nw)
          ++ (if new_word ≠ "" then [new_word] else []) := by
  have hs : substr w 0 x.length = String.mk x := by
    unfold substr
    rw [List.drop_zero, hd, List.take_left' rfl]
  unfold add_words
  dsimp only
  rw [hw, hs]
  by_cases hx : x = []
  · have : ¬ String.mk x ≠ "" := fun h => (mk_ne_empty x).mp h hx
    rw [if_neg this, if_neg (not_not.mpr hx)]
    by_cases hn : new_word = ""
    · rw [if_neg (not_not.mpr hn), if_neg (not_not.mpr hn), List.append_nil]
    · rw [if_pos hn, if_pos hn]
  · rw [if_pos ((mk_ne_empty x).mpr hx), if_pos hx]
    by_cases hn : new_word = ""
    · rw [if_neg (not_not.mpr hn), if_neg (not_not.mpr hn), List.append_nil]
    · rw [if_pos hn, if_pos hn]

/-- The word of the matching quote is replaced by what follows the quote. -/
theorem keep_remainder_eq (words : List String) (j : Nat) (w : String) (u v : List Char)
    (c : Char) (hw : words.getD j "" = w) (hd : w.data = u ++ c :: v)
    (hsize : w.length + 1 < 2 ^ 64) :
    keep_remainder words j u.length = words.set j (String.mk v) := by
  have hl : w.length = u.length + (v.length + 1) := by
    show w.data.length = _
    rw [hd]
    simp
  have hdr : w.data.drop (u.length + 1) = v := by
    rw [hd]
    exact drop_of_split _ _ _
  have hsz : size w = w.length := rfl
  unfold keep_remainder
  rw [hw, Nat.mod_eq_of_lt (by omega), hsz, mod_sub_sub _ _ (by omega) (by omega),
    substr_eq w _ _ _ hdr, List.take_of_length_le (by omega)]

/-- The search goes on at the word of the matching quote, or after it when
nothing of it is left. -/
theorem next_begin_eq (words : List String) (hlen : words.length < 2 ^ 32) (j : Nat)
    (v : List Char) (hj : j < words.length) (hw : words.getD j "" = String.mk v) :
    next_begin words j = if v = [] then j + 1 else j := by
  unfold next_begin
  dsimp only
  rw [hw]
  by_cases hv : v = []
  · rw [if_pos (by rw [hv]), if_pos hv, Nat.mod_eq_of_lt (by omega)]
  · rw [if_neg ((mk_ne_empty v).mpr hv), if_neg hv]

/-! ## One turn of the loop of `merge_quoted_words` -/

/-- No quote from `idx_begin` on: the remaining words are copied and the loop
is left. -/
theorem merge_loop_clean (gas fuel : Nat) (words : List String) (idx : Nat)
    (nw a : List String) (hlen : words.length < 2 ^ 32) (hgas : words.length < gas)
    (hdrop : words.drop idx = a) (hle : idx ≤ words.length) (ha : Unquoted a) :
    merge_loop gas (fuel + 1) words idx nw = some (nw ++ a, []) := by
  have hal : a.length ≤ words.length := by
    have := congrArg List.length hdrop
    rw [List.length_drop] at this
    omega
  rw [merge_loop, first_quote_loop_end words hlen a gas idx nw hdrop hle ha (by omega)]
  simp

theorem drop_after (words : List String) (idx : Nat) (a rest : List String)
    (h : words.drop idx = a ++ rest) : words.drop (idx + a.length) = rest := by
  rw [drop_add_of_drop_words words _ idx a.length h]
  exact List.drop_left' rfl

/-- A first quote without a matching one: the quote is erased, the remaining
words are copied, the warning is written and the loop is left. -/
theorem merge_loop_missing (gas fuel : Nat) (words : List String) (idx : Nat)
    (nw a b : List String) (w : String) (x y : List Char)
    (hS : Sized words) (hgas : words.length < gas)
    (hdrop : words.drop idx = a ++ w :: b) (ha : Unquoted a)
    (hd : w.data = x ++ the_quote :: y) (hx : the_quote ∉ x) (hy : the_quote ∉ y)
    (hb : Unquoted b) :
    merge_loop gas (fuel + 1) words idx nw
      = some (nw ++ a ++ String.mk (x ++ y) :: b,
          ["Missing matching quote: Erasing first quote\n"]) := by
  obtain ⟨hlen, hsz⟩ := hS
  have hdw := drop_after words idx a _ hdrop
  obtain ⟨h1, h2, h3⟩ := drop_cons_facts words _ w b hdw
  have hw : w ∈ words := by
    rw [← h2, List.getD_eq_getElem?_getD, List.getElem?_eq_getElem h1]
    exact List.getElem_mem _
  have hsize := hsz w hw
  have hl : w.length = x.length + (y.length + 1) := by
    show w.data.length = _
    rw [hd]
    simp
  have hf := find_quote_some w x y hd hx
  have hne : x.length ≠ npos := by rw [npos_eq]; omega
  rw [merge_loop, first_quote_loop_hit words hlen w b (by rw [hf]; exact hne) a gas idx nw
    hdrop ha (by omega), hf]
  dsimp only
  rw [if_neg hne, matching_quote_none words hlen gas _ w b x y hdw hd hy hb hgas hsize]
  dsimp only
  rw [if_pos rfl, missing_quote_spec words hlen gas _ w b x y _ hdw hd hgas]

/-- Both quotes in one word: what stands before the first quote and what
stands between the quotes are put on `new_words`, each if not empty, and the
loop goes on with what follows the second quote. -/
theorem merge_loop_same (gas fuel : Nat) (words : List String) (idx : Nat)
    (nw a b : List String) (w : String) (x y1 y2 : List Char)
    (hS : Sized words) (hgas : words.length < gas)
    (hdrop : words.drop idx = a ++ w :: b) (ha : Unquoted a)
    (hd : w.data = x ++ the_quote :: (y1 ++ the_quote :: y2)) (hx : the_quote ∉ x)
    (hy : the_quote ∉ y1) :
    merge_loop gas (fuel + 1) words idx nw
      = merge_loop gas fuel (words.set (idx + a.length) (String.mk y2))
          (if y2 = [] then idx + a.length + 1 else idx + a.length)
          ((if x ≠ [] then nw ++ a ++ [String.mk x] else nw ++ a)
            ++ (if String.mk y1 ≠ "" then [String.mk y1] else [])) := by
  obtain ⟨hlen, hsz⟩ := hS
  have hdw := drop_after words idx a _ hdrop
  obtain ⟨h1, h2, h3⟩ := drop_cons_facts words _ w b hdw
  have hw : w ∈ words := by
    rw [← h2, List.getD_eq_getElem?_getD, List.getElem?_eq_getElem h1]
    exact List.getElem_mem _
  have hsize := hsz w hw
  have hl : w.length = x.length + (y1.length + (y2.length + 1) + 1) := by
    show w.data.length = _
    rw [hd]
    simp
  have hf := find_quote_some w x _ hd hx
  have hne : x.length ≠ npos := by rw [npos_eq]; omega
  have hd' : w.data = (x ++ the_quote :: y1) ++ the_quote :: y2 := by rw [hd]; simp
  have hlu : (x ++ the_quote :: y1).length = x.length + 1 + y1.length := by simp; omega
  obtain ⟨-, -, d3, d4⟩ := drop_set_facts words _ w (String.mk y2) b hdw
  rw [merge_loop, first_quote_loop_hit words hlen w b (by rw [hf]; exact hne) a gas idx nw
    hdrop ha (by omega), hf]
  dsimp only
  rw [if_neg hne, matching_quote_same words gas _ w x y1 y2 h2 hd hy hsize]
  dsimp only
  rw [if_neg (by rw [npos_eq]; omega), merged_word_same words gas _ w x y1 y2 h2 hd hsize]
  dsimp only
  rw [← hlu, keep_remainder_eq words _ w _ y2 the_quote h2 hd' hsize,
    next_begin_eq _ (by rw [d4]; exact hlen) _ y2 (by rw [d4]; exact h1) d3,
    add_words_eq words _ w x _ _ _ h2 hd]

/-- The quotes in different words: what stands before the first quote, if not
empty, and the merged word are put on `new_words`, and the loop goes on with
what follows the second quote. -/
theorem merge_loop_other (gas fuel : Nat) (words : List String) (idx : Nat)
    (nw a m b : List String) (w w2 : String) (x y u v : List Char)
    (hS : Sized words) (hgas : words.length < gas)
    (hdrop : words.drop idx = a ++ w :: (m ++ w2 :: b)) (ha : Unquoted a)
    (hd : w.data = x ++ the_quote :: y) (hx : the_quote ∉ x) (hy : the_quote ∉ y)
    (hm : Unquoted m) (hd2 : w2.data = u ++ the_quote :: v) (hu : the_quote ∉ u) :
    merge_loop gas (fuel + 1) words idx nw
      = merge_loop gas fuel (words.set (idx + a.length + 1 + m.length) (String.mk v))
          (if v = [] then idx + a.length + 1 + m.length + 1
            else idx + a.length + 1 + m.length)
          ((if x ≠ [] then nw ++ a ++ [String.mk x] else nw ++ a)
            ++ [spaced (String.mk y) m ++ (" " ++ String.mk u)]) := by
  obtain ⟨hlen, hsz⟩ := hS
  have hdw := drop_after words idx a _ hdrop
  obtain ⟨h1, h2, h3⟩ := drop_cons_facts words _ w _ hdw
  have hdw2 := drop_after words (idx + a.length + 1) m _ h3
  obtain ⟨k1, k2, k3⟩ := drop_cons_facts words _ w2 b hdw2
  have hw : w ∈ words := by
    rw [← h2, List.getD_eq_getElem?_getD, List.getElem?_eq_getElem h1]
    exact List.getElem_mem _
  have hw2 : w2 ∈ words := by
    rw [← k2, List.getD_eq_getElem?_getD, List.getElem?_eq_getElem k1]
    exact List.getElem_mem _
  have hsize := hsz w hw
  have hsize2 := hsz w2 hw2
  have hl : w.length = x.length + (y.length + 1) := by
    show w.data.length = _
    rw [hd]
    simp
  have hl2 : w2.length = u.length + (v.length + 1) := by
    show w2.data.length = _
    rw [hd2]
    simp
  have hf := find_quote_some w x _ hd hx
  have hne : x.length ≠ npos := by rw [npos_eq]; omega
  obtain ⟨-, -, d3, d4⟩ := drop_set_facts words _ w2 (String.mk v) b hdw2
  have hnew : spaced (String.mk y) m ++ (" " ++ String.mk u) ≠ "" := by
    intro h
    have := congrArg String.length h
    rw [String.length_append, String.length_append] at this
    have h1 : (" " : String).length = 1 := rfl
    have h0 : ("" : String).length = 0 := rfl
    omega
  rw [merge_loop, first_quote_loop_hit words hlen w _ (by rw [hf]; exact hne) a gas idx nw
    hdrop ha (by omega), hf]
  dsimp only
  rw [if_neg hne,
    matching_quote_other words hlen gas _ w w2 m b x y u v hdw hd hy hm hd2 hu hgas hsize
      hsize2]
  dsimp only
  rw [if_neg (by rw [npos_eq]; omega),
    merged_word_other words hlen gas _ w w2 m b x y u v hdw hd hd2 hgas hsize]
  dsimp only
  rw [keep_remainder_eq words _ w2 u v the_quote k2 hd2 hsize2,
    next_begin_eq _ (by rw [d4]; exact hlen) _ v (by rw [d4]; exact k1) d3,
    add_words_eq words _ w x _ _ _ h2 hd, if_pos hnew]

/-! ## Runs of `merge_quoted_words` -/

theorem weight_append (a b : List String) : weight (a ++ b) = weight a + weight b := by
  simp [weight]

theorem weight_cons (w : String) (b : List String) :
    weight (w :: b) = w.length + 1 + weight b := by
  simp [weight]

theorem length_le_weight (a : List String) : a.length ≤ weight a := by
  induction a with
  | nil => simp [weight]
  | cons w a ih => rw [weight_cons, List.length_cons]; omega

theorem unquoted_append (a b : List String) (ha : Unquoted a) (hb : Unquoted b) :
    Unquoted (a ++ b) := by
  intro w hw
  rcases List.mem_append.mp hw with h | h
  · exact ha w h
  · exact hb w h

theorem spaced_data (s : String) (m : List String) :
    (spaced s m).data = s.data ++ (m.map (fun w => ' ' :: w.data)).flatten := by
  unfold spaced
  induction m generalizing s with
  | nil => simp
  | cons w m ih =>
    rw [List.foldl_cons, ih]
    simp

theorem space_ne_quote : ' ' ≠ the_quote := by decide

theorem spaced_unquoted (s : String) (m : List String) (hs : the_quote ∉ s.data)
    (hm : Unquoted m) : the_quote ∉ (spaced s m).data := by
  rw [spaced_data]
  intro h
  rcases List.mem_append.mp h with h | h
  · exact hs h
  · obtain ⟨l, hl, hq⟩ := List.mem_flatten.mp h
    obtain ⟨w, hw, rfl⟩ := List.mem_map.mp hl
    rcases List.mem_cons.mp hq with hq | hq
    · exact space_ne_quote hq.symm
    · exact hm w hw hq

theorem sized_set (words : List String) (j : Nat) (w : String) (v : List Char)
    (hS : Sized words) (hw : w ∈ words) (hv : v.length ≤ w.length) :
    Sized (words.set j (String.mk v)) := by
  refine ⟨by rw [List.length_set]; exact hS.1, ?_⟩
  intro z hz
  rcases List.mem_or_eq_of_mem_set hz with h | h
  · exact hS.2 z h
  · rw [h]
    have := hS.2 w hw
    show v.length + 1 < 2 ^ 64
    omega

/-- A word with a quote splits at its first quote. -/
theorem split_at_quote (w : String) (h : the_quote ∈ w.data) :
    ∃ x y, w.data = x ++ the_quote :: y ∧ the_quote ∉ x := by
  rcases first_split (fun c => c = the_quote) w.data with h0 | ⟨x, c, y, h1, h2, h3⟩
  · exact absurd rfl (h0 _ h)
  · subst h3
    exact ⟨x, y, h1, fun hx => h2 _ hx rfl⟩

/-- Entered with enough turns left, the loop of `merge_quoted_words` is left,
and no word on `new_words` holds a quote. -/
theorem merge_loop_unquoted (gas : Nat) :
    ∀ (fuel : Nat) (words : List String) (idx : Nat) (nw : List String),
      Sized words → idx ≤ words.length → words.length < gas →
      weight (words.drop idx) < fuel → Unquoted nw →
      ∃ r, merge_loop gas fuel words idx nw = some r ∧ Unquoted r.1 := by
  intro fuel
  induction fuel with
  | zero => intro words idx nw _ _ _ h; omega
  | succ fuel ih =>
    intro words idx nw hS hle hgas hfuel hnw
    rcases list_first_split (fun w : String => the_quote ∈ w.data) (words.drop idx)
      with h | ⟨a, w, b, h1, h2, h3⟩
    · exact ⟨_, merge_loop_clean gas fuel words idx nw _ hS.1 hgas rfl hle h,
        unquoted_append _ _ hnw h⟩
    · have ha : Unquoted a := h2
      obtain ⟨x, y, hd, hx⟩ := split_at_quote w h3
      have hdw := drop_after words idx a _ h1
      obtain ⟨k1, k2, k3⟩ := drop_cons_facts words _ w b hdw
      have hw : w ∈ words := by
        rw [← k2, List.getD_eq_getElem?_getD, List.getElem?_eq_getElem k1]
        exact List.getElem_mem _
      have hxq : Unquoted [String.mk x] := by
        intro z hz
        rw [List.mem_singleton.mp hz]
        exact hx
      have hpre : Unquoted (if x ≠ [] then nw ++ a ++ [String.mk x] else nw ++ a) := by
        by_cases hx0 : x = []
        · rw [if_neg (not_not.mpr hx0)]
          exact unquoted_append _ _ hnw ha
        · rw [if_pos hx0]
          exact unquoted_append _ _ (unquoted_append _ _ hnw ha) hxq
      rw [h1, weight_append, weight_cons] at hfuel
      rcases first_split (fun c => c = the_quote) y with hy | ⟨y1, c, y2, e1, e2, e3⟩
      · have hy' : the_quote ∉ y := fun hm => hy _ hm rfl
        rcases list_first_split (fun w : String => the_quote ∈ w.data) b
          with hb | ⟨m, w2, b', f1, f2, f3⟩
        · refine ⟨_, merge_loop_missing gas fuel words idx nw a b w x y hS hgas h1 ha hd hx
            hy' hb, ?_⟩
          refine unquoted_append _ _ (unquoted_append _ _ hnw ha) ?_
          intro z hz
          rcases List.mem_cons.mp hz with hz | hz
          · rw [hz]
            intro hq
            rcases List.mem_append.mp hq with hq | hq
            · exact hx hq
            · exact hy' hq
          · exact hb z hz
        · obtain ⟨u, v, hd2, hu⟩ := split_at_quote w2 f3
          subst f1
          have hm : Unquoted m := f2
          rw [merge_loop_other gas fuel words idx nw a m b' w w2 x y u v hS hgas h1 ha hd hx
            hy' hm hd2 hu]
          have hdw2 := drop_after words (idx + a.length + 1) m _ k3
          obtain ⟨j1, j2, j3⟩ := drop_cons_facts words _ w2 b' hdw2
          have hw2 : w2 ∈ words := by
            rw [← j2, List.getD_eq_getElem?_getD, List.getElem?_eq_getElem j1]
            exact List.getElem_mem _
          have hl2 : w2.length = u.length + (v.length + 1) := by
            show w2.data.length = _
            rw [hd2]
            simp
          obtain ⟨d1, d2, -, d4⟩ := drop_set_facts words _ w2 (String.mk v) b' hdw2
          have hS' := sized_set words (idx + a.length + 1 + m.length) w2 v hS hw2 (by omega)
          rw [weight_append, weight_cons] at hfuel
          have hvl : (String.mk v).length = v.length := rfl
          apply ih _ _ _ hS' _ (by rw [d4]; exact hgas)
          · by_cases hv : v = []
            · rw [if_pos hv, d2]
              omega
            · rw [if_neg hv, d1, weight_cons, hvl]
              omega
          · refine unquoted_append _ _ hpre ?_
            intro z hz
            rw [List.mem_singleton.mp hz, String.data_append, String.data_append]
            intro hq
            rcases List.mem_append.mp hq with hq | hq
            · exact spaced_unquoted _ m hy' hm hq
            · rcases List.mem_append.mp hq with hq | hq
              · have hsp : (" " : String).data = [' '] := rfl
                rw [hsp, List.mem_singleton] at hq
                exact space_ne_quote hq.symm
              · exact hu hq
          · rw [d4]
            by_cases hv : v = []
            · rw [if_pos hv]; omega
            · rw [if_neg hv]; omega
      · subst e3
        subst e1
        have hy1 : the_quote ∉ y1 := fun hm => e2 _ hm rfl
        rw [merge_loop_same gas fuel words idx nw a b w x y1 y2 hS hgas h1 ha hd hx hy1]
        have hl : w.length = x.length + (y1.length + (y2.length + 1) + 1) := by
          show w.data.length = _
          rw [hd]
          simp
        obtain ⟨d1, d2, -, d4⟩ := drop_set_facts words _ w (String.mk y2) b hdw
        have hS' := sized_set words (idx + a.length) w y2 hS hw (by omega)
        have hvl : (String.mk y2).length = y2.length := rfl
        apply ih _ _ _ hS' _ (by rw [d4]; exact hgas)
        · by_cases hv : y2 = []
          · rw [if_pos hv, d2]
            omega
          · rw [if_neg hv, d1, weight_cons, hvl]
            omega
        · refine unquoted_append _ _ hpre ?_
          by_cases h0 : String.mk y1 ≠ ""
          · rw [if_pos h0]
            intro z hz
            rw [List.mem_singleton.mp hz]
            exact hy1
          · rw [if_neg h0]
            intro z hz
            simp at hz
        · rw [d4]
          by_cases hv : y2 = []
          · rw [if_pos hv]; omega
          · rw [if_neg hv]; omega

/-! ## Counting quotes -/

theorem quotes_append (a b : List String) : quotes (a ++ b) = quotes a + quotes b := by
  simp [quotes]

theorem quotes_cons (w : String) (b : List String) :
    quotes (w :: b) = w.data.count the_quote + quotes b := by
  simp [quotes]

theorem quotes_eq_zero (a : List String) : quotes a = 0 ↔ Unquoted a := by
  induction a with
  | nil => simp [quotes, Unquoted]
  | cons w a ih =>
    rw [quotes_cons]
    constructor
    · intro h z hz
      rcases List.mem_cons.mp hz with hz | hz
      · rw [hz]
        exact List.count_eq_zero.mp (by omega)
      · exact ih.mp (by omega) z hz
    · intro h
      have h1 : w.data.count the_quote = 0 :=
        List.count_eq_zero.mpr (h w (List.mem_cons_self _ _))
      have h2 := ih.mpr (fun z hz => h z (List.mem_cons_of_mem _ hz))
      omega

/-- Words with one quote in total: one word holds it, once. -/
theorem one_quote_split (words : List String) (h : quotes words = 1) :
    ∃ a w b x y, words = a ++ w :: b ∧ Unquoted a ∧ Unquoted b
      ∧ w.data = x ++ the_quote :: y ∧ the_quote ∉ x ∧ the_quote ∉ y := by
  rcases list_first_split (fun w : String => the_quote ∈ w.data) words
    with h0 | ⟨a, w, b, h1, h2, h3⟩
  · have := (quotes_eq_zero words).mpr h0
    omega
  · obtain ⟨x, y, hd, hx⟩ := split_at_quote w h3
    have ha : quotes a = 0 := (quotes_eq_zero a).mpr h2
    have hc : w.data.count the_quote = 1 + y.count the_quote := by
      rw [hd, List.count_append, List.count_cons_self, List.count_eq_zero.mpr hx]
      omega
    rw [h1, quotes_append, quotes_cons, ha, hc] at h
    refine ⟨a, w, b, x, y, h1, h2, (quotes_eq_zero b).mp (by omega), hd, hx, ?_⟩
    exact List.count_eq_zero.mp (by omega)

/-! ## The words of a quoted phrase -/

/-- A string whose separators are single spaces, not beginning with one, and
followed by a character that is not a separator: its maximal words are the
runs between the spaces, the last one with the closing character. -/
theorem spaced_words (seps : List Char) (q : Char) (hq : q ∉ seps) :
    ∀ (n : Nat) (l : List Char), l.length ≤ n →
      (∀ c ∈ l, c ∈ seps → c = ' ') → ¬ [' ', ' '] <:+: l →
      (∀ c l', l = c :: l' → c ∉ seps) →
      ∃ (mids : List (List Char)) (pk : List Char),
        maximal_words seps (l ++ [q]) = mids ++ [pk ++ [q]]
        ∧ l = (mids.map (fun w => w ++ [' '])).flatten ++ pk
        ∧ (∀ w ∈ mids, w ≠ []) := by
  intro n
  induction n with
  | zero =>
    intro l hl _ _ _
    rw [List.length_eq_zero.mp (Nat.le_zero.mp hl)]
    refine ⟨[], [], ?_, rfl, by simp⟩
    exact maximal_words_last seps [q] (by simp) (by simpa using hq)
  | succ n ih =>
    intro l hl h1 h2 h3
    rcases first_split (fun c => c ∈ seps) l with h | ⟨w, d, r, e1, e2, e3⟩
    · refine ⟨[], l, ?_, rfl, by simp⟩
      apply maximal_words_last seps (l ++ [q]) (by simp)
      intro x hx
      rcases List.mem_append.mp hx with hx | hx
      · exact h x hx
      · rw [List.mem_singleton.mp hx]; exact hq
    · have hd : d = ' ' := h1 d (by rw [e1]; simp) e3
      subst hd
      have hw : w ≠ [] := by
        intro hw
        rw [hw] at e1
        exact h3 _ _ e1 e3
      have hr1 : ∀ c ∈ r, c ∈ seps → c = ' ' := fun c hc => h1 c (by rw [e1]; simp [hc])
      have hr2 : ¬ [' ', ' '] <:+: r := by
        intro hi
        apply h2
        rw [e1]
        exact hi.trans ⟨w ++ [' '], [], by simp⟩
      have hr3 : ∀ c l', r = c :: l' → c ∉ seps := by
        intro c l' hr hc
        have hc' : c = ' ' := hr1 c (by rw [hr]; simp) hc
        apply h2
        rw [e1, hr, hc']
        exact ⟨w, l', by simp⟩
      have hlen : r.length ≤ n := by
        have := congrArg List.length e1
        simp at this
        omega
      obtain ⟨mids, pk, g1, g2, g3⟩ := ih r hlen hr1 hr2 hr3
      refine ⟨w :: mids, pk, ?_, ?_, ?_⟩
      · have : l ++ [q] = w ++ ' ' :: (r ++ [q]) := by rw [e1]; simp
        rw [this, maximal_words_word seps w _ ' ' hw e2 e3, g1]
        rfl
      · rw [e1]
        conv_lhs => rw [g2]
        simp
      · intro z hz
        rcases List.mem_cons.mp hz with hz | hz
        · rw [hz]; exact hw
        · exact g3 z hz

theorem flatten_space_shift (M : List (List Char)) :
    (M.map (fun w => ' ' :: w)).flatten ++ [' ']
      = ' ' :: (M.map (fun w => w ++ [' '])).flatten := by
  induction M with
  | nil => rfl
  | cons w M ih =>
    simp only [List.map_cons, List.flatten_cons, List.append_assoc, List.cons_append]
    rw [ih]
    simp

theorem length_le_flatten (M : List (List Char)) :
    M.length ≤ (M.map (fun w => w ++ [' '])).flatten.length
    ∧ ∀ w ∈ M, w.length < (M.map (fun w => w ++ [' '])).flatten.length := by
  induction M with
  | nil => simp
  | cons v M ih =>
    simp only [List.map_cons, List.flatten_cons, List.length_append, List.length_cons,
      List.length_nil]
    refine ⟨by omega, ?_⟩
    intro w hw
    rcases List.mem_cons.mp hw with hw | hw
    · rw [hw]; omega
    · have := ih.2 w hw
      omega


/-- A phrase in one word between quotes is returned without the quotes. -/
theorem merge_single (s : List Char) (fuel : Nat) (hne : s ≠ []) (hq : the_quote ∉ s)
    (hsize : s.length + 3 < 2 ^ 64) (hfuel : 2 ≤ fuel) :
    merge_quoted_words [String.mk (the_quote :: s ++ [the_quote])] fuel
      = some ([String.mk s], []) := by
  obtain ⟨g, rfl⟩ : ∃ g, fuel = g + 2 := ⟨fuel - 2, by omega⟩
  have hS : Sized [String.mk (the_quote :: s ++ [the_quote])] := by
    refine ⟨by simp, ?_⟩
    intro w hw
    rw [List.mem_singleton.mp hw]
    show (the_quote :: s ++ [the_quote]).length + 1 < 2 ^ 64
    simp
    omega
  unfold merge_quoted_words
  rw [if_neg (by simp),
    merge_loop_same (g + 2) (g + 1) _ 0 [] [] [] _ [] s [] hS (by simp) rfl
      (by intro w hw; simp at hw) (by simp) (by simp) hq]
  rw [if_pos rfl, if_neg (by simp), if_pos ((mk_ne_empty s).mpr hne)]
  rw [merge_loop_clean (g + 2) g _ _ _ [] (by simp) (by simp) (by simp) (by simp)
    (by intro w hw; simp at hw)]
  simp

/-- A phrase between quotes that was split at its spaces is put together
again, without the quotes. -/
theorem merge_multi (p0 pk : List Char) (mids : List (List Char)) (fuel : Nat)
    (h0 : the_quote ∉ p0) (hk : the_quote ∉ pk) (hm : ∀ w ∈ mids, the_quote ∉ w)
    (hS : Sized (String.mk (the_quote :: p0) :: (mids.map String.mk
      ++ [String.mk (pk ++ [the_quote])])))
    (hfuel : mids.length + 2 < fuel) :
    merge_quoted_words (String.mk (the_quote :: p0) :: (mids.map String.mk
        ++ [String.mk (pk ++ [the_quote])])) fuel
      = some ([String.mk (p0 ++ (mids.map (fun w => ' ' :: w)).flatten ++ ' ' :: pk)],
          []) := by
  obtain ⟨g, rfl⟩ : ∃ g, fuel = g + 2 := ⟨fuel - 2, by omega⟩
  have hmq : Unquoted (mids.map String.mk) := by
    intro w hw
    obtain ⟨v, hv, rfl⟩ := List.mem_map.mp hw
    exact hm v hv
  have hnew : spaced (String.mk p0) (mids.map String.mk) ++ (" " ++ String.mk pk)
      = String.mk (p0 ++ (mids.map (fun w => ' ' :: w)).flatten ++ ' ' :: pk) := by
    apply String.ext
    rw [String.data_append, String.data_append, spaced_data, List.map_map]
    have : (" " : String).data = [' '] := rfl
    rw [this]
    simp [Function.comp_def]
  unfold merge_quoted_words
  rw [if_neg (by simp),
    merge_loop_other (g + 2) (g + 1) _ 0 [] [] (mids.map String.mk) [] _ _ [] p0 pk [] hS
      (by simp; omega) rfl (by intro w hw; simp at hw) (by simp) (by simp) h0 hmq
      (by simp) hk]
  rw [if_pos rfl, if_neg (by simp), hnew]
  rw [merge_loop_clean (g + 2) g _ _ _ [] (by rw [List.length_set]; exact hS.1)
    (by simp; omega) (by simp; omega) (by simp; omega) (by intro w hw; simp at hw)]
  simp

/-! ## Powers of two -/

/-- A positive number has no bit in common with its predecessor exactly when
it is a power of two. -/
theorem land_pred_eq_zero (n : Nat) (hn : 0 < n) :
    n &&& (n - 1) = 0 ↔ ∃ k, n = 2 ^ k := by
  induction n using Nat.strong_induction_on with
  | _ n ih =>
    rcases Nat.mod_two_eq_zero_or_one n with h | h
    · have hm : 0 < n / 2 := by omega
      have e1 : n = Nat.bit false (n / 2) := by rw [Nat.bit_val]; simp; omega
      have e2 : n - 1 = Nat.bit true (n / 2 - 1) := by rw [Nat.bit_val]; simp; omega
      have e3 : n &&& (n - 1) = 2 * (n / 2 &&& (n / 2 - 1)) := by
        conv_lhs => rw [e2]
        conv_lhs => lhs; rw [e1]
        rw [Nat.land_bit, Nat.bit_val]
        simp
      rw [e3]
      constructor
      · intro h0
        obtain ⟨k, hk⟩ := (ih (n / 2) (by omega) hm).mp (by omega)
        exact ⟨k + 1, by rw [pow_succ]; omega⟩
      · rintro ⟨k, hk⟩
        cases k with
        | zero => simp at hk; omega
        | succ k =>
          have : n / 2 = 2 ^ k := by rw [hk, pow_succ]; omega
          have := (ih (n / 2) (by omega) hm).mpr ⟨k, this⟩
          omega
    · have e1 : n = Nat.bit true (n / 2) := by rw [Nat.bit_val]; simp; omega
      have e2 : n - 1 = Nat.bit false (n / 2) := by rw [Nat.bit_val]; simp; omega
      have e3 : n &&& (n - 1) = 2 * (n / 2) := by
        conv_lhs => rw [e2]
        conv_lhs => lhs; rw [e1]
        rw [Nat.land_bit, Nat.bit_val, Nat.and_self]
        simp
      rw [e3]
      constructor
      · intro h0
        exact ⟨0, by simp; omega⟩
      · rintro ⟨k, hk⟩
        cases k with
        | zero => simp at hk; omega
        | succ k => rw [pow_succ] at hk; omega

/-! ## The configuration reader -/

theorem takeWhile_split (p : Char → Bool) (a b : List Char) (c : Char)
    (ha : ∀ x ∈ a, p x = true) (hc : p c = false) :
    (a ++ c :: b).takeWhile p = a := by
  rw [List.takeWhile_append_of_pos ha, List.takeWhile_cons, hc]
  simp

/-- With the comment string `#`, `remove_comments` leaves what precedes the
first `#`. -/
theorem remove_comments_hash (line : String) (h : line.length < 2 ^ 64) :
    remove_comments line "#" = String.mk (line.data.takeWhile (fun c => c ≠ '#')) := by
  have hdata : ("#" : String).data = ['#'] := rfl
  unfold remove_comments
  dsimp only
  rcases first_split (fun c => c = '#') line.data with h0 | ⟨a, c, b, h1, h2, h3⟩
  · rw [find_first_of_none line "#" 0 (by
      intro c hc hm
      rw [hdata, List.mem_singleton] at hm
      exact h0 c (by simpa using hc) hm), if_neg (by simp)]
    apply String.ext
    symm
    exact List.takeWhile_eq_self_iff.mpr (fun x hx => by simpa using h0 x hx)
  · subst h3
    have hl : line.length = a.length + (b.length + 1) := by
      show line.data.length = _
      rw [h1]
      simp
    rw [find_first_of_some line "#" 0 a b '#' (by simpa using h1)
      (by
        intro x hx hm
        rw [hdata, List.mem_singleton] at hm
        exact h2 x hx hm) (by rw [hdata]; simp), Nat.zero_add,
      if_pos (by rw [npos_eq]; omega)]
    unfold erase
    apply String.ext
    show List.take a.length line.data ++ List.drop (a.length + npos) line.data = _
    rw [List.drop_eq_nil_of_le (by
      show line.length ≤ _
      rw [npos_eq]; omega), List.append_nil, h1, List.take_left' rfl,
      takeWhile_split _ a b '#' (fun x hx => by simpa using h2 x hx) (by simp)]

theorem length_takeWhile_le (p : Char → Bool) (l : List Char) :
    (l.takeWhile p).length ≤ l.length :=
  (List.takeWhile_sublist p).length_le

/-- The maximal words of a string are no more than its characters, and their
weight is at most twice that. -/
theorem maximal_words_size (seps : List Char) :
    ∀ (n : Nat) (l : List Char), l.length ≤ n →
      (maximal_words seps l).length ≤ l.length
      ∧ weight ((maximal_words seps l).map String.mk) ≤ 2 * l.length := by
  intro n
  induction n with
  | zero =>
    intro l hl
    rw [List.length_eq_zero.mp (Nat.le_zero.mp hl)]
    simp [maximal_words, weight]
  | succ n ih =>
    intro l hl
    rcases maximal_words_cases seps l with ⟨-, h2⟩ | ⟨a, v, r, h1, -, h3, -, -, h6⟩
    · rw [h2]
      simp [weight]
    · have hlt := length_lt_of_word a v r h3
      rw [← h1] at hlt
      obtain ⟨i1, i2⟩ := ih r (by omega)
      have hv := List.length_pos.mpr h3
      have hl2 : l.length = a.length + v.length + r.length := by
        rw [h1, List.length_append, List.length_append]
      have hvl : (String.mk v).length = v.length := rfl
      rw [h6, List.map_cons, weight_cons, List.length_cons, hvl]
      omega

theorem length_add_one_le_weight (words : List String) (w : String) (h : w ∈ words) :
    w.length + 1 ≤ weight words := by
  induction words with
  | nil => simp at h
  | cons v words ih =>
    rw [weight_cons]
    rcases List.mem_cons.mp h with h | h
    · rw [h]; omega
    · have := ih h
      omega

/-- Given enough turns, `merge_quoted_words` returns. -/
theorem merge_quoted_words_returns (words : List String) (fuel : Nat) (hS : Sized words)
    (hfuel : weight words < fuel) : ∃ r, merge_quoted_words words fuel = some r := by
  unfold merge_quoted_words
  by_cases h : words = []
  · rw [if_pos h]
    exact ⟨_, rfl⟩
  · rw [if_neg h]
    have hl := length_le_weight words
    obtain ⟨r, hr, -⟩ := merge_loop_unquoted fuel fuel words 0 [] hS (Nat.zero_le _)
      (by omega) (by rw [List.drop_zero]; exact hfuel) (by intro w hw; simp at hw)
    exact ⟨r, hr⟩

/-- The words of a line shorter than `2^32`: they are few and short enough for
`merge_quoted_words`, also without the first one. -/
theorem line_words_sized (l : List Char) (hl : l.length < 2 ^ 32) :
    Sized (((maximal_words default_separators.data l).map String.mk).drop 1)
    ∧ weight (((maximal_words default_separators.data l).map String.mk).drop 1)
        ≤ 2 * l.length := by
  obtain ⟨h1, h2⟩ := maximal_words_size default_separators.data l.length l (le_refl _)
  have hw : weight (((maximal_words default_separators.data l).map String.mk).drop 1)
      ≤ weight ((maximal_words default_separators.data l).map String.mk) := by
    cases (maximal_words default_separators.data l).map String.mk with
    | nil => simp
    | cons v vs => rw [List.drop_one, List.tail_cons, weight_cons]; omega
  refine ⟨⟨?_, ?_⟩, by omega⟩
  · rw [List.length_drop, List.length_map]
    omega
  · intro w hw'
    have := length_add_one_le_weight _ w hw'
    omega

/-- The loop of `Config_File::read` over lines shorter than `2^32`, with the
line counter in range and enough turns for the inner loops, makes the calls
of the lines in order. -/
theorem read_loop_spec (fuel : Nat) :
    ∀ (lines : List String) (line_count : Nat) (calls : List Call),
      line_count + lines.length < 2 ^ 32 →
      (∀ line ∈ lines, line.length < 2 ^ 32) →
      (∀ line ∈ lines, 2 * line.length < fuel) →
      read_loop fuel lines line_count calls
        = some (calls ++ ((lines.enumFrom (line_count + 1)).map
            (fun p => line_calls fuel p.2 p.1)).flatten) := by
  intro lines
  induction lines with
  | nil =>
    intro line_count calls _ _ _
    simp [read_loop]
  | cons line rest ih =>
    intro line_count calls hc hs hf
    have hlen := hs line (List.mem_cons_self _ _)
    have hfl := hf line (List.mem_cons_self _ _)
    have htl := length_takeWhile_le (fun c => decide (c ≠ '#')) line.data
    have hll : line.data.length = line.length := rfl
    have hsl : (String.mk (line.data.takeWhile (fun c => c ≠ '#'))).length
        = (line.data.takeWhile (fun c => c ≠ '#')).length := rfl
    have hcount : (line_count + 1) % 2 ^ 32 = line_count + 1 :=
      Nat.mod_eq_of_lt (by rw [List.length_cons] at hc; omega)
    obtain ⟨hS, hw⟩ := line_words_sized (line.data.takeWhile (fun c => c ≠ '#'))
      (by omega)
    obtain ⟨r, hr⟩ := merge_quoted_words_returns _ fuel hS (by omega)
    have hrest := ih (line_count + 1) (calls ++ line_calls fuel line (line_count + 1))
      (by rw [List.length_cons] at hc; omega)
      (fun l hl => hs l (List.mem_cons_of_mem _ hl))
      (fun l hl => hf l (List.mem_cons_of_mem _ hl))
    rw [List.enumFrom_cons, List.map_cons, List.flatten_cons, ← List.append_assoc, ← hrest,
      read_loop]
    dsimp only
    rw [hcount, remove_comments_hash line (by omega),
      split_string_eq _ default_separators fuel (by rw [hsl]; omega) (by rw [hsl]; omega)]
    dsimp only
    cases hm : (maximal_words default_separators.data
        (line.data.takeWhile (fun c => c ≠ '#'))).map String.mk with
    | nil =>
      have e : line_calls fuel line (line_count + 1) = [] := by
        unfold line_calls
        rw [hm]
      rw [if_pos rfl, e, List.append_nil]
    | cons var ws =>
      rw [hm] at hr
      rw [List.drop_succ_cons, List.drop_zero] at hr
      have e : line_calls fuel line (line_count + 1)
          = r.2.map Call.err_warn ++ [Call.set_variables var r.1 (line_count + 1)] := by
        unfold line_calls
        rw [hm]
        dsimp only
        rw [hr]
      rw [if_neg (by simp), List.drop_succ_cons, List.drop_zero, hr, e]
      dsimp only
      rw [List.getD_cons_zero, List.append_assoc]

/-! ## The empty root -/

/-- C1: for the empty root and every filter, `dir_open` and `dir_traverse`
return the empty list, and the run performs no action at all: the trace, which
records every `getenv`, `lstat`, `access`, `opendir`, `closedir` and `realpath`
call, is empty. -/
theorem empty_root_returns_nothing (fs : FS) (filter : String → Bool) (fuel : Nat) :
    ((dir_open fs "" filter fuel).status = Status.returned
      ∧ (dir_open fs "" filter fuel).file_list = []
      ∧ (dir_open fs "" filter fuel).trace = [])
    ∧ ((dir_traverse fs "" filter fuel).status = Status.returned
      ∧ (dir_traverse fs "" filter fuel).file_list = []
      ∧ (dir_traverse fs "" filter fuel).trace = []) := by
  have h : ({ State.init with status := Status.returned } : State).status
      ≠ Status.running := by simp
  simp only [dir_open, dir_traverse, enter_empty, iterate_of_not_running _ _ h]
  simp [State.init]

/-! ## `dir_traverse` finds every regular file of a tree -/

theorem below_tree_paths : ∀ p, Below fs_tree "t" p → p ∈ tree_paths := by
  intro p hp
  induction hp with
  | root => decide
  | child q n l hq hdir hopen hn h1 h2 ih =>
    simp only [tree_paths, List.mem_cons, List.mem_singleton, List.not_mem_nil,
      or_false] at ih
    rcases ih with rfl | rfl | rfl | rfl
    · have e : l = [".", "..", "a", "s"] := by
        have : fs_tree.opendir "t" = some [".", "..", "a", "s"] := by decide
        rw [this] at hopen
        exact (Option.some.inj hopen).symm
      subst e
      simp only [List.mem_cons, List.mem_singleton, List.not_mem_nil, or_false] at hn
      rcases hn with rfl | rfl | rfl | rfl
      · exact absurd rfl h1
      · exact absurd rfl h2
      · decide
      · decide
    · exact absurd hdir (by decide)
    · have e : l = [".", "..", "b"] := by
        have : fs_tree.opendir "t/s" = some [".", "..", "b"] := by decide
        rw [this] at hopen
        exact (Option.some.inj hopen).symm
      subst e
      simp only [List.mem_cons, List.mem_singleton, List.not_mem_nil, or_false] at hn
      rcases hn with rfl | rfl | rfl
      · exact absurd rfl h1
      · exact absurd rfl h2
      · decide
    · exact absurd hdir (by decide)

theorem fs_tree_plain : PlainTree fs_tree "t" tree_paths where
  root_dir := by decide
  no_link := by
    intro p hp
    have h := below_tree_paths p hp
    simp only [tree_paths, List.mem_cons, List.mem_singleton, List.not_mem_nil,
      or_false] at h
    rcases h with rfl | rfl | rfl | rfl
    · exact ⟨FileType.dir, by decide, by decide⟩
    · exact ⟨FileType.reg, by decide, by decide⟩
    · exact ⟨FileType.dir, by decide, by decide⟩
    · exact ⟨FileType.reg, by decide, by decide⟩
  readable := by
    intro p hp
    have h := below_tree_paths p hp
    simp only [tree_paths, List.mem_cons, List.mem_singleton, List.not_mem_nil,
      or_false] at h
    rcases h with rfl | rfl | rfl | rfl <;> decide
  opens := by
    intro p hp hdir
    have h := below_tree_paths p hp
    simp only [tree_paths, List.mem_cons, List.mem_singleton, List.not_mem_nil,
      or_false] at h
    rcases h with rfl | rfl | rfl | rfl
    · exact ⟨[".", "..", "a", "s"], by decide, by decide⟩
    · exact absurd hdir (by decide)
    · exact ⟨[".", "..", "b"], by decide, by decide⟩
    · exact absurd hdir (by decide)
  proper := by
    intro p l h
    unfold fs_tree at h
    simp only at h
    split_ifs at h
    · cases h; decide
    · cases h; decide
  canonical := by
    intro p q _ _ _ _ h
    exact string_append_left_cancel "/cwd/" p q h
  finite := below_tree_paths
  fits := by decide

/-- C2: for every finite tree without symbolic links below a directory root
(`PlainTree`: every entry answers the status query and passes the permission
check, every directory opens and closes, listings have pairwise different
entry names, different directories have different canonical paths, and the
entries are within the range of the 32-bit loop counter), and for every
filter `f`, `dir_traverse` returns, and the returned list holds exactly the
paths below the root that are regular files and satisfy `f`, each once.
`hrun` says that the loop is entered: the root is not empty and has no home
marker with a user name. -/
theorem dir_traverse_lists_every_regular_file (fs : FS) (root : String)
    (f : String → Bool) (all : List String) (fuel : Nat)
    (hrun : (enter fs root).1.status = Status.running)
    (ht : PlainTree fs (enter fs root).2 all) (hfuel : all.length + 1 ≤ fuel) :
    (dir_traverse fs root f fuel).status = Status.returned
    ∧ (dir_traverse fs root f fuel).file_list.Nodup
    ∧ ∀ p, p ∈ (dir_traverse fs root f fuel).file_list ↔
        (Below fs (enter fs root).2 p ∧ fs.lstat p = some FileType.reg ∧ f p = true) := by
  have hlen := tree_frontier_length fs root f all hrun ht
  have hend := run_ends true fs root f all.length ht.fits hlen
  have hfr := run_frozen true fs root f _ fuel hend hfuel
  have hret : (run true fs root f fuel).status = Status.returned := by
    rcases (tree_frontier_below fs root f all hrun ht fuel).2.2 with h | h
    · rw [hfr] at h; exact absurd h hend
    · exact h
  have hi := returned_at_end true fs root f fuel hret
  obtain ⟨b1, b2, -⟩ := tree_frontier_below fs root f all hrun ht fuel
  obtain ⟨-, c2, c3⟩ := tree_processed fs root f all hrun ht fuel
  rw [hi, List.take_length] at c2 c3
  simp only [← run_true]
  refine ⟨hret, returned_nodup true fs root f ht.proper fuel hret, fun p => ⟨?_, ?_⟩⟩
  · intro hp
    have hb := b1 p ((frontier_structure true fs root f fuel).2.1 p hp)
    obtain ⟨-, h | h⟩ := file_list_listed true fs root f fuel p hp
    · exact ⟨hb, h.1, h.2⟩
    · obtain ⟨t, e1, e2⟩ := ht.no_link p hb
      rw [h.1] at e1
      exact absurd (Option.some.inj e1).symm e2
  · rintro ⟨hb, hreg, hf⟩
    have hmem : ∀ q, Below fs (enter fs root).2 q →
        q ∈ (run true fs root f fuel).files_to_process := by
      intro q hq
      induction hq with
      | root => exact b2
      | child q n l hq hdir hopen hn h1 h2 ih =>
        exact c2 q ih hdir l hopen _ (mem_children_of_mem q n l hn h1 h2)
    exact c3 p (hmem p hb) hreg hf

/-- Witness for C2: the tree `fs_tree`; both regular files are returned, the
one in the subdirectory included. -/
theorem dir_traverse_lists_every_regular_file_witness :
    PlainTree fs_tree (enter fs_tree "t").2 tree_paths
    ∧ (dir_traverse fs_tree "t" all_true 5).status = Status.returned
    ∧ (dir_traverse fs_tree "t" all_true 5).file_list.Nodup
    ∧ (dir_traverse fs_tree "t" all_true 5).file_list = ["t/a", "t/s/b"] := by
  have e : (enter fs_tree "t").2 = "t" := by decide
  have hp : PlainTree fs_tree (enter fs_tree "t").2 tree_paths := by
    rw [e]; exact fs_tree_plain
  have h := dir_traverse_lists_every_regular_file fs_tree "t" all_true tree_paths 5
    (by decide) hp (by decide)
  exact ⟨hp, h.1, h.2.1, by decide⟩

/-! ## `dir_open` lists the root only -/

/-- C3, as stated, fails for the root `/`: the listing of `/` holds `a`, and
`dir_open` returns `/a`, not the path `/` + separator + `a`. -/
theorem root_child_has_one_separator :
    (enter fs_root "/").2 = "/"
    ∧ fs_root.opendir "/" = some [".", "..", "a"]
    ∧ (dir_open fs_root "/" all_true 3).status = Status.returned
    ∧ (dir_open fs_root "/" all_true 3).file_list = ["/a"]
    ∧ joined_listing fs_root all_true "/" [".", "..", "a"] = ["//a"]
    ∧ (dir_open fs_root "/" all_true 3).file_list
        ≠ joined_listing fs_root all_true "/" [".", "..", "a"] := by
  decide

/-- C3, amended: for every file system, filter and root for which the loop is
entered (`hrun`: the root is not empty and has no home marker with a user
name), whose normalized form `r` is a readable directory that opens and
closes, and whose listing is within the range of the 32-bit loop counter,
`dir_open` returns exactly the list, in listing order, of
the child paths (`path_name r n`: `r`, a separator unless `r` is the separator
itself, and `n`) of the listed names other than `.` and `..` that are readable
regular files accepted by the filter; `r` is the only path handed to `opendir`
and the files to process are `r` and its children. -/
theorem dir_open_lists_the_root_only (fs : FS) (root : String) (f : String → Bool)
    (l : List String) (fuel : Nat)
    (hrun : (enter fs root).1.status = Status.running)
    (hdir : fs.lstat (enter fs root).2 = some FileType.dir)
    (hacc : fs.access (enter fs root).2 = true)
    (hopen : fs.opendir (enter fs root).2 = some l)
    (hclose : fs.closedir (enter fs root).2 = true)
    (hfit : (children (enter fs root).2 l).length + 1 < 2 ^ 32)
    (hfuel : (children (enter fs root).2 l).length + 2 ≤ fuel) :
    (dir_open fs root f fuel).status = Status.returned
    ∧ (dir_open fs root f fuel).file_list
        = ((l.filter (fun n => n ≠ "." ∧ n ≠ "..")).map
            (path_name (enter fs root).2)).filter (kept fs f)
    ∧ opened (dir_open fs root f fuel).trace = [(enter fs root).2]
    ∧ (dir_open fs root f fuel).files_to_process
        = (enter fs root).2 :: children (enter fs root).2 l :=
  open_run_result fs root f l hrun hdir hacc hopen hclose hfit fuel hfuel

/-- Witness for C3 (amended): the directory `d` of `fs_link_to_file`; its
subentry `l`, a link, is not opened. -/
theorem dir_open_lists_the_root_only_witness :
    (enter fs_link_to_file "d").2 = "d"
    ∧ (dir_open fs_link_to_file "d" all_true 4).status = Status.returned
    ∧ (dir_open fs_link_to_file "d" all_true 4).file_list = ["d/t"]
    ∧ opened (dir_open fs_link_to_file "d" all_true 4).trace = ["d"] := by
  have h := dir_open_lists_the_root_only fs_link_to_file "d" all_true [".", "..", "l", "t"] 4
    (by decide) (by decide) (by decide) (by decide) (by decide) (by decide) (by decide)
  exact ⟨by decide, h.1, h.2.1, h.2.2.1⟩

/-! ## Link cycles -/

/-- C4: `dir_traverse` terminates on every finite file system, link cycles
included.  Finite (`FiniteWalk`) is meant for the traversal: the paths it can
come to from the normalized root (`Reach`: the root, and the child paths of
the names other than `.` and `..` listed by a path it can come to that
opens) have, where they open, their canonical paths in a list `C`; the
directory of canonical path `c` lists at most `size c` such names; and the
root together with all these names, `1 + Σ size c` files to process, are
within the range of the 32-bit loop counter.  Neither the number of
directories nor the length of one listing is bounded otherwise.  Then after
`2 + Σ size c` turns the loop has ended, and more turns change nothing.
Moreover a path whose canonical path is that of an entry already opened (a
link back to an ancestor) is never opened: the ancestor is not listed a
second time through the link. -/
theorem dir_traverse_terminates (fs : FS) (root : String) (f : String → Bool)
    (C : List String) (size : String → Nat)
    (hfin : FiniteWalk fs (enter fs root).2 C size) :
    (∀ fuel, 2 + (C.map size).sum ≤ fuel →
      (dir_traverse fs root f fuel).status ≠ Status.running
      ∧ dir_traverse fs root f fuel = dir_traverse fs root f (2 + (C.map size).sum))
    ∧ (∀ fuel a q, a ∈ opened (dir_traverse fs root f fuel).trace →
        q ∈ opened (dir_traverse fs root f fuel).trace →
        fs.realpath q = fs.realpath a → q = a) := by
  have hend := traverse_run_ends fs root f C size hfin (2 + (C.map size).sum) (le_refl _)
  constructor
  · intro fuel hfuel
    have hfr := run_frozen true fs root f _ fuel hend hfuel
    simp only [run_true] at hfr hend
    rw [hfr]
    exact ⟨hend, rfl⟩
  · intro fuel a q ha hq hreal
    exact List.inj_on_of_nodup_map (traverse_opened_nodup fs root f fuel).1 hq ha hreal

/-- Witness for C4: the directory `d` of `fs_cycle` holds a link to itself;
the traversal returns the one regular file and has opened `d` only.  And the
traversal of the directory `w` of `fs_wide 70000`, which holds 70000
directories, has ended after 70002 turns. -/
theorem dir_traverse_terminates_witness :
    FiniteWalk fs_cycle (enter fs_cycle "d").2 ["/cwd/d"] (fun _ => 2)
    ∧ fs_cycle.lstat "d/loop" = some FileType.lnk
    ∧ fs_cycle.realpath "d/loop" = fs_cycle.realpath "d"
    ∧ (dir_traverse fs_cycle "d" all_true 4).status ≠ Status.running
    ∧ (dir_traverse fs_cycle "d" all_true 4).file_list = ["d/a"]
    ∧ opened (dir_traverse fs_cycle "d" all_true 4).trace = ["d"]
    ∧ FiniteWalk (fs_wide 70000) (enter (fs_wide 70000) "w").2 (wide_canonical 70000)
        (wide_size 70000)
    ∧ (dir_traverse (fs_wide 70000) "w" all_true 70002).status ≠ Status.running := by
  have h := dir_traverse_terminates fs_cycle "d" all_true ["/cwd/d"] (fun _ => 2)
    fs_cycle_finite
  have hfin := fs_wide_finite 70000 (by norm_num)
  have hw := dir_traverse_terminates (fs_wide 70000) "w" all_true (wide_canonical 70000)
    (wide_size 70000) hfin
  have hfuel : 2 + ((wide_canonical 70000).map (wide_size 70000)).sum ≤ 70002 := by
    rw [wide_sum]
  exact ⟨fs_cycle_finite, by decide, by decide, (h.1 4 (by decide)).1, by decide,
    by decide, hfin, (hw.1 70002 hfuel).1⟩
/-! ## A directory is listed at most once -/

/-- C5: within one call of `dir_traverse`, for every canonical path `c` at most
one entry whose `realpath` is `c` is handed to `opendir`, and every path on
the result list is the root or was produced by listing one of those opened
entries; within one call of `dir_open` at most one entry is handed to
`opendir`, and it is the normalized root. -/
theorem children_enumerated_at_most_once (fs : FS) (root : String) (f : String → Bool)
    (fuel : Nat) :
    (∀ c, ((opened (dir_traverse fs root f fuel).trace).filter
        (fun p => decide (fs.realpath p = c))).length ≤ 1)
    ∧ (∀ x ∈ (dir_traverse fs root f fuel).file_list, x = (enter fs root).2
        ∨ ∃ q ∈ opened (dir_traverse fs root f fuel).trace, ∃ l,
            fs.opendir q = some l ∧ x ∈ children q l)
    ∧ (opened (dir_open fs root f fuel).trace).length ≤ 1
    ∧ (∀ p ∈ opened (dir_open fs root f fuel).trace, p = (enter fs root).2) := by
  refine ⟨fun c => ?_, ?_, ?_, ?_⟩
  · exact length_filter_le_one_of_nodup_map fs.realpath c _
      (traverse_opened_nodup fs root f fuel).1
  · intro x hx
    obtain ⟨a1, a2, -⟩ := frontier_structure true fs root f fuel
    exact a1 x (a2 x hx)
  · have h := open_opened_root fs root f fuel
    rw [run_false] at h
    cases hp : (dir_open fs root f fuel).processed_dir with
    | false => simp [(h.1 hp).1]
    | true => simp [h.2 hp]
  · intro p hp
    have h := open_opened_root fs root f fuel
    rw [run_false] at h
    cases hpd : (dir_open fs root f fuel).processed_dir with
    | false => rw [(h.1 hpd).1] at hp; simp at hp
    | true => rw [h.2 hpd] at hp; simpa using hp

/-! ## The result list has no duplicates -/

theorem fs_link_to_file_proper : ProperListings fs_link_to_file := by
  intro p l h
  unfold fs_link_to_file at h
  simp only at h
  split_ifs at h
  cases h
  decide

/-- C6: for every file system whose listings consist of pairwise different
entry names, whatever its links and link cycles, and every filter, the list
returned by `dir_traverse`, and the list returned by `dir_open`, contains no
path twice. -/
theorem result_list_has_no_duplicates (fs : FS) (root : String) (f : String → Bool)
    (fuel : Nat) (hfs : ProperListings fs) :
    ((dir_traverse fs root f fuel).status = Status.returned →
      (dir_traverse fs root f fuel).file_list.Nodup)
    ∧ ((dir_open fs root f fuel).status = Status.returned →
      (dir_open fs root f fuel).file_list.Nodup) :=
  ⟨returned_nodup true fs root f hfs fuel, returned_nodup false fs root f hfs fuel⟩

/-- Witness for C6: both calls return on the directory `d` of
`fs_link_to_file`. -/
theorem result_list_has_no_duplicates_witness :
    ProperListings fs_link_to_file
    ∧ (dir_traverse fs_link_to_file "d" all_true 4).status = Status.returned
    ∧ (dir_open fs_link_to_file "d" all_true 4).status = Status.returned
    ∧ (dir_traverse fs_link_to_file "d" all_true 4).file_list.Nodup
    ∧ (dir_open fs_link_to_file "d" all_true 4).file_list.Nodup := by
  have h := result_list_has_no_duplicates fs_link_to_file "d" all_true 4
    fs_link_to_file_proper
  exact ⟨fs_link_to_file_proper, by decide, by decide, h.1 (by decide), h.2 (by decide)⟩

/-! ## What is on the result list -/

/-- C7, as stated, fails: with a filter that rejects every name, `dir_traverse`
on the directory `d` returns the path of the link `d/l`, and `dir_open` on the
link itself returns the link; `lstat` classifies both as a symbolic link, not
as a regular file, and the filter rejects them. -/
theorem listed_link_is_not_regular :
    (dir_traverse fs_link_to_file "d" reject_all 4).status = Status.returned
    ∧ (dir_traverse fs_link_to_file "d" reject_all 4).file_list = ["d/l"]
    ∧ (dir_open fs_link_to_file "d/l" reject_all 2).status = Status.returned
    ∧ (dir_open fs_link_to_file "d/l" reject_all 2).file_list = ["d/l"]
    ∧ fs_link_to_file.lstat "d/l" = some FileType.lnk
    ∧ reject_all "d/l" = false := by
  decide

/-- C7, amended: every path on the list of `dir_open` or `dir_traverse`, after
any number of turns of the loop, passed the status query and the permission
check, and either was classified as a regular file and satisfies the filter,
or was classified as a symbolic link that `opendir` could not open. -/
theorem listed_is_regular_or_unopened_link (fs : FS) (root : String)
    (f : String → Bool) (fuel : Nat) :
    (∀ p ∈ (dir_open fs root f fuel).file_list,
      fs.access p = true ∧
        ((fs.lstat p = some FileType.reg ∧ f p = true)
          ∨ (fs.lstat p = some FileType.lnk ∧ fs.opendir p = none)))
    ∧ (∀ p ∈ (dir_traverse fs root f fuel).file_list,
      fs.access p = true ∧
        ((fs.lstat p = some FileType.reg ∧ f p = true)
          ∨ (fs.lstat p = some FileType.lnk ∧ fs.opendir p = none))) :=
  ⟨file_list_listed false fs root f fuel, file_list_listed true fs root f fuel⟩

/-! ## The fallback for links that do not open -/

/-- C8: when the loop of `dir_open` or `dir_traverse` works on an entry of
`files_to_process` that is a symbolic link, passed the status and permission
checks, is selected for opening (`processed_dir` not yet set, canonical path
not yet in `files_seen`) and cannot be opened, then for every filter the call
goes on to the next entry, the path of the link is appended to `file_list`,
and the filter is not called. -/
theorem link_fallback_appends_unfiltered (fs : FS) (f : String → Bool) (d : String)
    (s : State) (hrun : s.status = Status.running)
    (hi : s.i < s.files_to_process.length)
    (hlnk : fs.lstat s.entry = some FileType.lnk) (hacc : fs.access s.entry = true)
    (hsel : s.processed_dir = false) (hnew : fs.realpath s.entry ∉ s.files_seen)
    (hopen : fs.opendir s.entry = none) :
    ((loop_iter (dir_open_body fs f d) s).status = Status.running
      ∧ (loop_iter (dir_open_body fs f d) s).i = (s.i + 1) % 2 ^ 32
      ∧ (loop_iter (dir_open_body fs f d) s).file_list = s.file_list ++ [s.entry]
      ∧ filtered (loop_iter (dir_open_body fs f d) s).trace = filtered s.trace)
    ∧ ((loop_iter (dir_traverse_body fs f d) s).status = Status.running
      ∧ (loop_iter (dir_traverse_body fs f d) s).i = (s.i + 1) % 2 ^ 32
      ∧ (loop_iter (dir_traverse_body fs f d) s).file_list = s.file_list ++ [s.entry]
      ∧ filtered (loop_iter (dir_traverse_body fs f d) s).trace = filtered s.trace) := by
  have hi' : s.i ≠ s.files_to_process.length := Nat.ne_of_lt hi
  constructor
  · simp [loop_iter, hrun, hi', dir_open_body, read_status, hlnk, hacc, State.log, hsel,
      open_directory, hopen, filtered_append, filtered]
  · simp [loop_iter, hrun, hi', dir_traverse_body, read_status, hlnk, hacc, State.log,
      have_seen, hnew, set_insert, open_directory, hopen, filtered_append, filtered]

/-- Witness for C8: the link `d/l` of `fs_link_to_file`, under a filter that
rejects every name. -/
theorem link_fallback_appends_unfiltered_witness :
    (loop_iter (dir_open_body fs_link_to_file reject_all "d/l") at_link).file_list = ["d/l"]
    ∧ (loop_iter (dir_traverse_body fs_link_to_file reject_all "d/l") at_link).file_list
        = ["d/l"] := by
  have h := link_fallback_appends_unfiltered fs_link_to_file reject_all "d/l" at_link
    (by decide) (by decide) (by decide) (by decide) (by decide) (by decide) (by decide)
  exact ⟨h.1.2.2.1, h.2.2.2.1⟩

/-! ## Links whose target does not exist -/

/-- C9, as stated, fails: in `fs_dangling` the directory `d` holds the link
`gone` whose target does not exist; `dir_traverse` on `d` with the filter that
accepts every name returns the empty list, so the path of the link is not
returned. -/
theorem dangling_link_is_not_returned :
    Dangling fs_dangling "d/gone"
    ∧ (dir_traverse fs_dangling "d" all_true 3).files_to_process = ["d", "d/gone"]
    ∧ (dir_traverse fs_dangling "d" all_true 3).status = Status.returned
    ∧ (dir_traverse fs_dangling "d" all_true 3).file_list = []
    ∧ "d/gone" ∉ (dir_traverse fs_dangling "d" all_true 3).file_list := by
  refine ⟨⟨?_, ?_, ?_⟩, ?_, ?_, ?_, ?_⟩ <;> decide

/-- C9, amended: a symbolic link `p` whose target does not exist fails the
permission check of `dir_traverse` and is skipped: a turn of the loop that
works on it does not abort the call, opens nothing, adds no file to process
and reports nothing, and `p` is on the result list of no call, after any
number of turns and whatever the filter. -/
theorem dangling_link_is_skipped (fs : FS) (root : String) (f : String → Bool)
    (fuel : Nat) (d : String) (s : State) (p : String) (hd : Dangling fs p)
    (hrun : s.status = Status.running) (hi : s.i < s.files_to_process.length)
    (hp : s.entry = p) :
    ((loop_iter (dir_traverse_body fs f d) s).status = Status.running
      ∧ (loop_iter (dir_traverse_body fs f d) s).i = (s.i + 1) % 2 ^ 32
      ∧ (loop_iter (dir_traverse_body fs f d) s).file_list = s.file_list
      ∧ (loop_iter (dir_traverse_body fs f d) s).files_to_process = s.files_to_process
      ∧ opened (loop_iter (dir_traverse_body fs f d) s).trace = opened s.trace)
    ∧ p ∉ (dir_traverse fs root f fuel).file_list := by
  have hi' : s.i ≠ s.files_to_process.length := Nat.ne_of_lt hi
  obtain ⟨h1, h2, -⟩ := hd
  constructor
  · rw [← hp] at h1 h2
    simp [loop_iter, hrun, hi', dir_traverse_body, read_status, h1, h2, State.log,
      State.warn, opened_append, opened]
  · intro hmem
    have h := (file_list_listed true fs root f fuel _ hmem).1
    rw [h2] at h
    exact Bool.false_ne_true h

/-- Witness for C9 (amended): the dangling link of `fs_dangling`. -/
theorem dangling_link_is_skipped_witness :
    Dangling fs_dangling "d/gone"
    ∧ at_dangling.entry = "d/gone"
    ∧ (loop_iter (dir_traverse_body fs_dangling all_true "d") at_dangling).status
        = Status.running
    ∧ "d/gone" ∉ (dir_traverse fs_dangling "d" all_true 3).file_list := by
  have hd : Dangling fs_dangling "d/gone" := by
    refine ⟨?_, ?_, ?_⟩ <;> decide
  have h := dangling_link_is_skipped fs_dangling "d" all_true 3 "d" at_dangling "d/gone" hd
    (by decide) (by decide) (by decide)
  exact ⟨hd, by decide, h.1.1, h.2⟩

/-! ## A filter and its negation -/

/-- C10 fails on a root that is a symbolic link to a regular file: for the
link `d/l` to the regular file `d/t`, which passes the checks and does not
open as a directory, `dir_open` returns the path of the link under the filter
that accepts every name and under its negation, which rejects every name, so
the two lists overlap.  The branch taken appends the path without calling the
filter, although it is commented as treating the link as a regular file, and
the regular file `d/t` itself, given as the root, is returned under the first
filter only. -/
theorem link_root_in_both_lists :
    reject_all = (fun p => !(all_true p))
    ∧ fs_link_to_file.lstat "d/l" = some FileType.lnk
    ∧ fs_link_to_file.opendir "d/l" = none
    ∧ (dir_open fs_link_to_file "d/l" all_true 2).status = Status.returned
    ∧ (dir_open fs_link_to_file "d/l" all_true 2).file_list = ["d/l"]
    ∧ (dir_open fs_link_to_file "d/l" reject_all 2).status = Status.returned
    ∧ (dir_open fs_link_to_file "d/l" reject_all 2).file_list = ["d/l"]
    ∧ ("d/l" ∈ (dir_open fs_link_to_file "d/l" all_true 2).file_list
      ∧ "d/l" ∈ (dir_open fs_link_to_file "d/l" reject_all 2).file_list)
    ∧ Event.filter "d/l" ∉ (dir_open fs_link_to_file "d/l" reject_all 2).trace
    ∧ fs_link_to_file.lstat "d/t" = some FileType.reg
    ∧ (dir_open fs_link_to_file "d/t" all_true 2).file_list = ["d/t"]
    ∧ (dir_open fs_link_to_file "d/t" reject_all 2).file_list = []
    ∧ Event.filter "d/t" ∈ (dir_open fs_link_to_file "d/t" reject_all 2).trace := by
  refine ⟨rfl, ?_, ?_, ?_, ?_, ?_, ?_, ?_, ?_, ?_, ?_, ?_, ?_⟩ <;> decide

/-- The unfiltered append for a link that does not open is the only way the
lists of a filter and of its negation can overlap: for every file system,
every filter `f` and every root whose normalized form is not a symbolic link
that passes the checks and fails to open, after any number of turns the runs
of `dir_open` with `f`, with its negation and with `all_true` have the same
status, and the lists with `f` and with its negation are the unfiltered list
restricted to the paths `f` accepts and to the paths `f` rejects: every path
of the unfiltered list is in exactly one of the two, and neither holds any
other path. -/
theorem filter_and_negation_partition (fs : FS) (root : String) (f : String → Bool)
    (fuel : Nat)
    (hroot : ¬ (fs.lstat (enter fs root).2 = some FileType.lnk
      ∧ fs.access (enter fs root).2 = true ∧ fs.opendir (enter fs root).2 = none)) :
    (dir_open fs root f fuel).status = (dir_open fs root all_true fuel).status
    ∧ (dir_open fs root (fun p => !f p) fuel).status
        = (dir_open fs root all_true fuel).status
    ∧ (dir_open fs root f fuel).file_list
        = (dir_open fs root all_true fuel).file_list.filter f
    ∧ (dir_open fs root (fun p => !f p) fuel).file_list
        = (dir_open fs root all_true fuel).file_list.filter (fun p => !f p)
    ∧ (∀ p, p ∈ (dir_open fs root all_true fuel).file_list ↔
        (p ∈ (dir_open fs root f fuel).file_list
          ∨ p ∈ (dir_open fs root (fun p => !f p) fuel).file_list))
    ∧ (∀ p, ¬ (p ∈ (dir_open fs root f fuel).file_list
          ∧ p ∈ (dir_open fs root (fun p => !f p) fuel).file_list)) := by
  have hreg : ∀ p ∈ (run false fs root all_true fuel).file_list,
      fs.lstat p = some FileType.reg := by
    intro p hp
    rcases open_file_list_regular fs root all_true fuel p hp with h | ⟨h1, h2, h3, h4⟩
    · exact h
    · subst h1; exact absurd ⟨h2, h3, h4⟩ hroot
  have key : ∀ g : String → Bool, (run false fs root g fuel).file_list
      = (run false fs root all_true fuel).file_list.filter g := by
    intro g
    rw [run_thin false fs root g fuel]
    show (run false fs root all_true fuel).file_list.filter (survives fs g) = _
    apply List.filter_congr
    intro p hp
    simp [survives, hreg p hp]
  have hst : ∀ g : String → Bool, (run false fs root g fuel).status
      = (run false fs root all_true fuel).status := by
    intro g
    rw [run_thin false fs root g fuel]
    rfl
  simp only [← run_false]
  refine ⟨hst f, hst _, key f, key _, ?_, ?_⟩
  · intro p
    rw [key f, key (fun p => !f p)]
    simp only [List.mem_filter]
    by_cases hf : f p = true <;> simp [hf]
  · intro p
    rw [key f, key (fun p => !f p)]
    simp only [List.mem_filter]
    by_cases hf : f p = true <;> simp [hf]

/-- The lists of a filter and its negation for the directory `d` of
`fs_link_to_file`. -/
theorem filter_and_negation_partition_witness :
    ¬ (fs_link_to_file.lstat (enter fs_link_to_file "d").2 = some FileType.lnk
      ∧ fs_link_to_file.access (enter fs_link_to_file "d").2 = true
      ∧ fs_link_to_file.opendir (enter fs_link_to_file "d").2 = none)
    ∧ (dir_open fs_link_to_file "d" all_true 4).file_list = ["d/t"]
    ∧ (dir_open fs_link_to_file "d" (fun p => !all_true p) 4).file_list = [] := by
  have h0 : ¬ (fs_link_to_file.lstat (enter fs_link_to_file "d").2 = some FileType.lnk
      ∧ fs_link_to_file.access (enter fs_link_to_file "d").2 = true
      ∧ fs_link_to_file.opendir (enter fs_link_to_file "d").2 = none) := by decide
  have h := filter_and_negation_partition fs_link_to_file "d" all_true 4 h0
  have e : (dir_open fs_link_to_file "d" all_true 4).file_list = ["d/t"] := by decide
  refine ⟨h0, e, ?_⟩
  rw [h.2.2.2.1, e]
  rfl

/-! ## The filter does not steer the traversal -/

/-- C11: for every file system, root and filter `f`, after any number of turns
the runs of `dir_traverse` with `f` and with `all_true` have the same files
to process, counter, `files_seen`, trace (so the same system calls, the same
entries opened, the same filter calls) and status (running, returned, or
ended with the same error); the filter was called only on paths that passed
the checks as regular files; and `file_list` with `f` is `file_list` with
`all_true` from which exactly the paths classified as regular files that `f`
rejects are removed.  The same holds for `dir_open`. -/
theorem filter_does_not_steer_traversal (fs : FS) (root : String) (f : String → Bool)
    (fuel : Nat) :
    ((dir_traverse fs root f fuel).files_to_process
        = (dir_traverse fs root all_true fuel).files_to_process
      ∧ (dir_traverse fs root f fuel).i = (dir_traverse fs root all_true fuel).i
      ∧ (dir_traverse fs root f fuel).files_seen
        = (dir_traverse fs root all_true fuel).files_seen
      ∧ (dir_traverse fs root f fuel).trace = (dir_traverse fs root all_true fuel).trace
      ∧ (dir_traverse fs root f fuel).status = (dir_traverse fs root all_true fuel).status
      ∧ (∀ p ∈ filtered (dir_traverse fs root f fuel).trace,
          fs.lstat p = some FileType.reg ∧ fs.access p = true)
      ∧ (dir_traverse fs root f fuel).file_list
        = (dir_traverse fs root all_true fuel).file_list.filter
            (fun p => !(decide (fs.lstat p = some FileType.reg) && !f p)))
    ∧ ((dir_open fs root f fuel).files_to_process
        = (dir_open fs root all_true fuel).files_to_process
      ∧ (dir_open fs root f fuel).i = (dir_open fs root all_true fuel).i
      ∧ (dir_open fs root f fuel).processed_dir
        = (dir_open fs root all_true fuel).processed_dir
      ∧ (dir_open fs root f fuel).trace = (dir_open fs root all_true fuel).trace
      ∧ (dir_open fs root f fuel).status = (dir_open fs root all_true fuel).status
      ∧ (∀ p ∈ filtered (dir_open fs root f fuel).trace,
          fs.lstat p = some FileType.reg ∧ fs.access p = true)
      ∧ (dir_open fs root f fuel).file_list
        = (dir_open fs root all_true fuel).file_list.filter
            (fun p => !(decide (fs.lstat p = some FileType.reg) && !f p))) := by
  have hfl : ∀ walk, (run walk fs root f fuel).file_list
      = (run walk fs root all_true fuel).file_list.filter
          (fun p => !(decide (fs.lstat p = some FileType.reg) && !f p)) := by
    intro walk
    rw [run_thin walk fs root f fuel]
    show (run walk fs root all_true fuel).file_list.filter (survives fs f) = _
    apply List.filter_congr
    intro p _
    by_cases h1 : fs.lstat p = some FileType.reg <;> by_cases h2 : f p = true <;>
      simp [survives, h1, h2]
  have hfilt : ∀ walk, ∀ p ∈ filtered (run walk fs root f fuel).trace,
      fs.lstat p = some FileType.reg ∧ fs.access p = true :=
    fun walk p hp => trace_checked walk fs root f fuel _ (mem_filtered _ _ hp)
  have ht := run_thin true fs root f fuel
  have ho := run_thin false fs root f fuel
  simp only [← run_true, ← run_false]
  refine ⟨⟨?_, ?_, ?_, ?_, ?_, hfilt true, hfl true⟩,
    ⟨?_, ?_, ?_, ?_, ?_, hfilt false, hfl false⟩⟩
  all_goals first
    | (rw [ht]; rfl)
    | (rw [ho]; rfl)

/-! ## The two fatal conditions -/

/-- C12: once the root is normalized and the loop is entered, a run of
`dir_traverse` has ended with an error exactly when one of its earlier turns
worked on a fatal entry: one that passed `lstat` and `access`, whose canonical
path was not in `files_seen`, and that is a directory that does not open, or
a directory or link that opens and does not close.  The same holds for
`dir_open` with `processed_dir` not yet set in place of the `files_seen`
test.  In every other case the call returns.  For `dir_traverse` this is on a
file system that is finite for the traversal (`FiniteWalk`: the directories
it can come to from the root list, all together and with the root, no more
files to process than the 32-bit loop counter can count): after
`2 + Σ size c` turns it has either returned or ended with an error, and it
has returned whenever no turn worked on a fatal entry.  For `dir_open`, which
opens the root only, it is enough that the root lists at most `B` names other
than `.` and `..` with `1 + B` within the range of the counter: after `2 + B`
turns it has either returned or ended with an error, and it has returned
whenever no turn worked on a fatal entry. -/
theorem abort_iff_fatal_entry (fs : FS) (root : String) (f : String → Bool)
    (hrun : (enter fs root).1.status = Status.running) :
    (∀ fuel, (∃ msg, (dir_traverse fs root f fuel).status = Status.exited msg)
        ↔ ∃ n, n < fuel ∧ Fatal true fs (dir_traverse fs root f n))
    ∧ (∀ fuel, (∃ msg, (dir_open fs root f fuel).status = Status.exited msg)
        ↔ ∃ n, n < fuel ∧ Fatal false fs (dir_open fs root f n))
    ∧ (∀ C size, FiniteWalk fs (enter fs root).2 C size →
        ∀ fuel, 2 + (C.map size).sum ≤ fuel →
        ((dir_traverse fs root f fuel).status = Status.returned
          ∨ ∃ msg, (dir_traverse fs root f fuel).status = Status.exited msg)
        ∧ ((∀ n, ¬ Fatal true fs (dir_traverse fs root f n)) →
            (dir_traverse fs root f fuel).status = Status.returned))
    ∧ (∀ B, (∀ l, Opens fs (enter fs root).2 l →
          (children (enter fs root).2 l).length ≤ B) → 1 + B < 2 ^ 32 →
        ∀ fuel, 2 + B ≤ fuel →
        ((dir_open fs root f fuel).status = Status.returned
          ∨ ∃ msg, (dir_open fs root f fuel).status = Status.exited msg)
        ∧ ((∀ n, ¬ Fatal false fs (dir_open fs root f n)) →
            (dir_open fs root f fuel).status = Status.returned)) := by
  have hend : ∀ walk fuel, (run walk fs root f fuel).status ≠ Status.running →
      ((run walk fs root f fuel).status = Status.returned
        ∨ ∃ msg, (run walk fs root f fuel).status = Status.exited msg)
      ∧ ((∀ n, ¬ Fatal walk fs (run walk fs root f n)) →
          (run walk fs root f fuel).status = Status.returned) := by
    intro walk fuel hne
    have hiff := exited_iff_fatal walk fs root f hrun fuel
    have hcases : (run walk fs root f fuel).status = Status.returned
        ∨ ∃ msg, (run walk fs root f fuel).status = Status.exited msg := by
      cases hst : (run walk fs root f fuel).status with
      | running => exact absurd hst hne
      | returned => exact Or.inl rfl
      | exited msg => exact Or.inr ⟨msg, rfl⟩
    refine ⟨hcases, fun hno => ?_⟩
    rcases hcases with h | h
    · exact h
    · obtain ⟨n, -, hf⟩ := hiff.mp h
      exact absurd hf (hno n)
  refine ⟨fun fuel => exited_iff_fatal true fs root f hrun fuel,
    fun fuel => exited_iff_fatal false fs root f hrun fuel, ?_, ?_⟩
  · intro C size hfin fuel hfuel
    exact hend true fuel (traverse_run_ends fs root f C size hfin fuel hfuel)
  · intro B hB hfits fuel hfuel
    exact hend false fuel (open_run_ends fs root f B hB hfits fuel hfuel)

/-- In `fs_locked` the second turn of `dir_traverse` works on the directory
`d/x`, which passes the checks and does not open, and the call on `d` has
ended with an error after two turns; `dir_open` does not select `d/x` for
opening and returns, as it must with no fatal entry and a root that lists one
name; the loop over `fs_cycle` returns or ends with an error; and on the
directory `w` of `fs_wide 70000`, which holds 70000 directories and no fatal
entry, both functions return. -/
theorem abort_iff_fatal_entry_witness :
    (enter fs_locked "d").1.status = Status.running
    ∧ (dir_traverse fs_locked "d" all_true 1).entry = "d/x"
    ∧ fs_locked.lstat "d/x" = some FileType.dir
    ∧ fs_locked.opendir "d/x" = none
    ∧ (∃ msg, (dir_traverse fs_locked "d" all_true 2).status = Status.exited msg)
    ∧ (¬ ∃ n, n < 3 ∧ Fatal false fs_locked (dir_open fs_locked "d" all_true n))
    ∧ ((dir_open fs_locked "d" all_true 3).status = Status.returned
        ∨ ∃ msg, (dir_open fs_locked "d" all_true 3).status = Status.exited msg)
    ∧ (enter fs_cycle "d").1.status = Status.running
    ∧ FiniteWalk fs_cycle (enter fs_cycle "d").2 ["/cwd/d"] (fun _ => 2)
    ∧ ((dir_traverse fs_cycle "d" all_true 4).status = Status.returned
        ∨ ∃ msg, (dir_traverse fs_cycle "d" all_true 4).status = Status.exited msg)
    ∧ (enter (fs_wide 70000) "w").1.status = Status.running
    ∧ (dir_traverse (fs_wide 70000) "w" all_true 70002).status = Status.returned
    ∧ (dir_open (fs_wide 70000) "w" all_true 70002).status = Status.returned := by
  have h := abort_iff_fatal_entry fs_locked "d" all_true (by decide)
  have hc := abort_iff_fatal_entry fs_cycle "d" all_true (by decide)
  have hw := abort_iff_fatal_entry (fs_wide 70000) "w" all_true (wide_entered 70000)
  have hf : Fatal true fs_locked (dir_traverse fs_locked "d" all_true 1) :=
    ⟨by decide, by decide, by decide, by unfold blocked; simp only [↓reduceIte]; decide,
      Or.inl ⟨by decide, by decide⟩⟩
  have hr : (dir_open fs_locked "d" all_true 3).status = Status.returned := by decide
  have hno : ¬ ∃ n, n < 3 ∧ Fatal false fs_locked (dir_open fs_locked "d" all_true n) := by
    intro hn
    obtain ⟨msg, hm⟩ := (h.2.1 3).mpr hn
    rw [hr] at hm
    cases hm
  have hroot : ∀ l, Opens fs_locked (enter fs_locked "d").2 l →
      (children (enter fs_locked "d").2 l).length ≤ 1 := by
    intro l ho
    have e : (enter fs_locked "d").2 = "d" := by decide
    have h4 := ho.2.2
    rw [e] at h4 ⊢
    simp only [fs_locked] at h4
    cases h4
    decide
  have hfuel : 2 + ((wide_canonical 70000).map (wide_size 70000)).sum ≤ 70002 := by
    rw [wide_sum]
  exact ⟨by decide, by decide, by decide, by decide, (h.1 2).mpr ⟨1, by decide, hf⟩,
    hno, (h.2.2.2 1 hroot (by norm_num) 3 (by decide)).1, by decide, fs_cycle_finite,
    (hc.2.2.1 ["/cwd/d"] (fun _ => 2) fs_cycle_finite 4 (by decide)).1,
    wide_entered 70000,
    (hw.2.2.1 (wide_canonical 70000) (wide_size 70000)
      (fs_wide_finite 70000 (by norm_num)) 70002 hfuel).2
      (fun _ => fs_wide_no_fatal true 70000 _),
    (hw.2.2.2 70000 (wide_root_listing 70000) (by norm_num) 70002 (by norm_num)).2
      (fun _ => fs_wide_no_fatal false 70000 _)⟩
/-! ## Unreadable entries -/

/-- C13: a turn of the loop of `dir_open` or `dir_traverse` on an entry `p`
whose status query fails, or whose permission check fails, only writes a
warning (a different one in the two cases) and moves the counter to the next
entry: the call keeps running, and `file_list`, the files to process and
`files_seen` are unchanged.  Moreover such a path is never on the result
list, never handed to `opendir` and never handed to `realpath`, in any run. -/
theorem unreadable_entry_is_skipped (fs : FS) (root : String) (f : String → Bool)
    (fuel : Nat) (d : String) (s : State) (p : String)
    (hrun : s.status = Status.running) (hi : s.i < s.files_to_process.length)
    (hp : s.entry = p) (hbad : fs.lstat p = none ∨ fs.access p = false) :
    loop_iter (dir_open_body fs f d) s = { s with
        trace := s.trace ++
          (if fs.lstat p = none then
            [Event.lstat p, Event.err_warn ("Unable to access file \x27" ++ p ++ "\x27\n")]
          else
            [Event.lstat p, Event.access p,
              Event.err_warn ("Unable to read file \x27" ++ p ++ "\x27\n")]),
        i := (s.i + 1) % 2 ^ 32 }
    ∧ loop_iter (dir_traverse_body fs f d) s = { s with
        trace := s.trace ++
          (if fs.lstat p = none then
            [Event.lstat p, Event.err_warn ("Unable to access file \x27" ++ p ++ "\x27\n")]
          else
            [Event.lstat p, Event.access p,
              Event.err_warn ("Unable to read file \x27" ++ p ++ "\x27\n")]),
        i := (s.i + 1) % 2 ^ 32 }
    ∧ (p ∉ (dir_open fs root f fuel).file_list
      ∧ p ∉ opened (dir_open fs root f fuel).trace
      ∧ p ∉ resolved (dir_open fs root f fuel).trace)
    ∧ (p ∉ (dir_traverse fs root f fuel).file_list
      ∧ p ∉ opened (dir_traverse fs root f fuel).trace
      ∧ p ∉ resolved (dir_traverse fs root f fuel).trace) := by
  have hi' : s.i ≠ s.files_to_process.length := Nat.ne_of_lt hi
  have hrunlevel : ∀ walk, p ∉ (run walk fs root f fuel).file_list
      ∧ p ∉ opened (run walk fs root f fuel).trace
      ∧ p ∉ resolved (run walk fs root f fuel).trace := by
    intro walk
    refine ⟨?_, ?_, ?_⟩
    · intro hm
      obtain ⟨h1, h2⟩ := file_list_listed walk fs root f fuel p hm
      rcases hbad with hb | hb
      · rcases h2 with h2 | h2 <;> rw [hb] at h2 <;> simp at h2
      · rw [hb] at h1; simp at h1
    · intro hm
      obtain ⟨h1, h2⟩ := trace_checked walk fs root f fuel _ (mem_opened _ _ hm)
      rcases hbad with hb | hb
      · rcases h1 with h1 | h1 <;> rw [hb] at h1 <;> simp at h1
      · rw [hb] at h2; simp at h2
    · intro hm
      obtain ⟨h1, h2⟩ := trace_checked walk fs root f fuel _ (mem_resolved _ _ hm)
      rcases hbad with hb | hb
      · rcases h1 with h1 | h1 <;> rw [hb] at h1 <;> simp at h1
      · rw [hb] at h2; simp at h2
  refine ⟨?_, ?_, hrunlevel false, hrunlevel true⟩
  · subst hp
    cases h1 : fs.lstat s.entry with
    | none =>
      simp [loop_iter, hrun, hi', dir_open_body, read_status, h1, State.log, State.warn]
    | some t =>
      have h2 : fs.access s.entry = false := by
        rcases hbad with hb | hb
        · rw [h1] at hb; simp at hb
        · exact hb
      simp [loop_iter, hrun, hi', dir_open_body, read_status, h1, h2, State.log, State.warn]
  · subst hp
    cases h1 : fs.lstat s.entry with
    | none =>
      simp [loop_iter, hrun, hi', dir_traverse_body, read_status, h1, State.log, State.warn]
    | some t =>
      have h2 : fs.access s.entry = false := by
        rcases hbad with hb | hb
        · rw [h1] at hb; simp at hb
        · exact hb
      simp [loop_iter, hrun, hi', dir_traverse_body, read_status, h1, h2, State.log,
        State.warn]

/-- Witness for C13: the link `d/gone` of `fs_dangling`, which fails the
permission check. -/
theorem unreadable_entry_is_skipped_witness :
    fs_dangling.access "d/gone" = false
    ∧ (loop_iter (dir_traverse_body fs_dangling all_true "d") at_dangling).status
        = Status.running
    ∧ (loop_iter (dir_traverse_body fs_dangling all_true "d") at_dangling).i = 2
    ∧ "d/gone" ∉ opened (dir_traverse fs_dangling "d" all_true 3).trace := by
  have h := unreadable_entry_is_skipped fs_dangling "d" all_true 3 "d" at_dangling "d/gone"
    (by decide) (by decide) (by decide) (Or.inr (by decide))
  refine ⟨by decide, ?_, ?_, h.2.2.2.2.1⟩
  · rw [h.2.1]; rfl
  · rw [h.2.1]; rfl

/-! ## Devices, pipes and sockets -/

/-- C14: a turn of the loop of `dir_open` or `dir_traverse` on a readable entry
`p` classified as a character device, block device, fifo or socket performs
the two checks, writes exactly one warning, whose text names the kind
(`character special`, `block special`, `pipe`, `socket`: four different
texts), and moves the counter to the next entry with everything else
unchanged.  Moreover such a path is never on the result list and never handed
to `opendir`, in any run. -/
theorem special_file_is_ignored (fs : FS) (root : String) (f : String → Bool)
    (fuel : Nat) (d : String) (s : State) (p : String) (t : FileType)
    (hrun : s.status = Status.running) (hi : s.i < s.files_to_process.length)
    (hp : s.entry = p) (hstat : fs.lstat p = some t) (hacc : fs.access p = true)
    (ht : t = FileType.chr ∨ t = FileType.blk ∨ t = FileType.fifo ∨ t = FileType.sock) :
    loop_iter (dir_open_body fs f d) s = { s with
        trace := s.trace ++ [Event.lstat p, Event.access p,
          Event.err_warn ("Ignoring " ++ special_file_text t ++ " file: \x27" ++ p
            ++ "\x27\n")],
        i := (s.i + 1) % 2 ^ 32 }
    ∧ loop_iter (dir_traverse_body fs f d) s = { s with
        trace := s.trace ++ [Event.lstat p, Event.access p,
          Event.err_warn ("Ignoring " ++ special_file_text t ++ " file: \x27" ++ p
            ++ "\x27\n")],
        i := (s.i + 1) % 2 ^ 32 }
    ∧ ([FileType.chr, FileType.blk, FileType.fifo, FileType.sock].map
        special_file_text).Nodup
    ∧ (p ∉ (dir_open fs root f fuel).file_list
      ∧ p ∉ opened (dir_open fs root f fuel).trace)
    ∧ (p ∉ (dir_traverse fs root f fuel).file_list
      ∧ p ∉ opened (dir_traverse fs root f fuel).trace) := by
  have hi' : s.i ≠ s.files_to_process.length := Nat.ne_of_lt hi
  have hnr : fs.lstat p ≠ some FileType.reg := by
    rw [hstat]; rcases ht with h | h | h | h <;> subst h <;> simp
  have hnd : fs.lstat p ≠ some FileType.dir := by
    rw [hstat]; rcases ht with h | h | h | h <;> subst h <;> simp
  have hnl : fs.lstat p ≠ some FileType.lnk := by
    rw [hstat]; rcases ht with h | h | h | h <;> subst h <;> simp
  have hrunlevel : ∀ walk, p ∉ (run walk fs root f fuel).file_list
      ∧ p ∉ opened (run walk fs root f fuel).trace := by
    intro walk
    refine ⟨?_, ?_⟩
    · intro hm
      obtain ⟨-, h2⟩ := file_list_listed walk fs root f fuel p hm
      rcases h2 with h2 | h2
      · exact hnr h2.1
      · exact hnl h2.1
    · intro hm
      obtain ⟨h1, -⟩ := trace_checked walk fs root f fuel _ (mem_opened _ _ hm)
      rcases h1 with h1 | h1
      · exact hnd h1
      · exact hnl h1
  have e1 : ("Ignoring character special file: \x27" : String)
      = "Ignoring " ++ "character special" ++ " file: \x27" := by decide
  have e2 : ("Ignoring block special file: \x27" : String)
      = "Ignoring " ++ "block special" ++ " file: \x27" := by decide
  have e3 : ("Ignoring pipe file: \x27" : String)
      = "Ignoring " ++ "pipe" ++ " file: \x27" := by decide
  have e4 : ("Ignoring socket file: \x27" : String)
      = "Ignoring " ++ "socket" ++ " file: \x27" := by decide
  refine ⟨?_, ?_, by decide, hrunlevel false, hrunlevel true⟩
  · subst hp
    rcases ht with h | h | h | h <;> subst h <;>
    simp [loop_iter, hrun, hi', dir_open_body, read_status, hstat, hacc, State.log,
      State.warn, skip_other, special_file_text, e1, e2, e3, e4]
  · subst hp
    rcases ht with h | h | h | h <;> subst h <;>
    simp [loop_iter, hrun, hi', dir_traverse_body, read_status, hstat, hacc, State.log,
      State.warn, skip_other, special_file_text, e1, e2, e3, e4]

/-- Witness for C14: the character device `d/c` of `fs_special`. -/
theorem special_file_is_ignored_witness :
    fs_special.lstat "d/c" = some FileType.chr
    ∧ (loop_iter (dir_traverse_body fs_special all_true "d") at_special).trace
        = [Event.lstat "d/c", Event.access "d/c",
            Event.err_warn "Ignoring character special file: \x27d/c\x27\n"]
    ∧ (loop_iter (dir_open_body fs_special all_true "d") at_special).i = 2
    ∧ (dir_traverse fs_special "d" all_true 6).status = Status.returned
    ∧ "d/c" ∉ (dir_traverse fs_special "d" all_true 6).file_list := by
  have h := special_file_is_ignored fs_special "d" all_true 6 "d" at_special "d/c"
    FileType.chr (by decide) (by decide) (by decide) (by decide) (by decide)
    (Or.inl rfl)
  refine ⟨by decide, ?_, ?_, by decide, h.2.2.2.2.1⟩
  · rw [h.2.1]; decide
  · rw [h.1]; rfl

/-! ## What the visited set decides -/

/-- C15, as stated, fails: in `fs_two_links` the links `d/l1` and `d/l2` resolve
to the same regular file and neither opens; `dir_traverse` on `d` returns
`d/l1` but not `d/l2`; and one turn of the loop on `d/l2` appends the path
when `files_seen` is empty and does not append it when `files_seen` holds the
canonical path of the target, everything else being equal. -/
theorem second_link_is_not_reported :
    fs_two_links.lstat "d/l1" = some FileType.lnk
    ∧ fs_two_links.lstat "d/l2" = some FileType.lnk
    ∧ fs_two_links.realpath "d/l1" = fs_two_links.realpath "d/l2"
    ∧ fs_two_links.opendir "d/l1" = none ∧ fs_two_links.opendir "d/l2" = none
    ∧ (dir_traverse fs_two_links "d" all_true 4).status = Status.returned
    ∧ (dir_traverse fs_two_links "d" all_true 4).files_to_process = ["d", "d/l1", "d/l2"]
    ∧ (dir_traverse fs_two_links "d" all_true 4).file_list = ["d/l1"]
    ∧ second_link_seen = { second_link_fresh with files_seen := ["/cwd/t"] }
    ∧ (loop_iter (dir_traverse_body fs_two_links all_true "d") second_link_fresh).file_list
        = ["d/l2"]
    ∧ (loop_iter (dir_traverse_body fs_two_links all_true "d") second_link_seen).file_list
        = [] := by
  refine ⟨?_, ?_, ?_, ?_, ?_, ?_, ?_, ?_, rfl, ?_, ?_⟩ <;> decide

/-- C15, amended: in `dir_traverse` the visited set decides whether an entry is
opened, and with it whether the fallback for links applies.  A turn of the
loop on an entry appends its path to `file_list` exactly in two cases: the
entry is a readable regular file the filter accepts, whatever `files_seen`
holds; or the entry is a readable symbolic link that does not open and whose
canonical path is not yet in `files_seen`. -/
theorem reporting_and_visited_set (fs : FS) (f : String → Bool) (d : String)
    (s : State) (hrun : s.status = Status.running)
    (hi : s.i < s.files_to_process.length) :
    (loop_iter (dir_traverse_body fs f d) s).file_list = s.file_list ++
      (if kept fs f s.entry = true then [s.entry]
        else if fs.lstat s.entry = some FileType.lnk ∧ fs.access s.entry = true
            ∧ fs.opendir s.entry = none ∧ fs.realpath s.entry ∉ s.files_seen
          then [s.entry]
        else []) := by
  have hi' : s.i ≠ s.files_to_process.length := Nat.ne_of_lt hi
  have hit := iter_traverse fs f d s
  generalize loop_iter (dir_traverse_body fs f d) s = s' at hit
  cases hit with
  | frozen h => exact absurd hrun h
  | ret h hi2 => exact absurd hi2 hi'
  | skip tr h hi2 ht hc =>
    have hk : kept fs f s.entry = false := by
      rcases hc with hc | hc | hc
      · simp [kept, hc]
      · simp [kept, hc]
      · simp [kept, hc.1]
    have hl : ¬ (fs.lstat s.entry = some FileType.lnk ∧ fs.access s.entry = true
        ∧ fs.opendir s.entry = none ∧ fs.realpath s.entry ∉ s.files_seen) := by
      rintro ⟨a1, a2, -, a4⟩
      rcases hc with hc | hc | hc
      · rw [hc] at a1; simp at a1
      · rw [hc] at a2; simp at a2
      · exact a4 (by simpa [blocked] using hc.2 (Or.inr a1))
    simp [hk, hl]
  | regular tr h hi2 ht h1 h2 =>
    have hl : ¬ (fs.lstat s.entry = some FileType.lnk ∧ fs.access s.entry = true
        ∧ fs.opendir s.entry = none ∧ fs.realpath s.entry ∉ s.files_seen) := by
      rintro ⟨a1, -⟩
      rw [h1] at a1; simp at a1
    by_cases hf : f s.entry = true
    · have hk : kept fs f s.entry = true := by simp [kept, h1, h2, hf]
      simp [hk, hf]
    · have hk : kept fs f s.entry = false := by simp [kept, hf]
      simp [hk, hf, hl]
  | fallback tr h hi2 ht h1 h2 h3 h4 =>
    have hk : kept fs f s.entry = false := by simp [kept, h1]
    have h3' : fs.realpath s.entry ∉ s.files_seen := by simpa [blocked] using h3
    have hl : fs.lstat s.entry = some FileType.lnk ∧ fs.access s.entry = true
        ∧ fs.opendir s.entry = none ∧ fs.realpath s.entry ∉ s.files_seen :=
      ⟨h1, h2, h4, h3'⟩
    simp [hk, hl]
  | open_failed tr m h hi2 ht h1 h2 h3 h4 =>
    have hk : kept fs f s.entry = false := by simp [kept, h1]
    have hl : ¬ (fs.lstat s.entry = some FileType.lnk ∧ fs.access s.entry = true
        ∧ fs.opendir s.entry = none ∧ fs.realpath s.entry ∉ s.files_seen) := by
      rintro ⟨a1, -⟩
      rw [h1] at a1; simp at a1
    simp [hk, hl]
  | expanded tr l h hi2 ht h1 h2 h3 h4 h5 =>
    have hk : kept fs f s.entry = false := by
      rcases h1 with h1 | h1 <;> simp [kept, h1]
    have hl : ¬ (fs.lstat s.entry = some FileType.lnk ∧ fs.access s.entry = true
        ∧ fs.opendir s.entry = none ∧ fs.realpath s.entry ∉ s.files_seen) := by
      rintro ⟨-, -, a3, -⟩
      rw [h4] at a3; simp at a3
    simp [hk, hl]
  | close_failed tr m l h hi2 ht h1 h2 h3 h4 h5 =>
    have hk : kept fs f s.entry = false := by
      rcases h1 with h1 | h1 <;> simp [kept, h1]
    have hl : ¬ (fs.lstat s.entry = some FileType.lnk ∧ fs.access s.entry = true
        ∧ fs.opendir s.entry = none ∧ fs.realpath s.entry ∉ s.files_seen) := by
      rintro ⟨-, -, a3, -⟩
      rw [h4] at a3; simp at a3
    simp [hk, hl]

/-- Witness for C15 (amended): the link `d/l2` when the target has been seen. -/
theorem reporting_and_visited_set_witness :
    second_link_seen.status = Status.running
    ∧ second_link_seen.entry = "d/l2"
    ∧ (loop_iter (dir_traverse_body fs_two_links all_true "d") second_link_seen).file_list
        = [] := by
  have h := reporting_and_visited_set fs_two_links all_true "d" second_link_seen
    (by decide) (by decide)
  refine ⟨by decide, by decide, ?_⟩
  rw [h]
  decide

/-! ## The result is in breadth-first order -/

/-- C16: in a file system whose listings hold non-empty separator-free names,
when `dir_traverse` has returned, `file_list` is a subsequence of the files to
process, the normalized root is the first of the files to process (for the
empty name the call returns before there are files to process) and has depth
0, every later one is the child path of an opened one and one level deeper
than it, and the depth below the root is non-decreasing along the files to
process and so along `file_list`: no path comes after a deeper one. -/
theorem result_is_breadth_first (fs : FS) (root : String) (f : String → Bool)
    (fuel : Nat) (hfs : ProperListings fs)
    (hret : (dir_traverse fs root f fuel).status = Status.returned) :
    (dir_traverse fs root f fuel).file_list.Sublist
        (dir_traverse fs root f fuel).files_to_process
    ∧ (root ≠ "" →
        (dir_traverse fs root f fuel).files_to_process.head? = some (enter fs root).2)
    ∧ depth (enter fs root).2 (enter fs root).2 = 0
    ∧ (∀ x ∈ (dir_traverse fs root f fuel).files_to_process.tail, ∃ q n,
        q ∈ (dir_traverse fs root f fuel).files_to_process
        ∧ q ∈ opened (dir_traverse fs root f fuel).trace
        ∧ x = path_name q n
        ∧ depth (enter fs root).2 x = depth (enter fs root).2 q + 1)
    ∧ (dir_traverse fs root f fuel).files_to_process.Pairwise
        (fun a b => depth (enter fs root).2 a ≤ depth (enter fs root).2 b)
    ∧ (dir_traverse fs root f fuel).file_list.Pairwise
        (fun a b => depth (enter fs root).2 a ≤ depth (enter fs root).2 b) := by
  rw [← run_true] at hret ⊢
  by_cases hne : root = ""
  · subst hne
    obtain ⟨e1, e2⟩ := run_empty true fs f fuel
    rw [e1, e2]
    exact ⟨List.Sublist.refl _, fun h => absurd rfl h, Nat.sub_self _, by simp,
      List.Pairwise.nil, List.Pairwise.nil⟩
  have hrun := returned_entered true fs root f fuel hne hret
  have hend := returned_at_end true fs root f fuel hret
  obtain ⟨hi, hsub⟩ := file_list_sublist true fs root f fuel
  have hlen : (run true fs root f fuel).files_to_process.length < 2 ^ 32 := by
    rw [← hend]; exact hi
  have hsub' : (run true fs root f fuel).file_list.Sublist
      (run true fs root f fuel).files_to_process := by
    rcases hsub with h | h
    · rw [hend, List.take_length] at h
      exact h
    · omega
  obtain ⟨hsorted, -⟩ := frontier_sorted true fs root f hfs fuel hlen
  obtain ⟨rest, a1, a2, -⟩ := frontier_children true fs root f hrun fuel
  have hroot : ∀ q ∈ (run true fs root f fuel).files_to_process,
      separators (enter fs root).2 ≤ separators q := by
    intro q hq
    rw [a1] at hq hsorted
    rcases List.mem_cons.mp hq with h | h
    · rw [h]
    · exact (List.pairwise_cons.mp hsorted).1 q h
  have hdepth : (run true fs root f fuel).files_to_process.Pairwise
      (fun a b => depth (enter fs root).2 a ≤ depth (enter fs root).2 b) :=
    hsorted.imp (fun h => Nat.sub_le_sub_right h _)
  refine ⟨hsub', fun _ => by rw [a1]; rfl, Nat.sub_self _, ?_, hdepth,
    hdepth.sublist hsub'⟩
  intro x hx
  rw [a1] at hx
  obtain ⟨q, n, l, b1, b2, b3, b4, -, -, b7⟩ := a2 x hx
  refine ⟨q, n, b1, b2, b7, ?_⟩
  obtain ⟨c1, c2⟩ := (hfs q l b3).2 n b4
  have hs := separators_path_name q n c1 c2
  have hq := hroot q b1
  unfold depth
  rw [b7, hs]
  omega

/-- In `fs_levels` the directory `t` lists the directory `s` before the file
`a`; the file `t/a` is returned before the deeper `t/s/b`. -/
theorem result_is_breadth_first_witness :
    ProperListings fs_levels
    ∧ (dir_traverse fs_levels "t" all_true 5).status = Status.returned
    ∧ (dir_traverse fs_levels "t" all_true 5).files_to_process
        = ["t", "t/s", "t/a", "t/s/b"]
    ∧ (dir_traverse fs_levels "t" all_true 5).file_list = ["t/a", "t/s/b"]
    ∧ (dir_traverse fs_levels "t" all_true 5).file_list.Pairwise
        (fun a b => depth (enter fs_levels "t").2 a ≤ depth (enter fs_levels "t").2 b)
    ∧ depth (enter fs_levels "t").2 "t/a" = 1
    ∧ depth (enter fs_levels "t").2 "t/s/b" = 2 := by
  have hp : ProperListings fs_levels := by
    intro p l h
    unfold fs_levels at h
    simp only at h
    split_ifs at h
    · cases h
      decide
    · cases h
      decide
  have h := result_is_breadth_first fs_levels "t" all_true 5 hp (by decide)
  exact ⟨hp, by decide, by decide, by decide, h.2.2.2.2.2, by decide, by decide⟩

/-! ## Child paths -/

theorem fs_root_proper : ProperListings fs_root := by
  intro p l h
  unfold fs_root at h
  simp only at h
  split_ifs at h
  cases h
  decide

theorem frontier_tail_children (walk : Bool) (fs : FS) (root : String)
    (f : String → Bool) (fuel : Nat) :
    ((run walk fs root f fuel).files_to_process = []
      ∨ (run walk fs root f fuel).files_to_process.head? = some (enter fs root).2)
    ∧ ∀ x ∈ (run walk fs root f fuel).files_to_process.tail, ∃ q n l,
        q ∈ (run walk fs root f fuel).files_to_process
        ∧ q ∈ opened (run walk fs root f fuel).trace ∧ fs.opendir q = some l ∧ n ∈ l
        ∧ n ≠ "." ∧ n ≠ ".."
        ∧ ((q ≠ "/" ∧ x = q ++ "/" ++ n) ∨ (q = "/" ∧ x = "/" ++ n)) := by
  by_cases hrun : (enter fs root).1.status = Status.running
  · obtain ⟨rest, a1, a2, -⟩ := frontier_children walk fs root f hrun fuel
    rw [a1]
    refine ⟨Or.inr rfl, ?_⟩
    intro x hx
    obtain ⟨q, n, l, b1, b2, b3, b4, b5, b6, b7⟩ := a2 x hx
    refine ⟨q, n, l, by rw [← a1]; exact b1, b2, b3, b4, b5, b6, ?_⟩
    rcases path_name_cases q n with ⟨c1, c2⟩ | ⟨c1, c2⟩
    · exact Or.inl ⟨c1, by rw [b7, c2]⟩
    · exact Or.inr ⟨c1, by rw [b7, c2]⟩
  · rw [run_of_not_running walk fs root f hrun]
    have h8 := (enter_facts fs root).2.2.2.2.2.2.2 hrun
    rw [h8]
    exact ⟨Or.inl rfl, by simp⟩

/-- C17: in `dir_open` and in `dir_traverse` the first file to process is the
normalized root, and every later one equals `q + "/" + n` for an opened file
to process `q` other than `/` and a name `n` listed in `q` other than `.` and
`..`, or equals `"/" + n` when the opened entry is `/`.  The root `/` is
normalized to `/`; and when listings consist of entry names, no path on the
result list of `dir_open` or `dir_traverse` on the root `/` begins with two
separators. -/
theorem child_paths_are_joined_once (fs : FS) (root : String) (f : String → Bool)
    (fuel : Nat) (hfs : ProperListings fs) :
    (((dir_open fs root f fuel).files_to_process = []
        ∨ (dir_open fs root f fuel).files_to_process.head? = some (enter fs root).2)
      ∧ ∀ x ∈ (dir_open fs root f fuel).files_to_process.tail, ∃ q n l,
          q ∈ (dir_open fs root f fuel).files_to_process
          ∧ q ∈ opened (dir_open fs root f fuel).trace ∧ fs.opendir q = some l ∧ n ∈ l
          ∧ n ≠ "." ∧ n ≠ ".."
          ∧ ((q ≠ "/" ∧ x = q ++ "/" ++ n) ∨ (q = "/" ∧ x = "/" ++ n)))
    ∧ (((dir_traverse fs root f fuel).files_to_process = []
        ∨ (dir_traverse fs root f fuel).files_to_process.head? = some (enter fs root).2)
      ∧ ∀ x ∈ (dir_traverse fs root f fuel).files_to_process.tail, ∃ q n l,
          q ∈ (dir_traverse fs root f fuel).files_to_process
          ∧ q ∈ opened (dir_traverse fs root f fuel).trace ∧ fs.opendir q = some l
          ∧ n ∈ l ∧ n ≠ "." ∧ n ≠ ".."
          ∧ ((q ≠ "/" ∧ x = q ++ "/" ++ n) ∨ (q = "/" ∧ x = "/" ++ n)))
    ∧ (enter fs "/").2 = "/"
    ∧ (∀ x ∈ (dir_open fs "/" f fuel).file_list, ¬ "//".data <+: x.data)
    ∧ (∀ x ∈ (dir_traverse fs "/" f fuel).file_list, ¬ "//".data <+: x.data) := by
  have hres : ∀ walk, ∀ x ∈ (run walk fs "/" f fuel).file_list, ¬ "//".data <+: x.data := by
    intro walk x hx
    exact single_slash_no_double x
      (slash_frontier walk fs f hfs fuel x ((frontier_structure walk fs "/" f fuel).2.1 x hx))
  refine ⟨frontier_tail_children false fs root f fuel,
    frontier_tail_children true fs root f fuel, ?_, hres false, hres true⟩
  rw [enter_slash]

/-- Witness for C17: the root `/` of `fs_root`. -/
theorem child_paths_are_joined_once_witness :
    ProperListings fs_root
    ∧ (dir_open fs_root "/" all_true 3).files_to_process = ["/", "/a"]
    ∧ (dir_open fs_root "/" all_true 3).file_list = ["/a"]
    ∧ ¬ "//".data <+: "/a".data := by
  have h := child_paths_are_joined_once fs_root "/" all_true 3 fs_root_proper
  have e : (dir_open fs_root "/" all_true 3).file_list = ["/a"] := by decide
  exact ⟨fs_root_proper, by decide, e, h.2.2.2.1 "/a" (by rw [e]; simp)⟩

/-! ## The trailing separator -/

theorem find_last_of_from_snoc (chars cs : List Char) (c : Char) (hc : c ∈ chars)
    (k found : Nat) :
    find_last_of_from chars (cs ++ [c]) k found = k + cs.length := by
  induction cs generalizing k found with
  | nil => simp [find_last_of_from, hc]
  | cons a cs ih =>
    show find_last_of_from chars (a :: (cs ++ [c])) k found = _
    rw [find_last_of_from, ih, List.length_cons]
    omega

/-- The result of the scan is the initial value or the index of a character
that occurs in `chars`. -/
theorem find_last_of_from_spec (chars cs : List Char) (k found : Nat) :
    find_last_of_from chars cs k found = found
      ∨ ∃ j c, find_last_of_from chars cs k found = k + j ∧ cs[j]? = some c
          ∧ c ∈ chars := by
  induction cs generalizing k found with
  | nil => left; rfl
  | cons a cs ih =>
    simp only [find_last_of_from]
    rcases ih (k + 1) (if a ∈ chars then k else found) with h | ⟨j, c, h1, h2, h3⟩
    · by_cases ha : a ∈ chars
      · right
        exact ⟨0, a, by rw [h]; simp [ha], by simp, ha⟩
      · left
        rw [h]; simp [ha]
    · right
      exact ⟨j + 1, c, by rw [h1]; omega, by simpa using h2, h3⟩

theorem strip_separator_of_trailing (p : String) (hne : p ≠ "")
    (hsize : p.length + 1 < 2 ^ 64) : strip_separator (p ++ "/") = p := by
  have hlen : 0 < p.length := List.length_pos.mpr ((string_ne_empty_iff p).mp hne)
  have h1 : find_last_of (p ++ "/") directory_separator = p.length := by
    unfold find_last_of directory_separator
    have : (p ++ "/").data = p.data ++ ['/'] := String.data_append p "/"
    rw [this, find_last_of_from_snoc _ _ _ (by decide)]
    simp only [String.length, Nat.zero_add]
  have hl : (p ++ "/").length = p.length + 1 := by
    rw [String.length_append]; rfl
  have h2 : ((p ++ "/").length + 2 ^ 64 - 1) % 2 ^ 64 = p.length := by
    rw [hl]
    have e : p.length + 1 + 2 ^ 64 - 1 = p.length + 2 ^ 64 := by omega
    rw [e, Nat.add_mod_right]
    exact Nat.mod_eq_of_lt (by omega)
  unfold strip_separator
  dsimp only
  rw [h1, h2, if_pos ⟨rfl, by omega⟩]
  apply String.ext
  show List.take p.length (p ++ "/").data = p.data
  rw [String.data_append]
  exact List.take_left' rfl

theorem strip_separator_of_no_trailing (p : String) (hne : p ≠ "")
    (hend : p.data.getLast? ≠ some '/') (hsize : p.length + 1 < 2 ^ 64) :
    strip_separator p = p := by
  have hlen : 0 < p.length := List.length_pos.mpr ((string_ne_empty_iff p).mp hne)
  have h2 : (p.length + 2 ^ 64 - 1) % 2 ^ 64 = p.length - 1 := by
    have e : p.length + 2 ^ 64 - 1 = (p.length - 1) + 2 ^ 64 := by omega
    rw [e, Nat.add_mod_right]
    exact Nat.mod_eq_of_lt (by omega)
  unfold strip_separator
  dsimp only
  rw [h2, if_neg]
  rintro ⟨h, -⟩
  unfold find_last_of at h
  rcases find_last_of_from_spec directory_separator.data p.data 0 npos
    with h3 | ⟨j, c, h3, h4, h5⟩
  · rw [h3] at h
    unfold npos at h
    omega
  · rw [h3] at h
    have hc : c = '/' := by
      have : directory_separator.data = ['/'] := rfl
      rw [this] at h5
      simpa using h5
    subst hc
    have hj : j = p.data.length - 1 := by
      simp only [String.length] at h
      omega
    apply hend
    rw [List.getLast?_eq_getElem?, ← hj]
    exact h4

theorem enter_trailing_separator (fs : FS) (p : String) (hne : p ≠ "")
    (htilde : p.data.head? ≠ some '~') (hend : p.data.getLast? ≠ some '/')
    (hsize : p.length + 1 < 2 ^ 64) : enter fs (p ++ "/") = enter fs p := by
  have h1 : p ++ "/" ≠ "" := by
    intro h
    have := congrArg String.length h
    rw [String.length_append] at this
    have h0 : ("/" : String).length = 1 := rfl
    have h00 : ("" : String).length = 0 := rfl
    omega
  have h2 : ¬ (p ++ "/").data.head? = some '~' := by
    have hd := (string_ne_empty_iff p).mp hne
    cases hp : p.data with
    | nil => exact absurd hp hd
    | cons c cs =>
      rw [hp] at htilde
      simp only [String.data_append, hp]
      simpa using htilde
  unfold enter sub_home
  rw [if_neg h1, if_neg hne, if_neg h2, if_neg htilde]
  simp only [strip_separator_of_trailing p hne hsize,
    strip_separator_of_no_trailing p hne hend hsize]

/-- C18: for every non-empty path `p` that does not begin with `~` and does not
end with the separator (and whose size is one a `string` can have, below
`2^64`), and every filter, `dir_open` on `p` followed by one separator runs
exactly as `dir_open` on `p`, and so does `dir_traverse`: the same state after
any number of turns, hence the same returned paths. -/
theorem trailing_separator_is_stripped (fs : FS) (p : String) (f : String → Bool)
    (fuel : Nat) (hne : p ≠ "") (htilde : p.data.head? ≠ some '~')
    (hend : p.data.getLast? ≠ some '/') (hsize : p.length + 1 < 2 ^ 64) :
    dir_open fs (p ++ "/") f fuel = dir_open fs p f fuel
    ∧ dir_traverse fs (p ++ "/") f fuel = dir_traverse fs p f fuel := by
  have e := enter_trailing_separator fs p hne htilde hend hsize
  constructor
  · unfold dir_open; rw [e]
  · unfold dir_traverse; rw [e]

/-- Witness for C18: `d/` and `d` on `fs_link_to_file`. -/
theorem trailing_separator_is_stripped_witness :
    "d" ++ "/" = "d/"
    ∧ dir_traverse fs_link_to_file "d/" all_true 4 = dir_traverse fs_link_to_file "d" all_true 4
    ∧ (dir_traverse fs_link_to_file "d/" all_true 4).file_list = ["d/l", "d/t"] := by
  have h := trailing_separator_is_stripped fs_link_to_file "d" all_true 4
    (by decide) (by decide) (by decide) (by decide)
  exact ⟨rfl, h.2, by decide⟩

/-! ## `sub_home` -/

theorem tilde_append_data (r : String) : ("~" ++ r).data = '~' :: r.data := by
  simp

/-- C19: `sub_home` turns `~` followed by a remainder `r` that is empty or
begins with the separator into the home directory followed by `r`, whenever
the home directory is not empty; and a path `p` that is empty or does not
begin with `~` is returned unchanged, without even reading the home
directory, whatever its value, the empty one included. -/
theorem sub_home_substitutes (fs : FS) (r p : String)
    (hr : r = "" ∨ r.data.head? = some '/')
    (hp : p = "" ∨ p.data.head? ≠ some '~') :
    (fs.HOME ≠ "" →
      sub_home fs ("~" ++ r) = ([Event.getenv], Except.ok (fs.HOME ++ r)))
    ∧ sub_home fs p = ([], Except.ok p) := by
  constructor
  · intro hh
    have h1 : ("~" ++ r).data.head? = some '~' := by simp
    have h2 : ¬ (("~" ++ r).length ≥ 2 ∧ ("~" ++ r).data[1]? ≠ some '/') := by
      rcases hr with hr | hr
      · subst hr; decide
      · intro h
        apply h.2
        rw [tilde_append_data]
        cases hd : r.data with
        | nil => rw [hd] at hr; simp at hr
        | cons c cs => rw [hd] at hr; simpa using hr
    have h3 : String.mk (("~" ++ r).data.drop 1) = r := by
      rw [tilde_append_data]; rfl
    unfold sub_home
    rw [if_pos h1, if_neg h2]
    simp only [hh, ne_eq, not_false_eq_true, if_true, h3]
  · have h1 : ¬ p.data.head? = some '~' := by
      rcases hp with hp | hp
      · subst hp; decide
      · exact hp
    unfold sub_home
    rw [if_neg h1]

/-- Witness for C19: `~/sub` with home `/home/u`, and the path `dir`, with
that home and with an empty one. -/
theorem sub_home_substitutes_witness :
    fs_link_to_file.HOME = "/home/u"
    ∧ sub_home fs_link_to_file ("~" ++ "/sub") = ([Event.getenv], Except.ok "/home/u/sub")
    ∧ sub_home fs_link_to_file "dir" = ([], Except.ok "dir")
    ∧ fs_no_home.HOME = ""
    ∧ sub_home fs_no_home "dir" = ([], Except.ok "dir")
    ∧ sub_home fs_no_home "" = ([], Except.ok "") := by
  have h := sub_home_substitutes fs_link_to_file "/sub" "dir"
    (Or.inr (by decide)) (Or.inr (by decide))
  have h0 := sub_home_substitutes fs_no_home "" "dir" (Or.inl rfl) (Or.inr (by decide))
  have h1 := sub_home_substitutes fs_no_home "" "" (Or.inl rfl) (Or.inl rfl)
  exact ⟨rfl, h.1 (by decide), h.2, rfl, h0.2, h1.2⟩
/-! ## A home marker with a user name -/

/-- C20: for every path whose first character is `~` and whose second
character exists and is not the separator, `sub_home` ends the process
through `err_quit` without reading the home directory, whatever its value;
`dir_open` and `dir_traverse` called with such a root end with that error,
and the error message is the only action of the run: no `lstat`, `access`,
`opendir` or `realpath` call is made. -/
theorem user_home_marker_is_rejected (fs : FS) (p : String) (f : String → Bool)
    (fuel : Nat) (c : Char) (h1 : p.data.head? = some '~') (h2 : p.data[1]? = some c)
    (h3 : c ≠ '/') :
    sub_home fs p = ([Event.err_quit "Need to substitute user\x27s location\n"],
      Except.error "Need to substitute user\x27s location\n")
    ∧ ((dir_open fs p f fuel).status
          = Status.exited "Need to substitute user\x27s location\n"
      ∧ (dir_open fs p f fuel).trace
          = [Event.err_quit "Need to substitute user\x27s location\n"]
      ∧ (dir_open fs p f fuel).file_list = [])
    ∧ ((dir_traverse fs p f fuel).status
          = Status.exited "Need to substitute user\x27s location\n"
      ∧ (dir_traverse fs p f fuel).trace
          = [Event.err_quit "Need to substitute user\x27s location\n"]
      ∧ (dir_traverse fs p f fuel).file_list = []) := by
  have hlen : p.length ≥ 2 := by
    have : 1 < p.data.length := by
      by_contra hc
      rw [List.getElem?_eq_none (by omega)] at h2
      simp at h2
    exact this
  have hne : p.data[1]? ≠ some '/' := by
    rw [h2]; simpa using h3
  have hs : sub_home fs p = ([Event.err_quit "Need to substitute user\x27s location\n"],
      Except.error "Need to substitute user\x27s location\n") := by
    unfold sub_home
    rw [if_pos h1, if_pos ⟨hlen, hne⟩]
  have hp : p ≠ "" := by
    intro he; rw [he] at h1; simp at h1
  have he : enter fs p = ({ State.init with
      trace := [Event.err_quit "Need to substitute user\x27s location\n"],
      status := Status.exited "Need to substitute user\x27s location\n" }, "") := by
    unfold enter
    rw [if_neg hp, hs]
  have hst : ({ State.init with
      trace := [Event.err_quit "Need to substitute user\x27s location\n"],
      status := Status.exited "Need to substitute user\x27s location\n" } : State).status
      ≠ Status.running := by simp
  refine ⟨hs, ?_, ?_⟩
  · simp only [dir_open, he, iterate_of_not_running _ _ hst]
    simp [State.init]
  · simp only [dir_traverse, he, iterate_of_not_running _ _ hst]
    simp [State.init]

/-- Witness for C20: the root `~other/sub`. -/
theorem user_home_marker_is_rejected_witness :
    "~other/sub".data.head? = some '~'
    ∧ "~other/sub".data[1]? = some 'o'
    ∧ (dir_open fs_link_to_file "~other/sub" all_true 5).trace
        = [Event.err_quit "Need to substitute user\x27s location\n"]
    ∧ (dir_traverse fs_link_to_file "~other/sub" all_true 5).trace
        = [Event.err_quit "Need to substitute user\x27s location\n"] := by
  have h := user_home_marker_is_rejected fs_link_to_file "~other/sub" all_true 5 'o'
    (by decide) (by decide) (by decide)
  exact ⟨by decide, by decide, h.2.1.2.1, h.2.2.2.1⟩

/-! ## `sub_home` with an empty home directory -/

/-- C21: when the home directory is the empty string, `sub_home` applied to
`~`, or to `~` followed by the separator and any rest, reads the home
directory and returns its argument unchanged, `~` included; it does not call
`err_quit`. -/
theorem empty_home_keeps_tilde (fs : FS) (rest : String) (hh : fs.HOME = "") :
    sub_home fs "~" = ([Event.getenv], Except.ok "~")
    ∧ sub_home fs ("~" ++ directory_separator ++ rest)
        = ([Event.getenv], Except.ok ("~" ++ directory_separator ++ rest)) := by
  constructor
  · unfold sub_home
    rw [if_pos (by decide), if_neg (by decide)]
    simp [hh]
  · have h1 : ("~" ++ directory_separator ++ rest).data.head? = some '~' := by
      simp [directory_separator]
    have h2 : ¬ (("~" ++ directory_separator ++ rest).length ≥ 2
        ∧ ("~" ++ directory_separator ++ rest).data[1]? ≠ some '/') := by
      intro h
      apply h.2
      simp [directory_separator]
    unfold sub_home
    rw [if_pos h1, if_neg h2]
    simp [hh]

/-- Witness for C21: `~` and `~/sub` with an empty home directory. -/
theorem empty_home_keeps_tilde_witness :
    fs_no_home.HOME = ""
    ∧ sub_home fs_no_home "~" = ([Event.getenv], Except.ok "~")
    ∧ sub_home fs_no_home "~/sub" = ([Event.getenv], Except.ok "~/sub") := by
  have h := empty_home_keeps_tilde fs_no_home "sub" rfl
  exact ⟨rfl, h.1, h.2⟩

/-! ## The home directory as root -/

/-- C22: with a home directory `h` that begins with the separator and a
remainder `r` that is empty or begins with the separator, the run of
`dir_open` on `~` followed by `r` is, turn by turn, the run on `h` followed by
`r` with the reading of the home directory recorded in front: the same
`file_list`, the same status (running, returned, or ended with the same
error), the same files to process; and likewise for `dir_traverse`. -/
theorem home_root_is_substituted (fs : FS) (r : String) (f : String → Bool) (fuel : Nat)
    (hh : fs.HOME.data.head? = some '/') (hr : r = "" ∨ r.data.head? = some '/') :
    (dir_open fs ("~" ++ r) f fuel
        = (dir_open fs (fs.HOME ++ r) f fuel).after [Event.getenv]
      ∧ (dir_open fs ("~" ++ r) f fuel).file_list
        = (dir_open fs (fs.HOME ++ r) f fuel).file_list
      ∧ (dir_open fs ("~" ++ r) f fuel).status
        = (dir_open fs (fs.HOME ++ r) f fuel).status)
    ∧ (dir_traverse fs ("~" ++ r) f fuel
        = (dir_traverse fs (fs.HOME ++ r) f fuel).after [Event.getenv]
      ∧ (dir_traverse fs ("~" ++ r) f fuel).file_list
        = (dir_traverse fs (fs.HOME ++ r) f fuel).file_list
      ∧ (dir_traverse fs ("~" ++ r) f fuel).status
        = (dir_traverse fs (fs.HOME ++ r) f fuel).status) := by
  have key : ∀ walk, run walk fs ("~" ++ r) f fuel
      = (run walk fs (fs.HOME ++ r) f fuel).after [Event.getenv] := by
    intro walk
    unfold run
    rw [enter_home fs r hh hr]
    exact iterate_after walk fs f _ _ _ fuel
  have h1 := key false
  have h2 := key true
  rw [run_false, run_false] at h1
  rw [run_true, run_true] at h2
  exact ⟨⟨h1, by rw [h1]; rfl, by rw [h1]; rfl⟩, ⟨h2, by rw [h2]; rfl, by rw [h2]; rfl⟩⟩

/-- Witness for C22: `~/sub` with the home directory `/home/u`. -/
theorem home_root_is_substituted_witness :
    fs_home.HOME = "/home/u"
    ∧ (dir_open fs_home ("~" ++ "/sub") all_true 3).file_list
        = (dir_open fs_home ("/home/u" ++ "/sub") all_true 3).file_list
    ∧ (dir_open fs_home ("/home/u" ++ "/sub") all_true 3).file_list = ["/home/u/sub/f"]
    ∧ (dir_open fs_home ("/home/u" ++ "/sub") all_true 3).status = Status.returned
    ∧ (dir_traverse fs_home ("~" ++ "/sub") all_true 3).file_list
        = (dir_traverse fs_home ("/home/u" ++ "/sub") all_true 3).file_list := by
  have h := home_root_is_substituted fs_home "/sub" all_true 3 (by decide)
    (Or.inr (by decide))
  exact ⟨rfl, h.1.2.1, by decide, by decide, h.2.2.1⟩

/-! ## `split_string` -/

/-- C23: for every string `str` (of a size a `string` can have) and every set
of separator characters `seps`, `split_string` returns, once its loop is given
more turns than `str` has characters, the maximal runs of non-separator
characters of `str` in their order: no returned word is empty or holds a
separator; concatenated, the words are `str` with every separator deleted;
`str` is the words in order with runs of separators before, between and after
them, those in between non-empty (so every word is maximal); and the result is
empty exactly when `str` consists of separators only (or is empty). -/
theorem split_string_spec (str seps : String) (fuel : Nat)
    (hsize : str.length + 1 < 2 ^ 64) (hfuel : str.length < fuel) :
    ∃ words, split_string str seps fuel = some words
      ∧ words.map String.data = maximal_words seps.data str.data
      ∧ (∀ w ∈ words, w ≠ "" ∧ ∀ c ∈ w.data, c ∉ seps.data)
      ∧ (words.map String.data).flatten
          = str.data.filter (fun c => decide (c ∉ seps.data))
      ∧ (∃ gaps : List (List Char), gaps.length = words.length + 1
          ∧ (∀ g ∈ gaps, ∀ c ∈ g, c ∈ seps.data)
          ∧ (∀ g ∈ gaps.tail.dropLast, g ≠ [])
          ∧ interleave gaps (words.map String.data) = str.data)
      ∧ (words = [] ↔ ∀ c ∈ str.data, c ∈ seps.data) := by
  have hmap : ((maximal_words seps.data str.data).map String.mk).map String.data
      = maximal_words seps.data str.data := by
    rw [List.map_map]
    exact List.map_id _
  refine ⟨_, split_string_eq str seps fuel hsize hfuel, hmap, ?_, ?_, ?_, ?_⟩
  · intro w hw
    obtain ⟨v, hv, rfl⟩ := List.mem_map.mp hw
    obtain ⟨h1, h2⟩ := maximal_words_clean seps.data _ _ (le_refl _) v hv
    exact ⟨fun h => h1 (congrArg String.data h), h2⟩
  · rw [hmap]
    exact maximal_words_join seps.data _ _ (le_refl _)
  · obtain ⟨gaps, g1, g2, g3, g4, -⟩ := maximal_words_gaps seps.data _ _ (le_refl str.data.length)
    exact ⟨gaps, by rw [List.length_map]; exact g1, g2, g3, by rw [hmap]; exact g4⟩
  · rw [List.map_eq_nil_iff]
    exact maximal_words_eq_nil seps.data str.data

/-- Witness for C23: a line with leading, doubled and trailing separators. -/
theorem split_string_spec_witness :
    split_string "  ab cd\t\te " default_separators 12 = some ["ab", "cd", "e"]
    ∧ ∃ words, split_string "  ab cd\t\te " default_separators 12 = some words
      ∧ (∀ w ∈ words, w ≠ "" ∧ ∀ c ∈ w.data, c ∉ default_separators.data)
      ∧ (words.map String.data).flatten = "abcde".data := by
  obtain ⟨words, h1, -, h3, h4, -⟩ :=
    split_string_spec "  ab cd\t\te " default_separators 12 (by decide) (by decide)
  exact ⟨by decide, words, h1, h3, by rw [h4]; decide⟩

/-! ## Quoted phrases -/

/-- C24: for every non-empty string `s` without a single quote, in which the
only separator of `split_string` that occurs is the space (no tab, newline or
carriage return) and no two spaces are adjacent, splitting `s` put between
single quotes and merging the quoted words gives back the one word `s`, and
no warning; `s` is shorter than `2^32`, the range of the counters, and both
functions are given more turns than the quoted string has characters. -/
theorem quoted_phrase_is_restored (s : String) (fuel1 fuel2 : Nat) (hne : s ≠ "")
    (hq : the_quote ∉ s.data)
    (hws : ∀ c ∈ s.data, c ∈ default_separators.data → c = ' ')
    (hsp : ¬ "  ".data <:+: s.data) (hsize : s.length + 2 < 2 ^ 32)
    (hf1 : s.length + 2 < fuel1) (hf2 : s.length + 2 < fuel2) :
    ∃ words,
      split_string (quote_char ++ s ++ quote_char) default_separators fuel1 = some words
      ∧ merge_quoted_words words fuel2 = some ([s], []) := by
  have hsl : s.data.length = s.length := rfl
  have htd : (quote_char ++ s ++ quote_char).data = (the_quote :: s.data) ++ [the_quote] := by
    rw [String.data_append, String.data_append, quote_char_data]
    rfl
  have htl : (quote_char ++ s ++ quote_char).length = s.length + 2 := by
    show (quote_char ++ s ++ quote_char).data.length = _
    rw [htd]
    simp
  have hqs : the_quote ∉ default_separators.data := by decide
  have hdd : ("  " : String).data = [' ', ' '] := rfl
  rw [hdd] at hsp
  refine ⟨_, split_string_eq _ default_separators fuel1 (by rw [htl]; omega)
    (by rw [htl]; exact hf1), ?_⟩
  rw [htd]
  obtain ⟨mids, pk, g1, g2, g3⟩ := spaced_words default_separators.data the_quote hqs _
    (the_quote :: s.data) (le_refl _)
    (by
      intro c hc hm
      rcases List.mem_cons.mp hc with hc | hc
      · rw [hc] at hm; exact absurd hm hqs
      · exact hws c hc hm)
    (by
      intro hi
      rcases List.infix_cons_iff.mp hi with hi | hi
      · obtain ⟨t, ht⟩ := hi
        injection ht with h1 h2
        exact space_ne_quote h1
      · exact hsp hi)
    (by
      intro c l' h
      injection h with h1 h2
      rw [← h1]
      exact hqs)
  rw [g1]
  cases mids with
  | nil =>
    have e : pk = the_quote :: s.data := by simpa using g2.symm
    subst e
    have := merge_single s.data fuel2 ((string_ne_empty_iff s).mp hne) hq
      (by rw [hsl]; omega) (by omega)
    simpa using this
  | cons w0 M =>
    obtain ⟨c, p0, rfl⟩ := List.exists_cons_of_ne_nil (g3 w0 (List.mem_cons_self _ _))
    simp only [List.map_cons, List.flatten_cons, List.cons_append, List.append_assoc] at g2
    injection g2 with e1 e2
    subst e1
    have hfl := length_le_flatten M
    have hlen : s.length
        = p0.length + 1 + (M.map (fun w => w ++ [' '])).flatten.length + pk.length := by
      rw [← hsl, e2]
      simp
      omega
    have h0 : the_quote ∉ p0 := fun h => hq (by rw [e2]; simp [h])
    have hk : the_quote ∉ pk := fun h => hq (by rw [e2]; simp [h])
    have hm : ∀ w ∈ M, the_quote ∉ w := by
      intro w hw h
      have hmem : the_quote ∈ (M.map (fun w => w ++ [' '])).flatten :=
        List.mem_flatten.mpr
          ⟨w ++ [' '], List.mem_map.mpr ⟨w, hw, rfl⟩, List.mem_append_left _ h⟩
      apply hq
      rw [e2]
      simp [hmem]
    have hS : Sized (String.mk (the_quote :: p0) :: (M.map String.mk
        ++ [String.mk (pk ++ [the_quote])])) := by
      refine ⟨by simp; omega, ?_⟩
      intro w hw
      rcases List.mem_cons.mp hw with hw | hw
      · rw [hw]
        show (the_quote :: p0).length + 1 < 2 ^ 64
        simp
        omega
      · rcases List.mem_append.mp hw with hw | hw
        · obtain ⟨v, hv, rfl⟩ := List.mem_map.mp hw
          have := hfl.2 v hv
          show v.length + 1 < 2 ^ 64
          omega
        · rw [List.mem_singleton.mp hw]
          show (pk ++ [the_quote]).length + 1 < 2 ^ 64
          simp
          omega
    have hs : String.mk (p0 ++ (M.map (fun w => ' ' :: w)).flatten ++ ' ' :: pk) = s := by
      apply String.ext
      show p0 ++ (M.map (fun w => ' ' :: w)).flatten ++ ' ' :: pk = s.data
      rw [e2]
      have := flatten_space_shift M
      have e3 : p0 ++ (M.map (fun w => ' ' :: w)).flatten ++ ' ' :: pk
          = p0 ++ ((M.map (fun w => ' ' :: w)).flatten ++ [' ']) ++ pk := by simp
      rw [e3, this]
      simp
    have := merge_multi p0 pk M fuel2 h0 hk hm hS (by omega)
    rw [hs] at this
    simpa using this

/-- Witness for C24: the phrase of the test `test3`. -/
theorem quoted_phrase_is_restored_witness :
    split_string (quote_char ++ "wade and miko" ++ quote_char) default_separators 16
      = some ["\x27wade", "and", "miko\x27"]
    ∧ merge_quoted_words ["\x27wade", "and", "miko\x27"] 16 = some (["wade and miko"], [])
    ∧ ∃ words,
      split_string (quote_char ++ "wade and miko" ++ quote_char) default_separators 16
        = some words
      ∧ merge_quoted_words words 16 = some (["wade and miko"], []) :=
  ⟨by decide, by decide,
    quoted_phrase_is_restored "wade and miko" 16 16 (by decide) (by decide) (by decide)
      (by decide) (by decide) (by decide) (by decide)⟩

/-! ## No quote is returned -/

/-- C25: for every list of words (fewer than `2^32` words, each of a size a
`string` can have), wherever and however often the single quote occurs in
them, `merge_quoted_words`, given more turns than the words have characters
plus the number of words, returns a list, and no word of that list contains
a single quote. -/
theorem merged_words_have_no_quote (words : List String) (fuel : Nat) (hS : Sized words)
    (hfuel : weight words < fuel) :
    ∃ r, merge_quoted_words words fuel = some r ∧ ∀ w ∈ r.1, the_quote ∉ w.data := by
  unfold merge_quoted_words
  by_cases h : words = []
  · rw [if_pos h]
    exact ⟨([], []), rfl, by simp⟩
  · rw [if_neg h]
    have hl := length_le_weight words
    exact merge_loop_unquoted fuel fuel words 0 [] hS (Nat.zero_le _) (by omega)
      (by rw [List.drop_zero]; exact hfuel) (by intro w hw; simp at hw)

/-- Witness for C25: quotes matched within a word, across words, adjacent, and
one left over. -/
theorem merged_words_have_no_quote_witness :
    merge_quoted_words ["a\x27b c\x27", "\x27\x27d\x27e", "f\x27", "g\x27h"] 30
      = some (["a", "b c", "d", "e f", "gh"],
          ["Missing matching quote: Erasing first quote\n"])
    ∧ ∃ r, merge_quoted_words ["a\x27b c\x27", "\x27\x27d\x27e", "f\x27", "g\x27h"] 30
        = some r ∧ ∀ w ∈ r.1, the_quote ∉ w.data :=
  ⟨by decide, merged_words_have_no_quote _ 30 ⟨by decide, by decide⟩ (by decide)⟩

/-! ## Words without quotes -/

/-- C26: for every list of fewer than `2^32` words none of which contains a
single quote, the empty list included, `merge_quoted_words`, given more turns
than there are words, returns its input, and writes no warning. -/
theorem unquoted_words_are_returned (words : List String) (fuel : Nat)
    (hq : ∀ w ∈ words, the_quote ∉ w.data) (hlen : words.length < 2 ^ 32)
    (hfuel : words.length < fuel) :
    merge_quoted_words words fuel = some (words, []) := by
  unfold merge_quoted_words
  by_cases h : words = []
  · rw [if_pos h, h]
  · rw [if_neg h]
    obtain ⟨g, rfl⟩ : ∃ g, fuel = g + 1 := ⟨fuel - 1, by omega⟩
    rw [merge_loop_clean (g + 1) g words 0 [] words hlen hfuel rfl (Nat.zero_le _) hq]
    rfl

/-- Witness for C26: three words without a quote, and no word at all. -/
theorem unquoted_words_are_returned_witness :
    merge_quoted_words ["wade", "and", "miko"] 4 = some (["wade", "and", "miko"], [])
    ∧ merge_quoted_words [] 1 = some ([], []) :=
  ⟨unquoted_words_are_returned _ 4 (by decide) (by decide) (by decide),
    unquoted_words_are_returned [] 1 (by simp) (by decide) (by decide)⟩

/-! ## A quote without a match -/

/-- C27: for every list of words (fewer than `2^32`, each of a size a `string`
can have) with one single quote in total, the list is `a`, a word `x` quote
`y`, and `b`; `merge_quoted_words`, given more turns than there are words,
returns `a`, the word `x y`, and `b` (the same number of words, the quote
deleted, nothing else changed) and writes the warning about the missing
quote. -/
theorem missing_quote_is_erased (words : List String) (fuel : Nat) (hS : Sized words)
    (hone : quotes words = 1) (hfuel : words.length < fuel) :
    ∃ (a : List String) (w : String) (b : List String) (x y : List Char),
      words = a ++ w :: b ∧ w.data = x ++ the_quote :: y
      ∧ merge_quoted_words words fuel
        = some (a ++ String.mk (x ++ y) :: b,
            ["Missing matching quote: Erasing first quote\n"])
      ∧ (a ++ String.mk (x ++ y) :: b).length = words.length := by
  obtain ⟨a, w, b, x, y, h1, h2, h3, h4, h5, h6⟩ := one_quote_split words hone
  refine ⟨a, w, b, x, y, h1, h4, ?_, by rw [h1]; simp⟩
  have hne : words ≠ [] := by rw [h1]; simp
  obtain ⟨g, rfl⟩ : ∃ g, fuel = g + 1 := ⟨fuel - 1, by omega⟩
  unfold merge_quoted_words
  rw [if_neg hne, merge_loop_missing (g + 1) g words 0 [] a b w x y hS hfuel
    (by rw [List.drop_zero]; exact h1) h2 h4 h5 h6 h3]
  rfl

/-- Witness for C27: the words of the test `test7`. -/
theorem missing_quote_is_erased_witness :
    quotes ["hey, \x27wade ", "miko else."] = 1
    ∧ merge_quoted_words ["hey, \x27wade ", "miko else."] 3
      = some (["hey, wade ", "miko else."],
          ["Missing matching quote: Erasing first quote\n"])
    ∧ ∃ (a : List String) (w : String) (b : List String) (x y : List Char),
      ["hey, \x27wade ", "miko else."] = a ++ w :: b ∧ w.data = x ++ the_quote :: y
      ∧ merge_quoted_words ["hey, \x27wade ", "miko else."] 3
        = some (a ++ String.mk (x ++ y) :: b,
            ["Missing matching quote: Erasing first quote\n"])
      ∧ (a ++ String.mk (x ++ y) :: b).length = ["hey, \x27wade ", "miko else."].length :=
  ⟨by decide, by decide,
    missing_quote_is_erased _ 3 ⟨by decide, by decide⟩ (by decide) (by decide)⟩

/-! ## `get_dir_name` -/

/-- C28: for every path `p` (of a size a `string` can have), `get_dir_name p`
is the empty string when `p` has no separator; and when `p` is `a`, a
separator, and a separator-free `b`, it is `/` if `a` is empty (the last
separator is at index 0) and `a` otherwise.  Every path is of one of the two
forms, and `get_dir` gives the same. -/
theorem get_dir_name_spec (p : String) (hsize : p.length < 2 ^ 64) :
    ('/' ∉ p.data → get_dir_name p = "")
    ∧ (∀ a b : List Char, p.data = a ++ '/' :: b → '/' ∉ b →
        get_dir_name p = if a = [] then "/" else String.mk a)
    ∧ ('/' ∉ p.data ∨ ∃ a b : List Char, p.data = a ++ '/' :: b ∧ '/' ∉ b)
    ∧ get_dir p = get_dir_name p := by
  refine ⟨?_, ?_, ?_, rfl⟩
  · intro h
    have e : find_last_of p directory_separator = npos :=
      find_last_of_none p _ (fun x hx hm => h ((mem_separator x).mp hm ▸ hx))
    unfold get_dir_name
    dsimp only
    rw [e, if_neg (by decide), if_neg (by simp)]
  · intro a b hp hb
    have e : find_last_of p directory_separator = a.length :=
      find_last_of_split p _ a b '/' hp ((mem_separator _).mpr rfl)
        (fun x hx hm => hb ((mem_separator x).mp hm ▸ hx))
    have hlen : p.length = a.length + (b.length + 1) := by
      show p.data.length = _
      rw [hp, List.length_append, List.length_cons]
    unfold get_dir_name
    dsimp only
    rw [e]
    by_cases ha : a = []
    · rw [if_pos (by rw [ha]; rfl), if_pos ha]
      rfl
    · have hpos : 0 < a.length := List.length_pos.mpr ha
      have hn : a.length ≠ npos := by unfold npos; omega
      rw [if_neg (by omega), if_pos hn, if_neg ha]
      have hcount : (size p + 2 ^ 64 - a.length) % 2 ^ 64 = b.length + 1 := by
        have : size p + 2 ^ 64 - a.length = (b.length + 1) + 2 ^ 64 := by
          show p.length + 2 ^ 64 - a.length = _
          omega
        rw [this, Nat.add_mod_right]
        exact Nat.mod_eq_of_lt (by omega)
      rw [hcount]
      unfold erase
      apply String.ext
      show List.take a.length p.data ++ List.drop (a.length + (b.length + 1)) p.data = a
      rw [hp, List.take_left' rfl, List.drop_eq_nil_of_le, List.append_nil]
      rw [List.length_append, List.length_cons]
  · rcases last_split (fun x => x = '/') p.data with h | ⟨a, c, b, h1, h2, h3⟩
    · left
      exact fun hm => h _ hm rfl
    · right
      subst h2
      exact ⟨a, b, h1, fun hm => h3 _ hm rfl⟩

/-- Witness for C28: the paths named in the claim. -/
theorem get_dir_name_spec_witness :
    get_dir_name "/home/wade/img.pgm" = "/home/wade"
    ∧ get_dir_name "doc/" = "doc"
    ∧ get_dir_name "/img.pgm" = "/"
    ∧ get_dir_name "img.pgm" = "" := by
  have h1 := (get_dir_name_spec "/home/wade/img.pgm" (by decide)).2.1
    "/home/wade".data "img.pgm".data rfl (by decide)
  have h2 := (get_dir_name_spec "doc/" (by decide)).2.1 "doc".data [] rfl (by decide)
  have h3 := (get_dir_name_spec "/img.pgm" (by decide)).2.1 [] "img.pgm".data rfl
    (by decide)
  have h4 := (get_dir_name_spec "img.pgm" (by decide)).1 (by decide)
  exact ⟨h1, h2, h3, h4⟩

/-! ## `get_file_name` -/

/-- C29: for every path `p` (of a size a `string` can have), `get_file_name p`
is `p` itself when `p` has no separator, and is `b` when `p` is `a`, a
separator, and a separator-free `b`.  Every path is of one of the two forms;
the result contains no separator and is a suffix of `p`. -/
theorem get_file_name_spec (p : String) (hsize : p.length < 2 ^ 64) :
    ('/' ∉ p.data → get_file_name p = p)
    ∧ (∀ a b : List Char, p.data = a ++ '/' :: b → '/' ∉ b →
        get_file_name p = String.mk b)
    ∧ ('/' ∉ p.data ∨ ∃ a b : List Char, p.data = a ++ '/' :: b ∧ '/' ∉ b)
    ∧ '/' ∉ (get_file_name p).data
    ∧ (get_file_name p).data <:+ p.data := by
  have h1 : '/' ∉ p.data → get_file_name p = p := by
    intro h
    have e : find_last_of p directory_separator = npos :=
      find_last_of_none p _ (fun x hx hm => h ((mem_separator x).mp hm ▸ hx))
    unfold get_file_name
    dsimp only
    rw [e, if_neg (by simp)]
  have h2 : ∀ a b : List Char, p.data = a ++ '/' :: b → '/' ∉ b →
      get_file_name p = String.mk b := by
    intro a b hp hb
    have e : find_last_of p directory_separator = a.length :=
      find_last_of_split p _ a b '/' hp ((mem_separator _).mpr rfl)
        (fun x hx hm => hb ((mem_separator x).mp hm ▸ hx))
    have hlen : p.length = a.length + (b.length + 1) := by
      show p.data.length = _
      rw [hp, List.length_append, List.length_cons]
    have hn : a.length ≠ npos := by unfold npos; omega
    unfold get_file_name
    dsimp only
    rw [e, if_pos hn, Nat.mod_eq_of_lt (by omega)]
    unfold erase
    apply String.ext
    show List.take 0 p.data ++ List.drop (0 + (a.length + 1)) p.data = b
    rw [hp, List.take_zero, List.nil_append, Nat.zero_add]
    have : a ++ '/' :: b = (a ++ ['/']) ++ b := by simp
    rw [this]
    exact List.drop_left' (by simp)
  have h3 : '/' ∉ p.data ∨ ∃ a b : List Char, p.data = a ++ '/' :: b ∧ '/' ∉ b := by
    rcases last_split (fun x => x = '/') p.data with h | ⟨a, c, b, h1, h2, h3⟩
    · left
      exact fun hm => h _ hm rfl
    · right
      subst h2
      exact ⟨a, b, h1, fun hm => h3 _ hm rfl⟩
  refine ⟨h1, h2, h3, ?_, ?_⟩
  · rcases h3 with h | ⟨a, b, hp, hb⟩
    · rw [h1 h]; exact h
    · rw [h2 a b hp hb]; exact hb
  · rcases h3 with h | ⟨a, b, hp, hb⟩
    · rw [h1 h]
    · rw [h2 a b hp hb, hp]
      exact ⟨a ++ ['/'], by simp⟩

/-- Witness for C29: the path `/home/wade/img.pgm` and a bare name. -/
theorem get_file_name_spec_witness :
    get_file_name "/home/wade/img.pgm" = "img.pgm"
    ∧ get_file_name "img.pgm" = "img.pgm"
    ∧ '/' ∉ (get_file_name "/home/wade/img.pgm").data := by
  have h := get_file_name_spec "/home/wade/img.pgm" (by decide)
  have h2 := get_file_name_spec "img.pgm" (by decide)
  exact ⟨h.2.1 "/home/wade".data "img.pgm".data rfl (by decide), h2.1 (by decide),
    h.2.2.2.1⟩

/-! ## `get_ext_name` -/

/-- C30 fails on a path whose last `.` is in the directory part: for `a.b/c`,
the file `c` in the directory `a.b`, `get_ext_name` searches the whole path
for the last `.` and returns `b/c`, which contains the separator, whereas the
file name `c` has no `.` and `get_ext_name` of it is empty. -/
theorem ext_name_of_dotted_directory :
    get_file_name "a.b/c" = "c"
    ∧ '.' ∉ (get_file_name "a.b/c").data
    ∧ get_ext_name (get_file_name "a.b/c") = ""
    ∧ get_ext_name "a.b/c" = "b/c"
    ∧ '/' ∈ (get_ext_name "a.b/c").data
    ∧ get_ext_name "a.b/c" ≠ get_ext_name (get_file_name "a.b/c") := by
  decide

/-! ## `remove_comments` -/

/-- C31 fails for a comment string of more than one character: the code
searches for the first character that occurs in the comment string
(`find_first_of`), not for the first occurrence of the string.  With the
comment string `//`, the line `a/b//c`, in which the comment begins after
`a/b`, is cut down to `a`; with the comment string `ab`, the line `xbya`, in
which `ab` does not occur, is cut down to `x`.  With the comment string `#`
the line is cut at the first `#`. -/
theorem comment_string_is_searched_by_character :
    remove_comments "a/b//c" "//" = "a"
    ∧ "a/b//c" = "a/b" ++ "//" ++ "c" ∧ ¬ "//".data <:+: "a/b/".data
    ∧ remove_comments "xbya" "ab" = "x"
    ∧ ¬ "ab".data <:+: "xbya".data
    ∧ remove_comments "name x # y # z" "#" = "name x " := by
  decide

/-! ## `Config_File::read` -/

theorem line_calls_not_verify (fuel : Nat) (line : String) (line_num : Nat) :
    ∀ c ∈ line_calls fuel line line_num, c ≠ Call.verify_parameters := by
  intro c hc
  unfold line_calls at hc
  cases hm : (maximal_words default_separators.data
      (line.data.takeWhile (fun c => c ≠ '#'))).map String.mk with
  | nil => rw [hm] at hc; simp at hc
  | cons var ws =>
    rw [hm] at hc
    dsimp only at hc
    cases hr : merge_quoted_words ws fuel with
    | none => rw [hr] at hc; simp at hc
    | some r =>
      rw [hr] at hc
      dsimp only at hc
      rcases List.mem_append.mp hc with h | h
      · obtain ⟨m, -, rfl⟩ := List.mem_map.mp h
        simp
      · rw [List.mem_singleton.mp h]
        simp

/-- C32: when the file opens, has fewer than `2^32` lines, each shorter than
`2^32` (the range of the `unsigned` counters), and the inner loops are given
more than twice as many turns as the longest line has characters,
`Config_File::read` makes exactly the calls `expected_calls`: in file order,
for every line that has a word left once everything from the first `#` on is
removed, one call of `set_variables` with the first word, `merge_quoted_words`
of the remaining words (which returns) and the number of the line counted
from 1, lines without a word being counted too; then `verify_parameters`,
which is the last call and is called once. -/
theorem read_calls_the_hooks (fs : FS) (ifstream : String → Option String)
    (file_name config_name content : String) (tr : List Event) (fuel : Nat)
    (hsub : sub_home fs file_name = (tr, Except.ok config_name))
    (hopen : ifstream config_name = some content)
    (hcount : (getlines content.data []).length < 2 ^ 32)
    (hsize : ∀ line ∈ getlines content.data [], line.length < 2 ^ 32)
    (hfuel : ∀ line ∈ getlines content.data [], 2 * line.length < fuel) :
    Config_File.read fs ifstream file_name fuel
        = some (expected_calls fuel (getlines content.data []))
    ∧ (∀ line ∈ getlines content.data [], ∀ var rest,
        (maximal_words default_separators.data
          (line.data.takeWhile (fun c => c ≠ '#'))).map String.mk = var :: rest →
        ∃ r, merge_quoted_words rest fuel = some r)
    ∧ (expected_calls fuel (getlines content.data [])).getLast?
        = some Call.verify_parameters
    ∧ (∀ c ∈ (expected_calls fuel (getlines content.data [])).dropLast,
        c ≠ Call.verify_parameters) := by
  refine ⟨?_, ?_, ?_, ?_⟩
  · unfold Config_File.read
    rw [hsub]
    dsimp only
    rw [hopen]
    dsimp only
    rw [read_loop_spec fuel _ 0 [] (by omega) hsize hfuel]
    rfl
  · intro line hl var rest hw
    have hlen := hsize line hl
    have htl := length_takeWhile_le (fun c => decide (c ≠ '#')) line.data
    have hll : line.data.length = line.length := rfl
    obtain ⟨hS, hwt⟩ := line_words_sized (line.data.takeWhile (fun c => c ≠ '#'))
      (by omega)
    rw [hw, List.drop_succ_cons, List.drop_zero] at hS hwt
    have := hfuel line hl
    exact merge_quoted_words_returns rest fuel hS (by omega)
  · unfold expected_calls
    rw [List.getLast?_append]
    rfl
  · unfold expected_calls
    rw [List.dropLast_concat]
    intro c hc
    obtain ⟨l, hl, hcl⟩ := List.mem_flatten.mp hc
    obtain ⟨p, -, rfl⟩ := List.mem_map.mp hl
    exact line_calls_not_verify fuel p.2 p.1 c hcl

/-- Witness for C32: the file `cfg` of `cfg_people`, with a comment line, an
empty line, a comment at the end of a line and a quoted phrase. -/
theorem read_calls_the_hooks_witness :
    Config_File.read fs_home cfg_people "cfg" 60
      = some [Call.set_variables "Name" ["Wade", "Spires"] 2,
          Call.set_variables "note" ["fond of tea"] 4, Call.verify_parameters] := by
  have h := (read_calls_the_hooks fs_home cfg_people "cfg" "cfg"
    "# people\nName Wade Spires # x\n\nnote \x27fond of tea\x27\n" [] 60
    rfl (by decide) (by decide) (by decide) (by decide)).1
  rw [h]
  decide

/-! ## The case of the variable name -/

/-- C33 fails: `Config_File::read` passes the first word of the line as it
stands.  For the line `Name Wade Spires`, line 2 of the file `cfg`, the call
is `set_variables( "Name", ... )`, whereas the first word converted to lower
case (`to_lower`) is `name`. -/
theorem variable_name_keeps_its_case :
    Config_File.read fs_home cfg_people "cfg" 60
      = some [Call.set_variables "Name" ["Wade", "Spires"] 2,
          Call.set_variables "note" ["fond of tea"] 4, Call.verify_parameters]
    ∧ to_lower "Name" 5 = some "name"
    ∧ "Name" ≠ "name" := by
  decide

/-! ## `count_digits` -/

/-- C34 fails for large numbers.  The number 4294967295 has ten digits;
converted to `int` it is `-1`, the loop is not entered, and `count_digits`
returns 1.  The number 1500000000 has ten digits; after `i = 999999999` the
value `i * 10 + 9` is outside the range of `int`, reduced modulo `2^32` it is
1410065407, still below the number, and `count_digits` returns 16.  For 1000000000 and
for 1410065407 it returns 10. -/
theorem count_digits_of_large_numbers :
    10 ^ 9 ≤ 4294967295 ∧ 4294967295 < 10 ^ 10 ∧ 4294967295 < 2 ^ 32
    ∧ to_int 4294967295 = -1
    ∧ count_digits 4294967295 40 = some 1
    ∧ 10 ^ 9 ≤ 1500000000 ∧ 1500000000 < 10 ^ 10
    ∧ to_int (999999999 * 10 + 9) = 1410065407
    ∧ count_digits 1500000000 40 = some 16
    ∧ count_digits 1000000000 40 = some 10
    ∧ count_digits 1410065407 40 = some 10 := by
  refine ⟨by norm_num, by norm_num, by norm_num, by decide, by decide, by norm_num,
    by norm_num, by decide, by decide, by decide, by decide⟩

/-! ## `is_power_of_2` -/

/-- C35: for every `unsigned` value `val` (below `2^32`), `is_power_of_2 val`
is true exactly when `val` is `2^k` for some `k` from 0 to 31; it is false
for 0. -/
theorem is_power_of_2_spec (val : Nat) (h : val < 2 ^ 32) :
    (is_power_of_2 val = true ↔ ∃ k, k ≤ 31 ∧ val = 2 ^ k)
    ∧ is_power_of_2 0 = false := by
  refine ⟨?_, by decide⟩
  unfold is_power_of_2
  rcases Nat.eq_zero_or_pos val with h0 | h0
  · subst h0
    constructor
    · intro hc
      simp at hc
    · rintro ⟨k, -, hk⟩
      have : 0 < 2 ^ k := Nat.two_pow_pos k
      omega
  · have e : (val + 2 ^ 32 - 1) % 2 ^ 32 = val - 1 := by
      have : val + 2 ^ 32 - 1 = (val - 1) + 2 ^ 32 := by omega
      rw [this, Nat.add_mod_right]
      exact Nat.mod_eq_of_lt (by omega)
    rw [e, Bool.and_eq_true, decide_eq_true_eq, beq_iff_eq, land_pred_eq_zero val h0]
    constructor
    · rintro ⟨-, k, hk⟩
      refine ⟨k, ?_, hk⟩
      rw [hk] at h
      have := (Nat.pow_lt_pow_iff_right (show 1 < 2 by decide)).mp h
      omega
    · rintro ⟨k, -, hk⟩
      exact ⟨h0, k, hk⟩

/-- Witness for C35: 1024 is a power of two, 1000 is not. -/
theorem is_power_of_2_spec_witness :
    is_power_of_2 1024 = true ∧ is_power_of_2 1000 = false
    ∧ ¬ ∃ k, k ≤ 31 ∧ 1000 = 2 ^ k := by
  have h1 := (is_power_of_2_spec 1024 (by decide)).1
  have h2 := (is_power_of_2_spec 1000 (by decide)).1
  have e : is_power_of_2 1000 = false := by decide
  exact ⟨h1.mpr ⟨10, by decide, by decide⟩, e, fun hk => by
    have := h2.mpr hk
    rw [e] at this
    cases this⟩

end ws_tools
